import Mathlib

/-!
# Bounded thread pool and timed scheduler

A shallow embedding of `training/test_scheduler.cpp` (classes `ThreadPool` and
`Scheduler`), of the pool of `training/test10.cpp`, which has the same
`submit`, `shutdown` and `worker_loop` bodies, of the worker loop and `main` of
`training/test11.cpp`, of `src/day7/lru_cache.hpp` (class `LRUCache`) with its
test `src/day7/main.cpp`, of `src/day7/lru_cache_cpp11.hpp` (class
`LRUCache11`), of `count_words` and `trim` of `training/test1.cpp`, and of the
copy operations of the buffers of `training/test0.cpp`.

Modelling conventions.

* Every block that the C++ code runs while holding `mtx` is one atomic step of
  the model.  A `cv.wait(lock, pred)` whose predicate is false leaves the state
  as it is and reports `blocked`; the waiting thread evaluates the same block
  again at a later step.
* Threads are interleaved by a schedule: a list of actions, consumed left to
  right.  A property proved for every schedule holds for every interleaving.
* `std::size_t` values are natural numbers; the `seq` counter of the scheduler,
  the only one that is incremented, wraps at `2 ^ 64`.
* `Clock::time_point` and durations are integers (clock ticks, nanoseconds for
  `steady_clock`); every step that calls `Clock::now()` receives the reading.
  The counts are 64 bits wide and signed: a sum or a conversion whose exact
  result is outside `INT64_MIN .. INT64_MAX` is reduced modulo `2 ^ 64`.
* A `std::list` is the list of its nodes from `begin()` on; a node carries an
  address, which is what a list iterator holds.  A `std::unordered_map` is the
  function that `find` computes.
-/

/-! ## ThreadPool: data -/

/-- Control state of one element of `std::vector<std::thread> workers`. -/
inductive WorkerThread (τ : Type) where
  /-- At the head of the `while (true)` body: about to lock `mtx` and evaluate
  `cv_not_empty.wait` (lines 69-74). -/
  | waiting : WorkerThread τ
  /-- Left the locked block holding `task`; about to call `task()` (line 80). -/
  | running : τ → WorkerThread τ
  /-- Returned from `worker_loop` (line 75); the thread is still joinable. -/
  | exited : WorkerThread τ
  /-- Joined by `shutdown` (line 35); no longer joinable. -/
  | joined : WorkerThread τ
deriving DecidableEq, Repr

/-- The fields of `class ThreadPool`; `mtx` and the two condition variables are
represented by the atomicity of the steps. -/
structure ThreadPool (τ : Type) where
  workers : List (WorkerThread τ)
  tasks : List τ
  stop : Bool
  max_queue_size : Nat
deriving DecidableEq, Repr

/-- What one step of a pool thread did. -/
inductive PoolEvent (τ : Type) where
  /-- The step of `submit` pushed the task (line 59) and returns the future. -/
  | enqueued : τ → PoolEvent τ
  /-- The step of `submit` threw `std::runtime_error(what)` (line 57). -/
  | threw : String → PoolEvent τ
  /-- A wait predicate was false (or a joined thread still runs): the calling
  thread stays blocked and the state is unchanged. -/
  | blocked : PoolEvent τ
  /-- Worker `i` popped the front task (lines 76-78). -/
  | dequeued : Nat → τ → PoolEvent τ
  /-- Worker `i` called `task()` (line 80) and is back at the loop head. -/
  | ran : Nat → τ → PoolEvent τ
  /-- Worker `i` returned from `worker_loop` (line 75). -/
  | exited : Nat → PoolEvent τ
  /-- The step of `shutdown` set `stop = true` (line 30). -/
  | stopped : PoolEvent τ
  /-- The step of `shutdown` found `stop` set and returned (line 29). -/
  | returned : PoolEvent τ
  /-- The thread running `shutdown` joined worker `i` (line 35). -/
  | joined : Nat → PoolEvent τ
  /-- Nothing to do: no such thread, or a thread that is not joinable. -/
  | skipped : PoolEvent τ
deriving DecidableEq, Repr

/-- The moves of the threads that use a pool. -/
inductive PoolAction (τ : Type) where
  /-- A caller evaluates the locked block of `submit` for this task. -/
  | submit : τ → PoolAction τ
  /-- Worker thread `i` takes its next step. -/
  | worker : Nat → PoolAction τ
  /-- A caller evaluates the locked block of `shutdown`. -/
  | shutdown : PoolAction τ
  /-- The thread running `shutdown` evaluates `t.join()` for worker `i`. -/
  | join : Nat → PoolAction τ
deriving DecidableEq, Repr

namespace ThreadPool

variable {τ : Type}

/-! ## ThreadPool: operations -/

/-- Constructor `ThreadPool(threadCnt, maxQueue)` (lines 17-22): `stop` is
false, the queue is empty and `threadCnt` workers start `worker_loop`. -/
def new (threadCnt maxQueue : Nat) : ThreadPool τ :=
  { workers := List.replicate threadCnt WorkerThread.waiting
    tasks := []
    stop := false
    max_queue_size := maxQueue }

/-- The locked block of `submit` (lines 51-60).  The wait predicate is
`stop || tasks.size() < max_queue_size`; when it holds, a stopped pool throws
and a running pool pushes the task at the back of the queue. -/
def submit (p : ThreadPool τ) (task : τ) : ThreadPool τ × PoolEvent τ :=
  if p.stop || decide (p.tasks.length < p.max_queue_size) then
    if p.stop then
      (p, PoolEvent.threw "ThreadPool stopped")
    else
      ({ p with tasks := p.tasks ++ [task] }, PoolEvent.enqueued task)
  else
    (p, PoolEvent.blocked)

/-- One step of worker thread `i` in `worker_loop` (lines 67-82).  At the loop
head the wait predicate is `stop || !tasks.empty()`; when it holds the worker
returns if `stop && tasks.empty()`, and otherwise moves the front task out of
the queue.  A worker that holds a task calls it and goes back to the loop head. -/
def worker_loop (p : ThreadPool τ) (i : Nat) : ThreadPool τ × PoolEvent τ :=
  match p.workers[i]? with
  | some WorkerThread.waiting =>
    if p.stop || !p.tasks.isEmpty then
      if p.stop && p.tasks.isEmpty then
        ({ p with workers := p.workers.set i WorkerThread.exited }, PoolEvent.exited i)
      else
        match p.tasks with
        | task :: rest =>
          ({ p with workers := p.workers.set i (WorkerThread.running task), tasks := rest },
            PoolEvent.dequeued i task)
        | [] => (p, PoolEvent.blocked)
    else
      (p, PoolEvent.blocked)
  | some (WorkerThread.running task) =>
    ({ p with workers := p.workers.set i WorkerThread.waiting }, PoolEvent.ran i task)
  | some WorkerThread.exited => (p, PoolEvent.skipped)
  | some WorkerThread.joined => (p, PoolEvent.skipped)
  | none => (p, PoolEvent.skipped)

/-- The locked block of `shutdown` (lines 27-31). -/
def shutdown (p : ThreadPool τ) : ThreadPool τ × PoolEvent τ :=
  if p.stop then (p, PoolEvent.returned) else ({ p with stop := true }, PoolEvent.stopped)

/-- One iteration of the join loop of `shutdown` (lines 34-36): `t.join()`
returns once worker `i` has returned from `worker_loop`. -/
def join (p : ThreadPool τ) (i : Nat) : ThreadPool τ × PoolEvent τ :=
  match p.workers[i]? with
  | some WorkerThread.exited =>
    ({ p with workers := p.workers.set i WorkerThread.joined }, PoolEvent.joined i)
  | some WorkerThread.joined => (p, PoolEvent.skipped)
  | some _ => (p, PoolEvent.blocked)
  | none => (p, PoolEvent.skipped)

/-- One scheduled move. -/
def step (p : ThreadPool τ) : PoolAction τ → ThreadPool τ × PoolEvent τ
  | PoolAction.submit task => p.submit task
  | PoolAction.worker i => p.worker_loop i
  | PoolAction.shutdown => p.shutdown
  | PoolAction.join i => p.join i

/-- Run a schedule; the result is the final state and the events in order. -/
def exec (p : ThreadPool τ) : List (PoolAction τ) → ThreadPool τ × List (PoolEvent τ)
  | [] => (p, [])
  | a :: rest => (((p.step a).1.exec rest).1, (p.step a).2 :: ((p.step a).1.exec rest).2)

/-- The tasks accepted by `submit`, in the order they were pushed. -/
def accepted : List (PoolEvent τ) → List τ
  | [] => []
  | PoolEvent.enqueued task :: rest => task :: accepted rest
  | _ :: rest => accepted rest

/-- The tasks removed by the workers, in the order they were popped. -/
def removed : List (PoolEvent τ) → List τ
  | [] => []
  | PoolEvent.dequeued _ task :: rest => task :: removed rest
  | _ :: rest => removed rest

/-- The schedule in which worker `i` alone takes `2 * n + 1` steps: enough to
pop and call `n` queued tasks and then to evaluate the loop head once more. -/
def drain (i n : Nat) : List (PoolAction τ) :=
  List.replicate (2 * n + 1) (PoolAction.worker i)

/-- The events of worker `i` popping and calling each task of `ts` in turn. -/
def drained (i : Nat) : List τ → List (PoolEvent τ)
  | [] => []
  | task :: rest => PoolEvent.dequeued i task :: PoolEvent.ran i task :: drained i rest

end ThreadPool

/-! ## Futures: the `std::packaged_task` pushed by `submit` -/

/-- A bound callable of `test10.cpp`: called with no argument, it returns an
`int` or throws `std::runtime_error` with the given message. -/
abbrev Callable := Unit → Except String Int

/-- The closure `[task]{ (*task)(); }` that `submit` pushes: the packaged task
`fn` together with the shared state `handle` its future reads. -/
structure PackagedTask where
  handle : Nat
  fn : Callable

/-- A pool whose tasks are packaged tasks, with the shared states of the
futures handed out so far: `none` until the task has stored its outcome. -/
structure FuturePool where
  pool : ThreadPool PackagedTask
  states : List (Option (Except String Int))

namespace FuturePool

/-- A pool of `threadCnt` workers with no future handed out. -/
def new (threadCnt maxQueue : Nat) : FuturePool :=
  { pool := ThreadPool.new threadCnt maxQueue, states := [] }

/-- `submit(f)` of `test10.cpp` (lines 28-55): the packaged task for `f` gets a
fresh shared state, and the locked block pushes the closure; the future is
returned only when the push happened. -/
def submit (s : FuturePool) (f : Callable) : FuturePool × PoolEvent PackagedTask :=
  match s.pool.submit { handle := s.states.length, fn := f } with
  | (q, PoolEvent.enqueued job) =>
    ({ pool := q, states := s.states ++ [none] }, PoolEvent.enqueued job)
  | (q, e) => ({ s with pool := q }, e)

/-- One step of worker `i` (lines 75-93).  `task()` runs `(*task)()`: a
packaged task whose shared state is empty stores what the callable returned or
threw and returns normally; one whose shared state already holds an outcome
throws `std::future_error` out of `worker_loop`, which ends the thread. -/
def worker_loop (s : FuturePool) (i : Nat) : FuturePool × PoolEvent PackagedTask :=
  match s.pool.workers[i]? with
  | some (WorkerThread.running job) =>
    match s.states[job.handle]? with
    | some none =>
      ({ pool := (s.pool.worker_loop i).1, states := s.states.set job.handle (some (job.fn ())) },
        PoolEvent.ran i job)
    | _ =>
      ({ s with pool := { s.pool with workers := s.pool.workers.set i WorkerThread.exited } },
        PoolEvent.threw "std::future_error")
  | _ => ({ s with pool := (s.pool.worker_loop i).1 }, (s.pool.worker_loop i).2)

/-- One scheduled move of a thread of `test10.cpp`. -/
def step (s : FuturePool) : PoolAction Callable → FuturePool × PoolEvent PackagedTask
  | PoolAction.submit f => s.submit f
  | PoolAction.worker i => s.worker_loop i
  | PoolAction.shutdown => ({ s with pool := s.pool.shutdown.1 }, s.pool.shutdown.2)
  | PoolAction.join i => ({ s with pool := (s.pool.join i).1 }, (s.pool.join i).2)

/-- Run a schedule; the result is the final state and the events in order. -/
def exec (s : FuturePool) : List (PoolAction Callable) → FuturePool × List (PoolEvent PackagedTask)
  | [] => (s, [])
  | a :: rest => (((s.step a).1.exec rest).1, (s.step a).2 :: ((s.step a).1.exec rest).2)

end FuturePool

/-! ## The program of `test10.cpp` -/

namespace Test10

/-- The lambda submitted for index `i` (lines 113-124): task 5 throws,
every other task returns `i * 2`. -/
def task (i : Nat) : Callable :=
  fun _ => if i = 5 then Except.error "error in task 5" else Except.ok ((i : Int) * 2)

/-- What `results[i].get()` is expected to yield. -/
def expected (i : Nat) : Except String Int :=
  if i = 5 then Except.error "error in task 5" else Except.ok (2 * (i : Int))

/-- A move of one thread of the program: `main` runs its submission loop
(lines 111-126), a worker of the pool takes a step. -/
inductive Tick where
  | main : Tick
  | worker : Nat → Tick
deriving DecidableEq, Repr

/-- `ThreadPool pool(3,5)` (line 108). -/
def start : FuturePool := FuturePool.new 3 5

/-- One move.  `main` has pushed `states.length` tasks so far; while that is
below ten it calls `submit` for the next index (lines 111-126).  Afterwards it
reads the futures (lines 128-134), which blocks while one of them is empty,
and then calls `pool.shutdown()` (line 136). -/
def step (s : FuturePool) : Tick → FuturePool
  | Tick.main =>
    if s.states.length < 10 then (s.submit (task s.states.length)).1
    else if s.states.all Option.isSome then { s with pool := s.pool.shutdown.1 }
    else s
  | Tick.worker i => (s.worker_loop i).1

/-- Run a schedule of the program. -/
def exec (s : FuturePool) : List Tick → FuturePool
  | [] => s
  | t :: rest => exec (step s t) rest

/-- One round: `main` submits once, then each of the three workers pops a task
and calls it. -/
def round : List Tick :=
  [Tick.main, Tick.worker 0, Tick.worker 0, Tick.worker 1, Tick.worker 1,
    Tick.worker 2, Tick.worker 2]

/-- Ten rounds, then `main` once more: a schedule in which every task is
submitted and run before `main` reads the futures and shuts the pool down. -/
def fair : List Tick :=
  (List.replicate 10 round).flatten ++ [Tick.main]

end Test10

/-! ## Scheduler: data -/

/-- `struct Item` (lines 141-146): `when` is a reading of `Clock`, `interval`
a count of milliseconds (0 for a one-shot item), `seq` a `std::size_t`. -/
structure Scheduler.Item (φ : Type) where
  when : Int
  func : φ
  interval : Int
  seq : Nat
deriving DecidableEq, Repr

/-- Control state of `scheduler_thread`, which runs `run()` (lines 163-196). -/
inductive SchedulerThread (φ : Type) where
  /-- At the loop head (line 165), about to hold `mtx`. -/
  | looping : SchedulerThread φ
  /-- Inside `cv.wait_until(lock, next, stop)` (line 173). -/
  | sleeping : Int → SchedulerThread φ
  /-- Popped `item` and unlocked (lines 178-180); about to call
  `pool.submit(item.func)` (line 183). -/
  | submitting : Scheduler.Item φ → SchedulerThread φ
  /-- `pool.submit` returned; about to evaluate the condition of line 186. -/
  | submitted : Scheduler.Item φ → SchedulerThread φ
  /-- Computed the next `when` (line 187); about to lock and push (188-190). -/
  | reinserting : Scheduler.Item φ → SchedulerThread φ
  /-- Left the loop: `run()` returned. -/
  | finished : SchedulerThread φ
  /-- An exception left `run()`. -/
  | failed : String → SchedulerThread φ
  /-- Joined by `shutdown` (line 111). -/
  | joined : SchedulerThread φ
deriving DecidableEq, Repr

/-- The fields of `class Scheduler` other than the reference to the pool;
`items` lists the content of the priority queue in the order it was pushed. -/
structure Scheduler (φ : Type) where
  items : List (Scheduler.Item φ)
  stop : Bool
  scheduler_thread : SchedulerThread φ
  seq : Nat
deriving DecidableEq, Repr

/-- What one step of a scheduler thread or caller did. -/
inductive SchedEvent (φ : Type) where
  /-- The call of `add_task` pushed the item (line 159). -/
  | added : Scheduler.Item φ → SchedEvent φ
  /-- The queue is empty: the loop waits in `cv.wait` (line 167). -/
  | idle : SchedEvent φ
  /-- The earliest item is not due: the loop enters `wait_until` (line 173). -/
  | sleep : Int → SchedEvent φ
  /-- Woken before the deadline with `stop` false: `wait_until` waits on. -/
  | asleep : SchedEvent φ
  /-- The deadline of `wait_until` passed: `continue` (line 175). -/
  | woke : SchedEvent φ
  /-- The loop popped the item (lines 178-179). -/
  | popped : Scheduler.Item φ → SchedEvent φ
  /-- The loop is blocked inside `pool.submit` on a full queue. -/
  | submit_blocked : Scheduler.Item φ → SchedEvent φ
  /-- The call `pool.submit(item.func)` pushed the callable (line 183). -/
  | submitted : Scheduler.Item φ → SchedEvent φ
  /-- The call `pool.submit(item.func)` threw. -/
  | submit_threw : String → SchedEvent φ
  /-- Line 186 held: the item has its next `when` (line 187). -/
  | rescheduled : Scheduler.Item φ → SchedEvent φ
  /-- Line 186 failed: the item is dropped. -/
  | dropped : Scheduler.Item φ → SchedEvent φ
  /-- The loop pushed the item back (line 189). -/
  | reinserted : Scheduler.Item φ → SchedEvent φ
  /-- The loop ended (line 165 or a `break`). -/
  | finished : SchedEvent φ
  /-- The step of `shutdown` set `stop = true` (line 108). -/
  | stopped : SchedEvent φ
  /-- The step of `shutdown` found `stop` set and returned (line 107). -/
  | returned : SchedEvent φ
  /-- The thread running `shutdown` joined `scheduler_thread` (line 111). -/
  | joined : SchedEvent φ
  /-- The joining thread waits: `run()` has not returned. -/
  | blocked : SchedEvent φ
  /-- Nothing to do: the thread has ended, or is not joinable. -/
  | skipped : SchedEvent φ
deriving DecidableEq, Repr

namespace Scheduler

variable {φ : Type}

/-- The number of values of `std::size_t`. -/
def SIZE_MOD : Nat := 2 ^ 64

/-- Clock ticks in one millisecond: `steady_clock` counts nanoseconds. -/
def TICKS_PER_MS : Int := 1000000

/-- The smallest value of the 64-bit signed count of a `Clock::time_point` or
of a duration. -/
def INT64_MIN : Int := -9223372036854775808

/-- The largest value of the 64-bit signed count. -/
def INT64_MAX : Int := 9223372036854775807

/-- The number of values of the 64-bit signed count. -/
def INT64_MOD : Int := 18446744073709551616

/-- The 64-bit signed count that an operation yields whose exact result is `x`:
`x` itself when it is a value of the count, and otherwise the value that
differs from `x` by a multiple of `2 ^ 64`, which is what the compiled addition
and multiplication leave on overflow. -/
def wrap (x : Int) : Int :=
  (x - INT64_MIN) % INT64_MOD + INT64_MIN

/-- `t + d` for a `Clock::time_point` `t` and a duration whose exact length is
`d` ticks: the duration is converted to the nanosecond count and added, both in
64 bits. -/
def plus (t d : Int) : Int :=
  wrap (t + d)

/-- `duration_cast<std::chrono::milliseconds>` of a duration whose exact length
is `d` ticks: the count of whole milliseconds, truncated towards zero, in 64
bits.  The count is exact for every duration type when `d` is within
`INT64_MIN .. INT64_MAX`; beyond that it is the product that `seconds`,
`minutes` and `hours` leave on overflow. -/
def to_ms (d : Int) : Int :=
  wrap (Int.tdiv d TICKS_PER_MS)

/-- The integer `x` is a value of the 64-bit signed count. -/
def representable (x : Int) : Prop :=
  INT64_MIN ≤ x ∧ x ≤ INT64_MAX

instance (x : Int) : Decidable (representable x) :=
  inferInstanceAs (Decidable (INT64_MIN ≤ x ∧ x ≤ INT64_MAX))

/-! ## Scheduler: the priority queue -/

/-- `struct Cmp` (lines 148-153): `Cmp a b` says that `a` is served after `b`. -/
def Cmp (a b : Item φ) : Bool :=
  if a.when ≠ b.when then decide (a.when > b.when) else decide (a.seq > b.seq)

/-- `items.top()` of `std::priority_queue<Item, std::vector<Item>, Cmp>`: an
element that `Cmp` puts after no other element; `none` on an empty queue. -/
def top : List (Item φ) → Option (Item φ)
  | [] => none
  | x :: xs =>
    match top xs with
    | none => some x
    | some m => if Cmp x m then some m else some x

/-- `items.pop()`: the queue without the element that `top` returns. -/
def pop : List (Item φ) → List (Item φ)
  | [] => []
  | x :: xs =>
    match top xs with
    | none => []
    | some m => if Cmp x m then x :: pop xs else xs

/-- `items.push(item)`. -/
def push (items : List (Item φ)) (item : Item φ) : List (Item φ) :=
  items ++ [item]

/-! ## Scheduler: operations -/

/-- Constructor `Scheduler(pool)` (lines 99-100): `stop` is false, `seq` is 0,
the queue is empty and `scheduler_thread` starts `run()`. -/
def new : Scheduler φ :=
  { items := [], stop := false, scheduler_thread := SchedulerThread.looping, seq := 0 }

/-- `add_task(when, func, interval)` (lines 155-161): push an item that carries
the current `seq`, then increment `seq`. -/
def add_task (s : Scheduler φ) (when : Int) (func : φ) (interval : Int) :
    Scheduler φ × SchedEvent φ :=
  ({ s with
      items := push s.items { when := when, func := func, interval := interval, seq := s.seq }
      seq := (s.seq + 1) % SIZE_MOD },
    SchedEvent.added { when := when, func := func, interval := interval, seq := s.seq })

/-- `post(f)` (lines 116-119), called when `Clock::now()` reads `now`. -/
def post (s : Scheduler φ) (now : Int) (f : φ) : Scheduler φ × SchedEvent φ :=
  s.add_task now f 0

/-- `post_after(delay, f)` (lines 123-128), called when `Clock::now()` reads
`now`; `delay` is the exact length of the duration in clock ticks.  Line 125
computes `Clock::now() + delay` in the 64-bit nanosecond count. -/
def post_after (s : Scheduler φ) (now : Int) (delay : Int) (f : φ) : Scheduler φ × SchedEvent φ :=
  s.add_task (plus now delay) f 0

/-- `post_every(interval, f)` (lines 132-138); `interval` is the exact length of
the duration in clock ticks.  Line 134 computes `Clock::now() + interval` in the
64-bit nanosecond count, and line 136 stores `duration_cast<milliseconds>`. -/
def post_every (s : Scheduler φ) (now : Int) (interval : Int) (f : φ) :
    Scheduler φ × SchedEvent φ :=
  s.add_task (plus now interval) f (to_ms interval)

/-- The locked block of `shutdown` (lines 105-109). -/
def shutdown (s : Scheduler φ) : Scheduler φ × SchedEvent φ :=
  if s.stop then (s, SchedEvent.returned) else ({ s with stop := true }, SchedEvent.stopped)

/-- Line 111 of `shutdown`: join `scheduler_thread` if it is joinable; the
call returns once `run()` has returned. -/
def join (s : Scheduler φ) : Scheduler φ × SchedEvent φ :=
  match s.scheduler_thread with
  | SchedulerThread.finished =>
    ({ s with scheduler_thread := SchedulerThread.joined }, SchedEvent.joined)
  | SchedulerThread.joined => (s, SchedEvent.skipped)
  | SchedulerThread.failed _ => (s, SchedEvent.skipped)
  | _ => (s, SchedEvent.blocked)

/-- One step of `scheduler_thread` in `run()` (lines 163-196), when a call of
`Clock::now()` in that step reads `now`. -/
def run (s : Scheduler φ) (pool : ThreadPool φ) (now : Int) :
    Scheduler φ × ThreadPool φ × SchedEvent φ :=
  match s.scheduler_thread with
  | SchedulerThread.looping =>
    if s.stop then
      ({ s with scheduler_thread := SchedulerThread.finished }, pool, SchedEvent.finished)
    else
      match top s.items with
      | none => (s, pool, SchedEvent.idle)
      | some item =>
        if item.when > now then
          ({ s with scheduler_thread := SchedulerThread.sleeping item.when }, pool,
            SchedEvent.sleep item.when)
        else
          ({ s with items := pop s.items, scheduler_thread := SchedulerThread.submitting item },
            pool, SchedEvent.popped item)
  | SchedulerThread.sleeping next =>
    if s.stop then
      ({ s with scheduler_thread := SchedulerThread.finished }, pool, SchedEvent.finished)
    else if now ≥ next then
      ({ s with scheduler_thread := SchedulerThread.looping }, pool, SchedEvent.woke)
    else
      (s, pool, SchedEvent.asleep)
  | SchedulerThread.submitting item =>
    match pool.submit item.func with
    | (q, PoolEvent.enqueued _) =>
      ({ s with scheduler_thread := SchedulerThread.submitted item }, q, SchedEvent.submitted item)
    | (q, PoolEvent.threw what) =>
      ({ s with scheduler_thread := SchedulerThread.failed what }, q, SchedEvent.submit_threw what)
    | (q, _) => (s, q, SchedEvent.submit_blocked item)
  | SchedulerThread.submitted item =>
    if decide (item.interval > 0) && !s.stop then
      ({ s with
          scheduler_thread :=
            SchedulerThread.reinserting
              { item with when := plus now (item.interval * TICKS_PER_MS) } },
        pool, SchedEvent.rescheduled { item with when := plus now (item.interval * TICKS_PER_MS) })
    else
      ({ s with scheduler_thread := SchedulerThread.looping }, pool, SchedEvent.dropped item)
  | SchedulerThread.reinserting item =>
    ({ s with items := push s.items item, scheduler_thread := SchedulerThread.looping }, pool,
      SchedEvent.reinserted item)
  | SchedulerThread.finished => (s, pool, SchedEvent.skipped)
  | SchedulerThread.failed _ => (s, pool, SchedEvent.skipped)
  | SchedulerThread.joined => (s, pool, SchedEvent.skipped)

end Scheduler

/-! ## Scheduler and pool together -/

/-- A scheduler and the pool it is bound to. -/
structure World (φ : Type) where
  sched : Scheduler φ
  pool : ThreadPool φ
deriving DecidableEq, Repr

/-- The moves of the threads of a program that uses a scheduler and its pool. -/
inductive WorldAction (φ : Type) where
  /-- A caller runs `post(f)`. -/
  | post : φ → WorldAction φ
  /-- A caller runs `post_after(delay, f)`. -/
  | post_after : Int → φ → WorldAction φ
  /-- A caller runs `post_every(interval, f)`. -/
  | post_every : Int → φ → WorldAction φ
  /-- The scheduler thread takes its next step. -/
  | run : WorldAction φ
  /-- A caller evaluates the locked block of `Scheduler::shutdown`. -/
  | shutdown : WorldAction φ
  /-- The thread running `Scheduler::shutdown` joins the scheduler thread. -/
  | join : WorldAction φ
  /-- A thread of the pool, or a direct caller of the pool, moves. -/
  | pool : PoolAction φ → WorldAction φ
deriving DecidableEq, Repr

/-- What a move of the program did. -/
inductive WorldEvent (φ : Type) where
  | sched : SchedEvent φ → WorldEvent φ
  | pool : PoolEvent φ → WorldEvent φ
deriving DecidableEq, Repr

namespace World

variable {φ : Type}

/-- `ThreadPool pool(threadCnt, maxQueue); Scheduler sched(pool);`. -/
def new (threadCnt maxQueue : Nat) : World φ :=
  { sched := Scheduler.new, pool := ThreadPool.new threadCnt maxQueue }

/-- One scheduled move, made when the clock reads `now`. -/
def step (w : World φ) (now : Int) : WorldAction φ → World φ × WorldEvent φ
  | WorldAction.post f =>
    ({ w with sched := (w.sched.post now f).1 }, WorldEvent.sched (w.sched.post now f).2)
  | WorldAction.post_after delay f =>
    ({ w with sched := (w.sched.post_after now delay f).1 },
      WorldEvent.sched (w.sched.post_after now delay f).2)
  | WorldAction.post_every interval f =>
    ({ w with sched := (w.sched.post_every now interval f).1 },
      WorldEvent.sched (w.sched.post_every now interval f).2)
  | WorldAction.run =>
    ({ sched := (w.sched.run w.pool now).1, pool := (w.sched.run w.pool now).2.1 },
      WorldEvent.sched (w.sched.run w.pool now).2.2)
  | WorldAction.shutdown =>
    ({ w with sched := w.sched.shutdown.1 }, WorldEvent.sched w.sched.shutdown.2)
  | WorldAction.join => ({ w with sched := w.sched.join.1 }, WorldEvent.sched w.sched.join.2)
  | WorldAction.pool a => ({ w with pool := (w.pool.step a).1 }, WorldEvent.pool (w.pool.step a).2)

/-- Run a schedule of moves, each with the clock reading at which it is made;
the result is the final state and the events, each with its clock reading. -/
def exec (w : World φ) : List (Int × WorldAction φ) → World φ × List (Int × WorldEvent φ)
  | [] => (w, [])
  | a :: rest =>
    (((w.step a.1 a.2).1.exec rest).1, (a.1, (w.step a.1 a.2).2) :: ((w.step a.1 a.2).1.exec rest).2)

/-- The clock never runs backwards along the schedule, starting from `t`. -/
def monotone (t : Int) : List (Int × WorldAction φ) → Prop
  | [] => True
  | a :: rest => t ≤ a.1 ∧ monotone a.1 rest

end World

/-! ## Items held by the scheduler -/

namespace Scheduler

variable {φ : Type}

/-- The item that the scheduler thread has popped and not yet dropped or
pushed back, if any. -/
def in_flight (s : Scheduler φ) : List (Item φ) :=
  match s.scheduler_thread with
  | SchedulerThread.submitting item => [item]
  | SchedulerThread.submitted item => [item]
  | SchedulerThread.reinserting item => [item]
  | _ => []

/-- The pending items together with the item in flight. -/
def held (s : Scheduler φ) : List (Item φ) :=
  s.items ++ s.in_flight

end Scheduler

namespace World

variable {φ : Type}

/-- Evidence that `monotone` can be decided. -/
def decMonotone : (t : Int) → (acts : List (Int × WorldAction φ)) → Decidable (monotone t acts)
  | _, [] => isTrue trivial
  | t, a :: rest =>
    match Int.decLe t a.1, decMonotone a.1 rest with
    | isTrue h1, isTrue h2 => isTrue ⟨h1, h2⟩
    | isFalse h1, _ => isFalse (fun h => h1 h.1)
    | _, isFalse h2 => isFalse (fun h => h2 h.2)

instance (t : Int) (acts : List (Int × WorldAction φ)) : Decidable (monotone t acts) :=
  decMonotone t acts

end World

/-! ## A run with a reinserted periodic item -/

namespace World

/-- A schedule on a pool of one worker and capacity 4.  A periodic item of
interval 1 ms is posted at reading 0 and popped when it is due, at reading
1000000.  While it is in flight, at reading 1000010, a one-shot item is posted
with delay 1000090, so it is due at 2000100.  The periodic item is then
submitted, gets the due time 1000100 + 1 ms = 2000100 at reading 1000100 and is
pushed back; at reading 2000100 the loop pops again. -/
def overtaking : List (Int × WorldAction Nat) :=
  [(0, WorldAction.post_every 1000000 1), (1000000, WorldAction.run),
    (1000010, WorldAction.post_after 1000090 2), (1000020, WorldAction.run),
    (1000100, WorldAction.run), (1000110, WorldAction.run), (2000100, WorldAction.run)]

end World

/-! ## Invariants of the futures -/

namespace FuturePool

/-- The shared state of every pending packaged task (queued, or held by a
worker) exists and is empty, and no two pending tasks share a shared state. -/
structure Fresh (workers : List (WorkerThread PackagedTask)) (tasks : List PackagedTask)
    (states : List (Option (Except String Int))) : Prop where
  queued_empty : ∀ job ∈ tasks, states[job.handle]? = some none
  running_empty : ∀ (i : Nat) (job : PackagedTask), workers[i]? = some (WorkerThread.running job) →
    states[job.handle]? = some none
  queued_distinct : tasks.Pairwise (fun a b => a.handle ≠ b.handle)
  running_queued : ∀ (i : Nat) (job : PackagedTask), workers[i]? = some (WorkerThread.running job) →
    ∀ other ∈ tasks, other.handle ≠ job.handle
  running_distinct : ∀ (i k : Nat) (job other : PackagedTask), workers[i]? = some (WorkerThread.running job) →
    workers[k]? = some (WorkerThread.running other) → job.handle = other.handle → i = k

/-- Every pending packaged task, when called, yields the outcome `expected`
gives for its shared state, and every stored outcome is the expected one. -/
structure Meets (expected : Nat → Except String Int) (s : FuturePool) : Prop where
  queued : ∀ job ∈ s.pool.tasks, job.fn () = expected job.handle
  running : ∀ (i : Nat) (job : PackagedTask), s.pool.workers[i]? = some (WorkerThread.running job) →
    job.fn () = expected job.handle
  stored : ∀ (h : Nat) (r : Except String Int), s.states[h]? = some (some r) → r = expected h

end FuturePool

/-! ## Runs of the scheduler used as examples -/

namespace World

/-- A schedule on a pool of one worker and capacity 4.  At reading 0 a one-shot
item is posted with delay 1000; at reading 1 the loop finds it not due and
enters `wait_until` with deadline 1000.  At reading 2 `post` adds an item that
is due at once.  The loop is then given a move at the readings 3 and 999,
before the deadline, and at 1000 and after. -/
def late_post : List (Int × WorldAction Nat) :=
  [(0, WorldAction.post_after 1000 1), (1, WorldAction.run), (2, WorldAction.post 2),
    (3, WorldAction.run), (999, WorldAction.run), (1000, WorldAction.run),
    (1000, WorldAction.run), (1001, WorldAction.run)]

/-- A schedule on a pool of one worker and capacity 4.  A periodic item is
posted at reading 0 with an interval of 1.5 ms (1500000 ticks); it is popped at
reading 1500000, submitted at 1500010, and the loop evaluates line 186 at
reading 1500020 and pushes the item back at 1500030. -/
def truncated : List (Int × WorldAction Nat) :=
  [(0, WorldAction.post_every 1500000 1), (1500000, WorldAction.run),
    (1500010, WorldAction.run), (1500020, WorldAction.run), (1500030, WorldAction.run)]

/-- A schedule on a pool of one worker and capacity 4.  A periodic item is
posted at reading 0 with an interval of 3000000 hours, which is
10800000000000000000 ticks and more than the 64-bit nanosecond count holds.
The loop is given a move at each of the readings 1 to 6. -/
def overflowing : List (Int × WorldAction Nat) :=
  [(0, WorldAction.post_every 10800000000000000000 1), (1, WorldAction.run), (2, WorldAction.run),
    (3, WorldAction.run), (4, WorldAction.run), (5, WorldAction.run), (6, WorldAction.run)]

/-- A schedule on a pool of two workers and capacity 4.  A periodic item of
interval 1 ms is posted at reading 0; its first firing is submitted and worker
0 pops it and starts to run it.  The callable is still running when the second
firing, due at 2000100, is submitted, and worker 1 pops that one. -/
def double_fire : List (Int × WorldAction Nat) :=
  [(0, WorldAction.post_every 1000000 1), (1000000, WorldAction.run),
    (1000020, WorldAction.run), (1000050, WorldAction.pool (PoolAction.worker 0)),
    (1000100, WorldAction.run), (1000110, WorldAction.run), (2000100, WorldAction.run),
    (2000120, WorldAction.run), (2000150, WorldAction.pool (PoolAction.worker 1))]

end World

/-! ## LRUCache (`src/day7/lru_cache.hpp`) -/

namespace day7

/-- A node of `std::list<std::pair<Key, Value>>`.  `addr` identifies the node:
it is what a `ListIt` holds, and it stays the same when the node is spliced to
another position. -/
structure Node (K V : Type) where
  addr : Nat
  first : K
  second : V
deriving DecidableEq, Repr

/-- The fields of `class LRUCache` (lines 113-115).  `list_` is listed from
`begin()` (most recently used) to `back()` (least recently used); `map_` gives
for a key the list iterator stored under it, if any. -/
structure LRUCache (K V : Type) where
  capacity_ : Nat
  list_ : List (Node K V)
  map_ : K → Option Nat

variable {K V : Type}

/-- The address that `emplace_front` gives to a new node: one that no node of
the list has. -/
def fresh (l : List (Node K V)) : Nat :=
  (l.map Node.addr).foldr max 0 + 1

/-- The node an iterator points to: `*it`. -/
def deref : List (Node K V) → Nat → Option (Node K V)
  | [], _ => none
  | n :: rest, it => if n.addr = it then some n else deref rest it

/-- The list without the node an iterator points to. -/
def unlink : List (Node K V) → Nat → List (Node K V)
  | [], _ => []
  | n :: rest, it => if n.addr = it then rest else n :: unlink rest it

/-- `it->second = value`: the list with the value of that node replaced. -/
def assign : List (Node K V) → Nat → V → List (Node K V)
  | [], _, _ => []
  | n :: rest, it, value =>
    if n.addr = it then { n with second := value } :: rest else n :: assign rest it value

/-- `list_.splice(list_.begin(), list_, it)`: the node moves to the front. -/
def splice_front (l : List (Node K V)) (it : Nat) : List (Node K V) :=
  match deref l it with
  | some n => n :: unlink l it
  | none => l

namespace LRUCache

/-- Constructor `LRUCache(capacity)` (lines 31-32). -/
def new (capacity : Nat) : LRUCache K V :=
  { capacity_ := capacity, list_ := [], map_ := fun _ => none }

/-- `size()` (line 41). -/
def size (c : LRUCache K V) : Nat := c.list_.length

/-- `capacity()` (line 42). -/
def capacity (c : LRUCache K V) : Nat := c.capacity_

/-- `empty()` (line 43). -/
def empty (c : LRUCache K V) : Bool := c.list_.isEmpty

/-- `clear()` (lines 45-48). -/
def clear (c : LRUCache K V) : LRUCache K V :=
  { c with list_ := [], map_ := fun _ => none }

/-- `touch(it)` (lines 118-120), for the list iterator stored in `*it`. -/
def touch (c : LRUCache K V) (it : Nat) : LRUCache K V :=
  { c with list_ := splice_front c.list_ it }

/-- `get(key)` (lines 52-59): the cache afterwards and the returned optional. -/
def get (c : LRUCache K V) (key : K) : LRUCache K V × Option V :=
  match c.map_ key with
  | none => (c, none)
  | some it => (c.touch it, (deref (c.touch it).list_ it).map Node.second)

/-- `peek(key)` (lines 62-68), a `const` member. -/
def peek (c : LRUCache K V) (key : K) : Option V :=
  match c.map_ key with
  | none => none
  | some it => (deref c.list_ it).map Node.second

/-- `contains(key)` (lines 70-72). -/
def contains (c : LRUCache K V) (key : K) : Bool :=
  (c.map_ key).isSome

variable [DecidableEq K]

/-- `insert_new(key, value)` (lines 123-138). -/
def insert_new (c : LRUCache K V) (key : K) (value : V) : LRUCache K V :=
  if c.capacity_ = 0 then c
  else
    let c1 : LRUCache K V :=
      if c.list_.length = c.capacity_ then
        match c.list_.getLast? with
        | some back =>
          { c with map_ := Function.update c.map_ back.first none, list_ := c.list_.dropLast }
        | none => c
      else c
    { c1 with
      list_ := { addr := fresh c1.list_, first := key, second := value } :: c1.list_
      map_ := Function.update c1.map_ key (some (fresh c1.list_)) }

/-- `put(key, value)` (lines 75-85; the overload of lines 88-97 differs only
in moving the value). -/
def put (c : LRUCache K V) (key : K) (value : V) : LRUCache K V :=
  match c.map_ key with
  | some it => ({ c with list_ := assign c.list_ it value }).touch it
  | none => c.insert_new key value

/-- `put_if_absent(key, value)` (lines 100-106): the cache afterwards and the
returned `bool`. -/
def put_if_absent (c : LRUCache K V) (key : K) (value : V) : LRUCache K V × Bool :=
  if c.contains key then (c, false) else (c.insert_new key value, true)

/-- The pairs of the cache from most to least recently used. -/
def pairs (c : LRUCache K V) : List (K × V) :=
  c.list_.map (fun n => (n.first, n.second))

/-- The keys of the cache from most to least recently used. -/
def keys (c : LRUCache K V) : List K :=
  c.list_.map Node.first

end LRUCache

/-- A call of a public member of `LRUCache`. -/
inductive Op (K V : Type) where
  | put : K → V → Op K V
  | put_if_absent : K → V → Op K V
  | get : K → Op K V
  | peek : K → Op K V
  | contains : K → Op K V
  | clear : Op K V
deriving DecidableEq, Repr

/-- What a call returns. -/
inductive Ret (V : Type) where
  | unit : Ret V
  | bool : Bool → Ret V
  | value : Option V → Ret V
deriving DecidableEq, Repr

namespace LRUCache

variable [DecidableEq K]

/-- One call: the cache afterwards and the result. -/
def apply (c : LRUCache K V) : Op K V → LRUCache K V × Ret V
  | Op.put k v => (c.put k v, Ret.unit)
  | Op.put_if_absent k v => ((c.put_if_absent k v).1, Ret.bool (c.put_if_absent k v).2)
  | Op.get k => ((c.get k).1, Ret.value (c.get k).2)
  | Op.peek k => (c, Ret.value (c.peek k))
  | Op.contains k => (c, Ret.bool (c.contains k))
  | Op.clear => (c.clear, Ret.unit)

/-- A sequence of calls: the cache afterwards. -/
def run (c : LRUCache K V) (ops : List (Op K V)) : LRUCache K V :=
  ops.foldl (fun d op => (d.apply op).1) c

/-- A sequence of calls: the results in order. -/
def results (c : LRUCache K V) : List (Op K V) → List (Ret V)
  | [] => []
  | op :: rest => (c.apply op).2 :: results (c.apply op).1 rest

/-- The representation invariant: node addresses and keys are pairwise
distinct, `map_` holds exactly the pairs (key, address) of the nodes, and the
list is no longer than the capacity. -/
structure WF (c : LRUCache K V) : Prop where
  addr_nodup : (c.list_.map Node.addr).Nodup
  key_nodup : (c.list_.map Node.first).Nodup
  map_iff : ∀ (k : K) (it : Nat), c.map_ k = some it ↔ ∃ n ∈ c.list_, n.first = k ∧ n.addr = it
  size_le : c.list_.length ≤ c.capacity_

end LRUCache

/-- The pairs (key, address) of the nodes of a list, in list order. -/
def links (l : List (Node K V)) : List (K × Nat) :=
  l.map (fun n => (n.first, n.addr))

/-- Whether a call, with its result, makes the key the most recently used: a
`put` or a `get` of the key, or a `put_if_absent` of the key that returned
true. -/
def Op.touches [DecidableEq K] (k : K) : Op K V × Ret V → Bool
  | (Op.put j _, _) => decide (j = k)
  | (Op.get j, _) => decide (j = k)
  | (Op.put_if_absent j _, Ret.bool true) => decide (j = k)
  | _ => false

/-- The position (counted from 1) of the last call in a log of calls and
results that touches the key; 0 when there is none. -/
def last_use [DecidableEq K] (k : K) (log : List (Op K V × Ret V)) : Nat :=
  (log.foldl (fun (acc : Nat × Nat) e =>
    (acc.1 + 1, if Op.touches k e then acc.1 + 1 else acc.2)) (0, 0)).2

/-- The calls of a sequence, each with its result. -/
def LRUCache.log [DecidableEq K] (c : LRUCache K V) (ops : List (Op K V)) :
    List (Op K V × Ret V) :=
  ops.zip (c.results ops)

/-- The calls of `main` in `src/day7/main.cpp` up to line 26. -/
def main_ops : List (Op Int String) :=
  [Op.put 1 "one", Op.put 2 "two", Op.put 3 "three", Op.get 1, Op.put 4 "four", Op.get 2,
    Op.get 3, Op.get 4]

/-- The calls of lines 29 and 32 of `main`. -/
def main_tail : List (Op Int String) :=
  [Op.put_if_absent 3 "THREE", Op.get 3]

end day7

/-! ## LRUCache11 (`src/day7/lru_cache_cpp11.hpp`) -/

namespace day7

/-- The fields of `class LRUCache11` (lines 108-110), listed as for `LRUCache`. -/
structure LRUCache11 (K V : Type) where
  capacity_ : Nat
  list_ : List (Node K V)
  map_ : K → Option Nat

variable {K V : Type}

namespace LRUCache11

/-- Constructor `LRUCache11(capacity)` (lines 22-23). -/
def new (capacity : Nat) : LRUCache11 K V :=
  { capacity_ := capacity, list_ := [], map_ := fun _ => none }

/-- `size()` (line 32). -/
def size (c : LRUCache11 K V) : Nat := c.list_.length

/-- `capacity()` (line 33). -/
def capacity (c : LRUCache11 K V) : Nat := c.capacity_

/-- `empty()` (line 34). -/
def empty (c : LRUCache11 K V) : Bool := c.list_.isEmpty

/-- `clear()` (lines 36-39). -/
def clear (c : LRUCache11 K V) : LRUCache11 K V :=
  { c with list_ := [], map_ := fun _ => none }

/-- `touch(it)` (lines 113-115), for the list iterator stored in `*it`. -/
def touch (c : LRUCache11 K V) (it : Nat) : LRUCache11 K V :=
  { c with list_ := splice_front c.list_ it }

/-- `get(key, out)` (lines 45-53), called with a variable that holds `out`: the
cache afterwards, the returned `bool`, and what the variable holds afterwards.
On a miss the variable is not assigned. -/
def get (c : LRUCache11 K V) (key : K) (out : V) : LRUCache11 K V × Bool × V :=
  match c.map_ key with
  | none => (c, false, out)
  | some it => (c.touch it, true, ((deref (c.touch it).list_ it).map Node.second).getD out)

/-- `peek(key, out)` (lines 56-63), a `const` member: the returned `bool` and
what the variable holds afterwards. -/
def peek (c : LRUCache11 K V) (key : K) (out : V) : Bool × V :=
  match c.map_ key with
  | none => (false, out)
  | some it => (true, ((deref c.list_ it).map Node.second).getD out)

/-- `contains(key)` (lines 65-67). -/
def contains (c : LRUCache11 K V) (key : K) : Bool :=
  (c.map_ key).isSome

variable [DecidableEq K]

/-- `insert_new(key, value)` (lines 118-133). -/
def insert_new (c : LRUCache11 K V) (key : K) (value : V) : LRUCache11 K V :=
  if c.capacity_ = 0 then c
  else
    let c1 : LRUCache11 K V :=
      if c.list_.length = c.capacity_ then
        match c.list_.getLast? with
        | some back =>
          { c with map_ := Function.update c.map_ back.first none, list_ := c.list_.dropLast }
        | none => c
      else c
    { c1 with
      list_ := { addr := fresh c1.list_, first := key, second := value } :: c1.list_
      map_ := Function.update c1.map_ key (some (fresh c1.list_)) }

/-- `put(key, value)` (lines 70-80; the overload of lines 83-92 differs only
in moving the value). -/
def put (c : LRUCache11 K V) (key : K) (value : V) : LRUCache11 K V :=
  match c.map_ key with
  | some it => ({ c with list_ := assign c.list_ it value }).touch it
  | none => c.insert_new key value

/-- `put_if_absent(key, value)` (lines 95-101): the cache afterwards and the
returned `bool`. -/
def put_if_absent (c : LRUCache11 K V) (key : K) (value : V) : LRUCache11 K V × Bool :=
  if c.contains key then (c, false) else (c.insert_new key value, true)

/-- The pairs of the cache from most to least recently used. -/
def pairs (c : LRUCache11 K V) : List (K × V) :=
  c.list_.map (fun n => (n.first, n.second))

end LRUCache11

/-- What a call of a member of `LRUCache11` returns; for `get` and `peek` the
returned `bool` together with the content of the `out` variable afterwards. -/
inductive Ret11 (V : Type) where
  | unit : Ret11 V
  | bool : Bool → Ret11 V
  | flag : Bool → V → Ret11 V
deriving DecidableEq, Repr

namespace LRUCache11

variable [DecidableEq K]

/-- One call, given what the variable passed as `out` holds before it (used by
`get` and `peek` only): the cache afterwards and the result. -/
def apply (c : LRUCache11 K V) (out : V) : Op K V → LRUCache11 K V × Ret11 V
  | Op.put k v => (c.put k v, Ret11.unit)
  | Op.put_if_absent k v => ((c.put_if_absent k v).1, Ret11.bool (c.put_if_absent k v).2)
  | Op.get k => ((c.get k out).1, Ret11.flag (c.get k out).2.1 (c.get k out).2.2)
  | Op.peek k => (c, Ret11.flag (c.peek k out).1 (c.peek k out).2)
  | Op.contains k => (c, Ret11.bool (c.contains k))
  | Op.clear => (c.clear, Ret11.unit)

/-- A sequence of calls, each with the content of its `out` variable: the cache
afterwards. -/
def run (c : LRUCache11 K V) (calls : List (Op K V × V)) : LRUCache11 K V :=
  calls.foldl (fun d call => (d.apply call.2 call.1).1) c

/-- A sequence of calls: the results in order. -/
def results (c : LRUCache11 K V) : List (Op K V × V) → List (Ret11 V)
  | [] => []
  | call :: rest => (c.apply call.2 call.1).2 :: results (c.apply call.2 call.1).1 rest

end LRUCache11

/-- The `LRUCache` with the same capacity, list and map. -/
def LRUCache11.as_cache (c : LRUCache11 K V) : LRUCache K V :=
  { capacity_ := c.capacity_, list_ := c.list_, map_ := c.map_ }

/-- The interface of `LRUCache11` in terms of that of `LRUCache`: for `get` and
`peek`, the optional value `v` becomes true with `out = v`, and `nullopt`
becomes false with `out` as it was; other results are the same. -/
def Ret.to11 (out : V) : Ret V → Ret11 V
  | Ret.unit => Ret11.unit
  | Ret.bool b => Ret11.bool b
  | Ret.value (some v) => Ret11.flag true v
  | Ret.value none => Ret11.flag false out

end day7

/-! ## Strings (`training/test1.cpp`)

A `std::string` or `std::string_view` is the list of its characters.  `int` is
32 bits wide; an `int` operation whose result is outside the range of `int` has
no defined result, which the model reports as `none`. -/

namespace test1

/-- The largest value of `int`. -/
def INT_MAX : Int := 2147483647

/-- The loop of `count_words` (lines 59-66) on the characters still to read,
from the current values of `f` and `ans`: the values of `f` and `ans` after the
loop, or `none` when `ans++` overflows. -/
def count_words_loop : List Char → Int → Int → Option (Int × Int)
  | [], f, ans => some (f, ans)
  | c :: rest, f, ans =>
    if c ≠ ' ' then count_words_loop rest 1 ans
    else if f ≠ 0 then
      if ans = INT_MAX then none else count_words_loop rest 0 (ans + 1)
    else count_words_loop rest f ans

/-- `count_words(s)` (lines 56-69): the returned `int`, or `none` when `ans++`
or `ans+f` overflows. -/
def count_words (s : List Char) : Option Int :=
  match count_words_loop s 0 0 with
  | some (f, ans) => if ans + f > INT_MAX then none else some (ans + f)
  | none => none

/-- `s.substr(pos, n)` of `std::string_view`: the characters from index `pos`
on, at most `n` of them; `none` stands for the `std::out_of_range` thrown when
`pos > size()`. -/
def substr (s : List Char) (pos n : Nat) : Option (List Char) :=
  if pos > s.length then none else some ((s.drop pos).take n)

/-- The loop of line 95, `while (l < r && s[l] == ' ') ++l;`, from the current
`l`, run for at most `fuel + 1` evaluations of its condition: the value of `l`
when the condition fails, or `none` when it has not failed by then. -/
def trim_left (s : List Char) (r : Nat) : Nat → Nat → Option Nat
  | 0, l => if l < r ∧ s[l]? = some ' ' then none else some l
  | fuel + 1, l => if l < r ∧ s[l]? = some ' ' then trim_left s r fuel (l + 1) else some l

/-- The loop of line 96, `while (l < r && s[r-1] == ' ') --r;`, from the
current `r`, run for at most `fuel + 1` evaluations of its condition. -/
def trim_right (s : List Char) (l : Nat) : Nat → Nat → Option Nat
  | 0, r => if l < r ∧ s[r - 1]? = some ' ' then none else some r
  | fuel + 1, r => if l < r ∧ s[r - 1]? = some ' ' then trim_right s l fuel (r - 1) else some r

/-- `trim(s)` (lines 92-98).  Each loop is given `s.size()` iterations; `none`
when a loop needs more, or when `substr` throws. -/
def trim (s : List Char) : Option (List Char) :=
  match trim_left s s.length s.length 0 with
  | none => none
  | some l =>
    match trim_right s l s.length s.length with
    | none => none
    | some r => substr s l (r - l)

/-- Whether a character is the space that `trim` and `count_words` test for. -/
def is_space (c : Char) : Bool := c == ' '

/-- The string without its leading and trailing spaces. -/
def strip (s : List Char) : List Char :=
  (s.dropWhile is_space).rdropWhile is_space

/-- The number of maximal runs of characters other than ' ' in a string that
follows a character other than ' ' (`in_run` true) or does not: a run starts at
a character other than ' ' that is not preceded by one. -/
def runs_from : Bool → List Char → Nat
  | _, [] => 0
  | in_run, c :: rest =>
    if c = ' ' then runs_from false rest
    else (if in_run then 0 else 1) + runs_from true rest

/-- The number of maximal runs of characters other than ' '. -/
def runs (s : List Char) : Nat := runs_from false s

/-- The non-empty pieces of the string split on ' '. -/
def pieces (s : List Char) : List (List Char) :=
  (s.splitOn ' ').filter (fun w => !w.isEmpty)

/-- A string of `n` words: "a a ... a ", each word followed by one space. -/
def many_words (n : Nat) : List Char :=
  (List.replicate n ['a', ' ']).flatten

end test1

/-! ## Buffers (`training/test0.cpp`)

An array made by `new int[n]` is the list of its `n` elements; an element that
has not been written yet is `none`.  A `Buffer` object is given with the array
its `data` member points to.  An access outside an array has no defined
effect, which the model reports as `none`. -/

namespace test0

/-- `new int[n]`: an array of `n` elements, none of them written. -/
def new_array (n : Nat) : List (Option Int) :=
  List.replicate n none

/-- `std::copy(src, src + n, dst)`: `dst[j] = src[j]` for every `j < n`, in the
arrays `src` and `dst` point to; `none` when `n` exceeds the length of either
array. -/
def std_copy (src : List (Option Int)) (n : Nat) (dst : List (Option Int)) :
    Option (List (Option Int)) :=
  if n ≤ src.length ∧ n ≤ dst.length then some (src.take n ++ dst.drop n) else none

/-- `struct Buffer_r3` (lines 20-45). -/
structure Buffer_r3 where
  data : List (Option Int)
  size : Nat
deriving DecidableEq, Repr

/-- `struct Buffer_r3_good` (lines 49-75). -/
structure Buffer_r3_good where
  data : List (Option Int)
  size : Nat
deriving DecidableEq, Repr

/-- `struct Buffer_r5_good` (lines 105-148). -/
structure Buffer_r5_good where
  data : List (Option Int)
  size : Nat
deriving DecidableEq, Repr

namespace Buffer_r3

/-- Copy assignment `*this = other` with `this != &other` (lines 32-40): the
new array is allocated, `size` is set to `other.size` (line 36), and then
`size` elements are copied (line 37). -/
def operator_assign (_self other : Buffer_r3) : Option Buffer_r3 :=
  let self1 : Buffer_r3 := { data := new_array other.size, size := other.size }
  match std_copy other.data self1.size self1.data with
  | some data => some { self1 with data := data }
  | none => none

end Buffer_r3

namespace Buffer_r3_good

/-- Constructor `Buffer_r3_good(n)` (lines 53-54). -/
def new (n : Nat) : Buffer_r3_good :=
  { data := new_array n, size := n }

/-- Copy constructor (lines 56-59): `size` is initialised to `other.size`
before the body copies `size` elements. -/
def copy (other : Buffer_r3_good) : Option Buffer_r3_good :=
  let self1 : Buffer_r3_good := { data := new_array other.size, size := other.size }
  match std_copy other.data self1.size self1.data with
  | some data => some { self1 with data := data }
  | none => none

/-- Copy assignment `*this = other` with `this != &other` (lines 61-70).  On
line 64 `size` is the member of `*this`, which is assigned only on line 67: the
number of elements copied into `tmp` is the size of the target before the
assignment. -/
def operator_assign (self other : Buffer_r3_good) : Option Buffer_r3_good :=
  match std_copy other.data self.size (new_array other.size) with
  | some tmp => some { data := tmp, size := other.size }
  | none => none

end Buffer_r3_good

namespace Buffer_r5_good

/-- Constructor `Buffer_r5_good(n)` (lines 109-110). -/
def new (n : Nat) : Buffer_r5_good :=
  { data := new_array n, size := n }

/-- Copy assignment `*this = other` with `this != &other` (lines 117-126); as
in `Buffer_r3_good`, line 120 copies `size` elements with the `size` of the
target before the assignment. -/
def operator_assign (self other : Buffer_r5_good) : Option Buffer_r5_good :=
  match std_copy other.data self.size (new_array other.size) with
  | some tmp => some { data := tmp, size := other.size }
  | none => none

end Buffer_r5_good

end test0

/-! ## The program of `test11.cpp` -/

namespace Test11

/-- What a future yields when its packaged task was destroyed without having
been called: the failure `std::future_error` with code `broken_promise`. -/
def broken_promise : Except String Int :=
  Except.error "std::future_error: broken_promise"

/-- The lambda submitted for index `i` (lines 159-170), the one of
`test10.cpp`: task 5 throws, every other task returns `i * 2`. -/
def task (i : Nat) : Callable :=
  fun _ => if i = 5 then Except.error "error in task 5" else Except.ok ((i : Int) * 2)

/-- One step of worker `i` in `worker_loop` of `test11.cpp` (lines 126-142).
The locked block (lines 129-140) is that of `test10.cpp`.  After it the loop
body ends (line 141) without a call of `task`: the local `task` is destroyed,
and with it the closure that owns the packaged task, so the shared state of the
task, still empty, receives `broken_promise`. -/
def worker_loop (s : FuturePool) (i : Nat) : FuturePool :=
  match s.pool.workers[i]? with
  | some (WorkerThread.running job) =>
    { pool := { s.pool with workers := s.pool.workers.set i WorkerThread.waiting }
      states :=
        match s.states[job.handle]? with
        | some none => s.states.set job.handle (some broken_promise)
        | _ => s.states }
  | _ => { s with pool := (s.pool.worker_loop i).1 }

/-- `ThreadPool pool(3,5)` (line 155). -/
def start : FuturePool := FuturePool.new 3 5

/-- One move of a thread of the program.  `main` calls `submit` (lines 43-68,
the `submit` of `test10.cpp`) for the next index while fewer than ten tasks
have been pushed (lines 157-172); afterwards it reads the futures (lines
174-180), which blocks while one of them is empty, and then calls
`pool.shutdown()` (line 181). -/
def step (s : FuturePool) : Test10.Tick → FuturePool
  | Test10.Tick.main =>
    if s.states.length < 10 then (s.submit (task s.states.length)).1
    else if s.states.all Option.isSome then { s with pool := s.pool.shutdown.1 }
    else s
  | Test10.Tick.worker i => worker_loop s i

/-- Run a schedule of the program. -/
def exec (s : FuturePool) : List Test10.Tick → FuturePool
  | [] => s
  | t :: rest => exec (step s t) rest

/-- Every outcome stored so far is `broken_promise`. -/
def Broken (s : FuturePool) : Prop :=
  ∀ (h : Nat) (r : Except String Int), s.states[h]? = some (some r) → r = broken_promise

end Test11

/-! ## Counting the events of a run -/

/-- Whether a step of `run()` reported that it touched no item: it waited,
woke, ended, or had nothing to do. -/
def SchedEvent.quiet {φ : Type} : SchedEvent φ → Bool
  | SchedEvent.idle => true
  | SchedEvent.sleep _ => true
  | SchedEvent.asleep => true
  | SchedEvent.woke => true
  | SchedEvent.finished => true
  | SchedEvent.skipped => true
  | _ => false

namespace Scheduler

variable {φ : Type}

/-- How many more times the loop can call `pool.submit` for the item `x`
without a new push of `x`: the copies of `x` in the queue, and the popped item
when it is `x` and waits for its call of `pool.submit`. -/
def budget [DecidableEq φ] (x : Item φ) (s : Scheduler φ) : Nat :=
  s.items.count x + (if s.scheduler_thread = SchedulerThread.submitting x then 1 else 0)

end Scheduler

namespace World

variable {φ : Type}

/-- How often an event occurs in the events of a run. -/
def occurrences [DecidableEq φ] (e : WorldEvent φ) (evs : List (Int × WorldEvent φ)) : Nat :=
  (evs.map Prod.snd).count e

/-- Whether an event is a call of `pool.submit` by the loop, accepted by the
pool, for an item that carries the sequence number `q`. -/
def is_submission (q : Nat) : WorldEvent φ → Bool
  | WorldEvent.sched (SchedEvent.submitted y) => decide (y.seq = q)
  | _ => false

/-- The number of accepted submissions of items with sequence number `q`. -/
def submissions (q : Nat) (evs : List (Int × WorldEvent φ)) : Nat :=
  (evs.filter (fun e => is_submission q e.2)).length

end World

/-! ## Following a periodic item through a run -/

namespace Scheduler

variable {φ : Type}

/-- The earliest reading for the submission that follows `n` earlier ones,
when the first is due at `first` and each later due time is at least `step`
after the submission before it. -/
def due (first step : Int) (n : Nat) : Int :=
  first + n * step

/-- What is known, at clock reading `now`, about the item with sequence number
`q` after `n` accepted submissions of it: at most one item with this number is
pending or in flight, it carries the callable `f` and the stored interval `m`
(in milliseconds), and its due time, or the reading at which it was popped, is
at least `due first (m * TICKS_PER_MS) n`; the last submission, if any, was
made at `due first (m * TICKS_PER_MS) (n - 1)` or later; and the counter `seq`
is past `q`. -/
structure Periodic (q : Nat) (f : φ) (m first : Int) (s : Scheduler φ) (n : Nat) (now : Int) :
    Prop where
  unique : s.held.countP (fun y => decide (y.seq = q)) ≤ 1
  known : ∀ y ∈ s.held, y.seq = q → y.func = f ∧ y.interval = m
  pending : ∀ y ∈ s.items, y.seq = q → due first (m * TICKS_PER_MS) n ≤ y.when
  submitting : ∀ y, s.scheduler_thread = SchedulerThread.submitting y → y.seq = q →
    due first (m * TICKS_PER_MS) n ≤ now
  submitted : ∀ y, s.scheduler_thread = SchedulerThread.submitted y → y.seq = q → 1 ≤ n
  reinserting : ∀ y, s.scheduler_thread = SchedulerThread.reinserting y → y.seq = q →
    due first (m * TICKS_PER_MS) n ≤ y.when
  reached : ∀ k, n = k + 1 → due first (m * TICKS_PER_MS) k ≤ now
  fresh : q < s.seq

end Scheduler

namespace World

/-- A schedule on a pool of one worker and capacity 4.  A periodic item is
posted at reading 0 with an interval of 1.5 ms (1500000 ticks).  The loop pops
it at reading 1500000, submits it at 1500010, and at 1500020 gives it the next
due time; the stored interval is 1 ms, so that is 2500020.  The item is pushed
back at 1500030, popped again at 2500020 and submitted a second time at
2500030. -/
def short_period : List (Int × WorldAction Nat) :=
  [(0, WorldAction.post_every 1500000 1), (1500000, WorldAction.run), (1500010, WorldAction.run),
    (1500020, WorldAction.run), (1500030, WorldAction.run), (2500020, WorldAction.run),
    (2500030, WorldAction.run)]

end World

namespace World

/-- The moves of the loop after `post_every` of 1 ms at reading 0: it pops the
item at reading 1000000, submits it at 1000020, gives it the next due time at
1000100, pushes it back at 1000110, pops it again at 2000100 and submits it at
2000120. -/
def steady_period : List (Int × WorldAction Nat) :=
  [(1000000, WorldAction.run), (1000020, WorldAction.run), (1000100, WorldAction.run),
    (1000110, WorldAction.run), (2000100, WorldAction.run), (2000120, WorldAction.run)]

end World

/-! ## ThreadPool: lemmas -/

namespace ThreadPool

variable {τ : Type}

theorem step_max_queue_size (p : ThreadPool τ) (a : PoolAction τ) :
    (p.step a).1.max_queue_size = p.max_queue_size := by
  cases a <;> simp only [step, submit, worker_loop, shutdown, join] <;>
    repeat (first | rfl | split)

theorem step_bounded (p : ThreadPool τ) (a : PoolAction τ)
    (h : p.tasks.length ≤ p.max_queue_size) :
    (p.step a).1.tasks.length ≤ (p.step a).1.max_queue_size := by
  cases a with
  | submit task =>
    simp only [step, submit]
    split
    · split
      · exact h
      · rename_i h1 h2
        simp only [Bool.or_eq_true, decide_eq_true_eq] at h1
        simp only [List.length_append, List.length_singleton]
        rcases h1 with h1 | h1
        · exact absurd h1 h2
        · omega
    · exact h
  | worker i =>
    simp only [step, worker_loop]
    split
    · split
      · split
        · exact h
        · split
          · rename_i heq
            rw [heq] at h
            simp only [List.length_cons] at h
            simp only
            omega
          · exact h
      · exact h
    all_goals exact h
  | shutdown =>
    simp only [step, shutdown]
    split <;> exact h
  | join i =>
    simp only [step, join]
    split <;> exact h

theorem exec_bounded (acts : List (PoolAction τ)) (p : ThreadPool τ)
    (h : p.tasks.length ≤ p.max_queue_size) :
    (p.exec acts).1.tasks.length ≤ (p.exec acts).1.max_queue_size := by
  induction acts generalizing p with
  | nil => exact h
  | cons a rest ih => exact ih (p.step a).1 (step_bounded p a h)

theorem exec_max_queue_size (acts : List (PoolAction τ)) (p : ThreadPool τ) :
    (p.exec acts).1.max_queue_size = p.max_queue_size := by
  induction acts generalizing p with
  | nil => rfl
  | cons a rest ih =>
    show ((p.step a).1.exec rest).1.max_queue_size = _
    rw [ih, step_max_queue_size]

end ThreadPool

namespace ThreadPool

variable {τ : Type}

theorem submit_enqueued_iff (p : ThreadPool τ) (task : τ) :
    (p.submit task).2 = PoolEvent.enqueued task ↔
      p.stop = false ∧ p.tasks.length < p.max_queue_size := by
  unfold submit
  cases hs : p.stop <;> by_cases hl : p.tasks.length < p.max_queue_size <;> simp [hl]

theorem submit_full (p : ThreadPool τ) (task : τ) (hs : p.stop = false)
    (hl : p.max_queue_size ≤ p.tasks.length) : p.submit task = (p, PoolEvent.blocked) := by
  unfold submit
  have : ¬ p.tasks.length < p.max_queue_size := by omega
  simp [hs, this]

theorem submit_stopped (p : ThreadPool τ) (task : τ) (hs : p.stop = true) :
    p.submit task = (p, PoolEvent.threw "ThreadPool stopped") := by
  unfold submit
  simp [hs]

theorem submit_room (p : ThreadPool τ) (task : τ) (hs : p.stop = false)
    (hl : p.tasks.length < p.max_queue_size) :
    p.submit task = ({ p with tasks := p.tasks ++ [task] }, PoolEvent.enqueued task) := by
  unfold submit
  simp [hs, hl]

theorem worker_loop_dequeue (p : ThreadPool τ) (i : Nat) (task : τ) (rest : List τ)
    (hw : p.workers[i]? = some WorkerThread.waiting) (ht : p.tasks = task :: rest) :
    p.worker_loop i =
      ({ p with workers := p.workers.set i (WorkerThread.running task), tasks := rest },
        PoolEvent.dequeued i task) := by
  unfold worker_loop
  rw [hw]
  simp [ht]

theorem worker_loop_run (p : ThreadPool τ) (i : Nat) (task : τ)
    (hw : p.workers[i]? = some (WorkerThread.running task)) :
    p.worker_loop i =
      ({ p with workers := p.workers.set i WorkerThread.waiting }, PoolEvent.ran i task) := by
  unfold worker_loop
  rw [hw]

theorem worker_loop_exit (p : ThreadPool τ) (i : Nat)
    (hw : p.workers[i]? = some WorkerThread.waiting) (hs : p.stop = true) (ht : p.tasks = []) :
    p.worker_loop i =
      ({ p with workers := p.workers.set i WorkerThread.exited }, PoolEvent.exited i) := by
  unfold worker_loop
  rw [hw]
  simp [hs, ht]

theorem worker_loop_idle (p : ThreadPool τ) (i : Nat)
    (hw : p.workers[i]? = some WorkerThread.waiting) (hs : p.stop = false) (ht : p.tasks = []) :
    p.worker_loop i = (p, PoolEvent.blocked) := by
  unfold worker_loop
  rw [hw]
  simp [hs, ht]

/-- C1: the queue of a pool never holds more than `max_queue_size` tasks. In
every state that a schedule of submit, worker, shutdown and join moves reaches
from the constructor, `tasks.size() <= max_queue_size`, and the capacity is the
one given at construction. `submit` pushes exactly when `stop` is false and
`tasks.size() < max_queue_size`; against a full queue of a running pool it
blocks and leaves the state as it is, and once a worker has popped a task from
that full queue the same `submit` pushes. -/
theorem bounded_queue (threadCnt maxQueue : Nat) (acts : List (PoolAction τ)) :
    ((new threadCnt maxQueue : ThreadPool τ).exec acts).1.tasks.length ≤ maxQueue
    ∧ ((new threadCnt maxQueue : ThreadPool τ).exec acts).1.max_queue_size = maxQueue
    ∧ (∀ (p : ThreadPool τ) (task : τ),
        (p.submit task).2 = PoolEvent.enqueued task ↔
          p.stop = false ∧ p.tasks.length < p.max_queue_size)
    ∧ (∀ (p : ThreadPool τ) (task : τ),
        (p.submit task).2 ≠ PoolEvent.enqueued task → (p.submit task).1 = p)
    ∧ (∀ (p : ThreadPool τ) (task : τ), p.stop = false → p.max_queue_size ≤ p.tasks.length →
        p.submit task = (p, PoolEvent.blocked))
    ∧ (∀ (p : ThreadPool τ) (task : τ) (i : Nat), p.stop = false →
        p.tasks.length = p.max_queue_size → p.tasks ≠ [] →
        p.workers[i]? = some WorkerThread.waiting →
        (∃ front, (p.worker_loop i).2 = PoolEvent.dequeued i front) ∧
        ((p.worker_loop i).1.submit task).2 = PoolEvent.enqueued task ∧
        ((p.worker_loop i).1.submit task).1.tasks = p.tasks.tail ++ [task]) := by
  have hmax := exec_max_queue_size acts (new threadCnt maxQueue : ThreadPool τ)
  have hb := exec_bounded acts (new threadCnt maxQueue : ThreadPool τ) (by simp [new])
  refine ⟨?_, hmax, submit_enqueued_iff, ?_, submit_full, ?_⟩
  · rw [hmax] at hb
    exact hb
  · intro p task h
    have h2 := (not_congr (submit_enqueued_iff p task)).mp h
    unfold submit
    cases hs : p.stop
    · have hl : ¬ p.tasks.length < p.max_queue_size := fun hl => h2 ⟨hs, hl⟩
      simp [hl]
    · simp
  · intro p task i hs hl hne hw
    obtain ⟨front, rest, ht⟩ : ∃ front rest, p.tasks = front :: rest := by
      cases hp : p.tasks with
      | nil => exact absurd hp hne
      | cons a l => exact ⟨a, l, rfl⟩
    rw [worker_loop_dequeue p i front rest hw ht]
    have hlen : rest.length < p.max_queue_size := by
      rw [← hl, ht]
      simp
    refine ⟨⟨front, rfl⟩, ?_, ?_⟩
    · rw [submit_enqueued_iff]
      exact ⟨hs, hlen⟩
    · have hsub := submit_room
        { p with workers := p.workers.set i (WorkerThread.running front), tasks := rest }
        task hs hlen
      simp only [hsub, ht, List.tail_cons]

/-- The bound of C1 on a run of a pool of two workers and capacity 1: two
submissions, the second against the full queue, then a worker step. -/
theorem bounded_queue_witness :
    ((new 2 1 : ThreadPool Nat).exec
        [PoolAction.submit 7, PoolAction.submit 8, PoolAction.worker 0, PoolAction.submit 8]).1.tasks.length
      ≤ 1
    ∧ ((new 2 1 : ThreadPool Nat).exec
        [PoolAction.submit 7, PoolAction.submit 8, PoolAction.worker 0, PoolAction.submit 8]).2
      = [PoolEvent.enqueued 7, PoolEvent.blocked, PoolEvent.dequeued 0 7, PoolEvent.enqueued 8]
    ∧ ((new 2 1 : ThreadPool Nat).exec [PoolAction.submit 7]).1.submit 8
      = (((new 2 1 : ThreadPool Nat).exec [PoolAction.submit 7]).1, PoolEvent.blocked) :=
  ⟨(bounded_queue 2 1
      [PoolAction.submit 7, PoolAction.submit 8, PoolAction.worker 0, PoolAction.submit 8]).1,
    by decide,
    (bounded_queue 2 1 ([] : List (PoolAction Nat))).2.2.2.2.1
      ((new 2 1 : ThreadPool Nat).exec [PoolAction.submit 7]).1 8 rfl (by decide)⟩

end ThreadPool

namespace ThreadPool

variable {τ : Type}

theorem exec_cons (p : ThreadPool τ) (a : PoolAction τ) (rest : List (PoolAction τ)) :
    p.exec (a :: rest) =
      (((p.step a).1.exec rest).1, (p.step a).2 :: ((p.step a).1.exec rest).2) := rfl

theorem exec_append (p : ThreadPool τ) (xs ys : List (PoolAction τ)) :
    p.exec (xs ++ ys) =
      (((p.exec xs).1.exec ys).1, (p.exec xs).2 ++ ((p.exec xs).1.exec ys).2) := by
  induction xs generalizing p with
  | nil => rfl
  | cons a rest ih => simp only [List.cons_append, exec_cons, ih]

theorem accepted_cons (e : PoolEvent τ) (log : List (PoolEvent τ)) :
    accepted (e :: log) = accepted [e] ++ accepted log := by
  cases e <;> simp [accepted]

theorem removed_cons (e : PoolEvent τ) (log : List (PoolEvent τ)) :
    removed (e :: log) = removed [e] ++ removed log := by
  cases e <;> simp [removed]

theorem accepted_append (xs ys : List (PoolEvent τ)) :
    accepted (xs ++ ys) = accepted xs ++ accepted ys := by
  induction xs with
  | nil => rfl
  | cons e rest ih =>
    rw [List.cons_append, accepted_cons, ih, accepted_cons e rest, List.append_assoc]

theorem removed_append (xs ys : List (PoolEvent τ)) :
    removed (xs ++ ys) = removed xs ++ removed ys := by
  induction xs with
  | nil => rfl
  | cons e rest ih =>
    rw [List.cons_append, removed_cons, ih, removed_cons e rest, List.append_assoc]

/-- A step moves tasks only from `submit` to the back of the queue and from
the front of the queue to a worker. -/
theorem step_fifo (p : ThreadPool τ) (a : PoolAction τ) :
    removed [(p.step a).2] ++ (p.step a).1.tasks = p.tasks ++ accepted [(p.step a).2] := by
  cases a with
  | submit task =>
    simp only [step, submit]
    split
    · split <;> simp [removed, accepted]
    · simp [removed, accepted]
  | worker i =>
    simp only [step, worker_loop]
    split
    · split
      · split
        · simp [removed, accepted]
        · split
          · rename_i heq
            simp [removed, accepted, heq]
          · simp [removed, accepted]
      · simp [removed, accepted]
    all_goals simp [removed, accepted]
  | shutdown =>
    simp only [step, shutdown]
    split <;> simp [removed, accepted]
  | join i =>
    simp only [step, join]
    split <;> simp [removed, accepted]

theorem exec_fifo (acts : List (PoolAction τ)) (p : ThreadPool τ) :
    removed (p.exec acts).2 ++ (p.exec acts).1.tasks = p.tasks ++ accepted (p.exec acts).2 := by
  induction acts generalizing p with
  | nil => simp [exec, removed, accepted]
  | cons a rest ih =>
    rw [exec_cons]
    simp only
    rw [removed_cons, accepted_cons, List.append_assoc, ih, ← List.append_assoc, step_fifo,
      List.append_assoc]

theorem step_stop (p : ThreadPool τ) (a : PoolAction τ) (h : p.stop = true) :
    (p.step a).1.stop = true := by
  cases a <;> simp only [step, submit, worker_loop, shutdown, join] <;>
    repeat (first | exact h | rfl | split)

theorem exec_stop (acts : List (PoolAction τ)) (p : ThreadPool τ) (h : p.stop = true) :
    (p.exec acts).1.stop = true := by
  induction acts generalizing p with
  | nil => exact h
  | cons a rest ih => exact ih (p.step a).1 (step_stop p a h)

theorem drain_succ (i n : Nat) :
    (drain i (n + 1) : List (PoolAction τ)) =
      PoolAction.worker i :: PoolAction.worker i :: drain i n := by
  unfold drain
  have : 2 * (n + 1) + 1 = (2 * n + 1) + 1 + 1 := by omega
  rw [this, List.replicate_succ, List.replicate_succ]

/-- A waiting worker of a stopped pool that steps alone pops and calls every
queued task, front first, and then returns. -/
theorem exec_drain (ts : List τ) (p : ThreadPool τ) (i : Nat) (ht : p.tasks = ts)
    (hw : p.workers[i]? = some WorkerThread.waiting) (hs : p.stop = true) :
    (p.exec (drain i ts.length)).2 = drained i ts ++ [PoolEvent.exited i]
    ∧ (p.exec (drain i ts.length)).1.tasks = []
    ∧ (p.exec (drain i ts.length)).1.workers[i]? = some WorkerThread.exited := by
  have hi : i < p.workers.length := by
    by_contra hc
    rw [List.getElem?_eq_none (by omega)] at hw
    exact absurd hw (by simp)
  induction ts generalizing p with
  | nil =>
    have h1 := worker_loop_exit p i hw hs ht
    simp only [List.length_nil, drain, Nat.mul_zero, Nat.zero_add, List.replicate_one, exec_cons,
      step, h1, exec, drained, List.nil_append, ht, true_and]
    simp [hi]
  | cons task rest ih =>
    rw [List.length_cons, drain_succ, exec_cons, exec_cons]
    have h1 := worker_loop_dequeue p i task rest hw ht
    have hw1 : (p.workers.set i (WorkerThread.running task))[i]? =
        some (WorkerThread.running task) := by simp [hi]
    have h2 := worker_loop_run
      { p with workers := p.workers.set i (WorkerThread.running task), tasks := rest } i task hw1
    simp only [step, h1, h2]
    have hw2 : ((p.workers.set i (WorkerThread.running task)).set i WorkerThread.waiting)[i]? =
        some WorkerThread.waiting := by simp [hi]
    have := ih
      { p with
        workers := (p.workers.set i (WorkerThread.running task)).set i WorkerThread.waiting
        tasks := rest } rfl hw2 hs (by simpa using hi)
    simp only [drained, List.cons_append]
    exact ⟨by rw [this.1], this.2.1, this.2.2⟩

end ThreadPool

namespace ThreadPool

variable {τ : Type}

/-- C2: strict FIFO, exactly once. For every schedule run from the
constructor, the tasks popped by the workers, in pop order, followed by the
tasks still queued, are exactly the tasks pushed by `submit`, in push order.
So the popped sequence is an initial segment of the accepted sequence, the
k-th pop returns the k-th accepted task (none twice, none skipped), and the
two sequences are equal whenever the queue is empty; after `stop` is set a
waiting worker that steps alone empties the queue, which makes them equal. -/
theorem strict_fifo (threadCnt maxQueue : Nat) (acts : List (PoolAction τ)) :
    removed ((new threadCnt maxQueue : ThreadPool τ).exec acts).2
        ++ ((new threadCnt maxQueue : ThreadPool τ).exec acts).1.tasks
      = accepted ((new threadCnt maxQueue : ThreadPool τ).exec acts).2
    ∧ removed ((new threadCnt maxQueue : ThreadPool τ).exec acts).2
      <+: accepted ((new threadCnt maxQueue : ThreadPool τ).exec acts).2
    ∧ (∀ k, k < (removed ((new threadCnt maxQueue : ThreadPool τ).exec acts).2).length →
        (removed ((new threadCnt maxQueue : ThreadPool τ).exec acts).2)[k]?
          = (accepted ((new threadCnt maxQueue : ThreadPool τ).exec acts).2)[k]?)
    ∧ (((new threadCnt maxQueue : ThreadPool τ).exec acts).1.tasks = [] →
        removed ((new threadCnt maxQueue : ThreadPool τ).exec acts).2
          = accepted ((new threadCnt maxQueue : ThreadPool τ).exec acts).2)
    ∧ (∀ i, ((new threadCnt maxQueue : ThreadPool τ).exec acts).1.stop = true →
        ((new threadCnt maxQueue : ThreadPool τ).exec acts).1.workers[i]?
          = some WorkerThread.waiting →
        ((new threadCnt maxQueue : ThreadPool τ).exec
            (acts ++ drain i ((new threadCnt maxQueue : ThreadPool τ).exec acts).1.tasks.length)).1.tasks
          = []
        ∧ removed ((new threadCnt maxQueue : ThreadPool τ).exec
            (acts ++ drain i ((new threadCnt maxQueue : ThreadPool τ).exec acts).1.tasks.length)).2
          = accepted ((new threadCnt maxQueue : ThreadPool τ).exec
            (acts ++ drain i ((new threadCnt maxQueue : ThreadPool τ).exec acts).1.tasks.length)).2) := by
  have key : ∀ acts : List (PoolAction τ),
      removed ((new threadCnt maxQueue : ThreadPool τ).exec acts).2
        ++ ((new threadCnt maxQueue : ThreadPool τ).exec acts).1.tasks
      = accepted ((new threadCnt maxQueue : ThreadPool τ).exec acts).2 := by
    intro acts
    have h := exec_fifo acts (new threadCnt maxQueue : ThreadPool τ)
    simpa [new] using h
  refine ⟨key acts, ⟨_, key acts⟩, ?_, ?_, ?_⟩
  · intro k hk
    rw [← key acts, List.getElem?_append_left hk]
  · intro h
    have := key acts
    rw [h, List.append_nil] at this
    exact this
  · intro i hs hw
    have hd := exec_drain _ _ i rfl hw hs
    have htasks : ((new threadCnt maxQueue : ThreadPool τ).exec
        (acts ++ drain i ((new threadCnt maxQueue : ThreadPool τ).exec acts).1.tasks.length)).1.tasks
          = [] := by
      rw [exec_append]
      exact hd.2.1
    refine ⟨htasks, ?_⟩
    have := key (acts ++ drain i ((new threadCnt maxQueue : ThreadPool τ).exec acts).1.tasks.length)
    rw [htasks, List.append_nil] at this
    exact this

/-- The FIFO law of C2 on a run of a pool of two workers and capacity 2: three
submissions, one against the full queue, interleaved with both workers. -/
theorem strict_fifo_witness :
    removed ((new 2 2 : ThreadPool Nat).exec
        [PoolAction.submit 1, PoolAction.submit 2, PoolAction.submit 3, PoolAction.worker 1,
          PoolAction.submit 3, PoolAction.worker 0, PoolAction.worker 1]).2
      <+: accepted ((new 2 2 : ThreadPool Nat).exec
        [PoolAction.submit 1, PoolAction.submit 2, PoolAction.submit 3, PoolAction.worker 1,
          PoolAction.submit 3, PoolAction.worker 0, PoolAction.worker 1]).2
    ∧ removed ((new 2 2 : ThreadPool Nat).exec
        [PoolAction.submit 1, PoolAction.submit 2, PoolAction.submit 3, PoolAction.worker 1,
          PoolAction.submit 3, PoolAction.worker 0, PoolAction.worker 1]).2 = [1, 2]
    ∧ accepted ((new 2 2 : ThreadPool Nat).exec
        [PoolAction.submit 1, PoolAction.submit 2, PoolAction.submit 3, PoolAction.worker 1,
          PoolAction.submit 3, PoolAction.worker 0, PoolAction.worker 1]).2 = [1, 2, 3] :=
  ⟨(strict_fifo 2 2 _).2.1, by decide, by decide⟩

/-- C3: a stopped pool rejects every submission. In every state whose `stop`
flag is true, whatever the queue holds, `submit` throws
`std::runtime_error("ThreadPool stopped")` and leaves the state as it is. This
holds right after `shutdown` and after any further moves, and for a submitter
that was blocked on the full queue of a running pool when `shutdown` set the
flag: its next evaluation throws and the queue is the one it found full. -/
theorem submit_fails_when_stopped :
    (∀ (p : ThreadPool τ) (task : τ), p.stop = true →
        p.submit task = (p, PoolEvent.threw "ThreadPool stopped"))
    ∧ (∀ (p : ThreadPool τ) (task : τ) (acts : List (PoolAction τ)),
        (p.shutdown.1.exec acts).1.submit task
          = ((p.shutdown.1.exec acts).1, PoolEvent.threw "ThreadPool stopped"))
    ∧ (∀ (p : ThreadPool τ) (task : τ), p.stop = false → p.max_queue_size ≤ p.tasks.length →
        p.submit task = (p, PoolEvent.blocked)
        ∧ p.shutdown.1.submit task = (p.shutdown.1, PoolEvent.threw "ThreadPool stopped")
        ∧ p.shutdown.1.tasks = p.tasks) := by
  have hsd : ∀ p : ThreadPool τ, p.shutdown.1.stop = true := by
    intro p
    unfold shutdown
    split
    · assumption
    · rfl
  refine ⟨submit_stopped, ?_, ?_⟩
  · intro p task acts
    exact submit_stopped _ task (exec_stop acts _ (hsd p))
  · intro p task hs hl
    refine ⟨submit_full p task hs hl, submit_stopped _ task (hsd p), ?_⟩
    simp [shutdown, hs]

/-- The rejection of C3 on a pool of capacity 1 whose queue is full when
`shutdown` runs. -/
theorem submit_fails_when_stopped_witness :
    ({ workers := [WorkerThread.waiting], tasks := [4], stop := true, max_queue_size := 1 } :
        ThreadPool Nat).submit 5
      = ({ workers := [WorkerThread.waiting], tasks := [4], stop := true, max_queue_size := 1 },
          PoolEvent.threw "ThreadPool stopped") :=
  submit_fails_when_stopped.1 _ 5 rfl

/-- C4: drain on shutdown. A worker returns from `worker_loop` only in a state
where `stop` is true and the queue is empty. In a state where `stop` is true
and the queue is not empty, the step of a waiting worker pops the front task
and its next step calls that task. No step removes a task from the queue other
than a pop by a worker, and a waiting worker of a stopped pool that steps alone
pops and calls every queued task in order before it returns. -/
theorem drain_on_shutdown :
    (∀ (p : ThreadPool τ) (i j : Nat), (p.worker_loop i).2 = PoolEvent.exited j →
        p.stop = true ∧ p.tasks = [] ∧ p.workers[i]? = some WorkerThread.waiting)
    ∧ (∀ (p : ThreadPool τ) (i : Nat) (task : τ) (rest : List τ), p.stop = true →
        p.tasks = task :: rest → p.workers[i]? = some WorkerThread.waiting →
        (p.worker_loop i).2 = PoolEvent.dequeued i task
        ∧ (p.worker_loop i).1.tasks = rest
        ∧ (p.worker_loop i).1.workers[i]? = some (WorkerThread.running task)
        ∧ ((p.worker_loop i).1.worker_loop i).2 = PoolEvent.ran i task)
    ∧ (∀ (p : ThreadPool τ) (a : PoolAction τ),
        removed [(p.step a).2] ++ (p.step a).1.tasks = p.tasks ++ accepted [(p.step a).2])
    ∧ (∀ (p : ThreadPool τ) (i : Nat), p.stop = true →
        p.workers[i]? = some WorkerThread.waiting →
        (p.exec (drain i p.tasks.length)).2 = drained i p.tasks ++ [PoolEvent.exited i]
        ∧ (p.exec (drain i p.tasks.length)).1.tasks = []) := by
  refine ⟨?_, ?_, step_fifo, ?_⟩
  · intro p i j h
    unfold worker_loop at h
    split at h
    · rename_i hw
      split at h
      · split at h
        · rename_i h1 h2
          simp only [Bool.and_eq_true, List.isEmpty_iff] at h2
          exact ⟨h2.1, h2.2, hw⟩
        · split at h <;> simp at h
      · simp at h
    all_goals simp at h
  · intro p i task rest hs ht hw
    have hi : i < p.workers.length := by
      by_contra hc
      rw [List.getElem?_eq_none (by omega)] at hw
      exact absurd hw (by simp)
    have h1 := worker_loop_dequeue p i task rest hw ht
    have hw1 : (p.workers.set i (WorkerThread.running task))[i]? =
        some (WorkerThread.running task) := by simp [hi]
    have h2 := worker_loop_run
      { p with workers := p.workers.set i (WorkerThread.running task), tasks := rest } i task hw1
    rw [h1]
    exact ⟨rfl, rfl, hw1, by rw [h2]⟩
  · intro p i hs hw
    have := exec_drain p.tasks p i rfl hw hs
    exact ⟨this.1, this.2.1⟩

/-- The drain of C4 on a stopped pool that still holds two tasks. -/
theorem drain_on_shutdown_witness :
    (({ workers := [WorkerThread.waiting], tasks := [4, 5], stop := true, max_queue_size := 2 } :
        ThreadPool Nat).exec (drain 0 2)).2
      = [PoolEvent.dequeued 0 4, PoolEvent.ran 0 4, PoolEvent.dequeued 0 5, PoolEvent.ran 0 5,
          PoolEvent.exited 0] :=
  (drain_on_shutdown.2.2.2
    ({ workers := [WorkerThread.waiting], tasks := [4, 5], stop := true, max_queue_size := 2 } :
      ThreadPool Nat) 0 rfl rfl).1

end ThreadPool

/-! ## Scheduler: lemmas -/

namespace Scheduler

variable {φ : Type}

theorem wrap_eq (x : Int) (h : representable x) : wrap x = x := by
  unfold representable INT64_MIN INT64_MAX at h
  unfold wrap INT64_MOD INT64_MIN
  omega

theorem wrap_representable (x : Int) : representable (wrap x) := by
  unfold representable wrap INT64_MOD INT64_MIN INT64_MAX
  omega

theorem plus_eq (t d : Int) (h : representable (t + d)) : plus t d = t + d :=
  wrap_eq _ h

theorem tdiv_representable (d : Int) (h : representable d) :
    representable (Int.tdiv d TICKS_PER_MS) := by
  unfold representable INT64_MIN INT64_MAX at h ⊢
  unfold TICKS_PER_MS
  rcases Int.le_total 0 d with h0 | h0
  · rw [Int.tdiv_eq_ediv h0 (by omega)]
    omega
  · have hn : Int.tdiv d 1000000 = -(Int.tdiv (-d) 1000000) := by
      rw [Int.neg_tdiv, neg_neg]
    rw [hn, Int.tdiv_eq_ediv (by omega) (by omega)]
    omega

theorem to_ms_eq (d : Int) (h : representable d) : to_ms d = Int.tdiv d TICKS_PER_MS :=
  wrap_eq _ (tdiv_representable d h)

theorem run_stop (s : Scheduler φ) (pool : ThreadPool φ) (now : Int) :
    (s.run pool now).1.stop = s.stop := by
  unfold run
  repeat (first | rfl | split)

theorem run_seq (s : Scheduler φ) (pool : ThreadPool φ) (now : Int) :
    (s.run pool now).1.seq = s.seq := by
  unfold run
  repeat (first | rfl | split)

theorem sched_shutdown_stop (s : Scheduler φ) : s.shutdown.1.stop = true := by
  unfold shutdown
  split
  · assumption
  · rfl

theorem sched_shutdown_stopped (s : Scheduler φ) (h : s.stop = true) :
    s.shutdown = (s, SchedEvent.returned) := by
  unfold shutdown
  simp [h]

end Scheduler

namespace ThreadPool

variable {τ : Type}

theorem shutdown_stop (p : ThreadPool τ) : p.shutdown.1.stop = true := by
  unfold shutdown
  split
  · assumption
  · rfl

theorem shutdown_stopped (p : ThreadPool τ) (h : p.stop = true) :
    p.shutdown = (p, PoolEvent.returned) := by
  unfold shutdown
  simp [h]

/-- A step changes `stop` only when it is the step of `shutdown` on a running
pool, which sets it. -/
theorem step_stop_cases (p : ThreadPool τ) (a : PoolAction τ) :
    (p.step a).1.stop = p.stop ∨
      (a = PoolAction.shutdown ∧ p.stop = false ∧ (p.step a).1.stop = true) := by
  cases a with
  | submit task =>
    left
    simp only [step, submit]
    repeat (first | rfl | split)
  | worker i =>
    left
    simp only [step, worker_loop]
    repeat (first | rfl | split)
  | shutdown =>
    cases hs : p.stop
    · right
      exact ⟨rfl, rfl, by simp [step, shutdown, hs]⟩
    · left
      simp [step, shutdown, hs]
  | join i =>
    left
    simp only [step, join]
    repeat (first | rfl | split)

end ThreadPool

namespace World

variable {φ : Type}

theorem world_exec_cons (w : World φ) (a : Int × WorldAction φ) (rest : List (Int × WorldAction φ)) :
    w.exec (a :: rest) =
      (((w.step a.1 a.2).1.exec rest).1,
        (a.1, (w.step a.1 a.2).2) :: ((w.step a.1 a.2).1.exec rest).2) := rfl

/-- A move changes the `stop` flag of the scheduler only when it is the step of
`Scheduler::shutdown` on a running scheduler, which sets it. -/
theorem step_sched_stop_cases (w : World φ) (now : Int) (a : WorldAction φ) :
    (w.step now a).1.sched.stop = w.sched.stop ∨
      (a = WorldAction.shutdown ∧ w.sched.stop = false ∧ (w.step now a).1.sched.stop = true) := by
  cases a with
  | post f => left; rfl
  | post_after delay f => left; rfl
  | post_every interval f => left; rfl
  | run => left; exact Scheduler.run_stop _ _ _
  | shutdown =>
    cases hs : w.sched.stop
    · right
      exact ⟨rfl, rfl, by simp [step, Scheduler.shutdown, hs]⟩
    · left
      simp [step, Scheduler.shutdown, hs]
  | join =>
    left
    simp only [step, Scheduler.join]
    repeat (first | rfl | split)
  | pool a => left; rfl

theorem step_sched_stop (w : World φ) (now : Int) (a : WorldAction φ) (h : w.sched.stop = true) :
    (w.step now a).1.sched.stop = true := by
  rcases step_sched_stop_cases w now a with h1 | h1
  · rw [h1, h]
  · exact h1.2.2

theorem exec_sched_stop (acts : List (Int × WorldAction φ)) (w : World φ)
    (h : w.sched.stop = true) : (w.exec acts).1.sched.stop = true := by
  induction acts generalizing w with
  | nil => exact h
  | cons a rest ih => exact ih (w.step a.1 a.2).1 (step_sched_stop w a.1 a.2 h)

/-- C5: `shutdown` is idempotent on `ThreadPool` and on `Scheduler`. On a
state whose `stop` flag is already true the locked block returns at once and
the state (flag, queue, threads) is the one it found; so a second `shutdown`,
right after the first or after any further moves of the other threads, changes
nothing. No move ever resets `stop`: a move that changes the flag is the step
of `shutdown` on a running instance, and it sets the flag. -/
theorem shutdown_idempotent :
    (∀ p : ThreadPool φ, p.stop = true → p.shutdown = (p, PoolEvent.returned))
    ∧ (∀ p : ThreadPool φ, p.shutdown.1.shutdown = (p.shutdown.1, PoolEvent.returned))
    ∧ (∀ (p : ThreadPool φ) (acts : List (PoolAction φ)),
        (p.shutdown.1.exec acts).1.shutdown = ((p.shutdown.1.exec acts).1, PoolEvent.returned))
    ∧ (∀ (p : ThreadPool φ) (a : PoolAction φ), (p.step a).1.stop ≠ p.stop →
        a = PoolAction.shutdown ∧ p.stop = false ∧ (p.step a).1.stop = true)
    ∧ (∀ s : Scheduler φ, s.stop = true → s.shutdown = (s, SchedEvent.returned))
    ∧ (∀ s : Scheduler φ, s.shutdown.1.shutdown = (s.shutdown.1, SchedEvent.returned))
    ∧ (∀ (w : World φ) (now : Int) (acts : List (Int × WorldAction φ)),
        ((w.step now WorldAction.shutdown).1.exec acts).1.sched.shutdown
          = (((w.step now WorldAction.shutdown).1.exec acts).1.sched, SchedEvent.returned))
    ∧ (∀ (w : World φ) (now : Int) (a : WorldAction φ), (w.step now a).1.sched.stop ≠ w.sched.stop →
        a = WorldAction.shutdown ∧ w.sched.stop = false ∧ (w.step now a).1.sched.stop = true) := by
  refine ⟨ThreadPool.shutdown_stopped, ?_, ?_, ?_, Scheduler.sched_shutdown_stopped, ?_, ?_, ?_⟩
  · intro p
    exact ThreadPool.shutdown_stopped _ (ThreadPool.shutdown_stop p)
  · intro p acts
    exact ThreadPool.shutdown_stopped _ (ThreadPool.exec_stop acts _ (ThreadPool.shutdown_stop p))
  · intro p a h
    rcases ThreadPool.step_stop_cases p a with h1 | h1
    · exact absurd h1 h
    · exact h1
  · intro s
    exact Scheduler.sched_shutdown_stopped _ (Scheduler.sched_shutdown_stop s)
  · intro w now acts
    exact Scheduler.sched_shutdown_stopped _ (exec_sched_stop acts _ (Scheduler.sched_shutdown_stop w.sched))
  · intro w now a h
    rcases step_sched_stop_cases w now a with h1 | h1
    · exact absurd h1 h
    · exact h1

/-- The idempotence of C5 on a stopped pool with a queued task and on a
stopped scheduler with a pending item. -/
theorem shutdown_idempotent_witness :
    ({ workers := [WorkerThread.waiting], tasks := [4], stop := true, max_queue_size := 1 } :
        ThreadPool Nat).shutdown
      = ({ workers := [WorkerThread.waiting], tasks := [4], stop := true, max_queue_size := 1 },
          PoolEvent.returned)
    ∧ ({ items := [{ when := 3, func := 4, interval := 0, seq := 0 }], stop := true,
          scheduler_thread := SchedulerThread.sleeping 3, seq := 1 } : Scheduler Nat).shutdown
      = ({ items := [{ when := 3, func := 4, interval := 0, seq := 0 }], stop := true,
           scheduler_thread := SchedulerThread.sleeping 3, seq := 1 }, SchedEvent.returned) :=
  ⟨shutdown_idempotent.1 _ rfl, shutdown_idempotent.2.2.2.2.1 _ rfl⟩

end World

namespace ThreadPool

variable {τ : Type}

theorem step_accepted_zero (p : ThreadPool τ) (a : PoolAction τ) (h : p.max_queue_size = 0) :
    accepted [(p.step a).2] = [] := by
  cases a with
  | submit task =>
    simp only [step, submit, h, Nat.not_lt_zero, decide_False, Bool.or_false]
    split <;> rfl
  | worker i =>
    simp only [step, worker_loop]
    repeat (first | rfl | split)
  | shutdown =>
    simp only [step, shutdown]
    split <;> rfl
  | join i =>
    simp only [step, join]
    repeat (first | rfl | split)

theorem exec_accepted_zero (acts : List (PoolAction τ)) (p : ThreadPool τ)
    (h : p.max_queue_size = 0) : accepted (p.exec acts).2 = [] := by
  induction acts generalizing p with
  | nil => rfl
  | cons a rest ih =>
    rw [exec_cons]
    simp only
    rw [accepted_cons, step_accepted_zero p a h, ih _ (by rw [step_max_queue_size, h])]
    rfl

/-- C7 fails as stated: a pool built with `max_queue_size = 0` that is not
stopped and whose only worker is idle does not accept a submission; `submit`
blocks and the state stays as it was. -/
theorem capacity_zero_blocks :
    (new 1 0 : ThreadPool Nat).stop = false
    ∧ (new 1 0 : ThreadPool Nat).workers[0]? = some WorkerThread.waiting
    ∧ (new 1 0 : ThreadPool Nat).tasks = []
    ∧ (new 1 0 : ThreadPool Nat).submit 7 = (new 1 0, PoolEvent.blocked)
    ∧ ¬ ((new 1 0 : ThreadPool Nat).submit 7).2 = PoolEvent.enqueued 7 := by
  decide

/-- C7, amended: with `max_queue_size = 0` the wait predicate of `submit` is
`stop` alone, so `submit` never pushes and hands no task to a worker: on a
running pool it blocks with the state unchanged, whether or not a worker is
idle, and on a stopped pool it throws "ThreadPool stopped". In every run of a
pool built with capacity 0 no submission is accepted, no worker pops a task
and the queue stays empty. -/
theorem capacity_zero_never_accepts :
    (∀ (p : ThreadPool τ) (task : τ), p.max_queue_size = 0 →
        (p.stop = false → p.submit task = (p, PoolEvent.blocked))
        ∧ (p.stop = true → p.submit task = (p, PoolEvent.threw "ThreadPool stopped")))
    ∧ (∀ (threadCnt : Nat) (acts : List (PoolAction τ)),
        accepted ((new threadCnt 0 : ThreadPool τ).exec acts).2 = []
        ∧ removed ((new threadCnt 0 : ThreadPool τ).exec acts).2 = []
        ∧ ((new threadCnt 0 : ThreadPool τ).exec acts).1.tasks = []) := by
  constructor
  · intro p task h
    exact ⟨fun hs => submit_full p task hs (by omega), submit_stopped p task⟩
  · intro threadCnt acts
    have ha := exec_accepted_zero acts (new threadCnt 0 : ThreadPool τ) rfl
    have hf := exec_fifo acts (new threadCnt 0 : ThreadPool τ)
    rw [ha] at hf
    simp only [new, List.append_nil, List.append_eq_nil] at hf
    exact ⟨ha, hf.1, hf.2⟩

/-- The amended C7 on a pool of one worker and capacity 0: the submission
blocks, the idle worker finds nothing, and after `shutdown` the submission
throws. -/
theorem capacity_zero_never_accepts_witness :
    ((new 1 0 : ThreadPool Nat).exec
        [PoolAction.submit 7, PoolAction.worker 0, PoolAction.shutdown, PoolAction.submit 7]).2
      = [PoolEvent.blocked, PoolEvent.blocked, PoolEvent.stopped,
          PoolEvent.threw "ThreadPool stopped"]
    ∧ accepted ((new 1 0 : ThreadPool Nat).exec
        [PoolAction.submit 7, PoolAction.worker 0, PoolAction.shutdown, PoolAction.submit 7]).2
      = []
    ∧ (new 1 0 : ThreadPool Nat).submit 7 = (new 1 0, PoolEvent.blocked) :=
  ⟨by decide, (capacity_zero_never_accepts.2 1 _).1,
    (capacity_zero_never_accepts.1 (new 1 0 : ThreadPool Nat) 7 rfl).1 rfl⟩

end ThreadPool

/-! ## Futures: lemmas -/

namespace FuturePool

theorem running_of_set {τ : Type} {ws : List (WorkerThread τ)} {i k : Nat} {w : WorkerThread τ}
    {job : τ} (h : (ws.set i w)[k]? = some (WorkerThread.running job)) :
    (k = i ∧ w = WorkerThread.running job) ∨ (k ≠ i ∧ ws[k]? = some (WorkerThread.running job)) := by
  by_cases hk : i = k
  · subst hk
    left
    rw [List.getElem?_set] at h
    simp only [if_true] at h
    split at h
    · exact ⟨rfl, by simpa using h⟩
    · simp at h
  · right
    rw [List.getElem?_set_ne hk] at h
    exact ⟨fun e => hk e.symm, h⟩

theorem cell_lt {α : Type} {l : List α} {h : Nat} {x : α} (hx : l[h]? = some x) : h < l.length := by
  by_contra hc
  rw [List.getElem?_eq_none (by omega)] at hx
  simp at hx

theorem cell_append {α : Type} {l : List α} {h : Nat} {x : α} (y : α) (hx : l[h]? = some x) :
    (l ++ [y])[h]? = some x := by
  rw [List.getElem?_append_left (cell_lt hx)]
  exact hx

/-- Replacing a worker by one that holds no task keeps `Fresh`. -/
theorem Fresh.set_idle {ws : List (WorkerThread PackagedTask)} {ts : List PackagedTask}
    {st : List (Option (Except String Int))} (h : Fresh ws ts st) (i : Nat)
    (w : WorkerThread PackagedTask) (hw : ∀ job, w ≠ WorkerThread.running job) :
    Fresh (ws.set i w) ts st := by
  have key : ∀ (k : Nat) (job : PackagedTask), (ws.set i w)[k]? = some (WorkerThread.running job) →
      ws[k]? = some (WorkerThread.running job) := by
    intro k job hk
    rcases running_of_set hk with h1 | h1
    · exact absurd h1.2 (hw job)
    · exact h1.2
  exact
    { queued_empty := h.queued_empty
      running_empty := fun k job hk => h.running_empty k job (key k job hk)
      queued_distinct := h.queued_distinct
      running_queued := fun k job hk => h.running_queued k job (key k job hk)
      running_distinct := fun k m job other hk hm =>
        h.running_distinct k m job other (key k job hk) (key m other hm) }

/-- Pushing a task whose shared state is new keeps `Fresh`. -/
theorem Fresh.push {ws : List (WorkerThread PackagedTask)} {ts : List PackagedTask}
    {st : List (Option (Except String Int))} (h : Fresh ws ts st) (f : Callable) :
    Fresh ws (ts ++ [{ handle := st.length, fn := f }]) (st ++ [none]) := by
  refine
    { queued_empty := ?_
      running_empty := fun k job hk => cell_append none (h.running_empty k job hk)
      queued_distinct := ?_
      running_queued := ?_
      running_distinct := h.running_distinct }
  · intro job hj
    rcases List.mem_append.mp hj with hj | hj
    · exact cell_append none (h.queued_empty job hj)
    · rw [List.mem_singleton] at hj
      subst hj
      exact List.getElem?_concat_length st none
  · rw [List.pairwise_append]
    refine ⟨h.queued_distinct, List.pairwise_singleton _ _, ?_⟩
    intro a ha b hb
    rw [List.mem_singleton] at hb
    subst hb
    exact Nat.ne_of_lt (cell_lt (h.queued_empty a ha))
  · intro k job hk other ho
    rcases List.mem_append.mp ho with ho | ho
    · exact h.running_queued k job hk other ho
    · rw [List.mem_singleton] at ho
      subst ho
      exact Nat.ne_of_gt (cell_lt (h.running_empty k job hk))

/-- A waiting worker that pops the front task keeps `Fresh`. -/
theorem Fresh.pop {ws : List (WorkerThread PackagedTask)} {ts : List PackagedTask}
    {st : List (Option (Except String Int))} {front : PackagedTask}
    (h : Fresh ws (front :: ts) st) (i : Nat) :
    Fresh (ws.set i (WorkerThread.running front)) ts st := by
  have hp := List.pairwise_cons.mp h.queued_distinct
  have key : ∀ (k : Nat) (job : PackagedTask),
      (ws.set i (WorkerThread.running front))[k]? = some (WorkerThread.running job) →
      (k = i ∧ job = front) ∨ (k ≠ i ∧ ws[k]? = some (WorkerThread.running job)) := by
    intro k job hk
    rcases running_of_set hk with h1 | h1
    · left
      exact ⟨h1.1, by injection h1.2 with e; exact e.symm⟩
    · right
      exact h1
  refine
    { queued_empty := fun job hj => h.queued_empty job (List.mem_cons_of_mem _ hj)
      running_empty := ?_
      queued_distinct := hp.2
      running_queued := ?_
      running_distinct := ?_ }
  · intro k job hk
    rcases key k job hk with h1 | h1
    · rw [h1.2]
      exact h.queued_empty front (List.mem_cons_self _ _)
    · exact h.running_empty k job h1.2
  · intro k job hk other ho
    rcases key k job hk with h1 | h1
    · rw [h1.2]
      exact fun e => hp.1 other ho e.symm
    · exact h.running_queued k job h1.2 other (List.mem_cons_of_mem _ ho)
  · intro k m job other hk hm he
    rcases key k job hk with h1 | h1 <;> rcases key m other hm with h2 | h2
    · rw [h1.1, h2.1]
    · rw [h1.2] at he
      exact absurd he (h.running_queued m other h2.2 front (List.mem_cons_self _ _))
    · rw [h2.2] at he
      exact absurd he.symm (h.running_queued k job h1.2 front (List.mem_cons_self _ _))
    · exact h.running_distinct k m job other h1.2 h2.2 he

/-- A worker that calls its task, storing the outcome, keeps `Fresh`. -/
theorem Fresh.store {ws : List (WorkerThread PackagedTask)} {ts : List PackagedTask}
    {st : List (Option (Except String Int))} (h : Fresh ws ts st) (i : Nat) (job : PackagedTask)
    (hw : ws[i]? = some (WorkerThread.running job)) (r : Option (Except String Int)) :
    Fresh (ws.set i WorkerThread.waiting) ts (st.set job.handle r) := by
  have key : ∀ (k : Nat) (other : PackagedTask),
      (ws.set i WorkerThread.waiting)[k]? = some (WorkerThread.running other) →
      k ≠ i ∧ ws[k]? = some (WorkerThread.running other) := by
    intro k other hk
    rcases running_of_set hk with h1 | h1
    · exact absurd h1.2 (by simp)
    · exact h1
  refine
    { queued_empty := ?_
      running_empty := ?_
      queued_distinct := h.queued_distinct
      running_queued := fun k other hk => h.running_queued k other (key k other hk).2
      running_distinct := fun k m a b hk hm =>
        h.running_distinct k m a b (key k a hk).2 (key m b hm).2 }
  · intro other ho
    rw [List.getElem?_set_ne (fun e => h.running_queued i job hw other ho e.symm)]
    exact h.queued_empty other ho
  · intro k other hk
    have hk2 := key k other hk
    rw [List.getElem?_set_ne (fun e => hk2.1 (h.running_distinct k i other job hk2.2 hw e.symm))]
    exact h.running_empty k other hk2.2

end FuturePool

namespace FuturePool

theorem future_exec_cons (s : FuturePool) (a : PoolAction Callable) (rest : List (PoolAction Callable)) :
    s.exec (a :: rest) =
      (((s.step a).1.exec rest).1, (s.step a).2 :: ((s.step a).1.exec rest).2) := rfl

theorem future_submit_room (s : FuturePool) (f : Callable) (hs : s.pool.stop = false)
    (hl : s.pool.tasks.length < s.pool.max_queue_size) :
    s.submit f =
      ({ pool := { s.pool with tasks := s.pool.tasks ++ [{ handle := s.states.length, fn := f }] }
         states := s.states ++ [none] },
        PoolEvent.enqueued { handle := s.states.length, fn := f }) := by
  unfold submit
  rw [ThreadPool.submit_room _ _ hs hl]

theorem submit_no_room (s : FuturePool) (f : Callable)
    (h : s.pool.stop = true ∨ s.pool.max_queue_size ≤ s.pool.tasks.length) :
    (s.submit f).1 = s := by
  unfold submit
  cases hs : s.pool.stop
  · rcases h with h | h
    · rw [hs] at h
      exact absurd h (by simp)
    · rw [ThreadPool.submit_full _ _ hs h]
  · rw [ThreadPool.submit_stopped _ _ hs]

theorem worker_loop_store (s : FuturePool) (i : Nat) (job : PackagedTask)
    (hw : s.pool.workers[i]? = some (WorkerThread.running job))
    (hc : s.states[job.handle]? = some none) :
    s.worker_loop i =
      ({ pool := { s.pool with workers := s.pool.workers.set i WorkerThread.waiting }
         states := s.states.set job.handle (some (job.fn ())) },
        PoolEvent.ran i job) := by
  unfold worker_loop
  rw [hw]
  simp only [hc, ThreadPool.worker_loop_run _ _ _ hw]

theorem worker_loop_other (s : FuturePool) (i : Nat)
    (hw : ∀ job, s.pool.workers[i]? ≠ some (WorkerThread.running job)) :
    s.worker_loop i = ({ s with pool := (s.pool.worker_loop i).1 }, (s.pool.worker_loop i).2) := by
  unfold worker_loop
  split
  · rename_i job h
    exact absurd h (hw job)
  · rfl

/-- The pool part of a worker step from a state where the worker holds no
task: the queue loses its front or stays, the worker changes alone. -/
theorem pool_worker_loop_cases {τ : Type} (p : ThreadPool τ) (i : Nat)
    (hw : ∀ job, p.workers[i]? ≠ some (WorkerThread.running job)) :
    (p.worker_loop i).1 = p
    ∨ (∃ w, (∀ job, w ≠ WorkerThread.running job) ∧
        (p.worker_loop i).1 = { p with workers := p.workers.set i w })
    ∨ (∃ front rest, p.tasks = front :: rest ∧
        (p.worker_loop i).1 =
          { p with workers := p.workers.set i (WorkerThread.running front), tasks := rest }) := by
  unfold ThreadPool.worker_loop
  split
  · split
    · split
      · right
        left
        exact ⟨WorkerThread.exited, by simp, rfl⟩
      · split
        · rename_i front rest heq
          right
          right
          exact ⟨front, rest, heq, rfl⟩
        · left
          rfl
    · left
      rfl
  · rename_i job h
    exact absurd h (hw job)
  all_goals exact Or.inl rfl

theorem step_fresh (s : FuturePool) (a : PoolAction Callable)
    (h : Fresh s.pool.workers s.pool.tasks s.states) :
    Fresh (s.step a).1.pool.workers (s.step a).1.pool.tasks (s.step a).1.states := by
  cases a with
  | submit f =>
    simp only [step]
    by_cases hr : s.pool.stop = false ∧ s.pool.tasks.length < s.pool.max_queue_size
    · rw [future_submit_room s f hr.1 hr.2]
      exact h.push f
    · rw [submit_no_room s f]
      · exact h
      · cases hs : s.pool.stop
        · right
          exact Nat.le_of_not_lt (fun hl => hr ⟨hs, hl⟩)
        · left
          rfl
  | worker i =>
    simp only [step]
    by_cases hw : ∃ job, s.pool.workers[i]? = some (WorkerThread.running job)
    · obtain ⟨job, hw⟩ := hw
      rw [worker_loop_store s i job hw (h.running_empty i job hw)]
      exact h.store i job hw _
    · have hw2 : ∀ job, s.pool.workers[i]? ≠ some (WorkerThread.running job) :=
        fun job hj => hw ⟨job, hj⟩
      rw [worker_loop_other s i hw2]
      rcases pool_worker_loop_cases s.pool i hw2 with h1 | ⟨w, hw3, h1⟩ | ⟨front, rest, ht, h1⟩
      · simp only [h1]
        exact h
      · simp only [h1]
        exact h.set_idle i w hw3
      · simp only [h1]
        rw [ht] at h
        exact h.pop i
  | shutdown =>
    simp only [step, ThreadPool.shutdown]
    split <;> exact h
  | join i =>
    simp only [step, ThreadPool.join]
    split
    · exact h.set_idle i _ (by simp)
    all_goals exact h

theorem exec_fresh (acts : List (PoolAction Callable)) (s : FuturePool)
    (h : Fresh s.pool.workers s.pool.tasks s.states) :
    Fresh (s.exec acts).1.pool.workers (s.exec acts).1.pool.tasks (s.exec acts).1.states := by
  induction acts generalizing s with
  | nil => exact h
  | cons a rest ih => exact ih (s.step a).1 (step_fresh s a h)

theorem new_fresh (threadCnt maxQueue : Nat) :
    Fresh (new threadCnt maxQueue).pool.workers (new threadCnt maxQueue).pool.tasks
      (new threadCnt maxQueue).states := by
  refine
    { queued_empty := by simp [new, ThreadPool.new]
      running_empty := ?_
      queued_distinct := by simp [new, ThreadPool.new]
      running_queued := by simp [new, ThreadPool.new]
      running_distinct := ?_ }
  · intro i job hw
    have := List.getElem?_mem hw
    simp [new, ThreadPool.new, List.mem_replicate] at this
  · intro i k job other hw
    have := List.getElem?_mem hw
    simp [new, ThreadPool.new, List.mem_replicate] at this

/-- A stored outcome is never replaced. -/
theorem step_stored (s : FuturePool) (a : PoolAction Callable) (h : Nat) (r : Except String Int)
    (hr : s.states[h]? = some (some r)) : (s.step a).1.states[h]? = some (some r) := by
  cases a with
  | submit f =>
    simp only [step, submit]
    split
    · exact cell_append none hr
    · exact hr
  | worker i =>
    simp only [step, worker_loop]
    split
    · split
      · rename_i job hw hc
        simp only
        rw [List.getElem?_set_ne]
        · exact hr
        · intro e
          rw [e, hr] at hc
          simp at hc
      · exact hr
    · exact hr
  | shutdown => exact hr
  | join i => exact hr

end FuturePool

namespace FuturePool

theorem submit_meets (expected : Nat → Except String Int) (s : FuturePool) (f : Callable)
    (h : Meets expected s) (hf : f () = expected s.states.length) :
    Meets expected (s.submit f).1 := by
  by_cases hr : s.pool.stop = false ∧ s.pool.tasks.length < s.pool.max_queue_size
  · rw [future_submit_room s f hr.1 hr.2]
    refine { queued := ?_, running := h.running, stored := ?_ }
    · intro job hj
      rcases List.mem_append.mp hj with hj | hj
      · exact h.queued job hj
      · rw [List.mem_singleton] at hj
        subst hj
        exact hf
    · intro k r hk
      simp only [List.getElem?_append] at hk
      split at hk
      · exact h.stored k r hk
      · cases hn : k - s.states.length with
        | zero =>
          rw [hn] at hk
          simp at hk
        | succ n =>
          rw [hn] at hk
          simp at hk
  · rw [submit_no_room s f]
    · exact h
    · cases hs : s.pool.stop
      · right
        exact Nat.le_of_not_lt (fun hl => hr ⟨hs, hl⟩)
      · left
        rfl

theorem worker_loop_meets (expected : Nat → Except String Int) (s : FuturePool) (i : Nat)
    (h : Meets expected s) : Meets expected (s.worker_loop i).1 := by
  by_cases hw : ∃ job, s.pool.workers[i]? = some (WorkerThread.running job)
  · obtain ⟨job, hw⟩ := hw
    have hrun : ∀ (w : WorkerThread PackagedTask), (∀ other, w ≠ WorkerThread.running other) →
        ∀ (k : Nat) (other : PackagedTask),
          (s.pool.workers.set i w)[k]? = some (WorkerThread.running other) →
          other.fn () = expected other.handle := by
      intro w hne k other hk
      rcases running_of_set hk with h1 | h1
      · exact absurd h1.2 (hne other)
      · exact h.running k other h1.2
    unfold worker_loop
    rw [hw]
    simp only
    split
    · rw [ThreadPool.worker_loop_run _ _ _ hw]
      refine { queued := h.queued, running := ?_, stored := ?_ }
      · exact hrun _ (by simp)
      · intro k r hk
        simp only [List.getElem?_set] at hk
        split at hk
        · rename_i e
          split at hk
          · simp only [Option.some.injEq] at hk
            rw [← hk, ← e]
            exact h.running i job hw
          · simp at hk
        · exact h.stored k r hk
    · exact { queued := h.queued, running := hrun _ (by simp), stored := h.stored }
  · have hw2 : ∀ job, s.pool.workers[i]? ≠ some (WorkerThread.running job) :=
      fun job hj => hw ⟨job, hj⟩
    rw [worker_loop_other s i hw2]
    rcases pool_worker_loop_cases s.pool i hw2 with h1 | ⟨w, hw3, h1⟩ | ⟨front, rest, ht, h1⟩
    · simp only [h1]
      exact h
    · simp only [h1]
      refine { queued := h.queued, running := ?_, stored := h.stored }
      intro k other hk
      rcases running_of_set hk with h2 | h2
      · exact absurd h2.2 (hw3 other)
      · exact h.running k other h2.2
    · simp only [h1]
      refine { queued := ?_, running := ?_, stored := h.stored }
      · intro job hj
        exact h.queued job (by rw [ht]; exact List.mem_cons_of_mem _ hj)
      · intro k other hk
        rcases running_of_set hk with h2 | h2
        · have e : front = other := by injection h2.2
          rw [← e]
          exact h.queued front (by rw [ht]; exact List.mem_cons_self _ _)
        · exact h.running k other h2.2

end FuturePool

namespace Test10

theorem task_expected (i : Nat) : task i () = expected i := by
  unfold task expected
  split
  · rfl
  · rw [mul_comm]

theorem step_meets (s : FuturePool) (t : Tick) (h : FuturePool.Meets expected s) :
    FuturePool.Meets expected (step s t) := by
  cases t with
  | main =>
    simp only [step]
    split
    · exact FuturePool.submit_meets expected s _ h (task_expected _)
    · split
      · simp only [ThreadPool.shutdown]
        split
        · exact h
        · exact { queued := h.queued, running := h.running, stored := h.stored }
      · exact h
  | worker i => exact FuturePool.worker_loop_meets expected s i h

theorem exec_meets (ticks : List Tick) (s : FuturePool) (h : FuturePool.Meets expected s) :
    FuturePool.Meets expected (exec s ticks) := by
  induction ticks generalizing s with
  | nil => exact h
  | cons t rest ih => exact ih (step s t) (step_meets s t h)

theorem start_meets : FuturePool.Meets expected start := by
  refine { queued := ?_, running := ?_, stored := ?_ }
  · simp [start, FuturePool.new, ThreadPool.new]
  · intro i job hw
    have := List.getElem?_mem hw
    simp [start, FuturePool.new, ThreadPool.new, List.mem_replicate] at this
  · simp [start, FuturePool.new]

set_option maxRecDepth 100000 in
/-- The schedule `fair` stores all ten outcomes and then stops the pool. -/
theorem fair_outcomes :
    (exec start fair).states =
        [some (Except.ok 0), some (Except.ok 2), some (Except.ok 4), some (Except.ok 6),
          some (Except.ok 8), some (Except.error "error in task 5"), some (Except.ok 12),
          some (Except.ok 14), some (Except.ok 16), some (Except.ok 18)]
    ∧ (exec start fair).pool.stop = true ∧ (exec start fair).pool.tasks.length = 0 :=
  ⟨rfl, rfl, rfl⟩

end Test10

namespace FuturePool

/-- C6: task failure is captured, not propagated. In every state that a
schedule reaches from the constructor, a worker that holds a task submitted
through `submit` finds the shared state of that task empty; its step stores
there, and nowhere else, what the callable returned or the failure it threw,
and in both cases puts the worker back at the loop head, from where its next
step pops the next queued task. A stored outcome is never replaced by a later
step, so each shared state is written once. In the program of `test10.cpp`
every outcome that any schedule stores for `i = 0..9` is `i * 2` for
`i != 5` and the failure "error in task 5" for `i = 5`, and the schedule that
gives each thread its turn stores all ten of them before `main` reads them. -/
theorem task_failure_captured :
    (∀ (threadCnt maxQueue : Nat) (acts : List (PoolAction Callable)) (s : FuturePool)
        (i : Nat) (job : PackagedTask), s = ((new threadCnt maxQueue).exec acts).1 →
        s.pool.workers[i]? = some (WorkerThread.running job) →
        s.states[job.handle]? = some none
        ∧ (s.worker_loop i).2 = PoolEvent.ran i job
        ∧ (s.worker_loop i).1.states = s.states.set job.handle (some (job.fn ()))
        ∧ (s.worker_loop i).1.states[job.handle]? = some (some (job.fn ()))
        ∧ (s.worker_loop i).1.pool.workers[i]? = some WorkerThread.waiting
        ∧ (s.worker_loop i).1.pool.tasks = s.pool.tasks
        ∧ (s.worker_loop i).1.pool.stop = s.pool.stop
        ∧ (∀ next rest, s.pool.tasks = next :: rest →
            ((s.worker_loop i).1.worker_loop i).2 = PoolEvent.dequeued i next))
    ∧ (∀ (s : FuturePool) (a : PoolAction Callable) (h : Nat) (r : Except String Int),
        s.states[h]? = some (some r) → (s.step a).1.states[h]? = some (some r))
    ∧ (∀ (ticks : List Test10.Tick) (i : Nat) (r : Except String Int),
        (Test10.exec Test10.start ticks).states[i]? = some (some r) →
        r = if i = 5 then Except.error "error in task 5" else Except.ok (2 * (i : Int)))
    ∧ (Test10.exec Test10.start Test10.fair).states =
        [some (Except.ok 0), some (Except.ok 2), some (Except.ok 4), some (Except.ok 6),
          some (Except.ok 8), some (Except.error "error in task 5"), some (Except.ok 12),
          some (Except.ok 14), some (Except.ok 16), some (Except.ok 18)] := by
  refine ⟨?_, step_stored, ?_, Test10.fair_outcomes.1⟩
  · intro threadCnt maxQueue acts s i job hs hw
    have hf : Fresh s.pool.workers s.pool.tasks s.states := by
      rw [hs]
      exact exec_fresh acts _ (new_fresh threadCnt maxQueue)
    have hc := hf.running_empty i job hw
    have hi : i < s.pool.workers.length := cell_lt hw
    have hh : job.handle < s.states.length := cell_lt hc
    rw [worker_loop_store s i job hw hc]
    refine ⟨hc, rfl, rfl, by simp [hh], by simp [hi], rfl, rfl, ?_⟩
    intro next rest ht
    have hw2 : ∀ other, (s.pool.workers.set i WorkerThread.waiting)[i]? ≠
        some (WorkerThread.running other) := by
      intro other
      simp [hi]
    rw [worker_loop_other _ i hw2]
    simp only
    have hd := ThreadPool.worker_loop_dequeue
      { s.pool with workers := s.pool.workers.set i WorkerThread.waiting } i next rest
      (by simp [hi]) ht
    rw [hd]
  · intro ticks i r h
    exact (Test10.exec_meets ticks _ Test10.start_meets).stored i r h

/-- The capture of C6 on the state reached in `test10.cpp` when worker 0 holds
task 0: its step stores the value 0 and the worker is back at the loop head. -/
theorem task_failure_captured_witness :
    (((new 3 5).exec [PoolAction.submit (Test10.task 0), PoolAction.worker 0]).1.worker_loop 0).1.states
      = [some (Except.ok 0)]
    ∧ (((new 3 5).exec [PoolAction.submit (Test10.task 0), PoolAction.worker 0]).1.worker_loop
        0).1.pool.workers[0]? = some WorkerThread.waiting := by
  have h := task_failure_captured.1 3 5 [PoolAction.submit (Test10.task 0), PoolAction.worker 0]
    _ 0 { handle := 0, fn := Test10.task 0 } rfl rfl
  exact ⟨h.2.2.1, h.2.2.2.2.1⟩

end FuturePool

/-! ## Scheduler: the order of the pending queue -/

namespace Scheduler

variable {φ : Type}

theorem Cmp_iff (a b : Item φ) :
    Cmp a b = true ↔ b.when < a.when ∨ (b.when = a.when ∧ b.seq < a.seq) := by
  unfold Cmp
  split
  · rename_i h
    simp only [gt_iff_lt, decide_eq_true_eq]
    constructor
    · exact Or.inl
    · rintro (h1 | h1)
      · exact h1
      · exact absurd h1.1.symm h
  · rename_i h
    simp only [ne_eq, Decidable.not_not] at h
    simp only [gt_iff_lt, decide_eq_true_eq, h, lt_self_iff_false, true_and, false_or]

theorem Cmp_false_iff (a b : Item φ) :
    Cmp a b = false ↔ a.when < b.when ∨ (a.when = b.when ∧ a.seq ≤ b.seq) := by
  rw [← Bool.not_eq_true, Cmp_iff]
  constructor
  · intro h
    by_cases h1 : a.when < b.when
    · exact Or.inl h1
    · right
      have h2 : ¬ b.when < a.when := fun e => h (Or.inl e)
      have h3 : a.when = b.when := by omega
      refine ⟨h3, ?_⟩
      by_contra h4
      exact h (Or.inr ⟨h3.symm, by omega⟩)
  · rintro (h | h) (h1 | h1) <;> omega

theorem top_ne_nil (items : List (Item φ)) (h : items ≠ []) : ∃ t, top items = some t := by
  cases items with
  | nil => exact absurd rfl h
  | cons x xs =>
    unfold top
    split
    · exact ⟨x, rfl⟩
    · split
      · exact ⟨_, rfl⟩
      · exact ⟨x, rfl⟩

theorem top_eq_none (items : List (Item φ)) (h : top items = none) : items = [] := by
  cases items with
  | nil => rfl
  | cons x xs =>
    obtain ⟨t, ht⟩ := top_ne_nil (x :: xs) (by simp)
    rw [h] at ht
    exact absurd ht (by simp)

theorem top_mem (items : List (Item φ)) (t : Item φ) (h : top items = some t) : t ∈ items := by
  induction items generalizing t with
  | nil => simp [top] at h
  | cons x xs ih =>
    unfold top at h
    split at h
    · simp only [Option.some.injEq] at h
      rw [← h]
      exact List.mem_cons_self _ _
    · rename_i m hm
      split at h
      · simp only [Option.some.injEq] at h
        rw [← h]
        exact List.mem_cons_of_mem _ (ih m hm)
      · simp only [Option.some.injEq] at h
        rw [← h]
        exact List.mem_cons_self _ _

theorem top_first (items : List (Item φ)) (t : Item φ) (h : top items = some t) :
    ∀ z ∈ items, Cmp t z = false := by
  induction items generalizing t with
  | nil => simp [top] at h
  | cons x xs ih =>
    unfold top at h
    split at h
    · rename_i hn
      simp only [Option.some.injEq] at h
      rw [top_eq_none xs hn, ← h]
      intro z hz
      rw [List.mem_singleton] at hz
      rw [hz, Cmp_false_iff]
      exact Or.inr ⟨rfl, le_refl _⟩
    · rename_i m hm
      have hxs := ih m hm
      split at h
      · rename_i hc
        simp only [Option.some.injEq] at h
        rw [← h]
        intro z hz
        rcases List.mem_cons.mp hz with hz | hz
        · rw [hz, Cmp_false_iff]
          rw [Cmp_iff] at hc
          rcases hc with hc | hc
          · exact Or.inl hc
          · exact Or.inr ⟨hc.1, by omega⟩
        · exact hxs z hz
      · rename_i hc
        simp only [Option.some.injEq] at h
        rw [← h]
        have hc2 : Cmp x m = false := by simpa using hc
        intro z hz
        rcases List.mem_cons.mp hz with hz | hz
        · rw [hz, Cmp_false_iff]
          exact Or.inr ⟨rfl, le_refl _⟩
        · have h1 := hxs z hz
          rw [Cmp_false_iff] at hc2 h1 ⊢
          rcases hc2 with hc2 | hc2 <;> rcases h1 with h1 | h1 <;> omega

theorem pop_subset (items : List (Item φ)) : ∀ z ∈ pop items, z ∈ items := by
  induction items with
  | nil => simp [pop]
  | cons x xs ih =>
    intro z hz
    unfold pop at hz
    split at hz
    · simp at hz
    · split at hz
      · rcases List.mem_cons.mp hz with hz | hz
        · rw [hz]
          exact List.mem_cons_self _ _
        · exact List.mem_cons_of_mem _ (ih z hz)
      · exact List.mem_cons_of_mem _ hz

theorem pop_perm (items : List (Item φ)) (t : Item φ) (h : top items = some t) :
    List.Perm items (t :: pop items) := by
  induction items generalizing t with
  | nil => simp [top] at h
  | cons x xs ih =>
    unfold top at h
    unfold pop
    split at h
    · rename_i hn
      simp only [Option.some.injEq] at h
      rw [top_eq_none xs hn, h]
    · rename_i m hm
      split at h
      · rename_i hc
        simp only [Option.some.injEq] at h
        simp only [hc, if_true]
        rw [← h]
        exact ((ih m hm).cons x).trans (List.Perm.swap m x _)
      · rename_i hc
        simp only [Option.some.injEq] at h
        simp only [hc]
        rw [← h]
        exact List.Perm.refl _

/-- What the loop head does when it pops: the scheduler is running, the item is
the one `top` returns, it is due, and `pop` removes it. -/
theorem run_popped (s : Scheduler φ) (pool : ThreadPool φ) (now : Int) (item : Item φ)
    (h : (s.run pool now).2.2 = SchedEvent.popped item) :
    s.scheduler_thread = SchedulerThread.looping ∧ s.stop = false ∧ top s.items = some item
    ∧ item.when ≤ now ∧ (s.run pool now).1.items = pop s.items
    ∧ (s.run pool now).1.scheduler_thread = SchedulerThread.submitting item := by
  cases hth : s.scheduler_thread with
  | looping =>
    unfold run at h ⊢
    rw [hth] at h ⊢
    simp only at h ⊢
    cases hst : s.stop
    · cases hx : top s.items with
      | none => simp [hst, hx] at h
      | some x =>
        by_cases hdue : x.when > now
        · simp [hst, hx, hdue] at h
        · simp only [hst, hx, hdue, if_false, Bool.false_eq_true, SchedEvent.popped.injEq] at h ⊢
          subst h
          exact ⟨trivial, trivial, rfl, by omega, trivial, rfl⟩
    · simp [hst] at h
  | sleeping next =>
    unfold run at h
    rw [hth] at h
    simp only at h
    split at h
    · simp at h
    · split at h <;> simp at h
  | submitting x =>
    unfold run at h
    rw [hth] at h
    simp only at h
    split at h <;> simp at h
  | submitted x =>
    unfold run at h
    rw [hth] at h
    simp only at h
    split at h <;> simp at h
  | reinserting x =>
    unfold run at h
    rw [hth] at h
    simp at h
  | finished =>
    unfold run at h
    rw [hth] at h
    simp at h
  | failed what =>
    unfold run at h
    rw [hth] at h
    simp at h
  | joined =>
    unfold run at h
    rw [hth] at h
    simp at h

end Scheduler

namespace Scheduler

variable {φ : Type}

end Scheduler

/-! ## Scheduler: items across steps -/

namespace Scheduler

variable {φ : Type}

theorem add_task_held (s : Scheduler φ) (when : Int) (func : φ) (interval : Int) (x : Item φ)
    (h : x ∈ (s.add_task when func interval).1.held) :
    x ∈ s.held ∨ x = { when := when, func := func, interval := interval, seq := s.seq } := by
  simp only [add_task, held, in_flight, push, List.mem_append, List.mem_singleton] at h ⊢
  rcases h with (h | h) | h
  · exact Or.inl (Or.inl h)
  · exact Or.inr h
  · exact Or.inl (Or.inr h)

/-- An item the scheduler holds after a step of `run` was held before, or is
the periodic item in flight with its next due time. -/
theorem run_held (s : Scheduler φ) (pool : ThreadPool φ) (now : Int) (x : Item φ)
    (h : x ∈ (s.run pool now).1.held) :
    x ∈ s.held ∨
      ∃ x0, s.scheduler_thread = SchedulerThread.submitted x0 ∧ 0 < x0.interval ∧
        x = { x0 with when := plus now (x0.interval * TICKS_PER_MS) } := by
  cases hth : s.scheduler_thread with
  | looping =>
    left
    unfold run at h
    rw [hth] at h
    simp only at h
    cases hst : s.stop
    · cases hx : top s.items with
      | none =>
        simp only [hst, hx, Bool.false_eq_true, if_false] at h
        exact h
      | some t =>
        by_cases hdue : t.when > now
        · simp only [hst, hx, hdue, Bool.false_eq_true, if_false, if_true, held, in_flight,
            List.append_nil] at h
          exact List.mem_append_left _ h
        · simp only [hst, hx, hdue, Bool.false_eq_true, if_false, held, in_flight,
            List.mem_append, List.mem_singleton] at h
          rcases h with h | h
          · exact List.mem_append_left _ (pop_subset s.items x h)
          · rw [h]
            exact List.mem_append_left _ (top_mem s.items t hx)
    · simp only [hst, if_true, held, in_flight, List.append_nil] at h
      exact List.mem_append_left _ h
  | sleeping next =>
    left
    unfold run at h
    rw [hth] at h
    simp only at h
    split at h
    · simp only [held, in_flight, List.append_nil] at h
      exact List.mem_append_left _ h
    · split at h
      · simp only [held, in_flight, List.append_nil] at h
        exact List.mem_append_left _ h
      · exact h
  | submitting t =>
    left
    unfold run at h
    rw [hth] at h
    simp only at h
    split at h
    · simp only [held, in_flight, hth, List.mem_append, List.mem_singleton] at h ⊢
      exact h
    · simp only [held, in_flight, hth, List.mem_append, List.mem_singleton, List.not_mem_nil,
        or_false] at h ⊢
      exact Or.inl h
    · exact h
  | submitted t =>
    unfold run at h
    rw [hth] at h
    simp only at h
    split at h
    · rename_i hc
      simp only [Bool.and_eq_true, decide_eq_true_eq] at hc
      simp only [held, in_flight, hth, List.mem_append, List.mem_singleton] at h ⊢
      rcases h with h | h
      · exact Or.inl (Or.inl h)
      · exact Or.inr ⟨t, rfl, hc.1, h⟩
    · left
      simp only [held, in_flight, hth, List.mem_append, List.mem_singleton, List.not_mem_nil,
        or_false] at h ⊢
      exact Or.inl h
  | reinserting t =>
    left
    unfold run at h
    rw [hth] at h
    simp only [held, in_flight, push, hth, List.mem_append, List.mem_singleton, List.not_mem_nil,
      or_false] at h ⊢
    exact h
  | finished =>
    left
    unfold run at h
    rw [hth] at h
    exact h
  | failed what =>
    left
    unfold run at h
    rw [hth] at h
    exact h
  | joined =>
    left
    unfold run at h
    rw [hth] at h
    exact h

theorem join_held (s : Scheduler φ) : s.join.1.held = s.held := by
  unfold join
  split <;> simp_all [held, in_flight]

theorem join_seq (s : Scheduler φ) : s.join.1.seq = s.seq := by
  unfold join
  split <;> rfl

theorem shutdown_held (s : Scheduler φ) : s.shutdown.1.held = s.held := by
  unfold shutdown
  split <;> rfl

theorem shutdown_seq (s : Scheduler φ) : s.shutdown.1.seq = s.seq := by
  unfold shutdown
  split <;> rfl

end Scheduler

namespace World

variable {φ : Type}

/-- While the counter has not reached its last value, a move keeps the `seq`
of every held item below the counter. -/
theorem step_seq (w : World φ) (now : Int) (a : WorldAction φ) (k : Nat)
    (hk : k + 1 < Scheduler.SIZE_MOD) (hs : w.sched.seq ≤ k)
    (hx : ∀ x ∈ w.sched.held, x.seq < w.sched.seq) :
    (w.step now a).1.sched.seq ≤ k + 1
    ∧ ∀ x ∈ (w.step now a).1.sched.held, x.seq < (w.step now a).1.sched.seq := by
  have hmod : (w.sched.seq + 1) % Scheduler.SIZE_MOD = w.sched.seq + 1 :=
    Nat.mod_eq_of_lt (by omega)
  have hadd : ∀ (when : Int) (func : φ) (interval : Int),
      (w.sched.add_task when func interval).1.seq ≤ k + 1
      ∧ ∀ x ∈ (w.sched.add_task when func interval).1.held,
          x.seq < (w.sched.add_task when func interval).1.seq := by
    intro when func interval
    have hseq : (w.sched.add_task when func interval).1.seq = w.sched.seq + 1 := hmod
    rw [hseq]
    refine ⟨by omega, ?_⟩
    intro x hxm
    rcases Scheduler.add_task_held _ _ _ _ x hxm with h1 | h1
    · exact Nat.lt_succ_of_lt (hx x h1)
    · rw [h1]
      exact Nat.lt_succ_self _
  cases a with
  | post f => exact hadd _ _ _
  | post_after delay f => exact hadd _ _ _
  | post_every interval f => exact hadd _ _ _
  | run =>
    simp only [step]
    rw [Scheduler.run_seq]
    refine ⟨by omega, ?_⟩
    intro x hxm
    rcases Scheduler.run_held _ _ _ x hxm with h1 | ⟨x0, hth, _, h1⟩
    · exact hx x h1
    · have hx0 : x0 ∈ w.sched.held := by
        simp [Scheduler.held, Scheduler.in_flight, hth]
      rw [h1]
      exact hx x0 hx0
  | shutdown =>
    simp only [step]
    rw [Scheduler.shutdown_seq, Scheduler.shutdown_held]
    exact ⟨by omega, hx⟩
  | join =>
    simp only [step]
    rw [Scheduler.join_seq, Scheduler.join_held]
    exact ⟨by omega, hx⟩
  | pool a => exact ⟨by simp only [step]; omega, hx⟩

theorem exec_seq (acts : List (Int × WorldAction φ)) (w : World φ) (k : Nat)
    (hk : k + acts.length < Scheduler.SIZE_MOD) (hs : w.sched.seq ≤ k)
    (hx : ∀ x ∈ w.sched.held, x.seq < w.sched.seq) :
    (w.exec acts).1.sched.seq ≤ k + acts.length
    ∧ ∀ x ∈ (w.exec acts).1.sched.held, x.seq < (w.exec acts).1.sched.seq := by
  induction acts generalizing w k with
  | nil => exact ⟨hs, hx⟩
  | cons a rest ih =>
    rw [List.length_cons] at hk ⊢
    have h1 := step_seq w a.1 a.2 k (by omega) hs hx
    have h2 := ih (w.step a.1 a.2).1 (k + 1) (by omega) h1.1 h1.2
    rw [world_exec_cons]
    exact ⟨by simp only; omega, h2.2⟩

/-- The counter is a `std::size_t`: after the item that carries `2 ^ 64 - 1`
the next call of `add_task` hands out 0 again. -/
theorem add_task_wraps (s : Scheduler φ) (when : Int) (func : φ) (interval : Int)
    (h : s.seq = Scheduler.SIZE_MOD - 1) : (s.add_task when func interval).1.seq = 0 := by
  simp [Scheduler.add_task, h, Scheduler.SIZE_MOD]

/-- C9 fails as stated for a reinserted periodic item. In the run `overtaking`
the one-shot item (seq 1, due 2000100) is pushed at the third move and the
periodic item (seq 0) is pushed back with the same due time at the sixth move;
the last move pops the periodic item, which entered the queue later, while the
one-shot item is still pending. -/
theorem reinserted_item_overtakes :
    (World.new 1 4 : World Nat).exec overtaking =
      ({ sched :=
          { items := [{ when := 2000100, func := 2, interval := 0, seq := 1 }]
            stop := false
            scheduler_thread :=
              SchedulerThread.submitting { when := 2000100, func := 1, interval := 1, seq := 0 }
            seq := 2 }
         pool :=
          { workers := [WorkerThread.waiting], tasks := [1], stop := false, max_queue_size := 4 } },
        [(0, WorldEvent.sched
            (SchedEvent.added { when := 1000000, func := 1, interval := 1, seq := 0 })),
          (1000000, WorldEvent.sched
            (SchedEvent.popped { when := 1000000, func := 1, interval := 1, seq := 0 })),
          (1000010, WorldEvent.sched
            (SchedEvent.added { when := 2000100, func := 2, interval := 0, seq := 1 })),
          (1000020, WorldEvent.sched
            (SchedEvent.submitted { when := 1000000, func := 1, interval := 1, seq := 0 })),
          (1000100, WorldEvent.sched
            (SchedEvent.rescheduled { when := 2000100, func := 1, interval := 1, seq := 0 })),
          (1000110, WorldEvent.sched
            (SchedEvent.reinserted { when := 2000100, func := 1, interval := 1, seq := 0 })),
          (2000100, WorldEvent.sched
            (SchedEvent.popped { when := 2000100, func := 1, interval := 1, seq := 0 }))]) := by
  decide

/-- C9, amended: ties are broken by `seq`. While an item `a` is pending, the
loop never pops an item with the same due time and a larger `seq`. In every
state reached from the constructors by fewer than `2 ^ 64` moves (so that the
`std::size_t` counter has not wrapped) every item pending or in flight has a
`seq` below the counter, and `post`, `post_after` and `post_every` push an item
that carries the counter: an item they insert is never popped while an item
that was already pending with the same due time is still pending. A periodic
item that the dispatch loop pushes back keeps its `seq` (and callable and
interval); only its due time is new. -/
theorem tie_break_by_seq :
    (∀ (s : Scheduler φ) (pool : ThreadPool φ) (now : Int) (a b : Scheduler.Item φ),
        a ∈ s.items → a.when = b.when → a.seq < b.seq →
        (s.run pool now).2.2 ≠ SchedEvent.popped b)
    ∧ (∀ (threadCnt maxQueue : Nat) (acts : List (Int × WorldAction φ)) (w : World φ),
        acts.length < Scheduler.SIZE_MOD → w = ((World.new threadCnt maxQueue).exec acts).1 →
        (∀ x ∈ w.sched.held, x.seq < w.sched.seq)
        ∧ (∀ (now : Int) (f : φ), (w.sched.post now f).1.items =
            w.sched.items ++ [{ when := now, func := f, interval := 0, seq := w.sched.seq }])
        ∧ (∀ (now delay : Int) (f : φ), (w.sched.post_after now delay f).1.items =
            w.sched.items
              ++ [{ when := Scheduler.plus now delay, func := f, interval := 0,
                    seq := w.sched.seq }])
        ∧ (∀ (now interval : Int) (f : φ), (w.sched.post_every now interval f).1.items =
            w.sched.items ++ [{ when := Scheduler.plus now interval, func := f,
                                interval := Scheduler.to_ms interval,
                                seq := w.sched.seq }])
        ∧ (∀ (x y : Scheduler.Item φ), x ∈ w.sched.items → y.seq = w.sched.seq →
            y.when = x.when → ∀ (s : Scheduler φ) (pool : ThreadPool φ) (now : Int),
            x ∈ s.items → (s.run pool now).2.2 ≠ SchedEvent.popped y))
    ∧ (∀ (s : Scheduler φ) (pool : ThreadPool φ) (now : Int) (x y : Scheduler.Item φ),
        s.scheduler_thread = SchedulerThread.submitted x →
        (s.run pool now).2.2 = SchedEvent.rescheduled y →
        y = { x with when := Scheduler.plus now (x.interval * Scheduler.TICKS_PER_MS) }
        ∧ (s.run pool now).1.scheduler_thread = SchedulerThread.reinserting y)
    ∧ (∀ (s : Scheduler φ) (pool : ThreadPool φ) (now : Int) (x : Scheduler.Item φ),
        s.scheduler_thread = SchedulerThread.reinserting x →
        (s.run pool now).1.items = s.items ++ [x] ∧ (s.run pool now).1.seq = s.seq) := by
  have h1 : ∀ (s : Scheduler φ) (pool : ThreadPool φ) (now : Int) (a b : Scheduler.Item φ),
      a ∈ s.items → a.when = b.when → a.seq < b.seq →
      (s.run pool now).2.2 ≠ SchedEvent.popped b := by
    intro s pool now a b ha hw hs hp
    have ht := (Scheduler.run_popped s pool now b hp).2.2.1
    have := (Scheduler.Cmp_false_iff b a).mp (Scheduler.top_first s.items b ht a ha)
    omega
  refine ⟨h1, ?_, ?_, ?_⟩
  · intro threadCnt maxQueue acts w hlen hw
    have hinv := exec_seq acts (World.new threadCnt maxQueue : World φ) 0 (by omega)
      (Nat.le_refl _) (by simp [World.new, Scheduler.new, Scheduler.held, Scheduler.in_flight])
    rw [← hw] at hinv
    refine ⟨hinv.2, fun _ _ => rfl, fun _ _ _ => rfl, fun _ _ _ => rfl, ?_⟩
    intro x y hx hy hwhen s pool now hxs
    have hlt : x.seq < y.seq := by
      rw [hy]
      exact hinv.2 x (List.mem_append_left _ hx)
    exact h1 s pool now x y hxs hwhen.symm hlt
  · intro s pool now x y hth h
    unfold Scheduler.run at h ⊢
    rw [hth] at h ⊢
    simp only at h ⊢
    split at h
    · simp only [SchedEvent.rescheduled.injEq] at h
      rename_i hc
      simp only [hc, if_true]
      exact ⟨h.symm, by rw [h]⟩
    · simp at h
  · intro s pool now x hth
    unfold Scheduler.run
    rw [hth]
    exact ⟨rfl, rfl⟩

/-- The amended C9 on the state after two posts at the same reading: both
items are due at 5, the second carries the larger `seq`, and the loop does not
pop it while the first is pending. -/
theorem tie_break_by_seq_witness :
    (((World.new 1 4 : World Nat).exec [(5, WorldAction.post 1), (5, WorldAction.post 2)]).1.sched.run
        ((World.new 1 4 : World Nat).exec [(5, WorldAction.post 1), (5, WorldAction.post 2)]).1.pool
        5).2.2
      ≠ SchedEvent.popped { when := 5, func := 2, interval := 0, seq := 1 } :=
  tie_break_by_seq.1 _ _ 5 { when := 5, func := 1, interval := 0, seq := 0 } _ (by decide) rfl
    (by decide)

end World

/-! ## Scheduler: due times -/

namespace Scheduler

variable {φ : Type}

/-- The loop reports `submitted` only from the state in which it holds the
popped item, and only when the pool accepted the callable. -/
theorem run_submitted (s : Scheduler φ) (pool : ThreadPool φ) (now : Int) (x : Item φ)
    (h : (s.run pool now).2.2 = SchedEvent.submitted x) :
    s.scheduler_thread = SchedulerThread.submitting x
    ∧ (pool.submit x.func).2 = PoolEvent.enqueued x.func
    ∧ (s.run pool now).2.1 = (pool.submit x.func).1 := by
  cases hth : s.scheduler_thread with
  | looping =>
    unfold run at h
    rw [hth] at h
    simp only at h
    split at h
    · simp at h
    · split at h
      · simp at h
      · split at h <;> simp at h
  | sleeping next =>
    unfold run at h
    rw [hth] at h
    simp only at h
    split at h
    · simp at h
    · split at h <;> simp at h
  | submitting t =>
    unfold run at h ⊢
    rw [hth] at h ⊢
    simp only at h ⊢
    split at h
    · rename_i q task heq
      simp only [SchedEvent.submitted.injEq] at h
      subst h
      have h2 : (pool.submit t.func).2 = PoolEvent.enqueued task := by rw [heq]
      have h3 : task = t.func := by
        unfold ThreadPool.submit at h2
        split at h2
        · split at h2
          · simp at h2
          · simp only [PoolEvent.enqueued.injEq] at h2
            exact h2.symm
        · simp at h2
      rw [heq]
      exact ⟨rfl, by rw [h3], rfl⟩
    · simp at h
    · simp at h
  | submitted t =>
    unfold run at h
    rw [hth] at h
    simp only at h
    split at h <;> simp at h
  | reinserting t =>
    unfold run at h
    rw [hth] at h
    simp at h
  | finished =>
    unfold run at h
    rw [hth] at h
    simp at h
  | failed what =>
    unfold run at h
    rw [hth] at h
    simp at h
  | joined =>
    unfold run at h
    rw [hth] at h
    simp at h

/-- The loop holds a popped item for submission only if it held it before the
step or popped it in this step, when it was due. -/
theorem run_submitting (s : Scheduler φ) (pool : ThreadPool φ) (now : Int) (x : Item φ)
    (h : (s.run pool now).1.scheduler_thread = SchedulerThread.submitting x) :
    s.scheduler_thread = SchedulerThread.submitting x ∨ x.when ≤ now := by
  cases hth : s.scheduler_thread with
  | looping =>
    right
    unfold run at h
    rw [hth] at h
    simp only at h
    split at h
    · simp at h
    · split at h
      · simp [hth] at h
      · split at h
        · simp at h
        · rename_i hdue
          simp only [SchedulerThread.submitting.injEq] at h
          rw [← h]
          omega
  | sleeping next =>
    unfold run at h
    rw [hth] at h
    simp only at h
    split at h
    · simp at h
    · split at h
      · simp at h
      · simp [hth] at h
  | submitting t =>
    left
    unfold run at h
    rw [hth] at h
    simp only at h
    split at h
    · simp at h
    · simp at h
    · rw [hth] at h
      exact h
  | submitted t =>
    unfold run at h
    rw [hth] at h
    simp only at h
    split at h <;> simp at h
  | reinserting t =>
    unfold run at h
    rw [hth] at h
    simp at h
  | finished =>
    unfold run at h
    rw [hth] at h
    simp [hth] at h
  | failed what =>
    unfold run at h
    rw [hth] at h
    simp [hth] at h
  | joined =>
    unfold run at h
    rw [hth] at h
    simp [hth] at h

end Scheduler

namespace World

variable {φ : Type}

theorem step_submitted (w : World φ) (now : Int) (a : WorldAction φ) (x : Scheduler.Item φ)
    (h : (w.step now a).2 = WorldEvent.sched (SchedEvent.submitted x)) :
    w.sched.scheduler_thread = SchedulerThread.submitting x := by
  cases a with
  | post f => simp [step, Scheduler.post, Scheduler.add_task] at h
  | post_after delay f => simp [step, Scheduler.post_after, Scheduler.add_task] at h
  | post_every interval f => simp [step, Scheduler.post_every, Scheduler.add_task] at h
  | run =>
    simp only [step, WorldEvent.sched.injEq] at h
    exact (Scheduler.run_submitted _ _ _ x h).1
  | shutdown =>
    simp only [step, Scheduler.shutdown, WorldEvent.sched.injEq] at h
    split at h <;> simp at h
  | join =>
    simp only [step, Scheduler.join, WorldEvent.sched.injEq] at h
    split at h <;> simp at h
  | pool a => simp [step] at h

theorem step_submitting (w : World φ) (now : Int) (a : WorldAction φ) (x : Scheduler.Item φ)
    (h : (w.step now a).1.sched.scheduler_thread = SchedulerThread.submitting x) :
    w.sched.scheduler_thread = SchedulerThread.submitting x ∨ x.when ≤ now := by
  cases a with
  | post f => exact Or.inl h
  | post_after delay f => exact Or.inl h
  | post_every interval f => exact Or.inl h
  | run => exact Scheduler.run_submitting _ _ _ x h
  | shutdown =>
    left
    simp only [step, Scheduler.shutdown] at h
    split at h <;> exact h
  | join =>
    left
    simp only [step, Scheduler.join] at h
    split at h
    · simp at h
    all_goals exact h
  | pool a => exact Or.inl h

/-- Under a clock that never runs backwards, every submission to the pool is
made at a reading at or after the due time of the submitted item. -/
theorem exec_due (acts : List (Int × WorldAction φ)) (w : World φ) (t0 : Int)
    (hm : monotone t0 acts)
    (h0 : ∀ x, w.sched.scheduler_thread = SchedulerThread.submitting x → x.when ≤ t0) :
    ∀ t x, (t, WorldEvent.sched (SchedEvent.submitted x)) ∈ (w.exec acts).2 → x.when ≤ t := by
  induction acts generalizing w t0 with
  | nil => simp [exec]
  | cons a rest ih =>
    intro t x hmem
    rw [world_exec_cons] at hmem
    simp only [List.mem_cons, Prod.mk.injEq] at hmem
    rcases hmem with ⟨ht, he⟩ | hmem
    · have := h0 x (step_submitted w a.1 a.2 x he.symm)
      have := hm.1
      omega
    · refine ih (w.step a.1 a.2).1 a.1 hm.2 ?_ t x hmem
      intro y hy
      rcases step_submitting w a.1 a.2 y hy with h1 | h1
      · have := h0 y h1
        have := hm.1
        omega
      · exact h1

/-- A one-shot item that the scheduler holds after a move was held before, or
the move is the call of `add_task` that pushed it. -/
theorem step_held_oneshot (w : World φ) (now : Int) (a : WorldAction φ) (x : Scheduler.Item φ)
    (h : x ∈ (w.step now a).1.sched.held) (hi : x.interval ≤ 0) :
    x ∈ w.sched.held ∨ (w.step now a).2 = WorldEvent.sched (SchedEvent.added x) := by
  cases a with
  | post f =>
    rcases Scheduler.add_task_held _ _ _ _ x h with h1 | h1
    · exact Or.inl h1
    · right
      rw [h1]
      rfl
  | post_after delay f =>
    rcases Scheduler.add_task_held _ _ _ _ x h with h1 | h1
    · exact Or.inl h1
    · right
      rw [h1]
      rfl
  | post_every interval f =>
    rcases Scheduler.add_task_held _ _ _ _ x h with h1 | h1
    · exact Or.inl h1
    · right
      rw [h1]
      rfl
  | run =>
    left
    rcases Scheduler.run_held _ _ _ x h with h1 | ⟨x0, _, hpos, h1⟩
    · exact h1
    · rw [h1] at hi
      simp only at hi
      omega
  | shutdown =>
    left
    simp only [step] at h
    rw [Scheduler.shutdown_held] at h
    exact h
  | join =>
    left
    simp only [step] at h
    rw [Scheduler.join_held] at h
    exact h
  | pool a => exact Or.inl h

/-- Every one-shot item that is submitted was held at the start or pushed by
a call of `add_task` in the run. -/
theorem exec_added (acts : List (Int × WorldAction φ)) (w : World φ)
    (P : Scheduler.Item φ → Prop) (h0 : ∀ x ∈ w.sched.held, x.interval ≤ 0 → P x) :
    ∀ t x, (t, WorldEvent.sched (SchedEvent.submitted x)) ∈ (w.exec acts).2 → x.interval ≤ 0 →
      P x ∨ ∃ t1, (t1, WorldEvent.sched (SchedEvent.added x)) ∈ (w.exec acts).2 := by
  induction acts generalizing w P with
  | nil => simp [exec]
  | cons a rest ih =>
    intro t x hmem hi
    rw [world_exec_cons] at hmem ⊢
    simp only [List.mem_cons, Prod.mk.injEq] at hmem ⊢
    rcases hmem with ⟨_, he⟩ | hmem
    · left
      have hth := step_submitted w a.1 a.2 x he.symm
      exact h0 x (by simp [Scheduler.held, Scheduler.in_flight, hth]) hi
    · have := ih (w.step a.1 a.2).1
        (fun y => P y ∨ (w.step a.1 a.2).2 = WorldEvent.sched (SchedEvent.added y))
        (fun y hy hyi => (step_held_oneshot w a.1 a.2 y hy hyi).imp (fun h => h0 y h hyi) id)
        t x hmem hi
      rcases this with (h1 | h1) | ⟨t1, h1⟩
      · exact Or.inl h1
      · exact Or.inr ⟨a.1, Or.inl ⟨rfl, h1.symm⟩⟩
      · exact Or.inr ⟨t1, Or.inr h1⟩

end World

namespace World

variable {φ : Type}

/-- C10 fails as stated for a delay that the 64-bit nanosecond count cannot
hold. `post_after` of 10800000000000000000 ticks (3000000 hours) at reading 0
computes the due time modulo `2 ^ 64`, which is -7646744073709551616; the loop
pops the item at reading 5 and submits it at reading 6, long before
0 + 10800000000000000000. -/
theorem post_after_wraps_early :
    ((World.new 1 4 : World Nat).exec
        [(0, WorldAction.post_after 10800000000000000000 7), (5, WorldAction.run),
          (6, WorldAction.run)]).2
      = [(0, WorldEvent.sched
            (SchedEvent.added
              { when := -7646744073709551616, func := 7, interval := 0, seq := 0 })),
          (5, WorldEvent.sched
            (SchedEvent.popped
              { when := -7646744073709551616, func := 7, interval := 0, seq := 0 })),
          (6, WorldEvent.sched
            (SchedEvent.submitted
              { when := -7646744073709551616, func := 7, interval := 0, seq := 0 }))]
    ∧ ¬ ((0 : Int) + 10800000000000000000 ≤ 6)
    ∧ ¬ Scheduler.representable (0 + 10800000000000000000) := by
  decide

/-- C10, amended: no early firing when the due time is representable.
`post_after(d, f)` called at reading `t0` pushes an item with interval 0 whose
due time is `t0 + d` computed in the 64-bit nanosecond count, which is `t0 + d`
when that sum is a value of the count. The dispatch loop pops an item only in
an iteration whose clock reading is at or after the due time of the item, and
it calls `pool.submit` only for the item it popped. Under a clock that never
runs backwards, in every run from the constructors each submission of an item
to the pool is made at a reading at or after the due time of that item, and
each submitted one-shot item is an item that a call of `add_task` pushed in
that run; for the item of `post_after(d, f)` at `t0` with `t0 + d`
representable the reading is `>= t0 + d`. -/
theorem no_early_firing :
    (∀ (w : World φ) (t0 d : Int) (f : φ),
        (w.step t0 (WorldAction.post_after d f)).2 =
          WorldEvent.sched
            (SchedEvent.added
              { when := Scheduler.plus t0 d, func := f, interval := 0, seq := w.sched.seq })
        ∧ (w.step t0 (WorldAction.post_after d f)).1.sched.items =
          w.sched.items
            ++ [{ when := Scheduler.plus t0 d, func := f, interval := 0, seq := w.sched.seq }]
        ∧ (Scheduler.representable (t0 + d) → Scheduler.plus t0 d = t0 + d))
    ∧ (∀ (s : Scheduler φ) (pool : ThreadPool φ) (now : Int) (x : Scheduler.Item φ),
        (s.run pool now).2.2 = SchedEvent.popped x → x ∈ s.items ∧ x.when ≤ now)
    ∧ (∀ (s : Scheduler φ) (pool : ThreadPool φ) (now : Int) (x : Scheduler.Item φ),
        (s.run pool now).2.2 = SchedEvent.submitted x →
        s.scheduler_thread = SchedulerThread.submitting x
        ∧ (pool.submit x.func).2 = PoolEvent.enqueued x.func
        ∧ (s.run pool now).2.1 = (pool.submit x.func).1)
    ∧ (∀ (threadCnt maxQueue : Nat) (start : Int) (acts : List (Int × WorldAction φ)),
        monotone start acts →
        ∀ (t : Int) (x : Scheduler.Item φ),
          (t, WorldEvent.sched (SchedEvent.submitted x))
            ∈ ((World.new threadCnt maxQueue : World φ).exec acts).2 →
          x.when ≤ t
          ∧ (x.interval ≤ 0 → ∃ t1, (t1, WorldEvent.sched (SchedEvent.added x))
              ∈ ((World.new threadCnt maxQueue : World φ).exec acts).2))
    ∧ (∀ (threadCnt maxQueue : Nat) (start : Int) (acts : List (Int × WorldAction φ)),
        monotone start acts →
        ∀ (t t0 d : Int) (f : φ) (n : Nat),
          Scheduler.representable (t0 + d) →
          (t, WorldEvent.sched
              (SchedEvent.submitted
                { when := Scheduler.plus t0 d, func := f, interval := 0, seq := n }))
            ∈ ((World.new threadCnt maxQueue : World φ).exec acts).2 →
          t0 + d ≤ t) := by
  have hdue : ∀ (threadCnt maxQueue : Nat) (start : Int) (acts : List (Int × WorldAction φ)),
      monotone start acts → ∀ (t : Int) (x : Scheduler.Item φ),
        (t, WorldEvent.sched (SchedEvent.submitted x))
          ∈ ((World.new threadCnt maxQueue : World φ).exec acts).2 → x.when ≤ t := by
    intro threadCnt maxQueue start acts hm t x hmem
    refine exec_due acts _ start hm ?_ t x hmem
    intro y hy
    simp [World.new, Scheduler.new] at hy
  refine ⟨fun _ t0 d _ => ⟨rfl, rfl, Scheduler.plus_eq t0 d⟩, ?_, Scheduler.run_submitted, ?_, ?_⟩
  · intro s pool now x h
    have hp := Scheduler.run_popped s pool now x h
    exact ⟨Scheduler.top_mem s.items x hp.2.2.1, hp.2.2.2.1⟩
  · intro threadCnt maxQueue start acts hm t x hmem
    refine ⟨hdue threadCnt maxQueue start acts hm t x hmem, ?_⟩
    intro hi
    have := exec_added acts (World.new threadCnt maxQueue : World φ) (fun _ => False)
      (by simp [World.new, Scheduler.new, Scheduler.held, Scheduler.in_flight]) t x hmem hi
    rcases this with h1 | h1
    · exact absurd h1 id
    · exact h1
  · intro threadCnt maxQueue start acts hm t t0 d f n hr hmem
    have h := hdue threadCnt maxQueue start acts hm t _ hmem
    simp only [Scheduler.plus_eq t0 d hr] at h
    exact h

/-- The bound of the amended C10 on a run in which `post_after(30, f)` is
called at reading 10: the loop sleeps at reading 20, wakes and pops at reading
40, and the submission is made at reading 41, after the due time 40. -/
theorem no_early_firing_witness :
    ((World.new 1 4 : World Nat).exec
        [(10, WorldAction.post_after 30 7), (20, WorldAction.run), (25, WorldAction.run),
          (40, WorldAction.run), (40, WorldAction.run), (41, WorldAction.run)]).2.map Prod.snd
      = [WorldEvent.sched (SchedEvent.added { when := 40, func := 7, interval := 0, seq := 0 }),
          WorldEvent.sched (SchedEvent.sleep 40), WorldEvent.sched SchedEvent.asleep,
          WorldEvent.sched SchedEvent.woke,
          WorldEvent.sched (SchedEvent.popped { when := 40, func := 7, interval := 0, seq := 0 }),
          WorldEvent.sched (SchedEvent.submitted { when := 40, func := 7, interval := 0, seq := 0 })]
    ∧ Scheduler.representable (10 + 30)
    ∧ (10 : Int) + 30 ≤ 41 :=
  ⟨by decide, by decide,
    no_early_firing.2.2.2.2 1 4 0
      [(10, WorldAction.post_after 30 7), (20, WorldAction.run), (25, WorldAction.run),
        (40, WorldAction.run), (40, WorldAction.run), (41, WorldAction.run)]
      (by decide) 41 10 30 7 0 (by decide) (by decide)⟩

end World

/-! ## Scheduler: waking, intervals and arguments -/

namespace Scheduler

variable {φ : Type}

theorem run_asleep (s : Scheduler φ) (pool : ThreadPool φ) (now next : Int)
    (hth : s.scheduler_thread = SchedulerThread.sleeping next) (hs : s.stop = false)
    (hn : now < next) : s.run pool now = (s, pool, SchedEvent.asleep) := by
  unfold run
  rw [hth]
  have : ¬ now ≥ next := by omega
  simp [hs, this]

theorem run_pop (s : Scheduler φ) (pool : ThreadPool φ) (now : Int) (x : Item φ)
    (hth : s.scheduler_thread = SchedulerThread.looping) (hs : s.stop = false)
    (ht : top s.items = some x) (hd : x.when ≤ now) :
    s.run pool now =
      ({ s with items := pop s.items, scheduler_thread := SchedulerThread.submitting x }, pool,
        SchedEvent.popped x) := by
  unfold run
  rw [hth]
  have : ¬ x.when > now := by omega
  simp [hs, ht, this]

theorem run_reschedule (s : Scheduler φ) (pool : ThreadPool φ) (now : Int) (x : Item φ)
    (hth : s.scheduler_thread = SchedulerThread.submitted x) (hi : 0 < x.interval)
    (hs : s.stop = false) :
    s.run pool now =
      ({ s with
          scheduler_thread :=
            SchedulerThread.reinserting { x with when := plus now (x.interval * TICKS_PER_MS) } },
        pool, SchedEvent.rescheduled { x with when := plus now (x.interval * TICKS_PER_MS) }) := by
  unfold run
  rw [hth]
  simp [hs, hi]

theorem run_drop (s : Scheduler φ) (pool : ThreadPool φ) (now : Int) (x : Item φ)
    (hth : s.scheduler_thread = SchedulerThread.submitted x)
    (h : x.interval ≤ 0 ∨ s.stop = true) :
    s.run pool now =
      ({ s with scheduler_thread := SchedulerThread.looping }, pool, SchedEvent.dropped x) := by
  unfold run
  rw [hth]
  rcases h with h | h
  · have : ¬ x.interval > 0 := by omega
    simp [this]
  · simp [h]

theorem run_reinsert (s : Scheduler φ) (pool : ThreadPool φ) (now : Int) (x : Item φ)
    (hth : s.scheduler_thread = SchedulerThread.reinserting x) :
    s.run pool now =
      ({ s with items := s.items ++ [x], scheduler_thread := SchedulerThread.looping }, pool,
        SchedEvent.reinserted x) := by
  unfold run
  rw [hth]
  rfl

theorem tdiv_whole (i : Int) (hi : 0 < i) (hw : i % TICKS_PER_MS = 0) :
    0 < Int.tdiv i TICKS_PER_MS ∧ Int.tdiv i TICKS_PER_MS * TICKS_PER_MS = i := by
  unfold TICKS_PER_MS at hw ⊢
  rw [Int.tdiv_eq_ediv (by omega) (by omega)]
  omega

theorem tdiv_floor (i : Int) (hi : TICKS_PER_MS ≤ i) :
    0 < Int.tdiv i TICKS_PER_MS ∧ Int.tdiv i TICKS_PER_MS * TICKS_PER_MS ≤ i
    ∧ i < Int.tdiv i TICKS_PER_MS * TICKS_PER_MS + TICKS_PER_MS := by
  unfold TICKS_PER_MS at hi ⊢
  rw [Int.tdiv_eq_ediv (by omega) (by omega)]
  omega

theorem tdiv_nonpos_interval (i : Int) (hi : i ≤ 0) : Int.tdiv i TICKS_PER_MS ≤ 0 := by
  have h : Int.tdiv i TICKS_PER_MS = -(Int.tdiv (-i) TICKS_PER_MS) := by
    rw [Int.neg_tdiv, neg_neg]
  rw [h]
  unfold TICKS_PER_MS
  rw [Int.tdiv_eq_ediv (by omega) (by omega)]
  omega

end Scheduler

namespace World

variable {φ : Type}

/-- C11: the code at the failing input. In the run `late_post` the loop sleeps
with deadline 1000 when `post` adds an item due at reading 2. The moves of the
loop at the readings 3 and 999 leave it asleep; only at reading 1000 does it
wake and pop the posted item. In general a step of the loop inside `wait_until`
with `stop` false and a reading before the deadline changes nothing, whatever
the queue holds, and `add_task` leaves the control state of the loop alone. -/
theorem late_post_waits :
    (World.new 1 4 : World Nat).exec late_post =
      ({ sched :=
          { items := [{ when := 1000, func := 1, interval := 0, seq := 0 }]
            stop := false
            scheduler_thread :=
              SchedulerThread.submitted { when := 2, func := 2, interval := 0, seq := 1 }
            seq := 2 }
         pool :=
          { workers := [WorkerThread.waiting], tasks := [2], stop := false, max_queue_size := 4 } },
        [(0, WorldEvent.sched (SchedEvent.added { when := 1000, func := 1, interval := 0, seq := 0 })),
          (1, WorldEvent.sched (SchedEvent.sleep 1000)),
          (2, WorldEvent.sched (SchedEvent.added { when := 2, func := 2, interval := 0, seq := 1 })),
          (3, WorldEvent.sched SchedEvent.asleep),
          (999, WorldEvent.sched SchedEvent.asleep),
          (1000, WorldEvent.sched SchedEvent.woke),
          (1000, WorldEvent.sched
            (SchedEvent.popped { when := 2, func := 2, interval := 0, seq := 1 })),
          (1001, WorldEvent.sched
            (SchedEvent.submitted { when := 2, func := 2, interval := 0, seq := 1 }))])
    ∧ (∀ (s : Scheduler Nat) (pool : ThreadPool Nat) (now next : Int),
        s.scheduler_thread = SchedulerThread.sleeping next → s.stop = false → now < next →
        s.run pool now = (s, pool, SchedEvent.asleep))
    ∧ (∀ (s : Scheduler Nat) (when : Int) (func : Nat) (interval : Int),
        (s.add_task when func interval).1.scheduler_thread = s.scheduler_thread) :=
  ⟨by decide, Scheduler.run_asleep, fun _ _ _ _ => rfl⟩

/-- C12 fails as stated for an interval that is not a whole number of
milliseconds, and for an interval that the 64-bit nanosecond count cannot hold.
In the run `truncated` the item posted with interval 1500000 ticks (1.5 ms)
stores the interval 1 ms; the loop evaluates line 186 at reading 1500020 and
gives the item the due time 2500020, which is the reading plus 1 ms and not the
reading plus 1.5 ms. In the run `overflowing` the item posted at reading 0 with
an interval of 10800000000000000000 ticks is first due at -7646744073709551616,
and at reading 3 the loop gives it the due time -7646744073709551613: neither
is the reading plus the interval, and both are in the past. -/
theorem interval_truncated :
    (World.new 1 4 : World Nat).exec truncated =
      ({ sched :=
          { items := [{ when := 2500020, func := 1, interval := 1, seq := 0 }]
            stop := false
            scheduler_thread := SchedulerThread.looping
            seq := 1 }
         pool :=
          { workers := [WorkerThread.waiting], tasks := [1], stop := false, max_queue_size := 4 } },
        [(0, WorldEvent.sched
            (SchedEvent.added { when := 1500000, func := 1, interval := 1, seq := 0 })),
          (1500000, WorldEvent.sched
            (SchedEvent.popped { when := 1500000, func := 1, interval := 1, seq := 0 })),
          (1500010, WorldEvent.sched
            (SchedEvent.submitted { when := 1500000, func := 1, interval := 1, seq := 0 })),
          (1500020, WorldEvent.sched
            (SchedEvent.rescheduled { when := 2500020, func := 1, interval := 1, seq := 0 })),
          (1500030, WorldEvent.sched
            (SchedEvent.reinserted { when := 2500020, func := 1, interval := 1, seq := 0 }))])
    ∧ (2500020 : Int) ≠ 1500020 + 1500000
    ∧ ((World.new 1 4 : World Nat).exec (overflowing.take 5)).2 =
        [(0, WorldEvent.sched
            (SchedEvent.added
              { when := -7646744073709551616, func := 1, interval := 10800000000000, seq := 0 })),
          (1, WorldEvent.sched
            (SchedEvent.popped
              { when := -7646744073709551616, func := 1, interval := 10800000000000, seq := 0 })),
          (2, WorldEvent.sched
            (SchedEvent.submitted
              { when := -7646744073709551616, func := 1, interval := 10800000000000, seq := 0 })),
          (3, WorldEvent.sched
            (SchedEvent.rescheduled
              { when := -7646744073709551613, func := 1, interval := 10800000000000, seq := 0 })),
          (4, WorldEvent.sched
            (SchedEvent.reinserted
              { when := -7646744073709551613, func := 1, interval := 10800000000000,
                seq := 0 }))]
    ∧ (-7646744073709551616 : Int) ≠ 0 + 10800000000000000000
    ∧ (-7646744073709551613 : Int) ≠ 3 + 10800000000000000000 := by
  decide

/-- C12, amended: periodic rescheduling in whole milliseconds, within the
64-bit nanosecond count. `post_every(i, f)` called at reading `now` pushes an
item whose first due time is `now + i` computed in the 64-bit count and which
stores `i` converted to milliseconds; when `i` and `now + i` are values of the
count, the item is first due at `now + i` and stores `i` truncated to
milliseconds. After a firing, when line 186 reads `stop` false and the stored
interval is positive, the loop gives the item the due time (reading of that
step) + (stored interval), computed in the 64-bit count, and its next step
pushes it back; when the sum is a value of the count the due time is that sum.
For `i` a positive whole number of milliseconds the stored interval is `i`, so
the new due time is the reading plus `i` when that is a value of the count; for
any `i` of at least 1 ms the stored interval is positive, at most `i` and more
than `i` minus 1 ms. -/
theorem periodic_rescheduling :
    (∀ (s : Scheduler φ) (now i : Int) (f : φ),
        (s.post_every now i f).1.items =
            s.items ++ [{ when := Scheduler.plus now i, func := f,
                          interval := Scheduler.to_ms i, seq := s.seq }]
        ∧ (Scheduler.representable i → Scheduler.representable (now + i) →
            (s.post_every now i f).1.items =
              s.items ++ [{ when := now + i, func := f,
                            interval := Int.tdiv i Scheduler.TICKS_PER_MS, seq := s.seq }]))
    ∧ (∀ (s : Scheduler φ) (pool : ThreadPool φ) (now : Int) (x : Scheduler.Item φ),
        s.scheduler_thread = SchedulerThread.submitted x → 0 < x.interval → s.stop = false →
        (s.run pool now).2.2 =
          SchedEvent.rescheduled
            { x with when := Scheduler.plus now (x.interval * Scheduler.TICKS_PER_MS) }
        ∧ (∀ later : Int, ((s.run pool now).1.run pool later).1.items =
            s.items ++ [{ x with when := Scheduler.plus now (x.interval * Scheduler.TICKS_PER_MS) }])
        ∧ (Scheduler.representable (now + x.interval * Scheduler.TICKS_PER_MS) →
            (s.run pool now).2.2 =
              SchedEvent.rescheduled
                { x with when := now + x.interval * Scheduler.TICKS_PER_MS }))
    ∧ (∀ (s : Scheduler φ) (pool : ThreadPool φ) (now due i : Int) (f : φ) (n : Nat),
        0 < i → i % Scheduler.TICKS_PER_MS = 0 → Scheduler.representable (now + i) →
        s.stop = false →
        s.scheduler_thread = SchedulerThread.submitted
          { when := due, func := f, interval := Int.tdiv i Scheduler.TICKS_PER_MS, seq := n } →
        (s.run pool now).2.2 =
          SchedEvent.rescheduled
            { when := now + i, func := f, interval := Int.tdiv i Scheduler.TICKS_PER_MS,
              seq := n })
    ∧ (∀ i : Int, Scheduler.TICKS_PER_MS ≤ i →
        0 < Int.tdiv i Scheduler.TICKS_PER_MS
        ∧ Int.tdiv i Scheduler.TICKS_PER_MS * Scheduler.TICKS_PER_MS ≤ i
        ∧ i < Int.tdiv i Scheduler.TICKS_PER_MS * Scheduler.TICKS_PER_MS
              + Scheduler.TICKS_PER_MS) := by
  refine ⟨?_, ?_, ?_, Scheduler.tdiv_floor⟩
  · intro s now i f
    refine ⟨rfl, ?_⟩
    intro hi hr
    have h : (s.post_every now i f).1.items =
        s.items ++ [{ when := Scheduler.plus now i, func := f,
                      interval := Scheduler.to_ms i, seq := s.seq }] := rfl
    rw [h, Scheduler.plus_eq now i hr, Scheduler.to_ms_eq i hi]
  · intro s pool now x hth hi hs
    rw [Scheduler.run_reschedule s pool now x hth hi hs]
    refine ⟨rfl, ?_, ?_⟩
    · intro later
      rw [Scheduler.run_reinsert _ pool later _ rfl]
    · intro hr
      simp only [Scheduler.plus_eq _ _ hr]
  · intro s pool now due i f n hi hw hr hs hth
    have h := Scheduler.tdiv_whole i hi hw
    rw [Scheduler.run_reschedule s pool now _ hth h.1 hs]
    simp only [h.2, Scheduler.plus_eq now i hr]

/-- The amended C12 on the state after the first firing of an item posted with
interval 2 ms: the step at reading 50 gives it the due time 50 + 2000000. -/
theorem periodic_rescheduling_witness :
    (({ items := [], stop := false,
        scheduler_thread := SchedulerThread.submitted
          { when := 2000000, func := 7, interval := Int.tdiv 2000000 Scheduler.TICKS_PER_MS,
            seq := 0 },
        seq := 1 } : Scheduler Nat).run (ThreadPool.new 1 4) 50).2.2
      = SchedEvent.rescheduled
          { when := 50 + 2000000, func := 7,
            interval := Int.tdiv 2000000 Scheduler.TICKS_PER_MS, seq := 0 } :=
  periodic_rescheduling.2.2.1 _ (ThreadPool.new 1 4) 50 2000000 2000000 7 0 (by decide)
    (by decide) (by decide) rfl rfl

end World

namespace Scheduler

variable {φ : Type}

/-- The loop computes a next due time only after `pool.submit` returned, for an
item with a positive interval, and only when it reads `stop` false. -/
theorem run_rescheduled (s : Scheduler φ) (pool : ThreadPool φ) (now : Int) (y : Item φ)
    (h : (s.run pool now).2.2 = SchedEvent.rescheduled y) :
    s.stop = false ∧ ∃ x, s.scheduler_thread = SchedulerThread.submitted x ∧ 0 < x.interval
      ∧ y = { x with when := plus now (x.interval * TICKS_PER_MS) } := by
  unfold run at h
  cases hth : s.scheduler_thread with
  | submitted x =>
    rw [hth] at h
    simp only at h
    split at h
    · rename_i hc
      simp only [Bool.and_eq_true, decide_eq_true_eq, Bool.not_eq_true'] at hc
      simp only [SchedEvent.rescheduled.injEq] at h
      exact ⟨hc.2, x, rfl, hc.1, h.symm⟩
    · simp at h
  | looping =>
    rw [hth] at h
    simp only at h
    split at h
    · simp at h
    · split at h
      · simp at h
      · split at h <;> simp at h
  | sleeping next =>
    rw [hth] at h
    simp only at h
    split at h
    · simp at h
    · split at h <;> simp at h
  | submitting x =>
    rw [hth] at h
    simp only at h
    split at h <;> simp at h
  | reinserting x =>
    rw [hth] at h
    simp at h
  | finished =>
    rw [hth] at h
    simp at h
  | failed what =>
    rw [hth] at h
    simp at h
  | joined =>
    rw [hth] at h
    simp at h

/-- The loop pushes an item back only from the state that holds it for that. -/
theorem run_reinserted (s : Scheduler φ) (pool : ThreadPool φ) (now : Int) (y : Item φ)
    (h : (s.run pool now).2.2 = SchedEvent.reinserted y) :
    s.scheduler_thread = SchedulerThread.reinserting y := by
  unfold run at h
  cases hth : s.scheduler_thread with
  | reinserting x =>
    rw [hth] at h
    simp only [SchedEvent.reinserted.injEq] at h
    rw [h]
  | submitted x =>
    rw [hth] at h
    simp only at h
    split at h <;> simp at h
  | looping =>
    rw [hth] at h
    simp only at h
    split at h
    · simp at h
    · split at h
      · simp at h
      · split at h <;> simp at h
  | sleeping next =>
    rw [hth] at h
    simp only at h
    split at h
    · simp at h
    · split at h <;> simp at h
  | submitting x =>
    rw [hth] at h
    simp only at h
    split at h <;> simp at h
  | finished =>
    rw [hth] at h
    simp at h
  | failed what =>
    rw [hth] at h
    simp at h
  | joined =>
    rw [hth] at h
    simp at h

/-- Once `stop` is set, the loop holds an item for submission or for pushing
back only if it already held it so before the step. -/
theorem run_thread_stopped (s : Scheduler φ) (pool : ThreadPool φ) (now : Int) (x : Item φ)
    (hs : s.stop = true) :
    ((s.run pool now).1.scheduler_thread = SchedulerThread.submitting x →
        s.scheduler_thread = SchedulerThread.submitting x)
    ∧ ((s.run pool now).1.scheduler_thread = SchedulerThread.reinserting x →
        s.scheduler_thread = SchedulerThread.reinserting x) := by
  unfold run
  cases hth : s.scheduler_thread with
  | looping => simp [hs]
  | sleeping next => simp [hs]
  | submitting y =>
    simp only
    split <;> simp_all
  | submitted y => simp [hs]
  | reinserting y => simp
  | finished => simp [hth]
  | failed what => simp [hth]
  | joined => simp [hth]

end Scheduler

namespace World

variable {φ : Type}

/-- Once `stop` is set, a move of the program leaves the loop holding an item
for submission or for pushing back only if it held it so before. -/
theorem step_thread_stopped (w : World φ) (now : Int) (a : WorldAction φ) (x : Scheduler.Item φ)
    (hs : w.sched.stop = true) :
    ((w.step now a).1.sched.scheduler_thread = SchedulerThread.submitting x →
        w.sched.scheduler_thread = SchedulerThread.submitting x)
    ∧ ((w.step now a).1.sched.scheduler_thread = SchedulerThread.reinserting x →
        w.sched.scheduler_thread = SchedulerThread.reinserting x) := by
  cases a with
  | post f => exact ⟨id, id⟩
  | post_after delay f => exact ⟨id, id⟩
  | post_every interval f => exact ⟨id, id⟩
  | run => exact Scheduler.run_thread_stopped _ _ _ x hs
  | shutdown =>
    simp only [step, Scheduler.shutdown]
    split <;> exact ⟨id, id⟩
  | join =>
    simp only [step, Scheduler.join]
    split
    · simp
    all_goals exact ⟨id, id⟩
  | pool a => exact ⟨id, id⟩

/-- What a single move can report once `stop` is set. -/
theorem step_event_stopped (w : World φ) (now : Int) (a : WorldAction φ) (e : SchedEvent φ)
    (hs : w.sched.stop = true) (he : (w.step now a).2 = WorldEvent.sched e) :
    (∀ x, e ≠ SchedEvent.popped x) ∧ (∀ x, e ≠ SchedEvent.rescheduled x)
    ∧ (∀ x, e = SchedEvent.submitted x → w.sched.scheduler_thread = SchedulerThread.submitting x)
    ∧ (∀ x, e = SchedEvent.reinserted x →
        w.sched.scheduler_thread = SchedulerThread.reinserting x) := by
  cases a with
  | post f =>
    simp only [step, Scheduler.post, Scheduler.add_task, WorldEvent.sched.injEq] at he
    subst he
    simp
  | post_after delay f =>
    simp only [step, Scheduler.post_after, Scheduler.add_task, WorldEvent.sched.injEq] at he
    subst he
    simp
  | post_every interval f =>
    simp only [step, Scheduler.post_every, Scheduler.add_task, WorldEvent.sched.injEq] at he
    subst he
    simp
  | run =>
    simp only [step, WorldEvent.sched.injEq] at he
    refine ⟨?_, ?_, ?_, ?_⟩
    · intro x hx
      rw [hx] at he
      have := (Scheduler.run_popped _ _ _ x he).2.1
      rw [hs] at this
      exact absurd this (by simp)
    · intro x hx
      rw [hx] at he
      have := (Scheduler.run_rescheduled _ _ _ x he).1
      rw [hs] at this
      exact absurd this (by simp)
    · intro x hx
      rw [hx] at he
      exact (Scheduler.run_submitted _ _ _ x he).1
    · intro x hx
      rw [hx] at he
      exact Scheduler.run_reinserted _ _ _ x he
  | shutdown =>
    simp only [step, Scheduler.shutdown, WorldEvent.sched.injEq] at he
    split at he <;> (subst he; simp)
  | join =>
    simp only [step, Scheduler.join, WorldEvent.sched.injEq] at he
    split at he <;> (subst he; simp)
  | pool a => simp [step] at he

/-- Once `stop` is set, no run pops an item or computes a next due time, and
the only item it can still submit or push back is the one in flight. -/
theorem exec_stopped (acts : List (Int × WorldAction φ)) (w : World φ)
    (hs : w.sched.stop = true) :
    ∀ t e, (t, WorldEvent.sched e) ∈ (w.exec acts).2 →
      (∀ x, e ≠ SchedEvent.popped x) ∧ (∀ x, e ≠ SchedEvent.rescheduled x)
      ∧ (∀ x, e = SchedEvent.submitted x →
          w.sched.scheduler_thread = SchedulerThread.submitting x)
      ∧ (∀ x, e = SchedEvent.reinserted x →
          w.sched.scheduler_thread = SchedulerThread.reinserting x) := by
  induction acts generalizing w with
  | nil => simp [exec]
  | cons a rest ih =>
    intro t e hmem
    rw [world_exec_cons] at hmem
    simp only [List.mem_cons, Prod.mk.injEq] at hmem
    rcases hmem with ⟨_, he⟩ | hmem
    · exact step_event_stopped w a.1 a.2 e hs he.symm
    · have h := ih (w.step a.1 a.2).1 (step_sched_stop w a.1 a.2 hs) t e hmem
      refine ⟨h.1, h.2.1, ?_, ?_⟩
      · intro x hx
        exact (step_thread_stopped w a.1 a.2 x hs).1 (h.2.2.1 x hx)
      · intro x hx
        exact (step_thread_stopped w a.1 a.2 x hs).2 (h.2.2.2 x hx)

end World

namespace Scheduler

variable {φ : Type}

/-- C13 fails as stated: `post_every` with interval 0, with the negative
interval of -3 ms, and with the negative interval of -3000000 hours, returns
normally and adds an item to the pending queue. The last interval is
-10800000000000000000 ticks; the due time of its item is computed modulo
`2 ^ 64` and is not the reading plus the interval. -/
theorem post_every_accepts_nonpositive :
    (new : Scheduler Nat).post_every 5 0 7 =
      ({ items := [{ when := 5, func := 7, interval := 0, seq := 0 }], stop := false,
         scheduler_thread := SchedulerThread.looping, seq := 1 },
        SchedEvent.added { when := 5, func := 7, interval := 0, seq := 0 })
    ∧ (new : Scheduler Nat).post_every 5 (-3000000) 7 =
      ({ items := [{ when := -2999995, func := 7, interval := -3, seq := 0 }], stop := false,
         scheduler_thread := SchedulerThread.looping, seq := 1 },
        SchedEvent.added { when := -2999995, func := 7, interval := -3, seq := 0 })
    ∧ (new : Scheduler Nat).post_every 5 (-10800000000000000000) 7 =
      ({ items := [{ when := 7646744073709551621, func := 7, interval := -10800000000000,
                     seq := 0 }],
         stop := false, scheduler_thread := SchedulerThread.looping, seq := 1 },
        SchedEvent.added
          { when := 7646744073709551621, func := 7, interval := -10800000000000, seq := 0 })
    ∧ (7646744073709551621 : Int) ≠ 5 + (-10800000000000000000) := by
  decide

/-- C13, amended: `post_every` does not check its interval. For every
interval, zero and negative ones included, the call returns normally and
pushes one item; its due time is `now + interval` computed in the 64-bit
nanosecond count and it stores the interval converted to milliseconds. When
the interval and `now + interval` are values of the count, the item is due at
`now + interval` and stores the interval truncated to milliseconds. For such
an interval `<= 0` the stored interval is `<= 0`, so the item is one-shot:
after its submission the loop drops it, does not push it back and leaves the
queue as it is. -/
theorem post_every_unchecked :
    (∀ (s : Scheduler φ) (now i : Int) (f : φ),
        (s.post_every now i f).2 =
          SchedEvent.added { when := plus now i, func := f, interval := to_ms i, seq := s.seq }
        ∧ (s.post_every now i f).1.items =
          s.items ++ [{ when := plus now i, func := f, interval := to_ms i, seq := s.seq }]
        ∧ (s.post_every now i f).1.stop = s.stop
        ∧ (s.post_every now i f).1.scheduler_thread = s.scheduler_thread)
    ∧ (∀ (s : Scheduler φ) (now i : Int) (f : φ), representable i → representable (now + i) →
        (s.post_every now i f).2 =
          SchedEvent.added { when := now + i, func := f, interval := Int.tdiv i TICKS_PER_MS,
                             seq := s.seq }
        ∧ (s.post_every now i f).1.items =
          s.items ++ [{ when := now + i, func := f, interval := Int.tdiv i TICKS_PER_MS,
                        seq := s.seq }])
    ∧ (∀ i : Int, i ≤ 0 → representable i → to_ms i ≤ 0)
    ∧ (∀ (s : Scheduler φ) (pool : ThreadPool φ) (now due i : Int) (f : φ) (n : Nat), i ≤ 0 →
        representable i →
        s.scheduler_thread = SchedulerThread.submitted
          { when := due, func := f, interval := to_ms i, seq := n } →
        s.run pool now =
          ({ s with scheduler_thread := SchedulerThread.looping }, pool,
            SchedEvent.dropped { when := due, func := f, interval := to_ms i, seq := n })) := by
  have hle : ∀ i : Int, i ≤ 0 → representable i → to_ms i ≤ 0 := by
    intro i hi hr
    rw [to_ms_eq i hr]
    exact tdiv_nonpos_interval i hi
  refine ⟨fun _ _ _ _ => ⟨rfl, rfl, rfl, rfl⟩, ?_, hle, ?_⟩
  · intro s now i f hi hr
    have h1 : (s.post_every now i f).2 =
        SchedEvent.added { when := plus now i, func := f, interval := to_ms i, seq := s.seq } :=
      rfl
    have h2 : (s.post_every now i f).1.items =
        s.items ++ [{ when := plus now i, func := f, interval := to_ms i, seq := s.seq }] := rfl
    rw [h1, h2, plus_eq now i hr, to_ms_eq i hi]
    exact ⟨rfl, rfl⟩
  · intro s pool now due i f n hi hr hth
    exact run_drop s pool now _ hth (Or.inl (hle i hi hr))

/-- The amended C13 on the item that `post_every` stores for the interval
-3 ms: after its submission the loop drops it. -/
theorem post_every_unchecked_witness :
    (({ items := [], stop := false,
        scheduler_thread := SchedulerThread.submitted
          { when := 1, func := 7, interval := to_ms (-3000000), seq := 0 },
        seq := 1 } : Scheduler Nat).run (ThreadPool.new 1 4) 9).1.items = [] := by
  rw [post_every_unchecked.2.2.2 _ (ThreadPool.new 1 4) 9 1 (-3000000) 7 0 (by decide)
    (by decide) rfl]

/-- C14 fails as stated: `post_after` with the negative delay -3 returns
normally and adds an item, due before the reading of the call; and so does
`post_after` with the negative delay of -3000000 hours, which is
-10800000000000000000 ticks: the due time of its item is computed modulo
`2 ^ 64` and lies after the reading of the call. -/
theorem post_after_accepts_negative :
    (new : Scheduler Nat).post_after 5 (-3) 7 =
      ({ items := [{ when := 2, func := 7, interval := 0, seq := 0 }], stop := false,
         scheduler_thread := SchedulerThread.looping, seq := 1 },
        SchedEvent.added { when := 2, func := 7, interval := 0, seq := 0 })
    ∧ (new : Scheduler Nat).post_after 5 (-10800000000000000000) 7 =
      ({ items := [{ when := 7646744073709551621, func := 7, interval := 0, seq := 0 }],
         stop := false, scheduler_thread := SchedulerThread.looping, seq := 1 },
        SchedEvent.added { when := 7646744073709551621, func := 7, interval := 0, seq := 0 })
    ∧ (5 : Int) < 7646744073709551621 := by
  decide

/-- C14, amended: `post_after` does not check its delay. For every delay,
negative ones included, the call returns normally and pushes one one-shot
item, whose due time is `now + delay` computed in the 64-bit nanosecond count;
when `now + delay` is a value of the count, the item is due at `now + delay`.
With a negative delay and such a sum the item is due before the reading of
the call, so the loop pops it at any later reading at which `top` returns
it. -/
theorem post_after_unchecked :
    (∀ (s : Scheduler φ) (now d : Int) (f : φ),
        (s.post_after now d f).2 =
          SchedEvent.added { when := plus now d, func := f, interval := 0, seq := s.seq }
        ∧ (s.post_after now d f).1.items =
          s.items ++ [{ when := plus now d, func := f, interval := 0, seq := s.seq }]
        ∧ (s.post_after now d f).1.stop = s.stop
        ∧ (s.post_after now d f).1.scheduler_thread = s.scheduler_thread)
    ∧ (∀ (s : Scheduler φ) (now d : Int) (f : φ), representable (now + d) →
        (s.post_after now d f).2 =
          SchedEvent.added { when := now + d, func := f, interval := 0, seq := s.seq }
        ∧ (s.post_after now d f).1.items =
          s.items ++ [{ when := now + d, func := f, interval := 0, seq := s.seq }])
    ∧ (∀ (s : Scheduler φ) (pool : ThreadPool φ) (now d later : Int) (x : Item φ), d < 0 →
        representable (now + d) → now ≤ later → x.when = plus now d →
        s.scheduler_thread = SchedulerThread.looping →
        s.stop = false → top s.items = some x →
        s.run pool later =
          ({ s with items := pop s.items, scheduler_thread := SchedulerThread.submitting x },
            pool, SchedEvent.popped x)) := by
  refine ⟨fun _ _ _ _ => ⟨rfl, rfl, rfl, rfl⟩, ?_, ?_⟩
  · intro s now d f hr
    have h1 : (s.post_after now d f).2 =
        SchedEvent.added { when := plus now d, func := f, interval := 0, seq := s.seq } := rfl
    have h2 : (s.post_after now d f).1.items =
        s.items ++ [{ when := plus now d, func := f, interval := 0, seq := s.seq }] := rfl
    rw [h1, h2, plus_eq now d hr]
    exact ⟨rfl, rfl⟩
  · intro s pool now d later x hd hr hl hw hth hs ht
    rw [plus_eq now d hr] at hw
    exact run_pop s pool later x hth hs ht (by omega)

/-- The amended C14 on the scheduler after `post_after(-3, f)` at reading 5:
the loop pops the item at reading 5. -/
theorem post_after_unchecked_witness :
    (((new : Scheduler Nat).post_after 5 (-3) 7).1.run (ThreadPool.new 1 4) 5).2.2 =
      SchedEvent.popped { when := 2, func := 7, interval := 0, seq := 0 } := by
  rw [post_after_unchecked.2.2 ((new : Scheduler Nat).post_after 5 (-3) 7).1 (ThreadPool.new 1 4) 5
    (-3) 5 { when := 2, func := 7, interval := 0, seq := 0 } (by decide) (by decide) (by decide)
    (by decide) rfl rfl (by decide)]

/-- C15 fails as stated: on a scheduler whose `stop` flag is true, `post`,
`post_after` and `post_every` return normally and add an item. -/
theorem post_on_stopped_adds :
    ({ items := [], stop := true, scheduler_thread := SchedulerThread.finished, seq := 0 } :
        Scheduler Nat).post 5 7 =
      ({ items := [{ when := 5, func := 7, interval := 0, seq := 0 }], stop := true,
         scheduler_thread := SchedulerThread.finished, seq := 1 },
        SchedEvent.added { when := 5, func := 7, interval := 0, seq := 0 })
    ∧ ({ items := [], stop := true, scheduler_thread := SchedulerThread.finished, seq := 0 } :
        Scheduler Nat).post_after 5 10 7 =
      ({ items := [{ when := 15, func := 7, interval := 0, seq := 0 }], stop := true,
         scheduler_thread := SchedulerThread.finished, seq := 1 },
        SchedEvent.added { when := 15, func := 7, interval := 0, seq := 0 })
    ∧ ({ items := [], stop := true, scheduler_thread := SchedulerThread.finished, seq := 0 } :
        Scheduler Nat).post_every 5 2000000 7 =
      ({ items := [{ when := 2000005, func := 7, interval := 2, seq := 0 }], stop := true,
         scheduler_thread := SchedulerThread.finished, seq := 1 },
        SchedEvent.added { when := 2000005, func := 7, interval := 2, seq := 0 }) := by
  decide

end Scheduler

namespace World

variable {φ : Type}

/-- C15, amended: `post`, `post_after` and `post_every` do not look at `stop`.
In every state, also one whose `stop` flag is true, each of them returns
normally and pushes its item, leaving `stop` as it is. An item pushed while
`stop` is true is never popped: once `stop` is set no run of the program pops
an item, and the loop submits at most the item it already held for
submission. -/
theorem post_ignores_stop :
    (∀ (s : Scheduler φ) (now d i : Int) (f : φ),
        ((s.post now f).2 =
            SchedEvent.added { when := now, func := f, interval := 0, seq := s.seq }
          ∧ (s.post now f).1.items =
            s.items ++ [{ when := now, func := f, interval := 0, seq := s.seq }]
          ∧ (s.post now f).1.stop = s.stop)
        ∧ ((s.post_after now d f).2 =
            SchedEvent.added { when := Scheduler.plus now d, func := f, interval := 0, seq := s.seq }
          ∧ (s.post_after now d f).1.items =
            s.items ++ [{ when := Scheduler.plus now d, func := f, interval := 0, seq := s.seq }]
          ∧ (s.post_after now d f).1.stop = s.stop)
        ∧ ((s.post_every now i f).2 =
            SchedEvent.added { when := Scheduler.plus now i, func := f,
                               interval := Scheduler.to_ms i, seq := s.seq }
          ∧ (s.post_every now i f).1.items =
            s.items ++ [{ when := Scheduler.plus now i, func := f,
                          interval := Scheduler.to_ms i, seq := s.seq }]
          ∧ (s.post_every now i f).1.stop = s.stop))
    ∧ (∀ (w : World φ) (acts : List (Int × WorldAction φ)), w.sched.stop = true →
        ∀ (t : Int) (x : Scheduler.Item φ),
          (t, WorldEvent.sched (SchedEvent.popped x)) ∉ (w.exec acts).2
          ∧ ((t, WorldEvent.sched (SchedEvent.submitted x)) ∈ (w.exec acts).2 →
              w.sched.scheduler_thread = SchedulerThread.submitting x)) := by
  refine ⟨fun _ _ _ _ _ => ⟨⟨rfl, rfl, rfl⟩, ⟨rfl, rfl, rfl⟩, ⟨rfl, rfl, rfl⟩⟩, ?_⟩
  intro w acts hs t x
  constructor
  · intro hmem
    exact (exec_stopped acts w hs t _ hmem).1 x rfl
  · intro hmem
    exact (exec_stopped acts w hs t _ hmem).2.2.1 x rfl

/-- The amended C15 on a stopped scheduler whose loop has not yet seen the
flag: `post` adds the item, and the run that follows ends the loop without
popping it. -/
theorem post_ignores_stop_witness :
    (({ sched := { items := [], stop := true, scheduler_thread := SchedulerThread.looping,
                   seq := 0 },
        pool := ThreadPool.new 1 4 } : World Nat).exec
        [(5, WorldAction.post 7), (6, WorldAction.run), (7, WorldAction.run)]).2
      = [(5, WorldEvent.sched (SchedEvent.added { when := 5, func := 7, interval := 0, seq := 0 })),
          (6, WorldEvent.sched SchedEvent.finished), (7, WorldEvent.sched SchedEvent.skipped)]
    ∧ (6, WorldEvent.sched (SchedEvent.popped { when := 5, func := 7, interval := 0, seq := 0 }))
      ∉ (({ sched := { items := [], stop := true, scheduler_thread := SchedulerThread.looping,
                       seq := 0 },
            pool := ThreadPool.new 1 4 } : World Nat).exec
          [(5, WorldAction.post 7), (6, WorldAction.run), (7, WorldAction.run)]).2 :=
  ⟨by decide, (post_ignores_stop.2 _ _ rfl 6 _).1⟩

/-- C16: nothing is submitted after scheduler shutdown. A loop iteration that
begins with `stop` true ends the loop: it pops nothing, does not touch the pool
and leaves the queue as it is; the same holds when the loop is woken inside
`wait_until`. After its firing a periodic item is dropped, not pushed back,
when line 186 reads `stop` true. In every run that follows the step of
`shutdown`, no item is popped and no next due time is computed; the only item
that can still be submitted or pushed back is the one the loop had already
popped, respectively already rescheduled, when `stop` was set. -/
theorem nothing_after_shutdown :
    (∀ (s : Scheduler φ) (pool : ThreadPool φ) (now : Int), s.stop = true →
        s.scheduler_thread = SchedulerThread.looping →
        s.run pool now =
          ({ s with scheduler_thread := SchedulerThread.finished }, pool, SchedEvent.finished))
    ∧ (∀ (s : Scheduler φ) (pool : ThreadPool φ) (now next : Int), s.stop = true →
        s.scheduler_thread = SchedulerThread.sleeping next →
        s.run pool now =
          ({ s with scheduler_thread := SchedulerThread.finished }, pool, SchedEvent.finished))
    ∧ (∀ (s : Scheduler φ) (pool : ThreadPool φ) (now : Int) (x : Scheduler.Item φ),
        s.stop = true → s.scheduler_thread = SchedulerThread.submitted x →
        s.run pool now =
          ({ s with scheduler_thread := SchedulerThread.looping }, pool, SchedEvent.dropped x))
    ∧ (∀ (w : World φ) (now : Int) (acts : List (Int × WorldAction φ)) (t : Int)
        (x : Scheduler.Item φ),
        (t, WorldEvent.sched (SchedEvent.popped x))
          ∉ ((w.step now WorldAction.shutdown).1.exec acts).2
        ∧ (t, WorldEvent.sched (SchedEvent.rescheduled x))
          ∉ ((w.step now WorldAction.shutdown).1.exec acts).2
        ∧ ((t, WorldEvent.sched (SchedEvent.submitted x))
            ∈ ((w.step now WorldAction.shutdown).1.exec acts).2 →
            w.sched.scheduler_thread = SchedulerThread.submitting x)
        ∧ ((t, WorldEvent.sched (SchedEvent.reinserted x))
            ∈ ((w.step now WorldAction.shutdown).1.exec acts).2 →
            w.sched.scheduler_thread = SchedulerThread.reinserting x)) := by
  refine ⟨?_, ?_, ?_, ?_⟩
  · intro s pool now hs hth
    unfold Scheduler.run
    rw [hth]
    simp [hs]
  · intro s pool now next hs hth
    unfold Scheduler.run
    rw [hth]
    simp [hs]
  · intro s pool now x hs hth
    exact Scheduler.run_drop s pool now x hth (Or.inr hs)
  · intro w now acts t x
    have hs : (w.step now WorldAction.shutdown).1.sched.stop = true :=
      Scheduler.sched_shutdown_stop w.sched
    have hth : (w.step now WorldAction.shutdown).1.sched.scheduler_thread =
        w.sched.scheduler_thread := by
      simp only [step, Scheduler.shutdown]
      split <;> rfl
    refine ⟨?_, ?_, ?_, ?_⟩
    · intro hmem
      exact (exec_stopped acts _ hs t _ hmem).1 x rfl
    · intro hmem
      exact (exec_stopped acts _ hs t _ hmem).2.1 x rfl
    · intro hmem
      rw [← hth]
      exact (exec_stopped acts _ hs t _ hmem).2.2.1 x rfl
    · intro hmem
      rw [← hth]
      exact (exec_stopped acts _ hs t _ hmem).2.2.2 x rfl

/-- The statement of C16 on a run in which a periodic item is pending and due
when `shutdown` sets the flag: the loop ends at its next step, the item stays
in the queue and the pool receives nothing. -/
theorem nothing_after_shutdown_witness :
    ((World.new 1 4 : World Nat).exec
        [(0, WorldAction.post_every 1000000 1), (1000000, WorldAction.shutdown),
          (1000001, WorldAction.run), (1000002, WorldAction.run)])
      = ({ sched :=
            { items := [{ when := 1000000, func := 1, interval := 1, seq := 0 }]
              stop := true
              scheduler_thread := SchedulerThread.finished
              seq := 1 }
           pool :=
            { workers := [WorkerThread.waiting], tasks := [], stop := false,
              max_queue_size := 4 } },
          [(0, WorldEvent.sched
              (SchedEvent.added { when := 1000000, func := 1, interval := 1, seq := 0 })),
            (1000000, WorldEvent.sched SchedEvent.stopped),
            (1000001, WorldEvent.sched SchedEvent.finished),
            (1000002, WorldEvent.sched SchedEvent.skipped)])
    ∧ (1000001, WorldEvent.sched
          (SchedEvent.popped { when := 1000000, func := 1, interval := 1, seq := 0 }))
        ∉ (((((World.new 1 4 : World Nat).exec [(0, WorldAction.post_every 1000000 1)]).1.step
              1000000 WorldAction.shutdown).1).exec
            [(1000001, WorldAction.run), (1000002, WorldAction.run)]).2 :=
  ⟨by decide, (nothing_after_shutdown.2.2.2 _ 1000000 _ 1000001 _).1⟩

end World

/-! ## Firings in the pool -/

namespace ThreadPool

variable {τ : Type}

theorem submit_workers (p : ThreadPool τ) (task : τ) : (p.submit task).1.workers = p.workers := by
  unfold submit
  repeat (first | rfl | split)

theorem step_workers_length (p : ThreadPool τ) (a : PoolAction τ) :
    (p.step a).1.workers.length = p.workers.length := by
  cases a <;> simp only [step, submit, worker_loop, shutdown, join] <;>
    repeat (first | rfl | simp only [List.length_set] | split)

end ThreadPool

namespace Scheduler

variable {φ : Type}

theorem run_pool_workers (s : Scheduler φ) (pool : ThreadPool φ) (now : Int) :
    (s.run pool now).2.1.workers = pool.workers := by
  unfold run
  cases hth : s.scheduler_thread with
  | submitting x =>
    simp only
    have h := ThreadPool.submit_workers pool x.func
    split
    · rename_i heq
      rw [heq] at h
      exact h
    · rename_i heq
      rw [heq] at h
      exact h
    · rename_i heq
      rw [heq] at h
      exact h
  | looping =>
    simp only
    repeat (first | rfl | split)
  | sleeping next =>
    simp only
    repeat (first | rfl | split)
  | submitted x =>
    simp only
    repeat (first | rfl | split)
  | reinserting x => rfl
  | finished => rfl
  | failed what => rfl
  | joined => rfl

end Scheduler

namespace World

variable {φ : Type}

theorem world_step_workers_length (w : World φ) (now : Int) (a : WorldAction φ) :
    (w.step now a).1.pool.workers.length = w.pool.workers.length := by
  cases a with
  | run =>
    simp only [step]
    rw [Scheduler.run_pool_workers]
  | pool a => exact ThreadPool.step_workers_length w.pool a
  | post f => rfl
  | post_after delay f => rfl
  | post_every interval f => rfl
  | shutdown => rfl
  | join => rfl

theorem exec_workers_length (acts : List (Int × WorldAction φ)) (w : World φ) :
    (w.exec acts).1.pool.workers.length = w.pool.workers.length := by
  induction acts generalizing w with
  | nil => rfl
  | cons a rest ih =>
    rw [world_exec_cons]
    simp only
    rw [ih, world_step_workers_length]

/-- C17 fails as stated on a pool of two workers. In the run `double_fire` the
callable of the periodic item (interval 1 ms) is still running on worker 0 when
its second firing is submitted and popped by worker 1: both workers run the
callable at the same time. -/
theorem periodic_double_fire :
    (World.new 2 4 : World Nat).exec double_fire =
      ({ sched :=
          { items := []
            stop := false
            scheduler_thread :=
              SchedulerThread.submitted { when := 2000100, func := 1, interval := 1, seq := 0 }
            seq := 1 }
         pool :=
          { workers := [WorkerThread.running 1, WorkerThread.running 1], tasks := [],
            stop := false, max_queue_size := 4 } },
        [(0, WorldEvent.sched
            (SchedEvent.added { when := 1000000, func := 1, interval := 1, seq := 0 })),
          (1000000, WorldEvent.sched
            (SchedEvent.popped { when := 1000000, func := 1, interval := 1, seq := 0 })),
          (1000020, WorldEvent.sched
            (SchedEvent.submitted { when := 1000000, func := 1, interval := 1, seq := 0 })),
          (1000050, WorldEvent.pool (PoolEvent.dequeued 0 1)),
          (1000100, WorldEvent.sched
            (SchedEvent.rescheduled { when := 2000100, func := 1, interval := 1, seq := 0 })),
          (1000110, WorldEvent.sched
            (SchedEvent.reinserted { when := 2000100, func := 1, interval := 1, seq := 0 })),
          (2000100, WorldEvent.sched
            (SchedEvent.popped { when := 2000100, func := 1, interval := 1, seq := 0 })),
          (2000120, WorldEvent.sched
            (SchedEvent.submitted { when := 2000100, func := 1, interval := 1, seq := 0 })),
          (2000150, WorldEvent.pool (PoolEvent.dequeued 1 1))]) := by
  decide

/-- C17, amended: no overlap on a pool of one worker. In every state that a
run reaches from the constructors of a pool with exactly one worker, at most
one worker holds a task, so two firings of an item never run at the same time,
however long the callable runs. The loop computes the next due time of a
periodic item only after `pool.submit` has accepted the current firing; it
does not wait for the callable to finish. -/
theorem single_worker_no_overlap :
    (∀ (maxQueue : Nat) (acts : List (Int × WorldAction φ)) (i j : Nat) (t u : φ),
        ((World.new 1 maxQueue : World φ).exec acts).1.pool.workers[i]?
          = some (WorkerThread.running t) →
        ((World.new 1 maxQueue : World φ).exec acts).1.pool.workers[j]?
          = some (WorkerThread.running u) →
        i = j)
    ∧ (∀ (s : Scheduler φ) (pool : ThreadPool φ) (now : Int) (y : Scheduler.Item φ),
        (s.run pool now).2.2 = SchedEvent.rescheduled y →
        ∃ x, s.scheduler_thread = SchedulerThread.submitted x
          ∧ y = { x with when := Scheduler.plus now (x.interval * Scheduler.TICKS_PER_MS) })
    ∧ (∀ (s : Scheduler φ) (pool : ThreadPool φ) (now : Int) (x : Scheduler.Item φ),
        (s.run pool now).1.scheduler_thread = SchedulerThread.submitted x →
        s.scheduler_thread = SchedulerThread.submitted x
        ∨ (s.scheduler_thread = SchedulerThread.submitting x
            ∧ (pool.submit x.func).2 = PoolEvent.enqueued x.func)) := by
  refine ⟨?_, ?_, ?_⟩
  · intro maxQueue acts i j t u hi hj
    have hlen := exec_workers_length acts (World.new 1 maxQueue : World φ)
    have h1 := FuturePool.cell_lt hi
    have h2 := FuturePool.cell_lt hj
    rw [hlen] at h1 h2
    simp only [World.new, ThreadPool.new, List.length_replicate] at h1 h2
    omega
  · intro s pool now y h
    obtain ⟨_, x, hx, _, hy⟩ := Scheduler.run_rescheduled s pool now y h
    exact ⟨x, hx, hy⟩
  · intro s pool now x h
    cases hth : s.scheduler_thread with
    | submitting y =>
      right
      unfold Scheduler.run at h
      rw [hth] at h
      simp only at h
      split at h
      · rename_i q task heq
        simp only [SchedulerThread.submitted.injEq] at h
        subst h
        have hev : (s.run pool now).2.2 = SchedEvent.submitted y := by
          unfold Scheduler.run
          rw [hth]
          simp only [heq]
        exact ⟨rfl, (Scheduler.run_submitted s pool now y hev).2.1⟩
      · simp at h
      · rw [hth] at h
        simp at h
    | submitted y =>
      left
      unfold Scheduler.run at h
      rw [hth] at h
      simp only at h
      split at h <;> simp at h
    | looping =>
      unfold Scheduler.run at h
      rw [hth] at h
      simp only at h
      split at h
      · simp at h
      · split at h
        · simp [hth] at h
        · split at h <;> simp at h
    | sleeping next =>
      unfold Scheduler.run at h
      rw [hth] at h
      simp only at h
      split at h
      · simp at h
      · split at h
        · simp at h
        · simp [hth] at h
    | reinserting y =>
      unfold Scheduler.run at h
      rw [hth] at h
      simp at h
    | finished =>
      unfold Scheduler.run at h
      rw [hth] at h
      simp [hth] at h
    | failed what =>
      unfold Scheduler.run at h
      rw [hth] at h
      simp [hth] at h
    | joined =>
      unfold Scheduler.run at h
      rw [hth] at h
      simp [hth] at h

/-- The amended C17 on the run `double_fire` made on a pool of one worker:
worker 0 holds the first firing, the second stays in the queue, and a worker
index that holds a task is 0. -/
theorem single_worker_no_overlap_witness :
    ((World.new 1 4 : World Nat).exec double_fire).1.pool =
      { workers := [WorkerThread.running 1], tasks := [1], stop := false, max_queue_size := 4 }
    ∧ (0 : Nat) = 0 :=
  ⟨by decide, single_worker_no_overlap.1 4 double_fire 0 0 1 1 (by decide) (by decide)⟩

end World

/-! ## LRUCache: list nodes -/

namespace day7

variable {K V : Type}

theorem addr_lt_fresh (l : List (Node K V)) : ∀ n ∈ l, n.addr < fresh l := by
  induction l with
  | nil => simp
  | cons m rest ih =>
    intro n hn
    simp only [fresh, List.map_cons, List.foldr_cons] at ih ⊢
    rcases List.mem_cons.mp hn with h | h
    · rw [h]
      omega
    · have := ih n h
      omega

theorem deref_split (l : List (Node K V)) (it : Nat) (n : Node K V) (h : deref l it = some n) :
    n.addr = it ∧ ∃ pre post, l = pre ++ n :: post ∧ ∀ m ∈ pre, m.addr ≠ it := by
  induction l with
  | nil => simp [deref] at h
  | cons m rest ih =>
    unfold deref at h
    split at h
    · rename_i hm
      simp only [Option.some.injEq] at h
      subst h
      exact ⟨hm, [], rest, rfl, by simp⟩
    · rename_i hm
      obtain ⟨h1, pre, post, h2, h3⟩ := ih h
      refine ⟨h1, m :: pre, post, by rw [h2]; rfl, ?_⟩
      intro x hx
      rcases List.mem_cons.mp hx with hx | hx
      · rw [hx]
        exact hm
      · exact h3 x hx

theorem deref_append (pre post : List (Node K V)) (n : Node K V) (it : Nat)
    (hpre : ∀ m ∈ pre, m.addr ≠ it) (hn : n.addr = it) :
    deref (pre ++ n :: post) it = some n := by
  induction pre with
  | nil => simp [deref, hn]
  | cons m rest ih =>
    have hm : m.addr ≠ it := hpre m (List.mem_cons_self _ _)
    simp only [List.cons_append, deref, hm, if_false]
    exact ih (fun x hx => hpre x (List.mem_cons_of_mem _ hx))

theorem unlink_cons_ne (m : Node K V) (l : List (Node K V)) (it : Nat) (h : m.addr ≠ it) :
    unlink (m :: l) it = m :: unlink l it := by
  simp [unlink, h]

theorem assign_cons_ne (m : Node K V) (l : List (Node K V)) (it : Nat) (value : V)
    (h : m.addr ≠ it) : assign (m :: l) it value = m :: assign l it value := by
  simp [assign, h]

theorem unlink_append (pre post : List (Node K V)) (n : Node K V) (it : Nat)
    (hpre : ∀ m ∈ pre, m.addr ≠ it) (hn : n.addr = it) :
    unlink (pre ++ n :: post) it = pre ++ post := by
  induction pre with
  | nil => simp [unlink, hn]
  | cons m rest ih =>
    have hm : m.addr ≠ it := hpre m (List.mem_cons_self _ _)
    rw [List.cons_append, unlink_cons_ne _ _ _ hm,
      ih (fun x hx => hpre x (List.mem_cons_of_mem _ hx))]
    rfl

theorem assign_append (pre post : List (Node K V)) (n : Node K V) (it : Nat) (value : V)
    (hpre : ∀ m ∈ pre, m.addr ≠ it) (hn : n.addr = it) :
    assign (pre ++ n :: post) it value = pre ++ { n with second := value } :: post := by
  induction pre with
  | nil => simp [assign, hn]
  | cons m rest ih =>
    have hm : m.addr ≠ it := hpre m (List.mem_cons_self _ _)
    rw [List.cons_append, assign_cons_ne _ _ _ _ hm,
      ih (fun x hx => hpre x (List.mem_cons_of_mem _ hx))]
    rfl

theorem links_addr (l : List (Node K V)) : (links l).map Prod.snd = l.map Node.addr := by
  simp [links, List.map_map, Function.comp_def]

theorem links_first (l : List (Node K V)) : (links l).map Prod.fst = l.map Node.first := by
  simp [links, List.map_map, Function.comp_def]

theorem mem_links (l : List (Node K V)) (k : K) (it : Nat) :
    (k, it) ∈ links l ↔ ∃ n ∈ l, n.first = k ∧ n.addr = it := by
  simp [links]

namespace LRUCache

/-- A list with the same (key, address) pairs, in any order, keeps `WF`. -/
theorem WF.of_links (c : LRUCache K V) (h : WF c) (l : List (Node K V))
    (hp : List.Perm (links l) (links c.list_)) : WF { c with list_ := l } := by
  refine
    { addr_nodup := ?_
      key_nodup := ?_
      map_iff := ?_
      size_le := ?_ }
  · have := (hp.map Prod.snd).nodup_iff
    rw [links_addr, links_addr] at this
    exact this.mpr h.addr_nodup
  · have := (hp.map Prod.fst).nodup_iff
    rw [links_first, links_first] at this
    exact this.mpr h.key_nodup
  · intro k it
    rw [h.map_iff k it, ← mem_links, ← mem_links]
    exact (hp.mem_iff).symm
  · have := hp.length_eq
    simp only [links, List.length_map] at this
    rw [this]
    exact h.size_le

/-- Under `WF` the iterator stored for a key points to the node of that key. -/
theorem WF.find (c : LRUCache K V) (h : WF c) (k : K) (it : Nat) (hf : c.map_ k = some it) :
    ∃ n pre post, c.list_ = pre ++ n :: post ∧ n.first = k ∧ n.addr = it
      ∧ ∀ m ∈ pre, m.addr ≠ it := by
  obtain ⟨n, hn, hk, ha⟩ := (h.map_iff k it).mp hf
  obtain ⟨pre, post, hl⟩ := List.append_of_mem hn
  refine ⟨n, pre, post, hl, hk, ha, ?_⟩
  intro m hm hma
  have hnd := h.addr_nodup
  rw [hl, List.map_append, List.map_cons, List.nodup_append] at hnd
  exact hnd.2.2 (List.mem_map_of_mem Node.addr hm)
    (by rw [hma, ← ha]; exact List.mem_cons_self _ _)

theorem WF.new (capacity : Nat) : WF (LRUCache.new capacity : LRUCache K V) :=
  { addr_nodup := by simp [LRUCache.new]
    key_nodup := by simp [LRUCache.new]
    map_iff := by simp [LRUCache.new]
    size_le := by simp [LRUCache.new] }

theorem WF.clear (c : LRUCache K V) : WF c.clear :=
  { addr_nodup := by simp [LRUCache.clear]
    key_nodup := by simp [LRUCache.clear]
    map_iff := by simp [LRUCache.clear]
    size_le := by simp [LRUCache.clear] }

end LRUCache

end day7

/-! ## LRUCache: the operations on a well-formed cache -/

namespace day7

variable {K V : Type}

theorem exists_concat (l : List (Node K V)) (h : l ≠ []) : ∃ init back, l = init ++ [back] := by
  rcases List.eq_nil_or_concat l with h1 | ⟨init, back, h1⟩
  · exact absurd h1 h
  · exact ⟨init, back, by rw [h1, List.concat_eq_append]⟩

namespace LRUCache

theorem get_miss (c : LRUCache K V) (k : K) (h : c.map_ k = none) : c.get k = (c, none) := by
  unfold get
  rw [h]

theorem peek_miss (c : LRUCache K V) (k : K) (h : c.map_ k = none) : c.peek k = none := by
  unfold peek
  rw [h]

theorem get_hit (c : LRUCache K V) (k : K) (it : Nat) (n : Node K V) (pre post : List (Node K V))
    (hf : c.map_ k = some it) (hl : c.list_ = pre ++ n :: post) (ha : n.addr = it)
    (hpre : ∀ m ∈ pre, m.addr ≠ it) :
    c.get k = ({ c with list_ := n :: (pre ++ post) }, some n.second) := by
  unfold get
  rw [hf]
  have ht : c.touch it = { c with list_ := n :: (pre ++ post) } := by
    unfold touch splice_front
    rw [hl, deref_append pre post n it hpre ha, unlink_append pre post n it hpre ha]
  simp only [ht]
  have hd : deref (n :: (pre ++ post)) it = some n := deref_append [] (pre ++ post) n it (by simp) ha
  rw [hd]
  rfl

theorem peek_hit (c : LRUCache K V) (k : K) (it : Nat) (n : Node K V) (pre post : List (Node K V))
    (hf : c.map_ k = some it) (hl : c.list_ = pre ++ n :: post) (ha : n.addr = it)
    (hpre : ∀ m ∈ pre, m.addr ≠ it) : c.peek k = some n.second := by
  unfold peek
  rw [hf]
  simp only
  rw [hl, deref_append pre post n it hpre ha]
  rfl

theorem WF.touch_node (c : LRUCache K V) (h : WF c) (n m : Node K V) (pre post : List (Node K V))
    (hl : c.list_ = pre ++ n :: post) (hk : m.first = n.first) (ha : m.addr = n.addr) :
    WF { c with list_ := m :: (pre ++ post) } := by
  apply h.of_links
  rw [hl]
  simp only [links, List.map_cons, List.map_append, hk, ha]
  exact List.perm_middle.symm

theorem WF.get (c : LRUCache K V) (h : WF c) (k : K) : WF (c.get k).1 := by
  cases hf : c.map_ k with
  | none =>
    rw [get_miss c k hf]
    exact h
  | some it =>
    obtain ⟨n, pre, post, hl, _, ha, hpre⟩ := h.find c k it hf
    rw [get_hit c k it n pre post hf hl ha hpre]
    exact h.touch_node c n n pre post hl rfl rfl

variable [DecidableEq K]

theorem put_hit (c : LRUCache K V) (k : K) (value : V) (it : Nat) (n : Node K V)
    (pre post : List (Node K V)) (hf : c.map_ k = some it) (hl : c.list_ = pre ++ n :: post)
    (ha : n.addr = it) (hpre : ∀ m ∈ pre, m.addr ≠ it) :
    c.put k value = { c with list_ := { n with second := value } :: (pre ++ post) } := by
  unfold put
  rw [hf]
  simp only [touch, splice_front]
  rw [hl, assign_append pre post n it value hpre ha,
    deref_append pre post { n with second := value } it hpre ha,
    unlink_append pre post { n with second := value } it hpre ha]

theorem put_miss (c : LRUCache K V) (k : K) (value : V) (h : c.map_ k = none) :
    c.put k value = c.insert_new k value := by
  unfold put
  rw [h]

theorem insert_new_zero (c : LRUCache K V) (k : K) (value : V) (h : c.capacity_ = 0) :
    c.insert_new k value = c := by
  unfold insert_new
  simp [h]

theorem insert_new_room (c : LRUCache K V) (k : K) (value : V) (h0 : c.capacity_ ≠ 0)
    (hl : c.list_.length ≠ c.capacity_) :
    c.insert_new k value =
      { c with
        list_ := { addr := fresh c.list_, first := k, second := value } :: c.list_
        map_ := Function.update c.map_ k (some (fresh c.list_)) } := by
  unfold insert_new
  simp [h0, hl]

theorem insert_new_evict (c : LRUCache K V) (k : K) (value : V) (init : List (Node K V))
    (back : Node K V) (h0 : c.capacity_ ≠ 0) (hl : c.list_ = init ++ [back])
    (hfull : c.list_.length = c.capacity_) :
    c.insert_new k value =
      { c with
        list_ := { addr := fresh init, first := k, second := value } :: init
        map_ := Function.update (Function.update c.map_ back.first none) k (some (fresh init)) } := by
  unfold insert_new
  simp only [h0, if_false, hfull, if_true]
  rw [hl, List.getLast?_concat, List.dropLast_concat]

/-- Dropping the last node and erasing its key keeps `WF`. -/
theorem WF.evict (c : LRUCache K V) (h : WF c) (init : List (Node K V)) (back : Node K V)
    (hl : c.list_ = init ++ [back]) :
    WF { c with list_ := init, map_ := Function.update c.map_ back.first none } := by
  have hk := h.key_nodup
  have ha := h.addr_nodup
  rw [hl, List.map_append, List.nodup_append] at hk ha
  refine
    { addr_nodup := ha.1
      key_nodup := hk.1
      map_iff := ?_
      size_le := ?_ }
  · intro k it
    by_cases hkb : k = back.first
    · subst hkb
      simp only [Function.update_same]
      constructor
      · intro hc
        exact absurd hc (by simp)
      · rintro ⟨n, hn, hnk, _⟩
        exfalso
        exact hk.2.2 (List.mem_map_of_mem Node.first hn) (by rw [hnk]; simp)
    · simp only [Function.update_noteq hkb]
      rw [h.map_iff k it, hl]
      constructor
      · rintro ⟨n, hn, hnk, hna⟩
        rcases List.mem_append.mp hn with hn | hn
        · exact ⟨n, hn, hnk, hna⟩
        · rw [List.mem_singleton] at hn
          rw [hn] at hnk
          exact absurd hnk.symm hkb
      · rintro ⟨n, hn, hnk, hna⟩
        exact ⟨n, List.mem_append_left _ hn, hnk, hna⟩
  · have := h.size_le
    rw [hl, List.length_append] at this
    simp only
    omega

/-- Putting a node for an absent key in front keeps `WF` when there is room. -/
theorem WF.push_front (c : LRUCache K V) (h : WF c) (k : K) (value : V) (hk : c.map_ k = none)
    (hlen : c.list_.length < c.capacity_) :
    WF { c with
         list_ := { addr := fresh c.list_, first := k, second := value } :: c.list_
         map_ := Function.update c.map_ k (some (fresh c.list_)) } := by
  have habs : ∀ n ∈ c.list_, n.first ≠ k := by
    intro n hn hnk
    have := (h.map_iff k n.addr).mpr ⟨n, hn, hnk, rfl⟩
    rw [hk] at this
    exact absurd this (by simp)
  refine
    { addr_nodup := ?_
      key_nodup := ?_
      map_iff := ?_
      size_le := ?_ }
  · simp only [List.map_cons, List.nodup_cons]
    refine ⟨?_, h.addr_nodup⟩
    intro hm
    obtain ⟨n, hn, hna⟩ := List.mem_map.mp hm
    have := addr_lt_fresh c.list_ n hn
    omega
  · simp only [List.map_cons, List.nodup_cons]
    refine ⟨?_, h.key_nodup⟩
    intro hm
    obtain ⟨n, hn, hnk⟩ := List.mem_map.mp hm
    exact habs n hn hnk
  · intro j it
    by_cases hj : j = k
    · subst hj
      simp only [Function.update_same, Option.some.injEq, List.mem_cons]
      constructor
      · intro e
        exact ⟨_, Or.inl rfl, rfl, e⟩
      · rintro ⟨n, hn | hn, hnk, hna⟩
        · rw [hn] at hna
          exact hna
        · exact absurd hnk (habs n hn)
    · simp only [Function.update_noteq hj, List.mem_cons]
      rw [h.map_iff j it]
      constructor
      · rintro ⟨n, hn, hnk, hna⟩
        exact ⟨n, Or.inr hn, hnk, hna⟩
      · rintro ⟨n, hn | hn, hnk, hna⟩
        · rw [hn] at hnk
          exact absurd hnk.symm hj
        · exact ⟨n, hn, hnk, hna⟩
  · simp only [List.length_cons]
    omega

theorem WF.insert_new (c : LRUCache K V) (h : WF c) (k : K) (value : V) (hk : c.map_ k = none) :
    WF (c.insert_new k value) := by
  by_cases h0 : c.capacity_ = 0
  · rw [insert_new_zero c k value h0]
    exact h
  · by_cases hfull : c.list_.length = c.capacity_
    · have hne : c.list_ ≠ [] := by
        intro e
        rw [e] at hfull
        exact h0 hfull.symm
      obtain ⟨init, back, hl⟩ := exists_concat c.list_ hne
      rw [insert_new_evict c k value init back h0 hl hfull]
      have hev := h.evict c init back hl
      have hk2 : (Function.update c.map_ back.first none) k = none := by
        by_cases e : k = back.first
        · rw [e, Function.update_same]
        · rw [Function.update_noteq e, hk]
      have hlen : init.length < c.capacity_ := by
        rw [← hfull, hl, List.length_append]
        simp
      exact hev.push_front _ k value hk2 hlen
    · rw [insert_new_room c k value h0 hfull]
      exact h.push_front c k value hk (lt_of_le_of_ne h.size_le hfull)

theorem WF.put (c : LRUCache K V) (h : WF c) (k : K) (value : V) : WF (c.put k value) := by
  cases hf : c.map_ k with
  | none =>
    rw [put_miss c k value hf]
    exact h.insert_new c k value hf
  | some it =>
    obtain ⟨n, pre, post, hl, _, ha, hpre⟩ := h.find c k it hf
    rw [put_hit c k value it n pre post hf hl ha hpre]
    exact h.touch_node c n _ pre post hl rfl rfl

theorem WF.put_if_absent (c : LRUCache K V) (h : WF c) (k : K) (value : V) :
    WF (c.put_if_absent k value).1 := by
  unfold LRUCache.put_if_absent
  split
  · exact h
  · rename_i hc
    have hk : c.map_ k = none := by
      simpa [contains] using hc
    exact h.insert_new c k value hk

theorem WF.apply (c : LRUCache K V) (h : WF c) (op : Op K V) : WF (c.apply op).1 := by
  cases op with
  | put k v => exact h.put c k v
  | put_if_absent k v => exact h.put_if_absent c k v
  | get k => exact h.get c k
  | peek k => exact h
  | contains k => exact h
  | clear => exact WF.clear c

theorem run_append (c : LRUCache K V) (xs ys : List (Op K V)) :
    c.run (xs ++ ys) = (c.run xs).run ys := by
  simp [run, List.foldl_append]

theorem run_cons (c : LRUCache K V) (op : Op K V) (rest : List (Op K V)) :
    c.run (op :: rest) = (c.apply op).1.run rest := rfl

theorem WF.run (ops : List (Op K V)) (c : LRUCache K V) (h : WF c) : WF (c.run ops) := by
  induction ops generalizing c with
  | nil => exact h
  | cons op rest ih =>
    rw [run_cons]
    exact ih _ (h.apply c op)

end LRUCache

end day7

/-! ## LRUCache: queries -/

namespace day7

variable {K V : Type}

namespace LRUCache

theorem contains_eq_false (c : LRUCache K V) (k : K) : c.contains k = false ↔ c.map_ k = none := by
  unfold contains
  cases c.map_ k <;> simp

theorem contains_eq_true (c : LRUCache K V) (k : K) :
    c.contains k = true ↔ ∃ it, c.map_ k = some it := by
  unfold contains
  cases c.map_ k <;> simp

/-- Under `WF`, `peek` returns the value stored with the key in the list. -/
theorem peek_iff (c : LRUCache K V) (h : WF c) (k : K) (v : V) :
    c.peek k = some v ↔ (k, v) ∈ c.pairs := by
  constructor
  · intro hp
    cases hf : c.map_ k with
    | none =>
      rw [peek_miss c k hf] at hp
      exact absurd hp (by simp)
    | some it =>
      obtain ⟨n, pre, post, hl, hk, ha, hpre⟩ := h.find c k it hf
      rw [peek_hit c k it n pre post hf hl ha hpre] at hp
      simp only [Option.some.injEq] at hp
      simp only [pairs, List.mem_map]
      exact ⟨n, by rw [hl]; simp, by rw [hk, hp]⟩
  · intro hm
    simp only [pairs, List.mem_map, Prod.mk.injEq] at hm
    obtain ⟨n, hn, hk, hv⟩ := hm
    have hf := (h.map_iff k n.addr).mpr ⟨n, hn, hk, rfl⟩
    obtain ⟨m, pre, post, hl, hmk, hma, hpre⟩ := h.find c k n.addr hf
    have hmem : m ∈ c.list_ := by rw [hl]; simp
    have : m = n := List.inj_on_of_nodup_map h.addr_nodup hmem hn hma
    rw [peek_hit c k n.addr m pre post hf hl hma hpre, this, hv]

theorem contains_iff (c : LRUCache K V) (h : WF c) (k : K) :
    c.contains k = true ↔ k ∈ c.keys := by
  rw [contains_eq_true]
  constructor
  · rintro ⟨it, hf⟩
    obtain ⟨n, hn, hk, _⟩ := (h.map_iff k it).mp hf
    simp only [keys, List.mem_map]
    exact ⟨n, hn, hk⟩
  · intro hm
    simp only [keys, List.mem_map] at hm
    obtain ⟨n, hn, hk⟩ := hm
    exact ⟨n.addr, (h.map_iff k n.addr).mpr ⟨n, hn, hk, rfl⟩⟩

/-- Under `WF`, a hit of `get` returns the stored value and moves the pair of
the key to the front; nothing else changes. -/
theorem get_hit_pairs (c : LRUCache K V) (h : WF c) (k : K) (hc : c.contains k = true) :
    ∃ v pre post, c.pairs = pre ++ (k, v) :: post ∧ (c.get k).2 = some v
      ∧ (c.get k).1.pairs = (k, v) :: (pre ++ post) ∧ (c.get k).1.map_ = c.map_
      ∧ (c.get k).1.capacity_ = c.capacity_ := by
  obtain ⟨it, hf⟩ := (contains_eq_true c k).mp hc
  obtain ⟨n, pre, post, hl, hk, ha, hpre⟩ := h.find c k it hf
  rw [get_hit c k it n pre post hf hl ha hpre]
  refine ⟨n.second, pre.map (fun n => (n.first, n.second)), post.map (fun n => (n.first, n.second)),
    ?_, rfl, ?_, rfl, rfl⟩
  · simp [pairs, hl, hk]
  · simp [pairs, hk]

/-- C20: `peek` is a read-only query. In every well-formed cache state, and so
in every state that a sequence of calls reaches from the constructor,
`peek(k)` returns the optional that `get(k)` returns; `peek` returns no new
state, the cache after it is the cache before it. `get(k)` on a miss returns
the cache unchanged. On a hit it returns the stored value and moves the pair of
`k` to the front of the recency list, keeping the other pairs in their order
and leaving `map_` and the capacity as they are. -/
theorem peek_read_only [DecidableEq K] :
    (∀ (capacity : Nat) (ops : List (Op K V)), WF ((new capacity : LRUCache K V).run ops))
    ∧ (∀ (c : LRUCache K V) (k : K), WF c → c.peek k = (c.get k).2)
    ∧ (∀ (c : LRUCache K V) (k : K), (c.apply (Op.peek k)).1 = c
        ∧ (c.apply (Op.peek k)).2 = Ret.value (c.peek k))
    ∧ (∀ (c : LRUCache K V) (k : K) (v : V), WF c → (c.peek k = some v ↔ (k, v) ∈ c.pairs))
    ∧ (∀ (c : LRUCache K V) (k : K), c.contains k = false → c.get k = (c, none))
    ∧ (∀ (c : LRUCache K V) (k : K), WF c → c.contains k = true →
        ∃ v pre post, c.pairs = pre ++ (k, v) :: post ∧ (c.get k).2 = some v
          ∧ (c.get k).1.pairs = (k, v) :: (pre ++ post) ∧ (c.get k).1.map_ = c.map_
          ∧ (c.get k).1.capacity_ = c.capacity_) := by
  refine ⟨fun capacity ops => WF.run ops _ (WF.new capacity), ?_, fun _ _ => ⟨rfl, rfl⟩,
    fun c k v h => peek_iff c h k v, ?_, fun c k h hc => get_hit_pairs c h k hc⟩
  · intro c k h
    cases hf : c.map_ k with
    | none => rw [peek_miss c k hf, get_miss c k hf]
    | some it =>
      obtain ⟨n, pre, post, hl, _, ha, hpre⟩ := h.find c k it hf
      rw [peek_hit c k it n pre post hf hl ha hpre, get_hit c k it n pre post hf hl ha hpre]
  · intro c k hc
    exact get_miss c k ((contains_eq_false c k).mp hc)

/-- The statement of C20 on the cache of `main` after `put` of 1, 2 and 3:
`peek(1)` returns what `get(1)` returns, and `get(1)` moves 1 to the front. -/
theorem peek_read_only_witness :
    ((new 3 : LRUCache Int String).run [Op.put 1 "one", Op.put 2 "two", Op.put 3 "three"]).peek 1
      = (((new 3 : LRUCache Int String).run
          [Op.put 1 "one", Op.put 2 "two", Op.put 3 "three"]).get 1).2
    ∧ (((new 3 : LRUCache Int String).run
          [Op.put 1 "one", Op.put 2 "two", Op.put 3 "three"]).get 1).1.pairs
      = [(1, "one"), (3, "three"), (2, "two")] :=
  ⟨peek_read_only.2.1 _ 1 (peek_read_only.1 3 _), by decide⟩

end LRUCache

end day7

/-! ## LRUCache: insertion -/

namespace day7

variable {K V : Type}

namespace LRUCache

variable [DecidableEq K]

/-- What `insert_new` does to a well-formed cache of capacity at least 1 for a
key that is absent: the new pair is in front, and behind it is the old list,
without its last pair when the cache was full. -/
theorem insert_new_pairs (c : LRUCache K V) (h : WF c) (k : K) (value : V)
    (h0 : c.capacity_ ≠ 0) (hk : c.map_ k = none) :
    WF (c.insert_new k value)
    ∧ (c.insert_new k value).capacity_ = c.capacity_
    ∧ (c.list_.length ≠ c.capacity_ → (c.insert_new k value).pairs = (k, value) :: c.pairs)
    ∧ (c.list_.length = c.capacity_ →
        ∃ init back, c.pairs = init ++ [back] ∧ (c.insert_new k value).pairs = (k, value) :: init
          ∧ back.1 ≠ k ∧ back.1 ∉ init.map Prod.fst) := by
  refine ⟨h.insert_new c k value hk, ?_, ?_, ?_⟩
  · by_cases hfull : c.list_.length = c.capacity_
    · have hne : c.list_ ≠ [] := by
        intro e
        rw [e] at hfull
        exact h0 hfull.symm
      obtain ⟨init, back, hl⟩ := exists_concat c.list_ hne
      rw [insert_new_evict c k value init back h0 hl hfull]
    · rw [insert_new_room c k value h0 hfull]
  · intro hfull
    rw [insert_new_room c k value h0 hfull]
    rfl
  · intro hfull
    have hne : c.list_ ≠ [] := by
      intro e
      rw [e] at hfull
      exact h0 hfull.symm
    obtain ⟨init, back, hl⟩ := exists_concat c.list_ hne
    rw [insert_new_evict c k value init back h0 hl hfull]
    refine ⟨init.map (fun (n : Node K V) => (n.first, n.second)), (back.first, back.second), ?_,
      rfl, ?_, ?_⟩
    · simp [pairs, hl]
    · intro e
      have := (h.map_iff k back.addr).mpr ⟨back, by rw [hl]; simp, e, rfl⟩
      rw [hk] at this
      exact absurd this (by simp)
    · have hnd := h.key_nodup
      rw [hl, List.map_append, List.nodup_append] at hnd
      intro hm
      simp only [List.map_map, Function.comp_def] at hm
      exact hnd.2.2 hm (by simp)

/-- C19: the code at the failing input. On a cache of capacity 0,
`put_if_absent(1, "x")` returns true although `insert_new` stored nothing:
afterwards `contains(1)` is false, `peek(1)` is empty and the list is empty;
so it is for every cache of capacity 0 and every absent key. Where the code
agrees with the claim: for a key that is present the call returns false and the
cache is unchanged; on a well-formed cache of capacity at least 1 and an absent
key it returns true, and afterwards `contains(k)` holds and `peek(k)` yields
`v`. In `main`, `put_if_absent(3, "THREE")` returns false and `get(3)` still
yields "three". -/
theorem put_if_absent_zero_capacity :
    ((new 0 : LRUCache Int String).put_if_absent 1 "x").2 = true
    ∧ ((new 0 : LRUCache Int String).put_if_absent 1 "x").1.contains 1 = false
    ∧ ((new 0 : LRUCache Int String).put_if_absent 1 "x").1.peek 1 = none
    ∧ ((new 0 : LRUCache Int String).put_if_absent 1 "x").1.pairs = []
    ∧ (∀ (c : LRUCache K V) (k : K) (v : V), c.capacity_ = 0 → c.contains k = false →
        c.put_if_absent k v = (c, true))
    ∧ (∀ (c : LRUCache K V) (k : K) (v : V), c.contains k = true →
        c.put_if_absent k v = (c, false))
    ∧ (∀ (c : LRUCache K V) (k : K) (v : V), WF c → c.capacity_ ≠ 0 → c.contains k = false →
        (c.put_if_absent k v).2 = true ∧ (c.put_if_absent k v).1.contains k = true
        ∧ (c.put_if_absent k v).1.peek k = some v)
    ∧ (new 3 : LRUCache Int String).results (main_ops ++ main_tail) =
        [Ret.unit, Ret.unit, Ret.unit, Ret.value (some "one"), Ret.unit, Ret.value none,
          Ret.value (some "three"), Ret.value (some "four"), Ret.bool false,
          Ret.value (some "three")] := by
  refine ⟨by decide, by decide, by decide, by decide, ?_, ?_, ?_, by decide⟩
  · intro c k v h0 hc
    unfold put_if_absent
    simp [hc, insert_new_zero c k v h0]
  · intro c k v hc
    unfold put_if_absent
    simp [hc]
  · intro c k v h h0 hc
    have hk := (contains_eq_false c k).mp hc
    have hp := insert_new_pairs c h k v h0 hk
    have e : c.put_if_absent k v = (c.insert_new k v, true) := by
      unfold put_if_absent
      simp [hc]
    rw [e]
    have hmem : (k, v) ∈ (c.insert_new k v).pairs := by
      by_cases hfull : c.list_.length = c.capacity_
      · obtain ⟨init, back, _, h2, _⟩ := hp.2.2.2 hfull
        rw [h2]
        exact List.mem_cons_self _ _
      · rw [hp.2.2.1 hfull]
        exact List.mem_cons_self _ _
    refine ⟨rfl, ?_, (peek_iff _ hp.1 k v).mpr hmem⟩
    rw [contains_iff _ hp.1]
    simp only [pairs, List.mem_map, Prod.mk.injEq] at hmem
    obtain ⟨n, hn, hnk, _⟩ := hmem
    simp only [keys, List.mem_map]
    exact ⟨n, hn, hnk⟩

end LRUCache

end day7

/-! ## LRUCache: recency -/

namespace day7

variable {K V : Type}

theorem LRUCache.keys_eq (c : LRUCache K V) : c.keys = c.pairs.map Prod.fst := by
  simp [LRUCache.keys, LRUCache.pairs, List.map_map, Function.comp_def]

variable [DecidableEq K]

theorem last_use_fold_fst (k : K) (log : List (Op K V × Ret V)) (a : Nat × Nat) :
    (log.foldl (fun (acc : Nat × Nat) e =>
      (acc.1 + 1, if Op.touches k e then acc.1 + 1 else acc.2)) a).1 = a.1 + log.length := by
  induction log generalizing a with
  | nil => rfl
  | cons e rest ih =>
    rw [List.foldl_cons, ih, List.length_cons]
    simp only
    omega

theorem last_use_snoc (k : K) (log : List (Op K V × Ret V)) (e : Op K V × Ret V) :
    last_use k (log ++ [e]) = if Op.touches k e then log.length + 1 else last_use k log := by
  unfold last_use
  rw [List.foldl_append, List.foldl_cons, List.foldl_nil]
  simp only [last_use_fold_fst, Nat.zero_add]

theorem last_use_le (k : K) (log : List (Op K V × Ret V)) : last_use k log ≤ log.length := by
  induction log using List.reverseRecOn with
  | nil => simp [last_use]
  | append_singleton xs e ih =>
    rw [last_use_snoc, List.length_append, List.length_singleton]
    split <;> omega

namespace LRUCache

theorem results_length (ops : List (Op K V)) (c : LRUCache K V) :
    (c.results ops).length = ops.length := by
  induction ops generalizing c with
  | nil => rfl
  | cons op rest ih => simp [results, ih]

theorem results_append (xs ys : List (Op K V)) (c : LRUCache K V) :
    c.results (xs ++ ys) = c.results xs ++ (c.run xs).results ys := by
  induction xs generalizing c with
  | nil => rfl
  | cons op rest ih =>
    show (c.apply op).2 :: (c.apply op).1.results (rest ++ ys) = _
    rw [ih]
    rfl

theorem log_snoc (c : LRUCache K V) (xs : List (Op K V)) (op : Op K V) :
    c.log (xs ++ [op]) = c.log xs ++ [(op, ((c.run xs).apply op).2)] := by
  unfold log
  rw [results_append, List.zip_append (by rw [results_length])]
  rfl

theorem log_length (c : LRUCache K V) (ops : List (Op K V)) : (c.log ops).length = ops.length := by
  simp [log, results_length]

end LRUCache

end day7

namespace day7

variable {K V : Type} [DecidableEq K]

theorem touches_put (k j : K) (v : V) (r : Ret V) :
    Op.touches k (Op.put j v, r) = decide (j = k) := rfl

theorem touches_get (k j : K) (r : Ret V) :
    Op.touches k ((Op.get j : Op K V), r) = decide (j = k) := rfl

theorem touches_inserted (k j : K) (v : V) :
    Op.touches k (Op.put_if_absent j v, Ret.bool true) = decide (j = k) := rfl

theorem touches_not_inserted (k j : K) (v : V) :
    Op.touches k (Op.put_if_absent j v, Ret.bool false) = false := rfl

theorem touches_peek (k j : K) (r : Ret V) :
    Op.touches k ((Op.peek j : Op K V), r) = false := rfl

theorem touches_contains (k j : K) (r : Ret V) :
    Op.touches k ((Op.contains j : Op K V), r) = false := rfl

theorem touches_clear (k : K) (r : Ret V) :
    Op.touches k ((Op.clear : Op K V), r) = false := rfl

namespace LRUCache

/-- What a call does to the order of the keys of a well-formed cache: nothing,
and then it touches no cached key; or the key it touches comes to the front of
keys that keep their order; or the cache is empty. -/
theorem keys_apply (c : LRUCache K V) (h : WF c) (op : Op K V) :
    ((c.apply op).1.keys = c.keys ∧ ∀ j ∈ c.keys, Op.touches j (op, (c.apply op).2) = false)
    ∨ (∃ k rest, Op.touches k (op, (c.apply op).2) = true
        ∧ (∀ j, j ≠ k → Op.touches j (op, (c.apply op).2) = false)
        ∧ (c.apply op).1.keys = k :: rest ∧ rest.Sublist c.keys ∧ k ∉ rest)
    ∨ (c.apply op).1.keys = [] := by
  have hne : ∀ (k j : K), j ≠ k → decide (k = j) = false := by
    intro k j hj
    simp only [decide_eq_false_iff_not]
    exact fun e => hj e.symm
  have hmiss : ∀ k : K, c.map_ k = none → ∀ j ∈ c.keys, decide (k = j) = false := by
    intro k hk j hj
    apply hne
    intro e
    have := (contains_iff c h j).mpr hj
    rw [e, (contains_eq_false c k).mpr hk] at this
    exact absurd this (by simp)
  have hhit : ∀ (k : K) (it : Nat) (c2 : LRUCache K V), c.map_ k = some it →
      (∀ (n : Node K V) (pre post : List (Node K V)), c.list_ = pre ++ n :: post → n.first = k →
        n.addr = it → (∀ m ∈ pre, m.addr ≠ it) →
        ∃ m : Node K V, m.first = k ∧ c2.list_ = m :: (pre ++ post)) →
      ∃ rest, c2.keys = k :: rest ∧ rest.Sublist c.keys ∧ k ∉ rest := by
    intro k it c2 hf hc2
    obtain ⟨n, pre, post, hl, hk, ha, hpre⟩ := h.find c k it hf
    obtain ⟨m, hmk, hl2⟩ := hc2 n pre post hl hk ha hpre
    refine ⟨(pre ++ post).map Node.first, ?_, ?_, ?_⟩
    · simp [keys, hl2, hmk]
    · simp only [keys, hl, List.map_append, List.map_cons]
      exact List.Sublist.append (List.Sublist.refl _) (List.sublist_cons_self _ _)
    · have hnd := h.key_nodup
      rw [hl, List.map_append, List.map_cons, hk] at hnd
      have h1 := (List.nodup_append.mp hnd).2.2
      have h2 := (List.nodup_cons.mp (List.nodup_append.mp hnd).2.1).1
      simp only [List.map_append, List.mem_append]
      rintro (hm | hm)
      · exact h1 hm (List.mem_cons_self _ _)
      · exact h2 hm
  have hins : ∀ (k : K) (v : V), c.map_ k = none → c.capacity_ ≠ 0 →
      ∃ rest, (c.insert_new k v).keys = k :: rest ∧ rest.Sublist c.keys ∧ k ∉ rest := by
    intro k v hf h0
    have hi := insert_new_pairs c h k v h0 hf
    have hkn : k ∉ c.keys := by
      intro hm
      have := (contains_iff c h k).mpr hm
      rw [(contains_eq_false c k).mpr hf] at this
      exact absurd this (by simp)
    by_cases hfull : c.list_.length = c.capacity_
    · obtain ⟨init, back, h1, h2, _, _⟩ := hi.2.2.2 hfull
      refine ⟨init.map Prod.fst, ?_, ?_, ?_⟩
      · rw [keys_eq, h2]
        rfl
      · rw [keys_eq, h1, List.map_append]
        exact List.sublist_append_left _ _
      · intro hm
        apply hkn
        rw [keys_eq, h1, List.map_append]
        exact List.mem_append_left _ hm
    · refine ⟨c.keys, ?_, List.Sublist.refl _, hkn⟩
      rw [keys_eq, hi.2.2.1 hfull, keys_eq]
      rfl
  cases op with
  | put k v =>
    simp only [apply, touches_put]
    cases hf : c.map_ k with
    | none =>
      rw [put_miss c k v hf]
      by_cases h0 : c.capacity_ = 0
      · left
        rw [insert_new_zero c k v h0]
        exact ⟨rfl, hmiss k hf⟩
      · right
        left
        obtain ⟨rest, h1, h2, h3⟩ := hins k v hf h0
        exact ⟨k, rest, by simp, fun j hj => hne k j hj, h1, h2, h3⟩
    | some it =>
      right
      left
      obtain ⟨rest, h1, h2, h3⟩ := hhit k it (c.put k v) hf (by
        intro n pre post hl hk ha hpre
        rw [put_hit c k v it n pre post hf hl ha hpre]
        exact ⟨{ n with second := v }, hk, rfl⟩)
      exact ⟨k, rest, by simp, fun j hj => hne k j hj, h1, h2, h3⟩
  | put_if_absent k v =>
    simp only [apply]
    cases hc : c.contains k with
    | true =>
      left
      have e : c.put_if_absent k v = (c, false) := by
        unfold put_if_absent
        simp [hc]
      rw [e]
      exact ⟨rfl, fun j _ => touches_not_inserted j k v⟩
    | false =>
      have hf := (contains_eq_false c k).mp hc
      have e : c.put_if_absent k v = (c.insert_new k v, true) := by
        unfold put_if_absent
        simp [hc]
      rw [e]
      simp only [touches_inserted]
      by_cases h0 : c.capacity_ = 0
      · left
        rw [insert_new_zero c k v h0]
        exact ⟨rfl, hmiss k hf⟩
      · right
        left
        obtain ⟨rest, h1, h2, h3⟩ := hins k v hf h0
        exact ⟨k, rest, by simp, fun j hj => hne k j hj, h1, h2, h3⟩
  | get k =>
    simp only [apply, touches_get]
    cases hf : c.map_ k with
    | none =>
      left
      rw [get_miss c k hf]
      exact ⟨rfl, hmiss k hf⟩
    | some it =>
      right
      left
      obtain ⟨rest, h1, h2, h3⟩ := hhit k it (c.get k).1 hf (by
        intro n pre post hl hk ha hpre
        rw [get_hit c k it n pre post hf hl ha hpre]
        exact ⟨n, hk, rfl⟩)
      exact ⟨k, rest, by simp, fun j hj => hne k j hj, h1, h2, h3⟩
  | peek k =>
    left
    exact ⟨rfl, fun _ _ => rfl⟩
  | contains k =>
    left
    exact ⟨rfl, fun _ _ => rfl⟩
  | clear =>
    right
    right
    rfl

/-- After any sequence of calls from the constructor, every cached key has
been touched, and the keys are listed from the latest to the earliest last
touch. -/
theorem run_recency (capacity : Nat) (ops : List (Op K V)) :
    (∀ j ∈ ((new capacity : LRUCache K V).run ops).keys,
        0 < last_use j ((new capacity : LRUCache K V).log ops))
    ∧ List.Pairwise
        (fun a b => last_use b ((new capacity : LRUCache K V).log ops)
          < last_use a ((new capacity : LRUCache K V).log ops))
        ((new capacity : LRUCache K V).run ops).keys := by
  induction ops using List.reverseRecOn with
  | nil => simp [run, new, keys]
  | append_singleton xs op ih =>
    have hwf : WF ((new capacity : LRUCache K V).run xs) := WF.run xs _ (WF.new capacity)
    rw [run_append, log_snoc]
    have hrun : ((new capacity : LRUCache K V).run xs).run [op] =
        (((new capacity : LRUCache K V).run xs).apply op).1 := rfl
    rw [hrun]
    have hlen := log_length (new capacity : LRUCache K V) xs
    rcases keys_apply _ hwf op with ⟨h1, h2⟩ | ⟨k, rest, h1, h2, h3, h4, h5⟩ | h1
    · rw [h1]
      have heq : ∀ j ∈ ((new capacity : LRUCache K V).run xs).keys,
          last_use j ((new capacity : LRUCache K V).log xs
            ++ [(op, (((new capacity : LRUCache K V).run xs).apply op).2)])
          = last_use j ((new capacity : LRUCache K V).log xs) := by
        intro j hj
        rw [last_use_snoc, h2 j hj]
        simp
      constructor
      · intro j hj
        rw [heq j hj]
        exact ih.1 j hj
      · refine ih.2.imp_of_mem ?_
        intro a b ha hb hab
        rw [heq a ha, heq b hb]
        exact hab
    · rw [h3]
      have hk : last_use k ((new capacity : LRUCache K V).log xs
            ++ [(op, (((new capacity : LRUCache K V).run xs).apply op).2)])
          = xs.length + 1 := by
        rw [last_use_snoc, h1, hlen]
        simp
      have heq : ∀ j ∈ rest,
          last_use j ((new capacity : LRUCache K V).log xs
            ++ [(op, (((new capacity : LRUCache K V).run xs).apply op).2)])
          = last_use j ((new capacity : LRUCache K V).log xs) := by
        intro j hj
        have hjk : j ≠ k := fun e => h5 (e ▸ hj)
        rw [last_use_snoc, h2 j hjk]
        simp
      constructor
      · intro j hj
        rcases List.mem_cons.mp hj with hj | hj
        · rw [hj, hk]
          omega
        · rw [heq j hj]
          exact ih.1 j (h4.subset hj)
      · rw [List.pairwise_cons]
        constructor
        · intro j hj
          rw [hk, heq j hj]
          have := last_use_le j ((new capacity : LRUCache K V).log xs)
          omega
        · refine (ih.2.sublist h4).imp_of_mem ?_
          intro a b ha hb hab
          rw [heq a ha, heq b hb]
          exact hab
    · rw [h1]
      simp

end LRUCache

end day7

namespace day7

variable {K V : Type} [DecidableEq K]

namespace LRUCache

/-- C18: LRU eviction. On a well-formed cache of capacity at least 1 that is
full, `put(k, v)` for an absent `k` drops exactly the last pair of the recency
list, keeps every other pair with its value and in its order, and puts
`(k, v)` in front; afterwards the dropped key is absent, every kept key and
`k` are found by `peek` with their values, and the cache is full and
well-formed. Every state that calls reach from the constructor is well-formed.
After any sequence of calls the keys are listed from the latest to the
earliest last touch (a `put` or `get` of the key, or a `put_if_absent` of the
key that returned true), so the last pair, the one that is dropped, is the one
whose last `put` or `get` is oldest. In `main` (capacity 3; put 1, 2, 3; get 1;
put 4) the cache then holds 4, 1, 3 in this order: `get(2)` misses, `get(3)`,
`get(4)` and `get(1)` return "three", "four" and "one". -/
theorem lru_eviction :
    (∀ (c : LRUCache K V) (k : K) (v : V), WF c → 1 ≤ c.capacity_ → c.size = c.capacity_ →
        c.contains k = false →
        ∃ init back, c.pairs = init ++ [back] ∧ (c.put k v).pairs = (k, v) :: init
          ∧ (c.put k v).contains back.1 = false
          ∧ (∀ p ∈ init, (c.put k v).peek p.1 = some p.2)
          ∧ (c.put k v).peek k = some v
          ∧ (c.put k v).size = c.capacity_ ∧ (c.put k v).capacity_ = c.capacity_
          ∧ WF (c.put k v))
    ∧ (∀ (capacity : Nat) (ops : List (Op K V)), WF ((new capacity : LRUCache K V).run ops))
    ∧ (∀ (capacity : Nat) (ops : List (Op K V)),
        (∀ j ∈ ((new capacity : LRUCache K V).run ops).keys,
            0 < last_use j ((new capacity : LRUCache K V).log ops))
        ∧ List.Pairwise
            (fun a b => last_use b ((new capacity : LRUCache K V).log ops)
              < last_use a ((new capacity : LRUCache K V).log ops))
            ((new capacity : LRUCache K V).run ops).keys
        ∧ ∀ init back, ((new capacity : LRUCache K V).run ops).pairs = init ++ [back] →
            ∀ p ∈ init, last_use back.1 ((new capacity : LRUCache K V).log ops)
              < last_use p.1 ((new capacity : LRUCache K V).log ops))
    ∧ ((new 3 : LRUCache Int String).run
          [Op.put 1 "one", Op.put 2 "two", Op.put 3 "three", Op.get 1, Op.put 4 "four"]).pairs
        = [(4, "four"), (1, "one"), (3, "three")]
    ∧ (((new 3 : LRUCache Int String).run
          [Op.put 1 "one", Op.put 2 "two", Op.put 3 "three", Op.get 1, Op.put 4 "four"]).get 2).2
        = none
    ∧ (((new 3 : LRUCache Int String).run
          [Op.put 1 "one", Op.put 2 "two", Op.put 3 "three", Op.get 1, Op.put 4 "four"]).get 3).2
        = some "three"
    ∧ (((new 3 : LRUCache Int String).run
          [Op.put 1 "one", Op.put 2 "two", Op.put 3 "three", Op.get 1, Op.put 4 "four"]).get 4).2
        = some "four"
    ∧ (((new 3 : LRUCache Int String).run
          [Op.put 1 "one", Op.put 2 "two", Op.put 3 "three", Op.get 1, Op.put 4 "four"]).get 1).2
        = some "one"
    ∧ (new 3 : LRUCache Int String).results main_ops =
        [Ret.unit, Ret.unit, Ret.unit, Ret.value (some "one"), Ret.unit, Ret.value none,
          Ret.value (some "three"), Ret.value (some "four")] := by
  refine ⟨?_, fun capacity ops => WF.run ops _ (WF.new capacity), ?_, by decide, by decide,
    by decide, by decide, by decide, by decide⟩
  · intro c k v h h1 hfull hc
    have hk := (contains_eq_false c k).mp hc
    have h0 : c.capacity_ ≠ 0 := by omega
    have hi := insert_new_pairs c h k v h0 hk
    rw [put_miss c k v hk]
    obtain ⟨init, back, hp1, hp2, hb1, hb2⟩ := hi.2.2.2 hfull
    have hkeys : (c.insert_new k v).keys = k :: init.map Prod.fst := by
      rw [keys_eq, hp2]
      rfl
    refine ⟨init, back, hp1, hp2, ?_, ?_, ?_, ?_, hi.2.1, hi.1⟩
    · cases hcb : (c.insert_new k v).contains back.1 with
      | false => rfl
      | true =>
        have := (contains_iff _ hi.1 back.1).mp hcb
        rw [hkeys] at this
        rcases List.mem_cons.mp this with e | e
        · exact absurd e hb1
        · exact absurd e hb2
    · intro p hp
      apply (peek_iff _ hi.1 p.1 p.2).mpr
      rw [hp2]
      exact List.mem_cons_of_mem _ hp
    · apply (peek_iff _ hi.1 k v).mpr
      rw [hp2]
      exact List.mem_cons_self _ _
    · have hlen : c.pairs.length = c.capacity_ := by
        simp only [pairs, List.length_map]
        exact hfull
      have : (c.insert_new k v).size = (c.insert_new k v).pairs.length := by
        simp [size, pairs]
      rw [this, hp2, List.length_cons, ← hlen, hp1, List.length_append]
      rfl
  · intro capacity ops
    have hr := run_recency capacity ops
    refine ⟨hr.1, hr.2, ?_⟩
    intro init back hpairs p hpm
    have hpw := hr.2
    rw [keys_eq, hpairs, List.map_append, List.pairwise_append] at hpw
    exact hpw.2.2 p.1 (List.mem_map_of_mem Prod.fst hpm) back.1 (by simp)

/-- The eviction of C18 on the cache of `main` before `put(4, "four")`: it is
well-formed, full and does not hold 4, and the put drops the pair of 2, whose
last touch (call 2) is older than those of 1 (call 4) and 3 (call 3). -/
theorem lru_eviction_witness :
    (∃ init back,
      ((new 3 : LRUCache Int String).run
          [Op.put 1 "one", Op.put 2 "two", Op.put 3 "three", Op.get 1]).pairs = init ++ [back]
      ∧ (((new 3 : LRUCache Int String).run
          [Op.put 1 "one", Op.put 2 "two", Op.put 3 "three", Op.get 1]).put 4 "four").pairs
        = (4, "four") :: init)
    ∧ ((new 3 : LRUCache Int String).run
          [Op.put 1 "one", Op.put 2 "two", Op.put 3 "three", Op.get 1]).pairs
        = [(1, "one"), (3, "three"), (2, "two")]
    ∧ [(1 : Int), 3, 2].map (fun j => last_use j ((new 3 : LRUCache Int String).log
          [Op.put 1 "one", Op.put 2 "two", Op.put 3 "three", Op.get 1])) = [4, 3, 2] := by
  obtain ⟨init, back, h1, h2, _⟩ := lru_eviction.1
    ((new 3 : LRUCache Int String).run [Op.put 1 "one", Op.put 2 "two", Op.put 3 "three", Op.get 1])
    4 "four" (lru_eviction.2.1 3 _) (by decide) (by decide) (by decide)
  exact ⟨⟨init, back, h1, h2⟩, by decide, by decide⟩

end LRUCache

end day7

/-! ## LRUCache: the representation invariant along a run -/

namespace day7

variable {K V : Type}

namespace LRUCache

/-- Under `WF` the iterator stored for a key can be dereferenced, and the node
it points to holds that key. -/
theorem WF.deref_key (c : LRUCache K V) (h : WF c) (k : K) (it : Nat) (hf : c.map_ k = some it) :
    ∃ n, deref c.list_ it = some n ∧ n.first = k ∧ n.addr = it := by
  obtain ⟨n, pre, post, hl, hk, ha, hpre⟩ := h.find c k it hf
  exact ⟨n, by rw [hl]; exact deref_append pre post n it hpre ha, hk, ha⟩

theorem touch_capacity (c : LRUCache K V) (it : Nat) : (c.touch it).capacity_ = c.capacity_ := rfl

theorem get_capacity (c : LRUCache K V) (k : K) : (c.get k).1.capacity_ = c.capacity_ := by
  unfold get
  split <;> rfl

variable [DecidableEq K]

theorem insert_new_capacity (c : LRUCache K V) (k : K) (v : V) :
    (c.insert_new k v).capacity_ = c.capacity_ := by
  unfold insert_new
  split
  · rfl
  · simp only
    split
    · split <;> rfl
    · rfl

theorem apply_capacity (c : LRUCache K V) (op : Op K V) :
    (c.apply op).1.capacity_ = c.capacity_ := by
  cases op with
  | put k v =>
    simp only [apply, put]
    split
    · rfl
    · exact insert_new_capacity c k v
  | put_if_absent k v =>
    simp only [apply, put_if_absent]
    split
    · rfl
    · exact insert_new_capacity c k v
  | get k => exact get_capacity c k
  | peek k => rfl
  | contains k => rfl
  | clear => rfl

theorem run_capacity (ops : List (Op K V)) (c : LRUCache K V) :
    (c.run ops).capacity_ = c.capacity_ := by
  induction ops generalizing c with
  | nil => rfl
  | cons op rest ih => rw [run_cons, ih, apply_capacity]

end LRUCache

end day7

namespace day7

variable {K V : Type}

namespace LRUCache

/-- C28: the representation invariant of `LRUCache`. For every capacity and
every sequence of calls of `put`, `put_if_absent`, `get`, `peek`, `contains`
and `clear` on the cache the constructor returns: `capacity()` is the
constructor argument and `size()` is at most that; the keys of the recency
list are pairwise distinct, and so are the node addresses; a key is found in
`map_` exactly when a node of the list holds it; and the iterator stored for a
key can be dereferenced and points to the node that holds this key. With
capacity 0 the list stays empty, `map_` finds no key, and every `get` returns
`nullopt` and leaves the cache as it is. -/
theorem representation_invariant [DecidableEq K] :
    (∀ (capacity : Nat) (ops : List (Op K V)),
        ((new capacity : LRUCache K V).run ops).capacity = capacity
        ∧ ((new capacity : LRUCache K V).run ops).size ≤ capacity
        ∧ ((new capacity : LRUCache K V).run ops).keys.Nodup
        ∧ (((new capacity : LRUCache K V).run ops).list_.map Node.addr).Nodup
        ∧ (∀ k : K, ((new capacity : LRUCache K V).run ops).contains k = true
            ↔ k ∈ ((new capacity : LRUCache K V).run ops).keys)
        ∧ (∀ (k : K) (it : Nat), ((new capacity : LRUCache K V).run ops).map_ k = some it →
            ∃ n, deref ((new capacity : LRUCache K V).run ops).list_ it = some n
              ∧ n.first = k ∧ n.addr = it))
    ∧ (∀ (ops : List (Op K V)),
        ((new 0 : LRUCache K V).run ops).list_ = []
        ∧ ((new 0 : LRUCache K V).run ops).empty = true
        ∧ (∀ k : K, ((new 0 : LRUCache K V).run ops).map_ k = none)
        ∧ (∀ k : K, ((new 0 : LRUCache K V).run ops).get k
            = ((new 0 : LRUCache K V).run ops, none))) := by
  have hwf : ∀ (capacity : Nat) (ops : List (Op K V)),
      WF ((new capacity : LRUCache K V).run ops) :=
    fun capacity ops => WF.run ops _ (WF.new capacity)
  have hcap : ∀ (capacity : Nat) (ops : List (Op K V)),
      ((new capacity : LRUCache K V).run ops).capacity_ = capacity :=
    fun capacity ops => run_capacity ops _
  constructor
  · intro capacity ops
    have h := hwf capacity ops
    refine ⟨hcap capacity ops, ?_, h.key_nodup, h.addr_nodup,
      fun k => contains_iff _ h k, fun k it hf => h.deref_key _ k it hf⟩
    have := h.size_le
    rw [hcap capacity ops] at this
    exact this
  · intro ops
    have h := hwf 0 ops
    have hnil : ((new 0 : LRUCache K V).run ops).list_ = [] := by
      have := h.size_le
      rw [hcap 0 ops] at this
      exact List.length_eq_zero.mp (Nat.le_zero.mp this)
    have hmap : ∀ k : K, ((new 0 : LRUCache K V).run ops).map_ k = none := by
      intro k
      cases hf : ((new 0 : LRUCache K V).run ops).map_ k with
      | none => rfl
      | some it =>
        obtain ⟨n, hn, _⟩ := (h.map_iff k it).mp hf
        rw [hnil] at hn
        exact absurd hn (List.not_mem_nil n)
    refine ⟨hnil, ?_, hmap, fun k => get_miss _ k (hmap k)⟩
    simp [empty, hnil]

/-- The invariant of C28 on the calls of `main` (capacity 3): three pairs,
distinct keys, and the iterator stored for key 1 points to the node of key 1;
and on a cache of capacity 0, where `put(1, "one")` stores nothing. -/
theorem representation_invariant_witness :
    ((new 3 : LRUCache Int String).run main_ops).size ≤ 3
    ∧ ((new 3 : LRUCache Int String).run main_ops).keys = [4, 3, 1]
    ∧ ((new 3 : LRUCache Int String).run main_ops).keys.Nodup
    ∧ ((new 0 : LRUCache Int String).run [Op.put 1 "one", Op.get 1]).list_ = [] :=
  ⟨(representation_invariant.1 3 main_ops).2.1, by decide,
    (representation_invariant.1 3 main_ops).2.2.1,
    (representation_invariant.2 [Op.put 1 "one", Op.get 1]).1⟩

end LRUCache

end day7

/-! ## Scheduler: a submission to a stopped pool -/

namespace Scheduler

variable {φ : Type}

/-- With a stopped pool, the step that calls `pool.submit(item.func)` ends the
thread: the exception leaves `run()`. -/
theorem run_submit_stopped (s : Scheduler φ) (pool : ThreadPool φ) (now : Int) (x : Item φ)
    (hth : s.scheduler_thread = SchedulerThread.submitting x) (hp : pool.stop = true) :
    s.run pool now =
      ({ s with scheduler_thread := SchedulerThread.failed "ThreadPool stopped" }, pool,
        SchedEvent.submit_threw "ThreadPool stopped") := by
  unfold run
  rw [hth]
  simp only [ThreadPool.submit_stopped pool x.func hp]

/-- A thread that an exception has ended takes no further step. -/
theorem run_failed (s : Scheduler φ) (pool : ThreadPool φ) (now : Int) (what : String)
    (hth : s.scheduler_thread = SchedulerThread.failed what) :
    s.run pool now = (s, pool, SchedEvent.skipped) := by
  unfold run
  rw [hth]

end Scheduler

namespace World

variable {φ : Type}

/-- After the exception the thread stays ended, and a move reports only the
push of a `post`, a step of `shutdown`, or nothing. -/
theorem step_failed (w : World φ) (now : Int) (a : WorldAction φ) (what : String)
    (hth : w.sched.scheduler_thread = SchedulerThread.failed what) :
    (w.step now a).1.sched.scheduler_thread = SchedulerThread.failed what
    ∧ ∀ e, (w.step now a).2 = WorldEvent.sched e →
        (∃ x, e = SchedEvent.added x) ∨ e = SchedEvent.skipped ∨ e = SchedEvent.stopped
          ∨ e = SchedEvent.returned := by
  cases a with
  | post f =>
    refine ⟨hth, ?_⟩
    intro e he
    simp only [step, Scheduler.post, Scheduler.add_task, WorldEvent.sched.injEq] at he
    exact Or.inl ⟨_, he.symm⟩
  | post_after delay f =>
    refine ⟨hth, ?_⟩
    intro e he
    simp only [step, Scheduler.post_after, Scheduler.add_task, WorldEvent.sched.injEq] at he
    exact Or.inl ⟨_, he.symm⟩
  | post_every interval f =>
    refine ⟨hth, ?_⟩
    intro e he
    simp only [step, Scheduler.post_every, Scheduler.add_task, WorldEvent.sched.injEq] at he
    exact Or.inl ⟨_, he.symm⟩
  | run =>
    simp only [step, Scheduler.run_failed w.sched w.pool now what hth]
    refine ⟨hth, ?_⟩
    intro e he
    simp only [WorldEvent.sched.injEq] at he
    exact Or.inr (Or.inl he.symm)
  | shutdown =>
    simp only [step, Scheduler.shutdown]
    split
    · refine ⟨hth, ?_⟩
      intro e he
      simp only [WorldEvent.sched.injEq] at he
      exact Or.inr (Or.inr (Or.inr he.symm))
    · refine ⟨hth, ?_⟩
      intro e he
      simp only [WorldEvent.sched.injEq] at he
      exact Or.inr (Or.inr (Or.inl he.symm))
  | join =>
    simp only [step, Scheduler.join, hth]
    refine ⟨trivial, ?_⟩
    intro e he
    simp only [WorldEvent.sched.injEq] at he
    exact Or.inr (Or.inl he.symm)
  | pool a =>
    refine ⟨hth, ?_⟩
    intro e he
    simp [step] at he

theorem exec_failed (acts : List (Int × WorldAction φ)) (w : World φ) (what : String)
    (hth : w.sched.scheduler_thread = SchedulerThread.failed what) :
    (w.exec acts).1.sched.scheduler_thread = SchedulerThread.failed what
    ∧ ∀ t e, (t, WorldEvent.sched e) ∈ (w.exec acts).2 →
        (∃ x, e = SchedEvent.added x) ∨ e = SchedEvent.skipped ∨ e = SchedEvent.stopped
          ∨ e = SchedEvent.returned := by
  induction acts generalizing w with
  | nil => exact ⟨hth, by simp [exec]⟩
  | cons a rest ih =>
    have h1 := step_failed w a.1 a.2 what hth
    have h2 := ih (w.step a.1 a.2).1 h1.1
    rw [world_exec_cons]
    refine ⟨h2.1, ?_⟩
    intro t e hmem
    simp only [List.mem_cons, Prod.mk.injEq] at hmem
    rcases hmem with ⟨_, he⟩ | hmem
    · exact h1.2 e he.symm
    · exact h2.2 t e hmem

end World

namespace World

variable {φ : Type}

/-- C27: a failure of `pool.submit` inside the dispatch loop is not handled.
On a pool whose `stop` flag is set `submit` throws "ThreadPool stopped" for
every callable and leaves the pool as it is. When the loop holds a popped item
and calls `pool.submit(item.func)` on such a pool, the exception leaves
`run()`: the thread ends, nothing is pushed to the pool, and the pending queue
is left without the item. From a loop head with a due item on top this takes
two steps: the item is popped, then the call throws, and afterwards the
scheduler holds the queue without that item and no item in flight. Once the
thread has ended this way it stays ended in every continuation, and no later
move pops, submits, reschedules or reinserts anything. -/
theorem submit_failure_unhandled :
    (∀ (pool : ThreadPool φ) (f : φ), pool.stop = true →
        pool.submit f = (pool, PoolEvent.threw "ThreadPool stopped"))
    ∧ (∀ (s : Scheduler φ) (pool : ThreadPool φ) (now : Int) (x : Scheduler.Item φ),
        s.scheduler_thread = SchedulerThread.submitting x → pool.stop = true →
        s.run pool now =
          ({ s with scheduler_thread := SchedulerThread.failed "ThreadPool stopped" }, pool,
            SchedEvent.submit_threw "ThreadPool stopped"))
    ∧ (∀ (w : World φ) (now1 now2 : Int) (x : Scheduler.Item φ),
        w.pool.stop = true → w.sched.stop = false →
        w.sched.scheduler_thread = SchedulerThread.looping →
        Scheduler.top w.sched.items = some x → x.when ≤ now1 →
        (w.exec [(now1, WorldAction.run), (now2, WorldAction.run)]).2 =
          [(now1, WorldEvent.sched (SchedEvent.popped x)),
            (now2, WorldEvent.sched (SchedEvent.submit_threw "ThreadPool stopped"))]
        ∧ (w.exec [(now1, WorldAction.run), (now2, WorldAction.run)]).1 =
          { sched :=
              { w.sched with
                items := Scheduler.pop w.sched.items
                scheduler_thread := SchedulerThread.failed "ThreadPool stopped" }
            pool := w.pool }
        ∧ (w.exec [(now1, WorldAction.run), (now2, WorldAction.run)]).1.sched.held =
          Scheduler.pop w.sched.items)
    ∧ (∀ (w : World φ) (what : String) (acts : List (Int × WorldAction φ)),
        w.sched.scheduler_thread = SchedulerThread.failed what →
        (w.exec acts).1.sched.scheduler_thread = SchedulerThread.failed what
        ∧ ∀ (t : Int) (x : Scheduler.Item φ),
            (t, WorldEvent.sched (SchedEvent.popped x)) ∉ (w.exec acts).2
            ∧ (t, WorldEvent.sched (SchedEvent.submitted x)) ∉ (w.exec acts).2
            ∧ (t, WorldEvent.sched (SchedEvent.rescheduled x)) ∉ (w.exec acts).2
            ∧ (t, WorldEvent.sched (SchedEvent.reinserted x)) ∉ (w.exec acts).2) := by
  refine ⟨fun pool f hp => ThreadPool.submit_stopped pool f hp,
    fun s pool now x hth hp => Scheduler.run_submit_stopped s pool now x hth hp, ?_, ?_⟩
  · intro w now1 now2 x hp hs hth ht hd
    have h1 := Scheduler.run_pop w.sched w.pool now1 x hth hs ht hd
    have h2 := Scheduler.run_submit_stopped
      { w.sched with
        items := Scheduler.pop w.sched.items
        scheduler_thread := SchedulerThread.submitting x } w.pool now2 x rfl hp
    have hev : w.exec [(now1, WorldAction.run), (now2, WorldAction.run)] =
        ({ sched :=
            { w.sched with
              items := Scheduler.pop w.sched.items
              scheduler_thread := SchedulerThread.failed "ThreadPool stopped" }
           pool := w.pool },
          [(now1, WorldEvent.sched (SchedEvent.popped x)),
            (now2, WorldEvent.sched (SchedEvent.submit_threw "ThreadPool stopped"))]) := by
      simp only [exec, step, h1, h2]
    rw [hev]
    refine ⟨rfl, rfl, ?_⟩
    simp [Scheduler.held, Scheduler.in_flight]
  · intro w what acts hth
    have h := exec_failed acts w what hth
    refine ⟨h.1, ?_⟩
    intro t x
    refine ⟨?_, ?_, ?_, ?_⟩ <;>
    · intro hmem
      rcases h.2 t _ hmem with ⟨y, hy⟩ | hy | hy | hy <;> simp at hy

/-- The statement of C27 on a run: `post` at reading 0, the pool is shut down
at reading 1, the loop pops the item at reading 2 and calls `submit` at
reading 3, which throws; the thread has ended, the queue is empty, and the
moves given to the loop afterwards do nothing. -/
theorem submit_failure_unhandled_witness :
    ((World.new 1 4 : World Nat).exec
        [(0, WorldAction.post 7), (1, WorldAction.pool PoolAction.shutdown),
          (2, WorldAction.run), (3, WorldAction.run), (4, WorldAction.run)]).2.map Prod.snd
      = [WorldEvent.sched (SchedEvent.added { when := 0, func := 7, interval := 0, seq := 0 }),
          WorldEvent.pool PoolEvent.stopped,
          WorldEvent.sched (SchedEvent.popped { when := 0, func := 7, interval := 0, seq := 0 }),
          WorldEvent.sched (SchedEvent.submit_threw "ThreadPool stopped"),
          WorldEvent.sched SchedEvent.skipped]
    ∧ (((World.new 1 4 : World Nat).exec
          [(0, WorldAction.post 7), (1, WorldAction.pool PoolAction.shutdown)]).1.exec
        [(2, WorldAction.run), (3, WorldAction.run)]).1.sched.held = [] :=
  ⟨by decide,
    (submit_failure_unhandled.2.2.1
      ((World.new 1 4 : World Nat).exec
        [(0, WorldAction.post 7), (1, WorldAction.pool PoolAction.shutdown)]).1 2 3
      { when := 0, func := 7, interval := 0, seq := 0 } (by decide) (by decide) (by decide)
      (by decide) (by decide)).2.2⟩

end World

/-! ## LRUCache11 and LRUCache -/

namespace day7

variable {K V : Type}

namespace LRUCache11

theorem as_cache_touch (c : LRUCache11 K V) (it : Nat) :
    (c.touch it).as_cache = c.as_cache.touch it := rfl

theorem as_cache_clear (c : LRUCache11 K V) : c.clear.as_cache = c.as_cache.clear := rfl

theorem as_cache_new (capacity : Nat) :
    (new capacity : LRUCache11 K V).as_cache = LRUCache.new capacity := rfl

theorem as_cache_pairs (c : LRUCache11 K V) : c.as_cache.pairs = c.pairs := rfl

theorem contains_as_cache (c : LRUCache11 K V) (k : K) : c.as_cache.contains k = c.contains k := rfl

/-- The state after `get(key, out)` is the state after `get(key)`. -/
theorem as_cache_get (c : LRUCache11 K V) (k : K) (out : V) :
    (c.get k out).1.as_cache = (c.as_cache.get k).1 := by
  unfold get LRUCache.get
  cases h : c.map_ k with
  | none =>
    have : c.as_cache.map_ k = none := h
    simp only [this]
  | some it =>
    have : c.as_cache.map_ k = some it := h
    simp only [this]
    rfl

/-- On a well-formed cache `get(key, out)` returns the flag and value that
correspond to the optional of `get(key)`. -/
theorem get_to11 (c : LRUCache11 K V) (h : LRUCache.WF c.as_cache) (k : K) (out : V) :
    Ret11.flag (c.get k out).2.1 (c.get k out).2.2 = Ret.to11 out (Ret.value (c.as_cache.get k).2) := by
  cases hf : c.map_ k with
  | none =>
    have hf2 : c.as_cache.map_ k = none := hf
    rw [LRUCache.get_miss c.as_cache k hf2]
    unfold get
    simp only [hf]
    rfl
  | some it =>
    have hf2 : c.as_cache.map_ k = some it := hf
    obtain ⟨n, pre, post, hl, _, ha, hpre⟩ := h.find c.as_cache k it hf2
    have hg := LRUCache.get_hit c.as_cache k it n pre post hf2 hl ha hpre
    have hd : (deref (c.touch it).list_ it).map Node.second = some n.second := by
      have h2 : (c.as_cache.get k).2 = (deref (c.as_cache.touch it).list_ it).map Node.second := by
        unfold LRUCache.get
        simp only [hf2]
      rw [hg] at h2
      exact h2.symm
    rw [hg]
    unfold get
    simp only [hf, hd]
    rfl

/-- On a well-formed cache `peek(key, out)` returns the flag and value that
correspond to the optional of `peek(key)`. -/
theorem peek_to11 (c : LRUCache11 K V) (h : LRUCache.WF c.as_cache) (k : K) (out : V) :
    Ret11.flag (c.peek k out).1 (c.peek k out).2 = Ret.to11 out (Ret.value (c.as_cache.peek k)) := by
  cases hf : c.map_ k with
  | none =>
    have hf2 : c.as_cache.map_ k = none := hf
    rw [LRUCache.peek_miss c.as_cache k hf2]
    unfold peek
    simp only [hf]
    rfl
  | some it =>
    have hf2 : c.as_cache.map_ k = some it := hf
    obtain ⟨n, pre, post, hl, _, ha, hpre⟩ := h.find c.as_cache k it hf2
    have hg := LRUCache.peek_hit c.as_cache k it n pre post hf2 hl ha hpre
    have hd : (deref c.list_ it).map Node.second = some n.second := by
      have h2 : c.as_cache.peek k = (deref c.as_cache.list_ it).map Node.second := by
        unfold LRUCache.peek
        simp only [hf2]
      rw [hg] at h2
      exact h2.symm
    rw [hg]
    unfold peek
    simp only [hf, hd]
    rfl

variable [DecidableEq K]

theorem as_cache_insert_new (c : LRUCache11 K V) (k : K) (v : V) :
    (c.insert_new k v).as_cache = c.as_cache.insert_new k v := by
  unfold insert_new LRUCache.insert_new
  have h1 : c.as_cache.capacity_ = c.capacity_ := rfl
  have h2 : c.as_cache.list_ = c.list_ := rfl
  rw [h1, h2]
  by_cases h0 : c.capacity_ = 0
  · simp only [h0, if_true]
  · simp only [h0, if_false]
    by_cases hfull : c.list_.length = c.capacity_
    · simp only [hfull, if_true]
      cases hb : c.list_.getLast? with
      | none => rfl
      | some back => rfl
    · simp only [hfull, if_false]
      rfl

theorem as_cache_put (c : LRUCache11 K V) (k : K) (v : V) :
    (c.put k v).as_cache = c.as_cache.put k v := by
  unfold put LRUCache.put
  cases h : c.map_ k with
  | none =>
    have : c.as_cache.map_ k = none := h
    simp only [this]
    exact as_cache_insert_new c k v
  | some it =>
    have : c.as_cache.map_ k = some it := h
    simp only [this]
    rfl

theorem as_cache_put_if_absent (c : LRUCache11 K V) (k : K) (v : V) :
    (c.put_if_absent k v).1.as_cache = (c.as_cache.put_if_absent k v).1
    ∧ (c.put_if_absent k v).2 = (c.as_cache.put_if_absent k v).2 := by
  unfold put_if_absent LRUCache.put_if_absent
  rw [contains_as_cache]
  cases c.contains k
  · exact ⟨as_cache_insert_new c k v, rfl⟩
  · exact ⟨rfl, rfl⟩

end LRUCache11

end day7

namespace day7

variable {K V : Type}

namespace LRUCache11

variable [DecidableEq K]

/-- One call on a well-formed cache: the same state afterwards, and the result
that corresponds to the result of `LRUCache`. -/
theorem apply_as_cache (c : LRUCache11 K V) (h : LRUCache.WF c.as_cache) (out : V) (op : Op K V) :
    (c.apply out op).1.as_cache = (c.as_cache.apply op).1
    ∧ (c.apply out op).2 = Ret.to11 out (c.as_cache.apply op).2 := by
  cases op with
  | put k v => exact ⟨as_cache_put c k v, rfl⟩
  | put_if_absent k v =>
    refine ⟨(as_cache_put_if_absent c k v).1, ?_⟩
    simp only [apply, LRUCache.apply, (as_cache_put_if_absent c k v).2]
    rfl
  | get k => exact ⟨as_cache_get c k out, get_to11 c h k out⟩
  | peek k => exact ⟨rfl, peek_to11 c h k out⟩
  | contains k => exact ⟨rfl, rfl⟩
  | clear => exact ⟨rfl, rfl⟩

theorem run11_cons (c : LRUCache11 K V) (call : Op K V × V) (rest : List (Op K V × V)) :
    c.run (call :: rest) = (c.apply call.2 call.1).1.run rest := rfl

theorem run_as_cache (calls : List (Op K V × V)) (c : LRUCache11 K V)
    (h : LRUCache.WF c.as_cache) :
    (c.run calls).as_cache = c.as_cache.run (calls.map Prod.fst)
    ∧ c.results calls =
        List.zipWith Ret.to11 (calls.map Prod.snd) (c.as_cache.results (calls.map Prod.fst)) := by
  induction calls generalizing c with
  | nil => exact ⟨rfl, rfl⟩
  | cons call rest ih =>
    have h1 := apply_as_cache c h call.2 call.1
    have hwf : LRUCache.WF (c.apply call.2 call.1).1.as_cache := by
      rw [h1.1]
      exact h.apply _ _
    have h2 := ih (c.apply call.2 call.1).1 hwf
    rw [run11_cons, List.map_cons, List.map_cons, LRUCache.run_cons]
    refine ⟨by rw [h2.1, h1.1], ?_⟩
    simp only [results, LRUCache.results, List.zipWith_cons_cons]
    rw [h2.2, h1.1, h1.2]

end LRUCache11

end day7

namespace day7

variable {K V : Type}

namespace LRUCache11

/-- C21: `LRUCache11` is `LRUCache` with a `bool` and an `out` parameter. For
every capacity and every sequence of calls of `put`, `put_if_absent`, `get`,
`peek`, `contains` and `clear`, applied to both caches from the constructor
(each `get` and `peek` of `LRUCache11` with any content of its `out`
variable): the two caches end with the same capacity, recency list and map, so
with the same pairs in the same order; call by call, `put`, `clear`,
`put_if_absent` and `contains` return the same, and a `get` or `peek` of
`LRUCache11` returns true with `out = v` where `LRUCache` returns the value
`v`, and false with `out` as it was where `LRUCache` returns `nullopt`. In the
states reached, `get(k, out)` gives (true, v) exactly when `get(k)` gives `v`
and (false, out) exactly when `get(k)` gives `nullopt`, and likewise `peek`. -/
theorem same_cache_as_lru [DecidableEq K] :
    (∀ (capacity : Nat) (calls : List (Op K V × V)),
        ((new capacity : LRUCache11 K V).run calls).as_cache
          = (LRUCache.new capacity : LRUCache K V).run (calls.map Prod.fst)
        ∧ ((new capacity : LRUCache11 K V).run calls).pairs
          = ((LRUCache.new capacity : LRUCache K V).run (calls.map Prod.fst)).pairs
        ∧ (new capacity : LRUCache11 K V).results calls
          = List.zipWith Ret.to11 (calls.map Prod.snd)
              ((LRUCache.new capacity : LRUCache K V).results (calls.map Prod.fst)))
    ∧ (∀ (capacity : Nat) (calls : List (Op K V × V)) (k : K) (out v : V),
        ((((new capacity : LRUCache11 K V).run calls).get k out).2 = (true, v)
          ↔ (((LRUCache.new capacity : LRUCache K V).run (calls.map Prod.fst)).get k).2 = some v)
        ∧ ((((new capacity : LRUCache11 K V).run calls).get k out).2 = (false, out)
          ↔ (((LRUCache.new capacity : LRUCache K V).run (calls.map Prod.fst)).get k).2 = none)
        ∧ ((((new capacity : LRUCache11 K V).run calls).peek k out) = (true, v)
          ↔ ((LRUCache.new capacity : LRUCache K V).run (calls.map Prod.fst)).peek k = some v)
        ∧ ((((new capacity : LRUCache11 K V).run calls).peek k out) = (false, out)
          ↔ ((LRUCache.new capacity : LRUCache K V).run (calls.map Prod.fst)).peek k = none)) := by
  have hrun : ∀ (capacity : Nat) (calls : List (Op K V × V)),
      ((new capacity : LRUCache11 K V).run calls).as_cache
          = (LRUCache.new capacity : LRUCache K V).run (calls.map Prod.fst)
      ∧ (new capacity : LRUCache11 K V).results calls
          = List.zipWith Ret.to11 (calls.map Prod.snd)
              ((LRUCache.new capacity : LRUCache K V).results (calls.map Prod.fst)) :=
    fun capacity calls => run_as_cache calls (new capacity) (LRUCache.WF.new capacity)
  constructor
  · intro capacity calls
    refine ⟨(hrun capacity calls).1, ?_, (hrun capacity calls).2⟩
    rw [← (hrun capacity calls).1]
    rfl
  · intro capacity calls k out v
    have hc := (hrun capacity calls).1
    have hwf : LRUCache.WF ((new capacity : LRUCache11 K V).run calls).as_cache := by
      rw [hc]
      exact LRUCache.WF.run _ _ (LRUCache.WF.new capacity)
    have hg := get_to11 _ hwf k out
    have hp := peek_to11 _ hwf k out
    rw [hc] at hg hp
    refine ⟨?_, ?_, ?_, ?_⟩
    · cases hr : (((LRUCache.new capacity : LRUCache K V).run (calls.map Prod.fst)).get k).2 with
      | none =>
        rw [hr] at hg
        simp only [Ret.to11, Ret11.flag.injEq] at hg
        constructor
        · intro h
          rw [h] at hg
          simp at hg
        · intro h
          simp at h
      | some r =>
        rw [hr] at hg
        simp only [Ret.to11, Ret11.flag.injEq] at hg
        constructor
        · intro h
          rw [h] at hg
          simp only [true_and] at hg
          rw [hg]
        · intro h
          simp only [Option.some.injEq] at h
          rw [← h]
          exact Prod.ext hg.1 hg.2
    · cases hr : (((LRUCache.new capacity : LRUCache K V).run (calls.map Prod.fst)).get k).2 with
      | none =>
        rw [hr] at hg
        simp only [Ret.to11, Ret11.flag.injEq] at hg
        exact ⟨fun _ => rfl, fun _ => Prod.ext hg.1 hg.2⟩
      | some r =>
        rw [hr] at hg
        simp only [Ret.to11, Ret11.flag.injEq] at hg
        constructor
        · intro h
          rw [h] at hg
          simp at hg
        · intro h
          simp at h
    · cases hr : ((LRUCache.new capacity : LRUCache K V).run (calls.map Prod.fst)).peek k with
      | none =>
        rw [hr] at hp
        simp only [Ret.to11, Ret11.flag.injEq] at hp
        constructor
        · intro h
          rw [h] at hp
          simp at hp
        · intro h
          simp at h
      | some r =>
        rw [hr] at hp
        simp only [Ret.to11, Ret11.flag.injEq] at hp
        constructor
        · intro h
          rw [h] at hp
          simp only [true_and] at hp
          rw [hp]
        · intro h
          simp only [Option.some.injEq] at h
          rw [← h]
          exact Prod.ext hp.1 hp.2
    · cases hr : ((LRUCache.new capacity : LRUCache K V).run (calls.map Prod.fst)).peek k with
      | none =>
        rw [hr] at hp
        simp only [Ret.to11, Ret11.flag.injEq] at hp
        exact ⟨fun _ => rfl, fun _ => Prod.ext hp.1 hp.2⟩
      | some r =>
        rw [hr] at hp
        simp only [Ret.to11, Ret11.flag.injEq] at hp
        constructor
        · intro h
          rw [h] at hp
          simp at hp
        · intro h
          simp at h

/-- The statement of C21 on the calls of `main`, each `get` with an `out`
variable that holds "?": the miss of `get(2, out)` leaves "?", the hits return
the stored values, and both caches end with the pairs of 3, 4 and 1. -/
theorem same_cache_as_lru_witness :
    (new 3 : LRUCache11 Int String).results ((main_ops ++ main_tail).map (fun op => (op, "?")))
      = [Ret11.unit, Ret11.unit, Ret11.unit, Ret11.flag true "one", Ret11.unit,
          Ret11.flag false "?", Ret11.flag true "three", Ret11.flag true "four",
          Ret11.bool false, Ret11.flag true "three"]
    ∧ ((new 3 : LRUCache11 Int String).run ((main_ops ++ main_tail).map (fun op => (op, "?")))).pairs
      = [(3, "three"), (4, "four"), (1, "one")]
    ∧ ((new 3 : LRUCache11 Int String).run ((main_ops ++ main_tail).map (fun op => (op, "?")))).pairs
      = ((LRUCache.new 3 : LRUCache Int String).run
          (((main_ops ++ main_tail).map (fun op => (op, "?"))).map Prod.fst)).pairs :=
  ⟨by decide, by decide,
    (same_cache_as_lru.1 3 ((main_ops ++ main_tail).map (fun op => (op, "?")))).2.1⟩

end LRUCache11

end day7

/-! ## Strings: `trim` -/

namespace test1

theorem is_space_iff (c : Char) : is_space c = true ↔ c = ' ' := by
  simp [is_space]

theorem is_space_false (c : Char) (h : c ≠ ' ') : is_space c = false := by
  cases hs : is_space c
  · rfl
  · exact absurd ((is_space_iff c).mp hs) h

/-- The first loop of `trim` ends within `s.size()` iterations, at the index
of the first character that is not a space. -/
theorem trim_left_eq (s pre rest : List Char) (r fuel : Nat) (hs : s = pre ++ rest)
    (hr : r = s.length) (hf : rest.length ≤ fuel) :
    trim_left s r fuel pre.length = some (pre.length + (rest.takeWhile is_space).length) := by
  induction rest generalizing pre fuel with
  | nil =>
    have : ¬ pre.length < r := by rw [hr, hs]; simp
    cases fuel <;> simp [trim_left, this]
  | cons c rest ih =>
    have hget : s[pre.length]? = some c := by
      rw [hs, List.getElem?_append_right (Nat.le_refl _)]
      simp
    have hlt : pre.length < r := by rw [hr, hs]; simp
    by_cases hc : c = ' '
    · cases fuel with
      | zero => simp at hf
      | succ f =>
        have ih2 := ih (pre ++ [c]) f (by rw [hs]; simp) (by simpa using hf)
        rw [List.length_append, List.length_singleton] at ih2
        unfold trim_left
        rw [if_pos ⟨hlt, by rw [hget, hc]⟩, ih2, List.takeWhile_cons,
          if_pos ((is_space_iff c).mpr hc), List.length_cons]
        congr 1
        omega
    · have hne : ¬ (pre.length < r ∧ s[pre.length]? = some ' ') := by
        rw [hget]
        intro h
        exact hc (Option.some.inj h.2)
      rw [List.takeWhile_cons, if_neg (by rw [is_space_false c hc]; simp)]
      cases fuel <;>
      · unfold trim_left
        rw [if_neg hne]
        rfl

/-- The second loop of `trim` ends within `s.size()` iterations, after the
last character at or after `l` that is not a space. -/
theorem trim_right_eq (s pre mid post : List Char) (r fuel : Nat) (hs : s = pre ++ mid ++ post)
    (hr : r = pre.length + mid.length) (hf : mid.length ≤ fuel) :
    trim_right s pre.length fuel r = some (pre.length + (mid.rdropWhile is_space).length) := by
  induction mid using List.reverseRecOn generalizing post fuel r with
  | nil =>
    have : ¬ pre.length < r := by rw [hr]; simp
    have hr0 : r = pre.length := by rw [hr]; simp
    cases fuel <;> simp [trim_right, this, hr0]
  | append_singleton mid c ih =>
    have hr1 : r - 1 = pre.length + mid.length := by rw [hr]; simp
    have hget : s[r - 1]? = some c := by
      have e : s = (pre ++ mid) ++ c :: post := by rw [hs]; simp
      rw [hr1, e, List.getElem?_append_right (by simp)]
      simp
    have hlt : pre.length < r := by rw [hr]; simp
    by_cases hc : c = ' '
    · cases fuel with
      | zero => simp at hf
      | succ f =>
        have ih2 := ih (c :: post) (r - 1) f (by rw [hs]; simp) hr1 (by simpa using hf)
        rw [List.rdropWhile_concat_pos _ _ _ ((is_space_iff c).mpr hc)]
        unfold trim_right
        rw [if_pos ⟨hlt, by rw [hget, hc]⟩]
        exact ih2
    · have hne : ¬ (pre.length < r ∧ s[r - 1]? = some ' ') := by
        rw [hget]
        intro h
        exact hc (Option.some.inj h.2)
      rw [List.rdropWhile_concat_neg _ _ _ (by rw [is_space_false c hc]; simp)]
      cases fuel <;>
      · unfold trim_right
        rw [if_neg hne, hr]

/-- `trim` returns, and what it returns is the string without its leading and
trailing spaces. -/
theorem trim_eq_strip (s : List Char) : trim s = some (strip s) := by
  have h1 := trim_left_eq s [] s s.length s.length rfl rfl (Nat.le_refl _)
  simp only [List.length_nil, Nat.zero_add] at h1
  have hsplit : s = s.takeWhile is_space ++ s.dropWhile is_space ++ [] := by simp
  have hlen : s.length = (s.takeWhile is_space).length + (s.dropWhile is_space).length := by
    rw [← List.length_append, List.takeWhile_append_dropWhile]
  have h2 := trim_right_eq s (s.takeWhile is_space) (s.dropWhile is_space) [] s.length s.length
    hsplit hlen (by omega)
  unfold trim
  rw [h1]
  simp only
  rw [h2]
  simp only [substr, Nat.add_sub_cancel_left]
  rw [if_neg (by omega)]
  have hdrop : s.drop (s.takeWhile is_space).length = s.dropWhile is_space := by
    have := List.drop_left (s.takeWhile is_space) (s.dropWhile is_space)
    rw [List.takeWhile_append_dropWhile] at this
    exact this
  rw [hdrop]
  have hp : (s.dropWhile is_space).rdropWhile is_space <+: s.dropWhile is_space :=
    List.rdropWhile_prefix _ _
  rw [← List.prefix_iff_eq_take.mp hp]
  rfl

end test1

namespace test1

theorem takeWhile_spaces (s : List Char) :
    s.takeWhile is_space = List.replicate (s.takeWhile is_space).length ' ' := by
  rw [List.eq_replicate_iff]
  exact ⟨rfl, fun c hc => (is_space_iff c).mp (List.mem_takeWhile_imp hc)⟩

theorem rdropWhile_spaces (d : List Char) :
    ∃ b, d = d.rdropWhile is_space ++ List.replicate b ' ' := by
  induction d using List.reverseRecOn with
  | nil => exact ⟨0, rfl⟩
  | append_singleton d c ih =>
    by_cases hc : c = ' '
    · obtain ⟨b, hb⟩ := ih
      refine ⟨b + 1, ?_⟩
      rw [List.rdropWhile_concat_pos _ _ _ ((is_space_iff c).mpr hc), List.replicate_succ',
        ← List.append_assoc, ← hb, hc]
    · refine ⟨0, ?_⟩
      rw [List.rdropWhile_concat_neg _ _ _ (by rw [is_space_false c hc]; simp)]
      simp

theorem dropWhile_replicate_append (a : Nat) (x : Char) (t : List Char) (hx : x ≠ ' ') :
    (List.replicate a ' ' ++ x :: t).dropWhile is_space = x :: t := by
  induction a with
  | zero => simp [List.dropWhile_cons, is_space_false x hx]
  | succ n ih =>
    rw [List.replicate_succ, List.cons_append, List.dropWhile_cons,
      if_pos ((is_space_iff ' ').mpr rfl)]
    exact ih

theorem rdropWhile_append_replicate (r : List Char) (b : Nat)
    (hr : ∀ hl : r ≠ [], ¬ (is_space (r.getLast hl) = true)) :
    (r ++ List.replicate b ' ').rdropWhile is_space = r := by
  induction b with
  | zero =>
    rw [List.replicate_zero, List.append_nil]
    exact List.rdropWhile_eq_self_iff.mpr hr
  | succ n ih =>
    rw [List.replicate_succ', ← List.append_assoc,
      List.rdropWhile_concat_pos _ _ _ ((is_space_iff ' ').mpr rfl)]
    exact ih

theorem strip_head (s : List Char) : (strip s).head? ≠ some ' ' := by
  intro h
  have hp : strip s <+: s.dropWhile is_space := List.rdropWhile_prefix _ _
  obtain ⟨t, ht⟩ := hp
  cases hst : strip s with
  | nil => rw [hst] at h; simp at h
  | cons x rest =>
    rw [hst] at h ht
    simp only [List.head?_cons, Option.some.injEq] at h
    have hd := List.head?_dropWhile_not is_space s
    rw [← ht] at hd
    simp only [List.cons_append, List.head?_cons] at hd
    rw [h] at hd
    exact absurd hd (by decide)

theorem strip_last (s : List Char) : (strip s).getLast? ≠ some ' ' := by
  intro h
  cases hst : strip s with
  | nil => rw [hst] at h; simp at h
  | cons x rest =>
    have hne : strip s ≠ [] := by rw [hst]; simp
    have hl := List.rdropWhile_last_not is_space (s.dropWhile is_space) hne
    have hg : (strip s).getLast? = some ((strip s).getLast hne) := List.getLast?_eq_getLast _ hne
    rw [hg] at h
    have : (strip s).getLast hne = ' ' := Option.some.inj h
    unfold strip at this
    rw [this] at hl
    exact hl (by decide)

/-- A middle part that neither begins nor ends with a space, between spaces
only, is the stripped string. -/
theorem strip_unique (s r : List Char) (a b : Nat)
    (hs : s = List.replicate a ' ' ++ r ++ List.replicate b ' ')
    (hh : r.head? ≠ some ' ') (hl : r.getLast? ≠ some ' ') : r = strip s := by
  cases hr : r with
  | nil =>
    have hall : ∀ c ∈ s, is_space c = true := by
      intro c hc
      rw [hs, hr] at hc
      simp only [List.append_nil, List.mem_append, List.mem_replicate] at hc
      rcases hc with ⟨_, hc⟩ | ⟨_, hc⟩ <;> exact (is_space_iff c).mpr hc
    unfold strip
    rw [List.dropWhile_eq_nil_iff.mpr hall]
    rfl
  | cons x t =>
    have hx : x ≠ ' ' := by
      intro hx
      rw [hr, hx] at hh
      simp at hh
    have hlast : ∀ hne : x :: t ≠ [], ¬ (is_space ((x :: t).getLast hne) = true) := by
      intro hne h
      have := (is_space_iff _).mp h
      rw [hr, List.getLast?_eq_getLast _ hne, this] at hl
      exact hl rfl
    unfold strip
    rw [hs, hr, List.append_assoc, List.cons_append, dropWhile_replicate_append a x _ hx,
      ← List.cons_append, rdropWhile_append_replicate (x :: t) b hlast]

theorem strip_eq_nil_iff (s : List Char) : strip s = [] ↔ ∀ c ∈ s, c = ' ' := by
  unfold strip
  rw [List.rdropWhile_eq_nil_iff]
  constructor
  · intro h c hc
    by_cases hsp : c = ' '
    · exact hsp
    · have hmem : c ∈ s.takeWhile is_space ++ s.dropWhile is_space := by
        rw [List.takeWhile_append_dropWhile]
        exact hc
      rcases List.mem_append.mp hmem with h1 | h1
      · exact (is_space_iff c).mp (List.mem_takeWhile_imp h1)
      · exact (is_space_iff c).mp (h c h1)
  · intro h c hc
    exact (is_space_iff c).mpr (h c ((List.dropWhile_sublist _).subset hc))

end test1

namespace test1

/-- C22: `trim` removes exactly the leading and trailing spaces. For every
string `s` both loops end within `s.size()` iterations, `substr` does not
throw, and `trim(s)` is the string `r` with `s = (a spaces) ++ r ++ (b spaces)`
for some `a` and `b`, where `r` neither begins nor ends with ' '; `r` is the
only such part of `s`, it is `s` without its leading and trailing spaces, it
is empty exactly when every character of `s` is ' ' (so also when `s` is
empty), and `trim(r)` is `r` again. -/
theorem trim_strips_spaces :
    ∀ s : List Char, ∃ (a b : Nat) (r : List Char),
      trim s = some r
      ∧ s = List.replicate a ' ' ++ r ++ List.replicate b ' '
      ∧ r.head? ≠ some ' ' ∧ r.getLast? ≠ some ' '
      ∧ (∀ (a1 b1 : Nat) (r1 : List Char),
          s = List.replicate a1 ' ' ++ r1 ++ List.replicate b1 ' ' →
          r1.head? ≠ some ' ' → r1.getLast? ≠ some ' ' → r1 = r)
      ∧ r = strip s
      ∧ (r = [] ↔ ∀ c ∈ s, c = ' ')
      ∧ trim r = some r := by
  intro s
  obtain ⟨b, hb⟩ := rdropWhile_spaces (s.dropWhile is_space)
  have hdec : s = List.replicate (s.takeWhile is_space).length ' ' ++ strip s
      ++ List.replicate b ' ' := by
    rw [← takeWhile_spaces, List.append_assoc]
    unfold strip
    rw [← hb, List.takeWhile_append_dropWhile]
  refine ⟨(s.takeWhile is_space).length, b, strip s, trim_eq_strip s, hdec, strip_head s,
    strip_last s, ?_, rfl, strip_eq_nil_iff s, ?_⟩
  · intro a1 b1 r1 h1 hh hl
    exact strip_unique s r1 a1 b1 h1 hh hl
  · rw [trim_eq_strip (strip s)]
    congr 1
    exact (strip_unique (strip s) (strip s) 0 0 (by simp) (strip_head s) (strip_last s)).symm

/-- The statement of C22 on "  a b  ", where `trim` returns "a b" with the
inner space kept, and on a string of three spaces, where it returns "". -/
theorem trim_strips_spaces_witness :
    trim "  a b  ".toList = some "a b".toList
    ∧ trim "   ".toList = some []
    ∧ ∃ (a b : Nat) (r : List Char),
        trim "  a b  ".toList = some r
        ∧ "  a b  ".toList = List.replicate a ' ' ++ r ++ List.replicate b ' '
        ∧ trim r = some r :=
  ⟨by decide, by decide,
    (trim_strips_spaces "  a b  ".toList).imp fun _ h =>
      h.imp fun _ h => h.imp fun _ h => ⟨h.1, h.2.1, h.2.2.2.2.2.2.2⟩⟩

end test1

/-! ## Strings: `count_words` -/

namespace test1

theorem runs_from_space (b : Bool) (rest : List Char) :
    runs_from b (' ' :: rest) = runs_from false rest := by
  simp [runs_from]

theorem runs_from_char_new (c : Char) (rest : List Char) (hc : c ≠ ' ') :
    runs_from false (c :: rest) = 1 + runs_from true rest := by
  simp [runs_from, hc]

theorem runs_from_char_run (c : Char) (rest : List Char) (hc : c ≠ ' ') :
    runs_from true (c :: rest) = runs_from true rest := by
  simp [runs_from, hc]

theorem count_words_loop_space_run (rest : List Char) (ans : Int) (h : ans ≠ INT_MAX) :
    count_words_loop (' ' :: rest) 1 ans = count_words_loop rest 0 (ans + 1) := by
  simp [count_words_loop, h]

theorem count_words_loop_space_full (rest : List Char) :
    count_words_loop (' ' :: rest) 1 INT_MAX = none := by
  simp [count_words_loop]

theorem count_words_loop_space_idle (rest : List Char) (ans : Int) :
    count_words_loop (' ' :: rest) 0 ans = count_words_loop rest 0 ans := by
  simp [count_words_loop]

theorem count_words_loop_char (c : Char) (rest : List Char) (f ans : Int) (hc : c ≠ ' ') :
    count_words_loop (c :: rest) f ans = count_words_loop rest 1 ans := by
  simp [count_words_loop, hc]

/-- While the count fits in `int`, the loop ends with `ans + f` equal to the
words counted before plus the runs of the rest; stated for `f = 0` and for
`f = 1`. -/
theorem count_words_loop_total (s : List Char) : ∀ ans : Int,
    (ans + (runs_from false s : Nat) ≤ INT_MAX →
      ∃ f1 ans1, count_words_loop s 0 ans = some (f1, ans1)
        ∧ ans1 + f1 = ans + (runs_from false s : Nat))
    ∧ (ans + 1 + (runs_from true s : Nat) ≤ INT_MAX →
      ∃ f1 ans1, count_words_loop s 1 ans = some (f1, ans1)
        ∧ ans1 + f1 = ans + 1 + (runs_from true s : Nat)) := by
  induction s with
  | nil =>
    intro ans
    exact ⟨fun _ => ⟨0, ans, rfl, by simp [runs_from]⟩, fun _ => ⟨1, ans, rfl, by simp [runs_from]⟩⟩
  | cons c rest ih =>
    intro ans
    by_cases hc : c = ' '
    · subst hc
      rw [runs_from_space, runs_from_space, count_words_loop_space_idle]
      refine ⟨(ih ans).1, ?_⟩
      intro hb
      have hne : ans ≠ INT_MAX := by
        intro h
        rw [h] at hb
        have : (0 : Int) ≤ (runs_from false rest : Nat) := Int.ofNat_nonneg _
        omega
      rw [count_words_loop_space_run rest ans hne]
      exact (ih (ans + 1)).1 hb
    · rw [runs_from_char_new c rest hc, runs_from_char_run c rest hc,
        count_words_loop_char c rest 0 ans hc, count_words_loop_char c rest 1 ans hc]
      refine ⟨?_, (ih ans).2⟩
      intro hb
      rw [Nat.cast_add, Nat.cast_one] at hb ⊢
      obtain ⟨f1, ans1, h1, h2⟩ := (ih ans).2 (by omega)
      exact ⟨f1, ans1, h1, by omega⟩

/-- When the count does not fit in `int`, `ans++` overflows in the loop, or
the loop ends with values whose sum does not fit. -/
theorem count_words_loop_overflow (s : List Char) : ∀ ans : Int, ans ≤ INT_MAX →
    (INT_MAX < ans + (runs_from false s : Nat) →
      count_words_loop s 0 ans = none
        ∨ ∃ f1 ans1, count_words_loop s 0 ans = some (f1, ans1) ∧ INT_MAX < ans1 + f1)
    ∧ (INT_MAX < ans + 1 + (runs_from true s : Nat) →
      count_words_loop s 1 ans = none
        ∨ ∃ f1 ans1, count_words_loop s 1 ans = some (f1, ans1) ∧ INT_MAX < ans1 + f1) := by
  induction s with
  | nil =>
    intro ans _
    constructor
    · intro hb
      exact Or.inr ⟨0, ans, rfl, by simpa [runs_from] using hb⟩
    · intro hb
      exact Or.inr ⟨1, ans, rfl, by simpa [runs_from] using hb⟩
  | cons c rest ih =>
    intro ans ha
    by_cases hc : c = ' '
    · subst hc
      rw [runs_from_space, runs_from_space, count_words_loop_space_idle]
      refine ⟨(ih ans ha).1, ?_⟩
      intro hb
      by_cases hne : ans = INT_MAX
      · left
        rw [hne]
        exact count_words_loop_space_full rest
      · rw [count_words_loop_space_run rest ans hne]
        exact (ih (ans + 1) (by omega)).1 hb
    · rw [runs_from_char_new c rest hc, runs_from_char_run c rest hc,
        count_words_loop_char c rest 0 ans hc, count_words_loop_char c rest 1 ans hc]
      refine ⟨?_, (ih ans ha).2⟩
      intro hb
      rw [Nat.cast_add, Nat.cast_one] at hb
      exact (ih ans ha).2 (by omega)

/-- `count_words` returns the number of runs when that is at most `INT_MAX`,
and has no defined result otherwise. -/
theorem count_words_eq (s : List Char) :
    count_words s = if (runs s : Int) ≤ INT_MAX then some (runs s : Int) else none := by
  unfold count_words runs
  by_cases h : ((runs_from false s : Nat) : Int) ≤ INT_MAX
  · rw [if_pos h]
    obtain ⟨f1, ans1, h1, h2⟩ := (count_words_loop_total s 0).1 (by omega)
    rw [h1]
    simp only
    rw [if_neg (by omega)]
    congr 1
    omega
  · rw [if_neg h]
    rcases (count_words_loop_overflow s 0 (by decide)).1 (by omega) with h1 | ⟨f1, ans1, h1, h2⟩
    · rw [h1]
    · rw [h1]
      simp only
      rw [if_pos h2]

end test1

namespace test1

theorem runs_from_spaces_append (n : Nat) (v : List Char) :
    runs_from false (List.replicate n ' ' ++ v) = runs_from false v := by
  induction n with
  | zero => rfl
  | succ n ih => rw [List.replicate_succ, List.cons_append, runs_from_space, ih]

theorem runs_from_cons_congr (b : Bool) (c : Char) (u v : List Char)
    (h : ∀ b, runs_from b u = runs_from b v) : runs_from b (c :: u) = runs_from b (c :: v) := by
  by_cases hc : c = ' '
  · subst hc
    rw [runs_from_space, runs_from_space, h]
  · cases b
    · rw [runs_from_char_new c u hc, runs_from_char_new c v hc, h]
    · rw [runs_from_char_run c u hc, runs_from_char_run c v hc, h]

theorem runs_from_append_spaces (u : List Char) (n : Nat) :
    ∀ b, runs_from b (u ++ List.replicate n ' ') = runs_from b u := by
  induction u with
  | nil =>
    intro b
    cases n with
    | zero => rfl
    | succ n =>
      rw [List.nil_append, List.replicate_succ, runs_from_space]
      have := runs_from_spaces_append n []
      rw [List.append_nil] at this
      rw [this]
      cases b <;> rfl
  | cons c u ih =>
    intro b
    rw [List.cons_append]
    exact runs_from_cons_congr b c _ _ ih

theorem runs_from_repeated_spaces (u v : List Char) (n : Nat) :
    ∀ b, runs_from b (u ++ ' ' :: (List.replicate n ' ' ++ v)) = runs_from b (u ++ ' ' :: v) := by
  induction u with
  | nil =>
    intro b
    rw [List.nil_append, List.nil_append, runs_from_space, runs_from_space,
      runs_from_spaces_append]
  | cons c u ih =>
    intro b
    rw [List.cons_append, List.cons_append]
    exact runs_from_cons_congr b c _ _ ih

/-- The runs of a string are the non-empty pieces of the string split on ' '. -/
theorem runs_from_pieces (s : List Char) :
    ∃ x xs, s.splitOn ' ' = x :: xs
      ∧ runs_from false s = ((x :: xs).filter (fun w => !w.isEmpty)).length
      ∧ runs_from true s = (xs.filter (fun w => !w.isEmpty)).length := by
  induction s with
  | nil => exact ⟨[], [], rfl, rfl, rfl⟩
  | cons c rest ih =>
    obtain ⟨x, xs, hsplit, h0, h1⟩ := ih
    unfold List.splitOn at hsplit ⊢
    rw [List.splitOnP_cons, hsplit]
    by_cases hc : c = ' '
    · subst hc
      refine ⟨[], x :: xs, by simp, ?_, ?_⟩
      · rw [runs_from_space, h0]
        rfl
      · rw [runs_from_space, h0]
    · have hb : ¬ ((c == ' ') = true) := by simpa using hc
      refine ⟨c :: x, xs, by rw [if_neg hb]; rfl, ?_, ?_⟩
      · rw [runs_from_char_new c rest hc, h1]
        simp [List.filter_cons, Nat.add_comm]
      · rw [runs_from_char_run c rest hc, h1]

theorem runs_eq_pieces (s : List Char) : runs s = (pieces s).length := by
  obtain ⟨x, xs, hsplit, h0, _⟩ := runs_from_pieces s
  unfold runs pieces
  rw [hsplit, h0]

theorem many_words_succ (n : Nat) : many_words (n + 1) = 'a' :: ' ' :: many_words n := by
  simp [many_words, List.replicate_succ]

theorem runs_many_words (n : Nat) : runs (many_words n) = n := by
  unfold runs
  induction n with
  | zero => rfl
  | succ n ih =>
    rw [many_words_succ, runs_from_char_new 'a' _ (by decide), runs_from_space, ih,
      Nat.add_comm]

end test1

namespace test1

/-- C23 fails as stated for a string of `2 ^ 31` words. `many_words
2147483648` is the string "a a ... a " of 2147483648 one-letter words, each
followed by a space. It has 2147483648 runs of characters other than ' ' and
as many non-empty pieces, one more than the largest `int`: the last `ans++`
of the loop overflows, and `count_words` has no defined result, so it does not
return the number of runs. -/
theorem count_words_overflows :
    runs (many_words 2147483648) = 2147483648
    ∧ (pieces (many_words 2147483648)).length = 2147483648
    ∧ count_words (many_words 2147483648) = none
    ∧ count_words (many_words 2147483648) ≠ some ((runs (many_words 2147483648) : Nat) : Int) := by
  have hnone : count_words (many_words 2147483648) = none := by
    rw [count_words_eq, runs_many_words, if_neg (by decide)]
  refine ⟨runs_many_words _, ?_, hnone, ?_⟩
  · rw [← runs_eq_pieces]
    exact runs_many_words _
  · rw [hnone]
    exact fun h => Option.noConfusion h

/-- C23, amended: `count_words` counts the space-separated words of a string
that has at most `INT_MAX` of them. For every string `s` the number of maximal
runs of characters other than ' ' is the number of non-empty pieces of `s`
split on ' '; when that number is at most `INT_MAX` (2147483647),
`count_words(s)` returns it, and otherwise the computation overflows `int`.
Leading and trailing spaces and repeated spaces between words do not change
the number of runs, and a string of spaces only, or the empty string, has
none, so `count_words` returns 0 for it. -/
theorem count_words_counts_runs :
    (∀ s : List Char, runs s = (pieces s).length)
    ∧ (∀ s : List Char, (runs s : Int) ≤ INT_MAX → count_words s = some (runs s : Int))
    ∧ (∀ s : List Char, INT_MAX < (runs s : Int) → count_words s = none)
    ∧ (∀ (s : List Char) (a b : Nat),
        runs (List.replicate a ' ' ++ s ++ List.replicate b ' ') = runs s)
    ∧ (∀ (u v : List Char) (n : Nat),
        runs (u ++ ' ' :: (List.replicate n ' ' ++ v)) = runs (u ++ ' ' :: v))
    ∧ (∀ n : Nat, runs (List.replicate n ' ') = 0
        ∧ count_words (List.replicate n ' ') = some 0) := by
  have hsp : ∀ n : Nat, runs (List.replicate n ' ') = 0 := by
    intro n
    have := runs_from_append_spaces [] n false
    rw [List.nil_append] at this
    exact this
  refine ⟨runs_eq_pieces, ?_, ?_, ?_, ?_, ?_⟩
  · intro s h
    rw [count_words_eq, if_pos h]
  · intro s h
    rw [count_words_eq, if_neg (by omega)]
  · intro s a b
    unfold runs
    rw [runs_from_append_spaces, runs_from_spaces_append]
  · intro u v n
    exact runs_from_repeated_spaces u v n false
  · intro n
    refine ⟨hsp n, ?_⟩
    rw [count_words_eq, hsp n, if_pos (by decide)]
    rfl

/-- The amended C23 on "  a b  cc ": three runs, three non-empty pieces, and
`count_words` returns 3. -/
theorem count_words_counts_runs_witness :
    runs "  a b  cc ".toList = 3
    ∧ pieces "  a b  cc ".toList = ["a".toList, "b".toList, "cc".toList]
    ∧ count_words "  a b  cc ".toList = some 3
    ∧ count_words "  a b  cc ".toList = some (runs "  a b  cc ".toList : Int) :=
  ⟨by decide, by decide, by decide,
    count_words_counts_runs.2.1 "  a b  cc ".toList (by decide)⟩

end test1

/-! ## Buffers: copy assignment -/

namespace test0

theorem std_copy_le (src dst : List (Option Int)) (n : Nat) (h1 : n ≤ src.length)
    (h2 : n ≤ dst.length) : std_copy src n dst = some (src.take n ++ dst.drop n) := by
  unfold std_copy
  rw [if_pos ⟨h1, h2⟩]

theorem std_copy_gt (src dst : List (Option Int)) (n : Nat)
    (h : src.length < n ∨ dst.length < n) : std_copy src n dst = none := by
  unfold std_copy
  rw [if_neg (by omega)]

/-- C29: the code at failing inputs, and in general. With `a` of size 1
holding 1 and `b` of size 2 holding 7 and 8, `a = b` copies one element: the
target gets size 2 and the array 7, unwritten. With `a` of size 2 and `b` of
size 1 the copy reads `b.data[1]` and writes `tmp[1]`, outside both arrays.
The same holds for `Buffer_r5_good`. In general, for buffers whose arrays have
the length `size`, the assignment copies the first `a.size` elements of `b`
when `a.size <= b.size`, leaving the other `b.size - a.size` elements of the
new array unwritten, and runs outside the arrays when `a.size > b.size`; the
target equals the source only when the two sizes were equal. The copy
assignment of `Buffer_r3` and the copy constructor, which copy `other.size`
elements, give the target the array of the source for all sizes. -/
theorem copy_assign_uses_old_size :
    Buffer_r3_good.operator_assign { data := [some 1], size := 1 }
        { data := [some 7, some 8], size := 2 }
      = some { data := [some 7, none], size := 2 }
    ∧ Buffer_r3_good.operator_assign { data := [some 1, some 2], size := 2 }
        { data := [some 7], size := 1 } = none
    ∧ Buffer_r5_good.operator_assign { data := [some 1], size := 1 }
        { data := [some 7, some 8], size := 2 }
      = some { data := [some 7, none], size := 2 }
    ∧ Buffer_r5_good.operator_assign { data := [some 1, some 2], size := 2 }
        { data := [some 7], size := 1 } = none
    ∧ (∀ a b : Buffer_r3_good, a.data.length = a.size → b.data.length = b.size →
        (a.size ≤ b.size → Buffer_r3_good.operator_assign a b =
          some { data := b.data.take a.size ++ List.replicate (b.size - a.size) none,
                 size := b.size })
        ∧ (b.size < a.size → Buffer_r3_good.operator_assign a b = none)
        ∧ (a.size = b.size → Buffer_r3_good.operator_assign a b = some b))
    ∧ (∀ a b : Buffer_r5_good, a.data.length = a.size → b.data.length = b.size →
        (a.size ≤ b.size → Buffer_r5_good.operator_assign a b =
          some { data := b.data.take a.size ++ List.replicate (b.size - a.size) none,
                 size := b.size })
        ∧ (b.size < a.size → Buffer_r5_good.operator_assign a b = none)
        ∧ (a.size = b.size → Buffer_r5_good.operator_assign a b = some b))
    ∧ (∀ a b : Buffer_r3, b.data.length = b.size → Buffer_r3.operator_assign a b = some b)
    ∧ (∀ b : Buffer_r3_good, b.data.length = b.size → Buffer_r3_good.copy b = some b) := by
  have hdrop : ∀ n m : Nat, (new_array m).drop n = List.replicate (m - n) none := by
    intro n m
    simp [new_array]
  have hlen : ∀ m : Nat, (new_array m).length = m := by
    intro m
    simp [new_array]
  refine ⟨by decide, by decide, by decide, by decide, ?_, ?_, ?_, ?_⟩
  · intro a b ha hb
    refine ⟨?_, ?_, ?_⟩
    · intro h
      unfold Buffer_r3_good.operator_assign
      rw [std_copy_le _ _ _ (by omega) (by rw [hlen]; exact h), hdrop]
    · intro h
      unfold Buffer_r3_good.operator_assign
      rw [std_copy_gt _ _ _ (Or.inl (by omega))]
    · intro h
      obtain ⟨bd, bs⟩ := b
      simp only at hb h
      subst hb
      unfold Buffer_r3_good.operator_assign
      simp only
      rw [std_copy_le _ _ _ (by omega) (by rw [hlen]; omega), hdrop, h]
      simp
  · intro a b ha hb
    refine ⟨?_, ?_, ?_⟩
    · intro h
      unfold Buffer_r5_good.operator_assign
      rw [std_copy_le _ _ _ (by omega) (by rw [hlen]; exact h), hdrop]
    · intro h
      unfold Buffer_r5_good.operator_assign
      rw [std_copy_gt _ _ _ (Or.inl (by omega))]
    · intro h
      obtain ⟨bd, bs⟩ := b
      simp only at hb h
      subst hb
      unfold Buffer_r5_good.operator_assign
      simp only
      rw [std_copy_le _ _ _ (by omega) (by rw [hlen]; omega), hdrop, h]
      simp
  · intro a b hb
    obtain ⟨bd, bs⟩ := b
    simp only at hb
    subst hb
    unfold Buffer_r3.operator_assign
    simp only
    rw [std_copy_le _ _ _ (by omega) (by rw [hlen]), hdrop]
    simp
  · intro b hb
    obtain ⟨bd, bs⟩ := b
    simp only at hb
    subst hb
    unfold Buffer_r3_good.copy
    simp only
    rw [std_copy_le _ _ _ (by omega) (by rw [hlen]), hdrop]
    simp

end test0

/-! ## The worker loop of `test11.cpp` -/

namespace Test11

theorem start_broken : Broken start := by
  intro h r hr
  simp [start, FuturePool.new] at hr

theorem submit_broken (s : FuturePool) (f : Callable) (hs : Broken s) : Broken (s.submit f).1 := by
  unfold FuturePool.submit
  split
  · intro h r hr
    simp only at hr
    by_cases hlt : h < s.states.length
    · rw [List.getElem?_append_left hlt] at hr
      exact hs h r hr
    · rw [List.getElem?_append_right (by omega)] at hr
      cases hk : h - s.states.length with
      | zero => rw [hk] at hr; simp at hr
      | succ k => rw [hk] at hr; simp at hr
  · exact hs

theorem worker_loop_broken (s : FuturePool) (i : Nat) (hs : Broken s) :
    Broken (worker_loop s i) := by
  unfold worker_loop
  split
  · rename_i job _
    intro h r hr
    simp only at hr
    split at hr
    · rw [List.getElem?_set] at hr
      split at hr
      · split at hr
        · simp only [Option.some.injEq] at hr
          exact hr.symm
        · simp at hr
      · exact hs h r hr
    · exact hs h r hr
  · exact hs

theorem step_broken (s : FuturePool) (t : Test10.Tick) (hs : Broken s) : Broken (step s t) := by
  cases t with
  | main =>
    unfold step
    simp only
    split
    · exact submit_broken s _ hs
    · split
      · exact hs
      · exact hs
  | worker i => exact worker_loop_broken s i hs

theorem exec_broken (ticks : List Test10.Tick) (s : FuturePool) (hs : Broken s) :
    Broken (exec s ticks) := by
  induction ticks generalizing s with
  | nil => exact hs
  | cons t rest ih => exact ih (step s t) (step_broken s t hs)

set_option maxRecDepth 100000 in
/-- In `test11.cpp` the schedule `fair` leaves `broken_promise` in all ten
futures and then stops the pool. -/
theorem fair_broken :
    (exec start Test10.fair).states = List.replicate 10 (some broken_promise)
    ∧ (exec start Test10.fair).pool.stop = true ∧ (exec start Test10.fair).pool.tasks.length = 0 :=
  ⟨rfl, rfl, rfl⟩

end Test11

namespace Test11

/-- C25: the code at the failing input, `main` of `test11.cpp`. The worker
loop of `test11.cpp` pops a task and never calls it. A worker that holds a
task whose shared state is empty leaves `broken_promise` there, where the
worker of `test10.cpp` in the same state stores what the callable returned or
threw, and the worker of `test_scheduler.cpp` calls the task it holds. In the
schedule that gives `main` and each worker their turns, all ten futures of
`test11.cpp` end with `broken_promise`, so the future of task 0 does not hold
0, while `test10.cpp` under the same schedule obtains `i * 2` for `i != 5`. In
every schedule of `test11.cpp` each stored outcome is `broken_promise`: no
future ever holds a value. -/
theorem tasks_never_called :
    (exec start Test10.fair).states = List.replicate 10 (some broken_promise)
    ∧ (exec start Test10.fair).states[0]? ≠ some (some (Except.ok 0))
    ∧ (Test10.exec Test10.start Test10.fair).states =
        [some (Except.ok 0), some (Except.ok 2), some (Except.ok 4), some (Except.ok 6),
          some (Except.ok 8), some (Except.error "error in task 5"), some (Except.ok 12),
          some (Except.ok 14), some (Except.ok 16), some (Except.ok 18)]
    ∧ (∀ (ticks : List Test10.Tick) (h : Nat) (r : Except String Int),
        (exec start ticks).states[h]? = some (some r) → r = broken_promise)
    ∧ (∀ (ticks : List Test10.Tick) (h : Nat) (v : Int),
        (exec start ticks).states[h]? ≠ some (some (Except.ok v)))
    ∧ (∀ (s : FuturePool) (i : Nat) (job : PackagedTask),
        s.pool.workers[i]? = some (WorkerThread.running job) →
        s.states[job.handle]? = some none →
        (worker_loop s i).states = s.states.set job.handle (some broken_promise)
        ∧ (s.worker_loop i).1.states = s.states.set job.handle (some (job.fn ()))
        ∧ (worker_loop s i).pool = (s.worker_loop i).1.pool)
    ∧ (∀ (p : ThreadPool Callable) (i : Nat) (f : Callable),
        p.workers[i]? = some (WorkerThread.running f) →
        (p.worker_loop i).2 = PoolEvent.ran i f) := by
  have hall : ∀ (ticks : List Test10.Tick) (h : Nat) (r : Except String Int),
      (exec start ticks).states[h]? = some (some r) → r = broken_promise :=
    fun ticks => exec_broken ticks start start_broken
  refine ⟨fair_broken.1, ?_, Test10.fair_outcomes.1, hall, ?_, ?_, ?_⟩
  · intro h
    have := hall Test10.fair 0 _ h
    simp [broken_promise] at this
  · intro ticks h v hv
    have := hall ticks h _ hv
    simp [broken_promise] at this
  · intro s i job hw hc
    rw [FuturePool.worker_loop_store s i job hw hc]
    unfold worker_loop
    rw [hw]
    simp only [hc]
    exact ⟨trivial, trivial, trivial⟩
  · intro p i f hw
    rw [ThreadPool.worker_loop_run p i f hw]

end Test11

/-! ## Scheduler: the steps of the loop by cases -/

namespace Scheduler

variable {φ : Type}

/-- A step of `run()` never changes `stop` or `seq`, and it does one of five
things: nothing to any item; pop the due item on top; call `pool.submit` for
the popped item (accepted, thrown, or blocked); decide between a next due time
and dropping the submitted item; push the rescheduled item back. -/
theorem run_cases (s : Scheduler φ) (pool : ThreadPool φ) (now : Int) :
    (s.run pool now).1.stop = s.stop ∧ (s.run pool now).1.seq = s.seq
    ∧ ((s.in_flight = [] ∧ (s.run pool now).1.items = s.items
          ∧ (s.run pool now).1.in_flight = [] ∧ (s.run pool now).2.2.quiet = true)
      ∨ (∃ x, s.scheduler_thread = SchedulerThread.looping ∧ top s.items = some x ∧ x.when ≤ now
          ∧ (s.run pool now).1.items = pop s.items
          ∧ (s.run pool now).1.scheduler_thread = SchedulerThread.submitting x
          ∧ (s.run pool now).2.2 = SchedEvent.popped x)
      ∨ (∃ x, s.scheduler_thread = SchedulerThread.submitting x
          ∧ (s.run pool now).1.items = s.items
          ∧ (((s.run pool now).1.scheduler_thread = SchedulerThread.submitted x
                ∧ (s.run pool now).2.2 = SchedEvent.submitted x)
            ∨ (∃ what, (s.run pool now).1.scheduler_thread = SchedulerThread.failed what
                ∧ (s.run pool now).2.2 = SchedEvent.submit_threw what)
            ∨ ((s.run pool now).1.scheduler_thread = SchedulerThread.submitting x
                ∧ (s.run pool now).2.2 = SchedEvent.submit_blocked x)))
      ∨ (∃ x, s.scheduler_thread = SchedulerThread.submitted x
          ∧ (s.run pool now).1.items = s.items
          ∧ ((0 < x.interval
                ∧ (s.run pool now).1.scheduler_thread =
                  SchedulerThread.reinserting { x with when := plus now (x.interval * TICKS_PER_MS) }
                ∧ (s.run pool now).2.2 =
                  SchedEvent.rescheduled { x with when := plus now (x.interval * TICKS_PER_MS) })
            ∨ ((s.run pool now).1.scheduler_thread = SchedulerThread.looping
                ∧ (s.run pool now).2.2 = SchedEvent.dropped x)))
      ∨ (∃ x, s.scheduler_thread = SchedulerThread.reinserting x
          ∧ (s.run pool now).1.items = s.items ++ [x]
          ∧ (s.run pool now).1.scheduler_thread = SchedulerThread.looping
          ∧ (s.run pool now).2.2 = SchedEvent.reinserted x)) := by
  refine ⟨run_stop s pool now, run_seq s pool now, ?_⟩
  cases hth : s.scheduler_thread with
  | looping =>
    unfold run
    rw [hth]
    simp only
    cases hst : s.stop
    · cases hx : top s.items with
      | none =>
        left
        simp [hst, in_flight, hth, SchedEvent.quiet]
      | some x =>
        by_cases hdue : x.when > now
        · left
          simp [hst, hdue, in_flight, hth, SchedEvent.quiet]
        · right
          left
          refine ⟨x, trivial, rfl, by omega, ?_⟩
          simp [hst, hdue]
    · left
      simp [hst, in_flight, hth, SchedEvent.quiet]
  | sleeping next =>
    left
    unfold run
    rw [hth]
    simp only
    split
    · simp [in_flight, hth, SchedEvent.quiet]
    · split <;> simp [in_flight, hth, SchedEvent.quiet]
  | submitting x =>
    right
    right
    left
    refine ⟨x, rfl, ?_⟩
    unfold run
    rw [hth]
    simp only
    split
    · exact ⟨rfl, Or.inl ⟨rfl, rfl⟩⟩
    · exact ⟨rfl, Or.inr (Or.inl ⟨_, rfl, rfl⟩)⟩
    · exact ⟨rfl, Or.inr (Or.inr ⟨hth, rfl⟩)⟩
  | submitted x =>
    right
    right
    right
    left
    refine ⟨x, rfl, ?_⟩
    unfold run
    rw [hth]
    simp only
    split
    · rename_i hc
      simp only [Bool.and_eq_true, decide_eq_true_eq] at hc
      exact ⟨rfl, Or.inl ⟨hc.1, rfl, rfl⟩⟩
    · exact ⟨rfl, Or.inr ⟨rfl, rfl⟩⟩
  | reinserting x =>
    right
    right
    right
    right
    refine ⟨x, rfl, ?_⟩
    unfold run
    rw [hth]
    exact ⟨rfl, rfl, rfl⟩
  | finished =>
    left
    unfold run
    rw [hth]
    simp [in_flight, hth, SchedEvent.quiet]
  | failed what =>
    left
    unfold run
    rw [hth]
    simp [in_flight, hth, SchedEvent.quiet]
  | joined =>
    left
    unfold run
    rw [hth]
    simp [in_flight, hth, SchedEvent.quiet]

end Scheduler

/-! ## Scheduler: one-shot items -/

namespace Scheduler

variable {φ : Type} [DecidableEq φ]

/-- A step of `run()` on a one-shot item `x`: an accepted submission of `x`
uses up one unit of the budget of `x`, no step adds to it, and `x` is neither
given a next due time nor pushed back. -/
theorem run_budget (s : Scheduler φ) (pool : ThreadPool φ) (now : Int) (x : Item φ)
    (hx : x.interval ≤ 0)
    (hR : ∀ y, s.scheduler_thread = SchedulerThread.reinserting y → 0 < y.interval) :
    (if (s.run pool now).2.2 = SchedEvent.submitted x then 1 else 0) + budget x (s.run pool now).1
        ≤ budget x s
    ∧ (∀ y, (s.run pool now).1.scheduler_thread = SchedulerThread.reinserting y → 0 < y.interval)
    ∧ (s.run pool now).2.2 ≠ SchedEvent.reinserted x
    ∧ (s.run pool now).2.2 ≠ SchedEvent.rescheduled x := by
  rcases (run_cases s pool now).2.2 with h | ⟨y, hth, ht, _, hi, hth2, he⟩ | ⟨y, hth, hi, h⟩
      | ⟨y, hth, hi, h⟩ | ⟨y, hth, hi, hth2, he⟩
  · obtain ⟨h1, hi, h2, hq⟩ := h
    have hn1 : s.scheduler_thread ≠ SchedulerThread.submitting x := by
      intro h
      simp [in_flight, h] at h1
    have hn2 : (s.run pool now).1.scheduler_thread ≠ SchedulerThread.submitting x := by
      intro h
      simp [in_flight, h] at h2
    refine ⟨?_, ?_, ?_, ?_⟩
    · have hne : (s.run pool now).2.2 ≠ SchedEvent.submitted x := by
        intro h
        rw [h] at hq
        simp [SchedEvent.quiet] at hq
      simp [budget, hi, hn1, hn2, hne]
    · intro z hz
      simp [in_flight, hz] at h2
    · intro h
      rw [h] at hq
      simp [SchedEvent.quiet] at hq
    · intro h
      rw [h] at hq
      simp [SchedEvent.quiet] at hq
  · have hp := (pop_perm s.items y ht).count_eq x
    rw [List.count_cons] at hp
    refine ⟨?_, ?_, ?_, ?_⟩
    · simp only [budget, hi, hth2, hth, he]
      by_cases hyx : y = x
      · subst hyx
        simp at hp ⊢
        omega
      · have : ¬ (SchedulerThread.submitting y = SchedulerThread.submitting x) := by
          intro h
          exact hyx (SchedulerThread.submitting.inj h)
        simp [hyx] at hp
        simp [this, hp]
    · intro z hz
      rw [hth2] at hz
      simp at hz
    · rw [he]
      simp
    · rw [he]
      simp
  · rcases h with ⟨hth2, he⟩ | ⟨what, hth2, he⟩ | ⟨hth2, he⟩
    · refine ⟨?_, ?_, ?_, ?_⟩
      · simp only [budget, hi, hth2, hth, he]
        by_cases hyx : y = x
        · subst hyx
          simp
          omega
        · have h1 : ¬ (SchedulerThread.submitting y = SchedulerThread.submitting x) := by
            intro h
            exact hyx (SchedulerThread.submitting.inj h)
          have h2 : ¬ (SchedEvent.submitted y = SchedEvent.submitted x) := by
            intro h
            exact hyx (SchedEvent.submitted.inj h)
          simp [h1, h2]
      · intro z hz
        rw [hth2] at hz
        simp at hz
      · rw [he]
        simp
      · rw [he]
        simp
    · refine ⟨?_, ?_, ?_, ?_⟩
      · simp [budget, hi, hth2, hth, he]
      · intro z hz
        rw [hth2] at hz
        simp at hz
      · rw [he]
        simp
      · rw [he]
        simp
    · refine ⟨?_, ?_, ?_, ?_⟩
      · simp [budget, hi, hth2, hth, he]
      · intro z hz
        rw [hth2] at hz
        simp at hz
      · rw [he]
        simp
      · rw [he]
        simp
  · rcases h with ⟨hpos, hth2, he⟩ | ⟨hth2, he⟩
    · refine ⟨?_, ?_, ?_, ?_⟩
      · simp [budget, hi, hth2, hth, he]
      · intro z hz
        rw [hth2] at hz
        simp only [SchedulerThread.reinserting.injEq] at hz
        rw [← hz]
        exact hpos
      · rw [he]
        simp
      · rw [he]
        intro h
        simp only [SchedEvent.rescheduled.injEq] at h
        rw [← h] at hx
        simp only at hx
        omega
    · refine ⟨?_, ?_, ?_, ?_⟩
      · simp [budget, hi, hth2, hth, he]
      · intro z hz
        rw [hth2] at hz
        simp at hz
      · rw [he]
        simp
      · rw [he]
        simp
  · have hy := hR y hth
    have hyx : y ≠ x := by
      intro h
      rw [h] at hy
      omega
    refine ⟨?_, ?_, ?_, ?_⟩
    · have hc : List.count x [y] = 0 := by
        rw [List.count_cons, List.count_nil]
        simp [hyx]
      simp [budget, hi, hth2, hth, he, List.count_append, hc]
    · intro z hz
      rw [hth2] at hz
      simp at hz
    · rw [he]
      intro h
      exact hyx (SchedEvent.reinserted.inj h)
    · rw [he]
      simp

end Scheduler

namespace Scheduler

variable {φ : Type}

theorem shutdown_thread (s : Scheduler φ) : s.shutdown.1.scheduler_thread = s.scheduler_thread := by
  unfold shutdown
  split <;> rfl

theorem join_not_reinserting (s : Scheduler φ) (y : Item φ)
    (h : s.join.1.scheduler_thread = SchedulerThread.reinserting y) :
    s.scheduler_thread = SchedulerThread.reinserting y := by
  unfold join at h
  split at h
  · simp at h
  all_goals exact h

variable [DecidableEq φ]

theorem add_task_budget (s : Scheduler φ) (when : Int) (func : φ) (interval : Int) (x : Item φ) :
    budget x (s.add_task when func interval).1
      = budget x s
        + (if ({ when := when, func := func, interval := interval, seq := s.seq } : Item φ) = x
            then 1 else 0) := by
  simp only [budget, add_task, push, List.count_append, List.count_cons, List.count_nil,
    beq_iff_eq]
  omega

theorem shutdown_budget (s : Scheduler φ) (x : Item φ) : budget x s.shutdown.1 = budget x s := by
  unfold shutdown
  split <;> rfl

theorem join_budget (s : Scheduler φ) (x : Item φ) : budget x s.join.1 = budget x s := by
  unfold join
  split
  · rename_i h
    simp [budget, h]
  all_goals rfl

end Scheduler

namespace World

variable {φ : Type} [DecidableEq φ]

/-- A move on a one-shot item `x`: only a push of `x` by `add_task` adds to
its budget, an accepted submission of `x` uses one unit, and no move gives `x`
a next due time or pushes it back. -/
theorem step_budget (w : World φ) (now : Int) (a : WorldAction φ) (x : Scheduler.Item φ)
    (hx : x.interval ≤ 0)
    (hR : ∀ y, w.sched.scheduler_thread = SchedulerThread.reinserting y → 0 < y.interval) :
    (if (w.step now a).2 = WorldEvent.sched (SchedEvent.submitted x) then 1 else 0)
        + Scheduler.budget x (w.step now a).1.sched
      ≤ (if (w.step now a).2 = WorldEvent.sched (SchedEvent.added x) then 1 else 0)
        + Scheduler.budget x w.sched
    ∧ (∀ y, (w.step now a).1.sched.scheduler_thread = SchedulerThread.reinserting y →
        0 < y.interval)
    ∧ (w.step now a).2 ≠ WorldEvent.sched (SchedEvent.reinserted x)
    ∧ (w.step now a).2 ≠ WorldEvent.sched (SchedEvent.rescheduled x) := by
  have hadd : ∀ (when : Int) (func : φ) (interval : Int),
      (if WorldEvent.sched (w.sched.add_task when func interval).2
            = WorldEvent.sched (SchedEvent.submitted x) then 1 else 0)
          + Scheduler.budget x (w.sched.add_task when func interval).1
        ≤ (if WorldEvent.sched (w.sched.add_task when func interval).2
              = WorldEvent.sched (SchedEvent.added x) then 1 else 0)
          + Scheduler.budget x w.sched
      ∧ (∀ y, (w.sched.add_task when func interval).1.scheduler_thread
            = SchedulerThread.reinserting y → 0 < y.interval)
      ∧ WorldEvent.sched (w.sched.add_task when func interval).2
          ≠ WorldEvent.sched (SchedEvent.reinserted x)
      ∧ WorldEvent.sched (w.sched.add_task when func interval).2
          ≠ WorldEvent.sched (SchedEvent.rescheduled x) := by
    intro when func interval
    rw [Scheduler.add_task_budget]
    refine ⟨?_, hR, by simp [Scheduler.add_task], by simp [Scheduler.add_task]⟩
    simp only [Scheduler.add_task, WorldEvent.sched.injEq, SchedEvent.added.injEq]
    simp only [reduceCtorEq, if_false, Nat.zero_add]
    omega
  cases a with
  | post f => exact hadd _ _ _
  | post_after delay f => exact hadd _ _ _
  | post_every interval f => exact hadd _ _ _
  | run =>
    have h := Scheduler.run_budget w.sched w.pool now x hx hR
    simp only [step, WorldEvent.sched.injEq, ne_eq]
    refine ⟨?_, h.2.1, h.2.2.1, h.2.2.2⟩
    have := h.1
    omega
  | shutdown =>
    simp only [step, WorldEvent.sched.injEq, ne_eq]
    rw [Scheduler.shutdown_budget, Scheduler.shutdown_thread]
    refine ⟨?_, hR, ?_, ?_⟩
    · have : ¬ (w.sched.shutdown.2 = SchedEvent.submitted x) := by
        unfold Scheduler.shutdown
        split <;> simp
      simp [this]
    · unfold Scheduler.shutdown
      split <;> simp
    · unfold Scheduler.shutdown
      split <;> simp
  | join =>
    simp only [step, WorldEvent.sched.injEq, ne_eq]
    rw [Scheduler.join_budget]
    refine ⟨?_, fun y hy => hR y (Scheduler.join_not_reinserting w.sched y hy), ?_, ?_⟩
    · have : ¬ (w.sched.join.2 = SchedEvent.submitted x) := by
        unfold Scheduler.join
        split <;> simp
      simp [this]
    · unfold Scheduler.join
      split <;> simp
    · unfold Scheduler.join
      split <;> simp
  | pool a =>
    simp only [step]
    refine ⟨by simp, hR, by simp, by simp⟩

theorem occurrences_cons (e : WorldEvent φ) (ev : Int × WorldEvent φ)
    (evs : List (Int × WorldEvent φ)) :
    occurrences e (ev :: evs) = (if ev.2 = e then 1 else 0) + occurrences e evs := by
  simp only [occurrences, List.map_cons, List.count_cons, beq_iff_eq]
  omega

/-- Along a run, the accepted submissions of a one-shot item `x`, together
with its remaining budget, never exceed the pushes of `x` plus the budget at
the start; and `x` is never given a next due time nor pushed back. -/
theorem exec_budget (acts : List (Int × WorldAction φ)) (w : World φ) (x : Scheduler.Item φ)
    (hx : x.interval ≤ 0)
    (hR : ∀ y, w.sched.scheduler_thread = SchedulerThread.reinserting y → 0 < y.interval) :
    occurrences (WorldEvent.sched (SchedEvent.submitted x)) (w.exec acts).2
        + Scheduler.budget x (w.exec acts).1.sched
      ≤ occurrences (WorldEvent.sched (SchedEvent.added x)) (w.exec acts).2
        + Scheduler.budget x w.sched
    ∧ (∀ t, (t, WorldEvent.sched (SchedEvent.reinserted x)) ∉ (w.exec acts).2)
    ∧ (∀ t, (t, WorldEvent.sched (SchedEvent.rescheduled x)) ∉ (w.exec acts).2) := by
  induction acts generalizing w with
  | nil => simp [exec, occurrences]
  | cons a rest ih =>
    have h1 := step_budget w a.1 a.2 x hx hR
    have h2 := ih (w.step a.1 a.2).1 h1.2.1
    rw [world_exec_cons]
    simp only [occurrences_cons]
    refine ⟨?_, ?_, ?_⟩
    · have := h1.1
      have := h2.1
      omega
    · intro t hmem
      rcases List.mem_cons.mp hmem with h | h
      · exact h1.2.2.1 (Prod.mk.inj h).2.symm
      · exact h2.2.1 t h
    · intro t hmem
      rcases List.mem_cons.mp hmem with h | h
      · exact h1.2.2.2 (Prod.mk.inj h).2.symm
      · exact h2.2.2 t h

end World

namespace World

variable {φ : Type}

/-- C24: one-shot items fire at most once. `post` and `post_after` push an
item with interval 0. The step that pops an item takes exactly that item out
of the pending queue, which gets shorter by one. After the submission of an
item whose interval is not positive the loop drops it: the queue is left as it
is and the loop is back at its head. In every run from the constructors, for
every item `x` whose interval is not positive, the accepted submissions of `x`
to the pool are at most as many as the pushes of `x` by `add_task`, so an item
pushed once is submitted at most once; and `x` is never given a next due time
and never pushed back by the loop. -/
theorem one_shot_fires_once [DecidableEq φ] :
    (∀ (w : World φ) (t d : Int) (f : φ),
        (w.step t (WorldAction.post f)).2 =
          WorldEvent.sched
            (SchedEvent.added { when := t, func := f, interval := 0, seq := w.sched.seq })
        ∧ (w.step t (WorldAction.post_after d f)).2 =
          WorldEvent.sched
            (SchedEvent.added
              { when := Scheduler.plus t d, func := f, interval := 0, seq := w.sched.seq }))
    ∧ (∀ (s : Scheduler φ) (pool : ThreadPool φ) (now : Int) (x : Scheduler.Item φ),
        (s.run pool now).2.2 = SchedEvent.popped x →
        (s.run pool now).1.items.length + 1 = s.items.length
        ∧ List.Perm s.items (x :: (s.run pool now).1.items)
        ∧ (s.run pool now).1.scheduler_thread = SchedulerThread.submitting x)
    ∧ (∀ (s : Scheduler φ) (pool : ThreadPool φ) (now : Int) (x : Scheduler.Item φ),
        s.scheduler_thread = SchedulerThread.submitted x → x.interval ≤ 0 →
        s.run pool now =
          ({ s with scheduler_thread := SchedulerThread.looping }, pool, SchedEvent.dropped x))
    ∧ (∀ (threadCnt maxQueue : Nat) (acts : List (Int × WorldAction φ)) (x : Scheduler.Item φ),
        x.interval ≤ 0 →
        occurrences (WorldEvent.sched (SchedEvent.submitted x))
            ((World.new threadCnt maxQueue : World φ).exec acts).2
          ≤ occurrences (WorldEvent.sched (SchedEvent.added x))
              ((World.new threadCnt maxQueue : World φ).exec acts).2
        ∧ (∀ t, (t, WorldEvent.sched (SchedEvent.reinserted x))
            ∉ ((World.new threadCnt maxQueue : World φ).exec acts).2)
        ∧ (∀ t, (t, WorldEvent.sched (SchedEvent.rescheduled x))
            ∉ ((World.new threadCnt maxQueue : World φ).exec acts).2)) := by
  refine ⟨fun _ _ _ _ => ⟨rfl, rfl⟩, ?_, ?_, ?_⟩
  · intro s pool now x h
    have hp := Scheduler.run_popped s pool now x h
    have hperm := Scheduler.pop_perm s.items x hp.2.2.1
    rw [hp.2.2.2.2.1]
    refine ⟨?_, hperm, hp.2.2.2.2.2⟩
    have := hperm.length_eq
    rw [List.length_cons] at this
    exact this.symm
  · intro s pool now x hth hx
    exact Scheduler.run_drop s pool now x hth (Or.inl hx)
  · intro threadCnt maxQueue acts x hx
    have h := exec_budget acts (World.new threadCnt maxQueue : World φ) x hx
      (by simp [World.new, Scheduler.new])
    refine ⟨?_, h.2.1, h.2.2⟩
    have h0 : Scheduler.budget x (World.new threadCnt maxQueue : World φ).sched = 0 := by
      simp [Scheduler.budget, World.new, Scheduler.new]
    have := h.1
    omega

/-- The statement of C24 on a run: `post` at reading 0, then the loop pops the
item, submits it, drops it, and finds the queue empty. The item is pushed once
and submitted once, and the queue is empty after the pop. -/
theorem one_shot_fires_once_witness :
    ((World.new 1 4 : World Nat).exec
        [(0, WorldAction.post 7), (1, WorldAction.run), (2, WorldAction.run),
          (3, WorldAction.run), (4, WorldAction.run), (5, WorldAction.run)]).2.map Prod.snd
      = [WorldEvent.sched (SchedEvent.added { when := 0, func := 7, interval := 0, seq := 0 }),
          WorldEvent.sched (SchedEvent.popped { when := 0, func := 7, interval := 0, seq := 0 }),
          WorldEvent.sched (SchedEvent.submitted { when := 0, func := 7, interval := 0, seq := 0 }),
          WorldEvent.sched (SchedEvent.dropped { when := 0, func := 7, interval := 0, seq := 0 }),
          WorldEvent.sched SchedEvent.idle, WorldEvent.sched SchedEvent.idle]
    ∧ occurrences
        (WorldEvent.sched (SchedEvent.submitted { when := 0, func := 7, interval := 0, seq := 0 }))
        ((World.new 1 4 : World Nat).exec
          [(0, WorldAction.post 7), (1, WorldAction.run), (2, WorldAction.run),
            (3, WorldAction.run), (4, WorldAction.run), (5, WorldAction.run)]).2
      ≤ occurrences
        (WorldEvent.sched (SchedEvent.added { when := 0, func := 7, interval := 0, seq := 0 }))
        ((World.new 1 4 : World Nat).exec
          [(0, WorldAction.post 7), (1, WorldAction.run), (2, WorldAction.run),
            (3, WorldAction.run), (4, WorldAction.run), (5, WorldAction.run)]).2
    ∧ occurrences
        (WorldEvent.sched (SchedEvent.added { when := 0, func := 7, interval := 0, seq := 0 }))
        ((World.new 1 4 : World Nat).exec
          [(0, WorldAction.post 7), (1, WorldAction.run), (2, WorldAction.run),
            (3, WorldAction.run), (4, WorldAction.run), (5, WorldAction.run)]).2 = 1 :=
  ⟨by decide,
    (one_shot_fires_once.2.2.2 1 4
      [(0, WorldAction.post 7), (1, WorldAction.run), (2, WorldAction.run),
        (3, WorldAction.run), (4, WorldAction.run), (5, WorldAction.run)]
      { when := 0, func := 7, interval := 0, seq := 0 } (by decide)).1,
    by decide⟩

end World

/-! ## Scheduler: the submissions of a periodic item -/

namespace Scheduler

variable {φ : Type}

theorem due_succ (first step : Int) (n : Nat) : due first step (n + 1) = due first step n + step := by
  unfold due
  push_cast
  ring

theorem held_items (s : Scheduler φ) (h : s.in_flight = []) : s.held = s.items := by
  simp [held, h]

theorem held_submitting (s : Scheduler φ) (y : Item φ)
    (h : s.scheduler_thread = SchedulerThread.submitting y) : s.held = s.items ++ [y] := by
  simp [held, in_flight, h]

theorem held_submitted (s : Scheduler φ) (y : Item φ)
    (h : s.scheduler_thread = SchedulerThread.submitted y) : s.held = s.items ++ [y] := by
  simp [held, in_flight, h]

theorem held_reinserting (s : Scheduler φ) (y : Item φ)
    (h : s.scheduler_thread = SchedulerThread.reinserting y) : s.held = s.items ++ [y] := by
  simp [held, in_flight, h]

theorem held_looping (s : Scheduler φ) (h : s.scheduler_thread = SchedulerThread.looping) :
    s.held = s.items := by
  simp [held, in_flight, h]

theorem held_failed (s : Scheduler φ) (what : String)
    (h : s.scheduler_thread = SchedulerThread.failed what) : s.held = s.items := by
  simp [held, in_flight, h]

/-- When the item in flight has the number `q`, no pending item has it. -/
theorem Periodic.alone (q : Nat) (y : Item φ) (items : List (Item φ)) (hy : y.seq = q)
    (h : (items ++ [y]).countP (fun z => decide (z.seq = q)) ≤ 1) : ∀ z ∈ items, z.seq ≠ q := by
  rw [List.countP_append, List.countP_cons, List.countP_nil] at h
  simp only [hy, decide_True, if_true] at h
  have h0 : items.countP (fun z => decide (z.seq = q)) = 0 := by omega
  intro z hz hq
  have := List.countP_eq_zero.mp h0 z hz
  simp [hq] at this

end Scheduler

namespace Scheduler

variable {φ : Type}

/-- A later reading keeps what is known. -/
theorem Periodic.later (q : Nat) (f : φ) (m first : Int) (s : Scheduler φ) (n : Nat)
    (now t : Int) (h : Periodic q f m first s n now) (ht : now ≤ t) :
    Periodic q f m first s n t :=
  { unique := h.unique
    known := h.known
    pending := h.pending
    submitting := fun y hy hq => le_trans (h.submitting y hy hq) ht
    submitted := h.submitted
    reinserting := h.reinserting
    reached := fun k hk => le_trans (h.reached k hk) ht
    fresh := h.fresh }

/-- A push by `add_task`, while `seq` has not reached its last value, keeps
what is known: the new item carries a number above `q`. -/
theorem Periodic.add_task (q : Nat) (f : φ) (m first : Int) (s : Scheduler φ) (n : Nat)
    (now : Int) (h : Periodic q f m first s n now) (when : Int) (func : φ) (interval : Int)
    (hk : s.seq + 1 < SIZE_MOD) :
    Periodic q f m first (s.add_task when func interval).1 n now := by
  have hne : s.seq ≠ q := by
    have := h.fresh
    omega
  have hmem : ∀ y ∈ (s.add_task when func interval).1.held, y.seq = q → y ∈ s.held := by
    intro y hy hq
    rcases add_task_held s when func interval y hy with h1 | h1
    · exact h1
    · rw [h1] at hq
      exact absurd hq hne
  refine
    { unique := ?_
      known := fun y hy hq => h.known y (hmem y hy hq) hq
      pending := ?_
      submitting := h.submitting
      submitted := h.submitted
      reinserting := h.reinserting
      reached := h.reached
      fresh := ?_ }
  · have hu := h.unique
    have hfl : (s.add_task when func interval).1.in_flight = s.in_flight := rfl
    have hit : (s.add_task when func interval).1.items
        = s.items ++ [{ when := when, func := func, interval := interval, seq := s.seq }] := rfl
    unfold held at hu ⊢
    rw [hfl, hit]
    simp only [List.countP_append, List.countP_cons, List.countP_nil, decide_eq_true_eq, hne,
      if_false] at hu ⊢
    omega
  · intro y hy hq
    simp only [Scheduler.add_task, push, List.mem_append, List.mem_singleton] at hy
    rcases hy with hy | hy
    · exact h.pending y hy hq
    · rw [hy] at hq
      exact absurd hq hne
  · have := h.fresh
    have hmod : (s.seq + 1) % SIZE_MOD = s.seq + 1 := Nat.mod_eq_of_lt hk
    simp only [Scheduler.add_task, hmod]
    omega

theorem Periodic.shutdown (q : Nat) (f : φ) (m first : Int) (s : Scheduler φ) (n : Nat)
    (now : Int) (h : Periodic q f m first s n now) : Periodic q f m first s.shutdown.1 n now := by
  unfold Scheduler.shutdown
  split
  · exact h
  · exact
      { unique := h.unique
        known := h.known
        pending := h.pending
        submitting := h.submitting
        submitted := h.submitted
        reinserting := h.reinserting
        reached := h.reached
        fresh := h.fresh }

theorem Periodic.join (q : Nat) (f : φ) (m first : Int) (s : Scheduler φ) (n : Nat)
    (now : Int) (h : Periodic q f m first s n now) : Periodic q f m first s.join.1 n now := by
  unfold Scheduler.join
  split
  · rename_i hth
    have hheld : s.held = s.items := held_items s (by simp [in_flight, hth])
    exact
      { unique := by
          have := h.unique
          rw [hheld] at this
          simpa [held, in_flight] using this
        known := fun y hy hq => h.known y (by
          rw [hheld]
          simpa [held, in_flight] using hy) hq
        pending := h.pending
        submitting := fun y hy => by simp at hy
        submitted := fun y hy => by simp at hy
        reinserting := fun y hy => by simp at hy
        reached := h.reached
        fresh := h.fresh }
  all_goals exact h

end Scheduler

namespace World

variable {φ : Type}

theorem quiet_not_submission (q : Nat) (e : SchedEvent φ) (h : e.quiet = true) :
    is_submission q (WorldEvent.sched e) = false := by
  cases e <;> simp [SchedEvent.quiet] at h <;> rfl

theorem is_submission_submitted (q : Nat) (y : Scheduler.Item φ) :
    is_submission q (WorldEvent.sched (SchedEvent.submitted y)) = decide (y.seq = q) := rfl

end World

namespace Scheduler

variable {φ : Type}

/-- A step of `run()` at a reading `t` not before `now`, for which `t` plus the
stored interval is a value of the 64-bit count, keeps what is known about the
item with number `q`, with the count of its submissions raised by one when the
step is an accepted submission of it; and such a submission is made at
`due first (m * TICKS_PER_MS) n` or later. -/
theorem Periodic.run_step (q : Nat) (f : φ) (m first : Int) (s : Scheduler φ) (n : Nat) (now : Int)
    (h : Periodic q f m first s n now) (pool : ThreadPool φ) (t : Int) (ht : now ≤ t)
    (hr : representable (t + m * TICKS_PER_MS)) :
    Periodic q f m first (s.run pool t).1
        (n + (if World.is_submission q (WorldEvent.sched (s.run pool t).2.2) = true then 1 else 0)) t
    ∧ (∀ y, (s.run pool t).2.2 = SchedEvent.submitted y → y.seq = q →
        due first (m * TICKS_PER_MS) n ≤ t ∧ y.func = f ∧ y.interval = m) := by
  have hfresh : q < (s.run pool t).1.seq := by
    rw [run_seq]
    exact h.fresh
  have hreach : ∀ k, n = k + 1 → due first (m * TICKS_PER_MS) k ≤ t :=
    fun k hk => le_trans (h.reached k hk) ht
  rcases (run_cases s pool t).2.2 with ⟨h1, hi, h2, hq⟩ | ⟨y, hth, htop, hdue, hi, hth2, he⟩
      | ⟨y, hth, hi, hc⟩ | ⟨y, hth, hi, hc⟩ | ⟨y, hth, hi, hth2, he⟩
  · -- nothing happens to any item
    rw [World.quiet_not_submission q _ hq]
    have hheld : (s.run pool t).1.held = s.held := by
      rw [held_items _ h2, held_items _ h1, hi]
    refine ⟨?_, ?_⟩
    · exact
        { unique := by rw [hheld]; exact h.unique
          known := by rw [hheld]; exact h.known
          pending := by rw [hi]; exact h.pending
          submitting := fun z hz => by simp [in_flight, hz] at h2
          submitted := fun z hz => by simp [in_flight, hz] at h2
          reinserting := fun z hz => by simp [in_flight, hz] at h2
          reached := hreach
          fresh := hfresh }
    · intro z hz
      rw [hz] at hq
      simp [SchedEvent.quiet] at hq
  · -- the loop pops the item on top
    have hperm := pop_perm s.items y htop
    have hsub : ∀ z ∈ (s.run pool t).1.held, z ∈ s.held := by
      intro z hz
      rw [held_submitting _ y hth2, hi] at hz
      rw [held_looping s hth]
      rcases List.mem_append.mp hz with hz | hz
      · exact pop_subset s.items z hz
      · rw [List.mem_singleton.mp hz]
        exact top_mem s.items y htop
    rw [he]
    simp only [World.is_submission, Bool.false_eq_true, if_false, Nat.add_zero]
    refine ⟨?_, ?_⟩
    · exact
        { unique := by
            have hu := h.unique
            rw [held_looping s hth, hperm.countP_eq] at hu
            rw [held_submitting _ y hth2, hi]
            simp only [List.countP_append, List.countP_cons, List.countP_nil] at hu ⊢
            omega
          known := fun z hz hq => h.known z (hsub z hz) hq
          pending := by
            rw [hi]
            exact fun z hz hq => h.pending z (pop_subset s.items z hz) hq
          submitting := by
            intro z hz hq
            rw [hth2] at hz
            have hzy : y = z := SchedulerThread.submitting.inj hz
            rw [← hzy] at hq
            have := h.pending y (top_mem s.items y htop) hq
            omega
          submitted := fun z hz => by rw [hth2] at hz; simp at hz
          reinserting := fun z hz => by rw [hth2] at hz; simp at hz
          reached := hreach
          fresh := hfresh }
    · intro z hz
      simp at hz
  · -- the loop calls `pool.submit`
    have hheld0 := held_submitting s y hth
    rcases hc with ⟨hth2, he⟩ | ⟨what, hth2, he⟩ | ⟨hth2, he⟩
    · rw [he, World.is_submission_submitted]
      have hheld : (s.run pool t).1.held = s.held := by
        rw [held_submitted _ y hth2, hheld0, hi]
      by_cases hq : y.seq = q
      · have halone : ∀ z ∈ s.items, z.seq ≠ q := by
          apply Periodic.alone q y s.items hq
          have := h.unique
          rw [hheld0] at this
          exact this
        have hd := h.submitting y hth hq
        simp only [hq, decide_True, if_true]
        refine ⟨?_, ?_⟩
        · exact
            { unique := by rw [hheld]; exact h.unique
              known := by rw [hheld]; exact h.known
              pending := by
                rw [hi]
                exact fun z hz hzq => absurd hzq (halone z hz)
              submitting := fun z hz => by rw [hth2] at hz; simp at hz
              submitted := fun _ _ _ => Nat.le_add_left 1 n
              reinserting := fun z hz => by rw [hth2] at hz; simp at hz
              reached := by
                intro k hk
                have : k = n := by omega
                rw [this]
                omega
              fresh := hfresh }
        · intro z hz _
          have hzy : y = z := SchedEvent.submitted.inj hz
          rw [← hzy]
          exact ⟨by omega, h.known y (by rw [hheld0]; simp) hq⟩
      · simp only [hq, decide_False, Bool.false_eq_true, if_false, Nat.add_zero]
        refine ⟨?_, ?_⟩
        · exact
            { unique := by rw [hheld]; exact h.unique
              known := by rw [hheld]; exact h.known
              pending := by rw [hi]; exact h.pending
              submitting := fun z hz => by rw [hth2] at hz; simp at hz
              submitted := by
                intro z hz hzq
                rw [hth2] at hz
                have hzy : y = z := SchedulerThread.submitted.inj hz
                rw [← hzy] at hzq
                exact absurd hzq hq
              reinserting := fun z hz => by rw [hth2] at hz; simp at hz
              reached := hreach
              fresh := hfresh }
        · intro z hz hzq
          have hzy : y = z := SchedEvent.submitted.inj hz
          rw [← hzy] at hzq
          exact absurd hzq hq
    · rw [he]
      simp only [World.is_submission, Bool.false_eq_true, if_false, Nat.add_zero]
      have hheld : (s.run pool t).1.held = s.items := by
        rw [held_failed _ what hth2, hi]
      refine ⟨?_, ?_⟩
      · exact
          { unique := by
              have hu := h.unique
              rw [hheld0] at hu
              rw [hheld]
              simp only [List.countP_append] at hu
              omega
            known := by
              rw [hheld]
              exact fun z hz hq => h.known z (by rw [hheld0]; exact List.mem_append_left _ hz) hq
            pending := by rw [hi]; exact h.pending
            submitting := fun z hz => by rw [hth2] at hz; simp at hz
            submitted := fun z hz => by rw [hth2] at hz; simp at hz
            reinserting := fun z hz => by rw [hth2] at hz; simp at hz
            reached := hreach
            fresh := hfresh }
      · intro z hz
        simp at hz
    · rw [he]
      simp only [World.is_submission, Bool.false_eq_true, if_false, Nat.add_zero]
      have hheld : (s.run pool t).1.held = s.held := by
        rw [held_submitting _ y hth2, hheld0, hi]
      refine ⟨?_, ?_⟩
      · exact
          { unique := by rw [hheld]; exact h.unique
            known := by rw [hheld]; exact h.known
            pending := by rw [hi]; exact h.pending
            submitting := by
              intro z hz hq
              rw [hth2] at hz
              exact le_trans (h.submitting z (by rw [hth, hz]) hq) ht
            submitted := fun z hz => by rw [hth2] at hz; simp at hz
            reinserting := fun z hz => by rw [hth2] at hz; simp at hz
            reached := hreach
            fresh := hfresh }
      · intro z hz
        simp at hz
  · -- the loop decides what to do with the submitted item
    have hheld0 := held_submitted s y hth
    rcases hc with ⟨hpos, hth2, he⟩ | ⟨hth2, he⟩
    · rw [he]
      simp only [World.is_submission, Bool.false_eq_true, if_false, Nat.add_zero]
      have hheld := held_reinserting _ _ hth2
      refine ⟨?_, ?_⟩
      · exact
          { unique := by
              have hu := h.unique
              rw [hheld0] at hu
              rw [hheld, hi]
              simp only [List.countP_append, List.countP_cons, List.countP_nil] at hu ⊢
              exact hu
            known := by
              rw [hheld, hi]
              intro z hz hq
              rcases List.mem_append.mp hz with hz | hz
              · exact h.known z (by rw [hheld0]; exact List.mem_append_left _ hz) hq
              · rw [List.mem_singleton.mp hz] at hq ⊢
                exact h.known y (by rw [hheld0]; simp) hq
            pending := by rw [hi]; exact h.pending
            submitting := fun z hz => by rw [hth2] at hz; simp at hz
            submitted := fun z hz => by rw [hth2] at hz; simp at hz
            reinserting := by
              intro z hz hq
              rw [hth2] at hz
              have hzy := SchedulerThread.reinserting.inj hz
              rw [← hzy] at hq ⊢
              simp only at hq ⊢
              have hm := (h.known y (by rw [hheld0]; simp) hq).2
              have h1 := h.submitted y hth hq
              obtain ⟨k, hk⟩ : ∃ k, n = k + 1 := ⟨n - 1, by omega⟩
              have h2 := hreach k hk
              rw [hk, due_succ, hm, plus_eq t (m * TICKS_PER_MS) hr]
              omega
            reached := hreach
            fresh := hfresh }
      · intro z hz
        simp at hz
    · rw [he]
      simp only [World.is_submission, Bool.false_eq_true, if_false, Nat.add_zero]
      have hheld : (s.run pool t).1.held = s.items := by
        rw [held_looping _ hth2, hi]
      refine ⟨?_, ?_⟩
      · exact
          { unique := by
              have hu := h.unique
              rw [hheld0] at hu
              rw [hheld]
              simp only [List.countP_append] at hu
              omega
            known := by
              rw [hheld]
              exact fun z hz hq => h.known z (by rw [hheld0]; exact List.mem_append_left _ hz) hq
            pending := by rw [hi]; exact h.pending
            submitting := fun z hz => by rw [hth2] at hz; simp at hz
            submitted := fun z hz => by rw [hth2] at hz; simp at hz
            reinserting := fun z hz => by rw [hth2] at hz; simp at hz
            reached := hreach
            fresh := hfresh }
      · intro z hz
        simp at hz
  · -- the loop pushes the item back
    have hheld0 := held_reinserting s y hth
    rw [he]
    simp only [World.is_submission, Bool.false_eq_true, if_false, Nat.add_zero]
    have hheld : (s.run pool t).1.held = s.held := by
      rw [held_looping _ hth2, hi, hheld0]
    refine ⟨?_, ?_⟩
    · exact
        { unique := by rw [hheld]; exact h.unique
          known := by rw [hheld]; exact h.known
          pending := by
            rw [hi]
            intro z hz hq
            rcases List.mem_append.mp hz with hz | hz
            · exact h.pending z hz hq
            · rw [List.mem_singleton.mp hz] at hq ⊢
              exact h.reinserting y hth hq
          submitting := fun z hz => by rw [hth2] at hz; simp at hz
          submitted := fun z hz => by rw [hth2] at hz; simp at hz
          reinserting := fun z hz => by rw [hth2] at hz; simp at hz
          reached := hreach
          fresh := hfresh }
    · intro z hz
      simp at hz

end Scheduler

namespace World

variable {φ : Type}

theorem submissions_cons (q : Nat) (ev : Int × WorldEvent φ) (evs : List (Int × WorldEvent φ)) :
    submissions q (ev :: evs) = (if is_submission q ev.2 = true then 1 else 0) + submissions q evs := by
  unfold submissions
  rw [List.filter_cons]
  split
  · rw [List.length_cons]
    omega
  · omega

theorem submissions_nil (q : Nat) : submissions q ([] : List (Int × WorldEvent φ)) = 0 := rfl

/-- An event that counts as a submission of number `q` reports the accepted
submission of an item with that number. -/
theorem is_submission_iff (q : Nat) (e : WorldEvent φ) :
    is_submission q e = true ↔ ∃ y, e = WorldEvent.sched (SchedEvent.submitted y) ∧ y.seq = q := by
  constructor
  · intro h
    cases e with
    | pool p => simp [is_submission] at h
    | sched se =>
      cases se <;> simp [is_submission] at h
      exact ⟨_, rfl, h⟩
  · rintro ⟨y, rfl, hq⟩
    simp [is_submission, hq]

/-- A move at a reading `t` not before `now`, for which `t` plus the stored
interval is a value of the 64-bit count, while `seq` has not reached its last
value, keeps what is known about the item with number `q`; an accepted
submission of it is made at `due first (m * TICKS_PER_MS) n` or later and
raises the count by one. -/
theorem step_periodic (q : Nat) (f : φ) (m first : Int) (w : World φ) (n : Nat) (now t : Int)
    (a : WorldAction φ) (h : Scheduler.Periodic q f m first w.sched n now) (ht : now ≤ t)
    (hk : w.sched.seq + 1 < Scheduler.SIZE_MOD)
    (hr : Scheduler.representable (t + m * Scheduler.TICKS_PER_MS)) :
    Scheduler.Periodic q f m first (w.step t a).1.sched
        (n + (if is_submission q (w.step t a).2 = true then 1 else 0)) t
    ∧ (∀ y, (w.step t a).2 = WorldEvent.sched (SchedEvent.submitted y) → y.seq = q →
        Scheduler.due first (m * Scheduler.TICKS_PER_MS) n ≤ t ∧ y.func = f ∧ y.interval = m)
    ∧ (w.step t a).1.sched.seq ≤ w.sched.seq + 1 := by
  have hadd : ∀ (when : Int) (func : φ) (interval : Int),
      Scheduler.Periodic q f m first (w.sched.add_task when func interval).1
          (n + (if is_submission q (WorldEvent.sched (w.sched.add_task when func interval).2) = true
            then 1 else 0)) t
      ∧ (∀ y, WorldEvent.sched (w.sched.add_task when func interval).2
            = WorldEvent.sched (SchedEvent.submitted y) → y.seq = q →
          Scheduler.due first (m * Scheduler.TICKS_PER_MS) n ≤ t ∧ y.func = f ∧ y.interval = m)
      ∧ (w.sched.add_task when func interval).1.seq ≤ w.sched.seq + 1 := by
    intro when func interval
    have he : is_submission q (WorldEvent.sched (w.sched.add_task when func interval).2) = false :=
      rfl
    simp only [he, Bool.false_eq_true, if_false, Nat.add_zero]
    refine ⟨((h.add_task q f m first w.sched n now when func interval hk).later
      q f m first _ n now t) ht, ?_, ?_⟩
    · intro y hy
      simp [Scheduler.add_task] at hy
    · have hmod : (w.sched.seq + 1) % Scheduler.SIZE_MOD = w.sched.seq + 1 := Nat.mod_eq_of_lt hk
      simp only [Scheduler.add_task, hmod]
      exact Nat.le_refl _
  cases a with
  | post g => exact hadd _ _ _
  | post_after delay g => exact hadd _ _ _
  | post_every interval g => exact hadd _ _ _
  | run =>
    have hr := h.run_step q f m first w.sched n now w.pool t ht hr
    simp only [step]
    refine ⟨hr.1, ?_, ?_⟩
    · intro y hy hq
      exact hr.2 y (WorldEvent.sched.inj hy) hq
    · rw [Scheduler.run_seq]
      omega
  | shutdown =>
    have he : is_submission q (WorldEvent.sched w.sched.shutdown.2) = false := by
      unfold Scheduler.shutdown
      split <;> rfl
    simp only [step]
    simp only [he, Bool.false_eq_true, if_false, Nat.add_zero]
    refine ⟨((h.shutdown q f m first w.sched n now).later q f m first _ n now t) ht, ?_, ?_⟩
    · intro y hy
      unfold Scheduler.shutdown at hy
      split at hy <;> simp at hy
    · rw [Scheduler.shutdown_seq]
      omega
  | join =>
    have he : is_submission q (WorldEvent.sched w.sched.join.2) = false := by
      unfold Scheduler.join
      split <;> rfl
    simp only [step]
    simp only [he, Bool.false_eq_true, if_false, Nat.add_zero]
    refine ⟨((h.join q f m first w.sched n now).later q f m first _ n now t) ht, ?_, ?_⟩
    · intro y hy
      unfold Scheduler.join at hy
      split at hy <;> simp at hy
    · rw [Scheduler.join_seq]
      omega
  | pool p =>
    simp only [step]
    have he : is_submission q (WorldEvent.pool (w.pool.step p).2 : WorldEvent φ) = false := rfl
    simp only [he, Bool.false_eq_true, if_false, Nat.add_zero]
    refine ⟨(h.later q f m first _ n now t) ht, ?_, by omega⟩
    intro y hy
    simp at hy

end World

namespace World

variable {φ : Type}

/-- Along a run under a clock that never runs backwards, each reading of which
plus the stored interval is a value of the 64-bit count, started where `n`
submissions of the item with number `q` have been made: each further accepted
submission of it is made at `due first (m * TICKS_PER_MS) k` or later, `k`
being the number of submissions before it, and submits the callable `f`; and
what is known about the item holds at the end, at a reading that is below
every bound on the readings of the run. -/
theorem exec_periodic (q : Nat) (f : φ) (m first : Int) (acts : List (Int × WorldAction φ))
    (w : World φ) (n : Nat) (now : Int) (h : Scheduler.Periodic q f m first w.sched n now)
    (hm : monotone now acts) (hk : w.sched.seq + acts.length < Scheduler.SIZE_MOD)
    (hr : ∀ a ∈ acts, Scheduler.representable (a.1 + m * Scheduler.TICKS_PER_MS)) :
    (∀ evs1 t e evs2, (w.exec acts).2 = evs1 ++ (t, e) :: evs2 → is_submission q e = true →
        Scheduler.due first (m * Scheduler.TICKS_PER_MS) (n + submissions q evs1) ≤ t
        ∧ ∃ y, e = WorldEvent.sched (SchedEvent.submitted y) ∧ y.seq = q ∧ y.func = f
            ∧ y.interval = m)
    ∧ ∃ last, Scheduler.Periodic q f m first (w.exec acts).1.sched
          (n + submissions q (w.exec acts).2) last
        ∧ ∀ U, now ≤ U → (∀ a ∈ acts, a.1 ≤ U) → last ≤ U := by
  induction acts generalizing w n now with
  | nil =>
    refine ⟨?_, now, ?_, fun U hU _ => hU⟩
    · intro evs1 t e evs2 heq
      simp [exec] at heq
    · simpa [exec, submissions_nil] using h
  | cons a rest ih =>
    rw [List.length_cons] at hk
    have hs := step_periodic q f m first w n now a.1 a.2 h hm.1 (by omega)
      (hr a (List.mem_cons_self _ _))
    have ih2 := ih (w.step a.1 a.2).1
      (n + (if is_submission q (w.step a.1 a.2).2 = true then 1 else 0)) a.1 hs.1 hm.2
      (by have := hs.2.2; omega) (fun b hb => hr b (List.mem_cons_of_mem _ hb))
    rw [world_exec_cons]
    refine ⟨?_, ?_⟩
    · intro evs1 t e evs2 heq hsub
      cases evs1 with
      | nil =>
        simp only [List.nil_append, List.cons.injEq, Prod.mk.injEq] at heq
        obtain ⟨⟨ht, he⟩, _⟩ := heq
        obtain ⟨y, hy, hq⟩ := (is_submission_iff q e).mp hsub
        have h1 := hs.2.1 y (by rw [he, hy]) hq
        rw [submissions_nil, Nat.add_zero, ← ht]
        exact ⟨h1.1, y, hy, hq, h1.2.1, h1.2.2⟩
      | cons ev evs1 =>
        simp only [List.cons_append, List.cons.injEq] at heq
        obtain ⟨hev, hrest⟩ := heq
        have h1 := ih2.1 evs1 t e evs2 hrest hsub
        rw [submissions_cons, ← hev, ← Nat.add_assoc]
        exact h1
    · obtain ⟨last, hl, hb⟩ := ih2.2
      refine ⟨last, ?_, ?_⟩
      · rw [submissions_cons, ← Nat.add_assoc]
        exact hl
      · intro U _ hU
        exact hb U (hU a (List.mem_cons_self _ _)) (fun b hb => hU b (List.mem_cons_of_mem _ hb))

end World

namespace Scheduler

variable {φ : Type}

/-- Right after `post_every(i, f)` at reading `t0`, with `i` and `t0 + i`
values of the 64-bit count, on a scheduler whose held items all carry numbers
below `seq` and whose `seq` has not reached its last value: the new item is the
only one with its number, it is due at `t0 + i` and stores `i` truncated to
milliseconds, and it has not been submitted. -/
theorem Periodic.post_every (s : Scheduler φ) (t0 i : Int) (f : φ)
    (hlt : ∀ x ∈ s.held, x.seq < s.seq) (hk : s.seq + 1 < SIZE_MOD)
    (hi : representable i) (hr : representable (t0 + i)) :
    Periodic s.seq f (Int.tdiv i TICKS_PER_MS) (t0 + i) (s.post_every t0 i f).1 0 t0 := by
  have hne : ∀ x ∈ s.held, x.seq ≠ s.seq := fun x hx => Nat.ne_of_lt (hlt x hx)
  have hc0 : ∀ l : List (Item φ), (∀ x ∈ l, x ∈ s.held) →
      l.countP (fun y => decide (y.seq = s.seq)) = 0 := by
    intro l hl
    rw [List.countP_eq_zero]
    intro x hx
    simp [hne x (hl x hx)]
  have hthread : (s.post_every t0 i f).1.scheduler_thread = s.scheduler_thread := rfl
  have hitems : (s.post_every t0 i f).1.items
      = s.items ++ [{ when := t0 + i, func := f, interval := Int.tdiv i TICKS_PER_MS,
                      seq := s.seq }] := by
    rw [← plus_eq t0 i hr, ← to_ms_eq i hi]
    rfl
  have hfl : (s.post_every t0 i f).1.in_flight = s.in_flight := rfl
  exact
    { unique := by
        unfold held
        rw [hfl, hitems]
        simp only [List.countP_append, List.countP_cons, List.countP_nil, decide_True, if_true]
        rw [hc0 s.items (fun x hx => List.mem_append_left _ hx),
          hc0 s.in_flight (fun x hx => List.mem_append_right _ hx)]
      known := by
        intro y hy hq
        rcases add_task_held s _ _ _ y hy with h1 | h1
        · exact absurd hq (hne y h1)
        · rw [h1]
          exact ⟨rfl, to_ms_eq i hi⟩
      pending := by
        intro y hy hq
        rw [hitems] at hy
        rcases List.mem_append.mp hy with h1 | h1
        · exact absurd hq (hne y (List.mem_append_left _ h1))
        · rw [List.mem_singleton.mp h1]
          simp [due]
      submitting := by
        intro y hy hq
        rw [hthread] at hy
        exact absurd hq (hne y (by simp [held, in_flight, hy]))
      submitted := by
        intro y hy hq
        rw [hthread] at hy
        exact absurd hq (hne y (by simp [held, in_flight, hy]))
      reinserting := by
        intro y hy hq
        rw [hthread] at hy
        exact absurd hq (hne y (by simp [held, in_flight, hy]))
      reached := fun k hk => by omega
      fresh := by
        have hmod : (s.seq + 1) % SIZE_MOD = s.seq + 1 := Nat.mod_eq_of_lt hk
        simp only [Scheduler.post_every, Scheduler.add_task, hmod]
        exact Nat.lt_succ_self _ }

end Scheduler

namespace World

variable {φ : Type}

/-- Once `shutdown` has joined the scheduler thread, the thread stays joined
and no move is a step of the loop on an item. -/
theorem step_joined (w : World φ) (now : Int) (a : WorldAction φ)
    (hth : w.sched.scheduler_thread = SchedulerThread.joined) :
    (w.step now a).1.sched.scheduler_thread = SchedulerThread.joined
    ∧ ∀ e, (w.step now a).2 = WorldEvent.sched e →
        (∃ x, e = SchedEvent.added x) ∨ e = SchedEvent.skipped ∨ e = SchedEvent.stopped
          ∨ e = SchedEvent.returned := by
  cases a with
  | post f =>
    refine ⟨hth, ?_⟩
    intro e he
    simp only [step, Scheduler.post, Scheduler.add_task, WorldEvent.sched.injEq] at he
    exact Or.inl ⟨_, he.symm⟩
  | post_after delay f =>
    refine ⟨hth, ?_⟩
    intro e he
    simp only [step, Scheduler.post_after, Scheduler.add_task, WorldEvent.sched.injEq] at he
    exact Or.inl ⟨_, he.symm⟩
  | post_every interval f =>
    refine ⟨hth, ?_⟩
    intro e he
    simp only [step, Scheduler.post_every, Scheduler.add_task, WorldEvent.sched.injEq] at he
    exact Or.inl ⟨_, he.symm⟩
  | run =>
    have hr : w.sched.run w.pool now = (w.sched, w.pool, SchedEvent.skipped) := by
      unfold Scheduler.run
      rw [hth]
    simp only [step, hr]
    refine ⟨hth, ?_⟩
    intro e he
    simp only [WorldEvent.sched.injEq] at he
    exact Or.inr (Or.inl he.symm)
  | shutdown =>
    simp only [step, Scheduler.shutdown]
    split
    · refine ⟨hth, ?_⟩
      intro e he
      simp only [WorldEvent.sched.injEq] at he
      exact Or.inr (Or.inr (Or.inr he.symm))
    · refine ⟨hth, ?_⟩
      intro e he
      simp only [WorldEvent.sched.injEq] at he
      exact Or.inr (Or.inr (Or.inl he.symm))
  | join =>
    simp only [step, Scheduler.join, hth]
    refine ⟨trivial, ?_⟩
    intro e he
    simp only [WorldEvent.sched.injEq] at he
    exact Or.inr (Or.inl he.symm)
  | pool a =>
    refine ⟨hth, ?_⟩
    intro e he
    simp [step] at he

theorem exec_joined (acts : List (Int × WorldAction φ)) (w : World φ)
    (hth : w.sched.scheduler_thread = SchedulerThread.joined) :
    (w.exec acts).1.sched.scheduler_thread = SchedulerThread.joined
    ∧ ∀ t e, (t, WorldEvent.sched e) ∈ (w.exec acts).2 →
        (∃ x, e = SchedEvent.added x) ∨ e = SchedEvent.skipped ∨ e = SchedEvent.stopped
          ∨ e = SchedEvent.returned := by
  induction acts generalizing w with
  | nil => exact ⟨hth, by simp [exec]⟩
  | cons a rest ih =>
    have h1 := step_joined w a.1 a.2 hth
    have h2 := ih (w.step a.1 a.2).1 h1.1
    rw [world_exec_cons]
    refine ⟨h2.1, ?_⟩
    intro t e hmem
    simp only [List.mem_cons, Prod.mk.injEq] at hmem
    rcases hmem with ⟨_, he⟩ | hmem
    · exact h1.2 e he.symm
    · exact h2.2 t e hmem

theorem monotone_append (t : Int) (xs ys : List (Int × WorldAction φ)) (a : Int × WorldAction φ)
    (h : monotone t (xs ++ a :: ys)) : monotone a.1 ys := by
  induction xs generalizing t with
  | nil => exact h.2
  | cons x xs ih => exact ih x.1 h.2

theorem world_exec_append (w : World φ) (xs ys : List (Int × WorldAction φ)) :
    w.exec (xs ++ ys) = (((w.exec xs).1.exec ys).1, (w.exec xs).2 ++ ((w.exec xs).1.exec ys).2) := by
  induction xs generalizing w with
  | nil => rfl
  | cons x xs ih =>
    rw [List.cons_append, world_exec_cons, world_exec_cons, ih]
    rfl

end World

namespace World

variable {φ : Type}

/-- C26 fails as stated for an interval that is not a whole number of
milliseconds, and for an interval that the 64-bit nanosecond count cannot hold.
In the run `short_period` the item is posted at reading 0 with an interval of
1500000 ticks (1.5 ms). Its first submission is made at reading 1500010 and its
second at reading 2500030, before 0 + 2 * 1500000; by that reading it has been
submitted twice, and 2500030 / 1500000 is 1. In the run `overflowing` the item
is posted at reading 0 with an interval of 10800000000000000000 ticks; its due
times are computed modulo `2 ^ 64` and lie in the past, so it is submitted at
reading 2 and again at reading 6, before 0 + 10800000000000000000, and
6 / 10800000000000000000 is 0. -/
theorem short_period_fires_early :
    ((World.new 1 4 : World Nat).exec short_period).2 =
      [(0, WorldEvent.sched
          (SchedEvent.added { when := 1500000, func := 1, interval := 1, seq := 0 })),
        (1500000, WorldEvent.sched
          (SchedEvent.popped { when := 1500000, func := 1, interval := 1, seq := 0 })),
        (1500010, WorldEvent.sched
          (SchedEvent.submitted { when := 1500000, func := 1, interval := 1, seq := 0 })),
        (1500020, WorldEvent.sched
          (SchedEvent.rescheduled { when := 2500020, func := 1, interval := 1, seq := 0 })),
        (1500030, WorldEvent.sched
          (SchedEvent.reinserted { when := 2500020, func := 1, interval := 1, seq := 0 })),
        (2500020, WorldEvent.sched
          (SchedEvent.popped { when := 2500020, func := 1, interval := 1, seq := 0 })),
        (2500030, WorldEvent.sched
          (SchedEvent.submitted { when := 2500020, func := 1, interval := 1, seq := 0 }))]
    ∧ submissions 0 ((World.new 1 4 : World Nat).exec short_period).2 = 2
    ∧ (2500030 : Int) < 0 + 2 * 1500000
    ∧ (2500030 : Int) / 1500000 = 1
    ∧ ((World.new 1 4 : World Nat).exec overflowing).2 =
      [(0, WorldEvent.sched
          (SchedEvent.added
            { when := -7646744073709551616, func := 1, interval := 10800000000000, seq := 0 })),
        (1, WorldEvent.sched
          (SchedEvent.popped
            { when := -7646744073709551616, func := 1, interval := 10800000000000, seq := 0 })),
        (2, WorldEvent.sched
          (SchedEvent.submitted
            { when := -7646744073709551616, func := 1, interval := 10800000000000, seq := 0 })),
        (3, WorldEvent.sched
          (SchedEvent.rescheduled
            { when := -7646744073709551613, func := 1, interval := 10800000000000, seq := 0 })),
        (4, WorldEvent.sched
          (SchedEvent.reinserted
            { when := -7646744073709551613, func := 1, interval := 10800000000000, seq := 0 })),
        (5, WorldEvent.sched
          (SchedEvent.popped
            { when := -7646744073709551613, func := 1, interval := 10800000000000, seq := 0 })),
        (6, WorldEvent.sched
          (SchedEvent.submitted
            { when := -7646744073709551613, func := 1, interval := 10800000000000, seq := 0 }))]
    ∧ submissions 0 ((World.new 1 4 : World Nat).exec overflowing).2 = 2
    ∧ (2 : Int) < 0 + 1 * 10800000000000000000
    ∧ (6 : Int) / 10800000000000000000 = 0 := by
  decide

end World

namespace World

variable {φ : Type}

/-- C26, amended: bound on the firings of a periodic item, within the 64-bit
nanosecond count. Take a run from the constructors, under a clock that never
runs backwards and with fewer than `2 ^ 64` moves (so that the counter `seq`
has not wrapped and the sequence number identifies the item), in which
`post_every(i, f)` is called at reading `t0`, and let `i`, `t0 + i` and every
later reading of the run plus `i` truncated to milliseconds be values of the
64-bit count. The call pushes an item due at `t0 + i` that stores `i` truncated
to milliseconds and carries the number `q` the counter had. Every later accepted
submission of an item with number `q` submits `f`, and the one that follows `k`
earlier ones is made at a reading `>= t0 + i + k * (i truncated to ms)`. If
every reading of the run is at most `t0 + T`, then `k + 1` submissions imply
`i + k * (i truncated to ms) <= T`. For `i` a positive whole number of
milliseconds the submission after `k` earlier ones is at `>= t0 + (k + 1) * i`
and there are at most `T / i` submissions up to `t0 + T`; for `i` = 100 ms and
`T` = 550 ms at most 5. Once `shutdown` has joined the scheduler thread no move
pops, submits, reschedules or reinserts an item. -/
theorem periodic_firing_bound :
    (∀ (threadCnt maxQueue : Nat) (start t0 i : Int) (f : φ)
        (pre rest : List (Int × WorldAction φ)) (w1 : World φ) (q : Nat)
        (evs : List (Int × WorldEvent φ)),
        monotone start (pre ++ (t0, WorldAction.post_every i f) :: rest) →
        (pre ++ (t0, WorldAction.post_every i f) :: rest).length < Scheduler.SIZE_MOD →
        Scheduler.representable i →
        Scheduler.representable (t0 + i) →
        (∀ a ∈ rest, Scheduler.representable
          (a.1 + Int.tdiv i Scheduler.TICKS_PER_MS * Scheduler.TICKS_PER_MS)) →
        q = ((World.new threadCnt maxQueue : World φ).exec pre).1.sched.seq →
        w1 = (((World.new threadCnt maxQueue : World φ).exec pre).1.step t0
                (WorldAction.post_every i f)).1 →
        evs = (w1.exec rest).2 →
        (((World.new threadCnt maxQueue : World φ).exec pre).1.step t0
            (WorldAction.post_every i f)).2 =
          WorldEvent.sched
            (SchedEvent.added
              { when := t0 + i, func := f, interval := Int.tdiv i Scheduler.TICKS_PER_MS,
                seq := q })
        ∧ (∀ evs1 t e evs2, evs = evs1 ++ (t, e) :: evs2 → is_submission q e = true →
            t0 + i + (submissions q evs1 : Nat)
                * (Int.tdiv i Scheduler.TICKS_PER_MS * Scheduler.TICKS_PER_MS) ≤ t
            ∧ ∃ y, e = WorldEvent.sched (SchedEvent.submitted y) ∧ y.seq = q ∧ y.func = f
                ∧ y.interval = Int.tdiv i Scheduler.TICKS_PER_MS)
        ∧ (∀ T : Int, 0 ≤ T → (∀ a ∈ rest, a.1 ≤ t0 + T) → ∀ k : Nat,
            submissions q evs = k + 1 →
            i + (k : Nat) * (Int.tdiv i Scheduler.TICKS_PER_MS * Scheduler.TICKS_PER_MS) ≤ T)
        ∧ (0 < i → i % Scheduler.TICKS_PER_MS = 0 →
            (∀ evs1 t e evs2, evs = evs1 ++ (t, e) :: evs2 → is_submission q e = true →
              t0 + ((submissions q evs1 : Nat) + 1) * i ≤ t)
            ∧ (∀ T : Int, 0 ≤ T → (∀ a ∈ rest, a.1 ≤ t0 + T) →
              ((submissions q evs : Nat) : Int) ≤ T / i))
        ∧ (i = 100 * Scheduler.TICKS_PER_MS →
            (∀ a ∈ rest, a.1 ≤ t0 + 550 * Scheduler.TICKS_PER_MS) → submissions q evs ≤ 5))
    ∧ (∀ (w : World φ) (acts : List (Int × WorldAction φ)),
        w.sched.scheduler_thread = SchedulerThread.joined →
        (w.exec acts).1.sched.scheduler_thread = SchedulerThread.joined
        ∧ ∀ (t : Int) (x : Scheduler.Item φ),
            (t, WorldEvent.sched (SchedEvent.popped x)) ∉ (w.exec acts).2
            ∧ (t, WorldEvent.sched (SchedEvent.submitted x)) ∉ (w.exec acts).2
            ∧ (t, WorldEvent.sched (SchedEvent.rescheduled x)) ∉ (w.exec acts).2
            ∧ (t, WorldEvent.sched (SchedEvent.reinserted x)) ∉ (w.exec acts).2) := by
  constructor
  · intro threadCnt maxQueue start t0 i f pre rest w1 q evs hm hlen hri hr0 hrr hq hw1 hevs
    have hseq := exec_seq pre (World.new threadCnt maxQueue : World φ) 0
      (by rw [List.length_append] at hlen; omega) (Nat.le_refl _)
      (by simp [World.new, Scheduler.new, Scheduler.held, Scheduler.in_flight])
    rw [List.length_append, List.length_cons] at hlen
    have hk : ((World.new threadCnt maxQueue : World φ).exec pre).1.sched.seq + 1
        < Scheduler.SIZE_MOD := by
      have := hseq.1
      omega
    have hP := Scheduler.Periodic.post_every
      ((World.new threadCnt maxQueue : World φ).exec pre).1.sched t0 i f hseq.2 hk hri hr0
    rw [← hq] at hP
    have hs1 : w1.sched
        = (((World.new threadCnt maxQueue : World φ).exec pre).1.sched.post_every t0 i f).1 := by
      rw [hw1]
      rfl
    rw [← hs1] at hP
    have hmono : monotone t0 rest := monotone_append start pre rest _ hm
    have hk2 : w1.sched.seq + rest.length < Scheduler.SIZE_MOD := by
      have hmod : (((World.new threadCnt maxQueue : World φ).exec pre).1.sched.seq + 1)
          % Scheduler.SIZE_MOD
          = ((World.new threadCnt maxQueue : World φ).exec pre).1.sched.seq + 1 :=
        Nat.mod_eq_of_lt hk
      have : w1.sched.seq
          = ((World.new threadCnt maxQueue : World φ).exec pre).1.sched.seq + 1 := by
        rw [hs1]
        simp only [Scheduler.post_every, Scheduler.add_task, hmod]
      have := hseq.1
      omega
    have hE := exec_periodic q f (Int.tdiv i Scheduler.TICKS_PER_MS) (t0 + i) rest w1 0 t0 hP
      hmono hk2 hrr
    rw [← hevs] at hE
    have hb : ∀ evs1 t e evs2, evs = evs1 ++ (t, e) :: evs2 → is_submission q e = true →
        t0 + i + (submissions q evs1 : Nat)
            * (Int.tdiv i Scheduler.TICKS_PER_MS * Scheduler.TICKS_PER_MS) ≤ t
        ∧ ∃ y, e = WorldEvent.sched (SchedEvent.submitted y) ∧ y.seq = q ∧ y.func = f
            ∧ y.interval = Int.tdiv i Scheduler.TICKS_PER_MS := by
      intro evs1 t e evs2 heq hsub
      have := hE.1 evs1 t e evs2 heq hsub
      rw [Nat.zero_add] at this
      exact this
    have hc : ∀ T : Int, 0 ≤ T → (∀ a ∈ rest, a.1 ≤ t0 + T) → ∀ k : Nat,
        submissions q evs = k + 1 →
        i + (k : Nat) * (Int.tdiv i Scheduler.TICKS_PER_MS * Scheduler.TICKS_PER_MS) ≤ T := by
      intro T hT hU k hsub
      obtain ⟨last, hl, hbound⟩ := hE.2
      have h1 := hl.reached k (by rw [Nat.zero_add]; exact hsub)
      have h2 := hbound (t0 + T) (by omega) hU
      unfold Scheduler.due at h1
      omega
    refine ⟨?_, hb, hc, ?_, ?_⟩
    · rw [hq, ← Scheduler.plus_eq t0 i hr0, ← Scheduler.to_ms_eq i hri]
      rfl
    · intro hi hw
      have hM := (Scheduler.tdiv_whole i hi hw).2
      constructor
      · intro evs1 t e evs2 heq hsub
        have h1 := (hb evs1 t e evs2 heq hsub).1
        rw [hM] at h1
        have : t0 + ((submissions q evs1 : Nat) + 1) * i
            = t0 + i + (submissions q evs1 : Nat) * i := by ring
        rw [this]
        exact h1
      · intro T hT hU
        cases hn : submissions q evs with
        | zero =>
          simp only [Nat.cast_zero]
          exact Int.ediv_nonneg hT (le_of_lt hi)
        | succ k =>
          have h1 := hc T hT hU k hn
          rw [hM] at h1
          apply Int.le_ediv_of_mul_le hi
          have : ((k + 1 : Nat) : Int) * i = i + (k : Nat) * i := by
            push_cast
            ring
          rw [this]
          exact h1
    · intro hi hU
      have hpos : 0 < i := by rw [hi]; decide
      have hw : i % Scheduler.TICKS_PER_MS = 0 := by rw [hi]; decide
      have hM := (Scheduler.tdiv_whole i hpos hw).2
      cases hn : submissions q evs with
      | zero => omega
      | succ k =>
        have h1 := hc (550 * Scheduler.TICKS_PER_MS) (by decide) hU k hn
        rw [hM, hi] at h1
        unfold Scheduler.TICKS_PER_MS at h1
        omega
  · intro w acts hth
    have h := exec_joined acts w hth
    refine ⟨h.1, ?_⟩
    intro t x
    refine ⟨?_, ?_, ?_, ?_⟩ <;>
    · intro hmem
      rcases h.2 t _ hmem with ⟨y, hy⟩ | hy | hy | hy <;> simp at hy

end World

namespace World

/-- The amended C26 on a run: `post_every` of 1 ms at reading 0, then the moves
of `steady_period`. The item is submitted twice, and the second submission,
which follows one earlier submission, is made at reading 2000120, not before
0 + 2 * 1000000. -/
theorem periodic_firing_bound_witness :
    submissions 0
        (((World.new 1 4 : World Nat).step 0 (WorldAction.post_every 1000000 1)).1.exec
          steady_period).2 = 2
    ∧ (0 : Int)
        + ((submissions 0
            [(1000000, WorldEvent.sched
                (SchedEvent.popped { when := 1000000, func := 1, interval := 1, seq := 0 })),
              (1000020, WorldEvent.sched
                (SchedEvent.submitted { when := 1000000, func := 1, interval := 1, seq := 0 })),
              (1000100, WorldEvent.sched
                (SchedEvent.rescheduled { when := 2000100, func := 1, interval := 1, seq := 0 })),
              (1000110, WorldEvent.sched
                (SchedEvent.reinserted { when := 2000100, func := 1, interval := 1, seq := 0 })),
              (2000100, WorldEvent.sched
                (SchedEvent.popped { when := 2000100, func := 1, interval := 1, seq := 0 }))]
            : Nat) + 1) * 1000000 ≤ 2000120 :=
  ⟨by decide,
    ((periodic_firing_bound.1 1 4 0 0 1000000 1 [] steady_period
        ((World.new 1 4 : World Nat).step 0 (WorldAction.post_every 1000000 1)).1 0
        (((World.new 1 4 : World Nat).step 0 (WorldAction.post_every 1000000 1)).1.exec
          steady_period).2
        (by decide) (by decide) (by decide) (by decide) (by decide) rfl rfl rfl).2.2.2.1
          (by decide) (by decide)).1
      _ 2000120
      (WorldEvent.sched
        (SchedEvent.submitted { when := 2000100, func := 1, interval := 1, seq := 0 }))
      [] (by decide) (by decide)⟩

end World
